import Mathlib

/-!
# A shallow embedding of the vsfs storage engine (`src/A4/vsfs.c`)

The engine works on one memory-mapped disk image.  The C code reaches the
superblock, the two bitmaps and the inode table through typed pointers kept in
`fs_ctx`, and the data blocks through `fs->image + VSFS_BLOCK_SIZE * blk`.
The embedding keeps the same split:

* `fs_ctx.image` is the mapped image as a map from byte offset to byte value;
  a directory entry or an indirect pointer is decoded from those bytes
  (little endian, as on the machines the driver runs on);
* `fs_ctx.sb`, `fs_ctx.ibmap`, `fs_ctx.dbmap`, `fs_ctx.itable` are the typed
  views.  The embedding does not alias them with the low blocks of `image`.

C integers are natural numbers (or `Int` for `int` results); where the C
arithmetic can wrap, the wrap is written out with `%`.  A path is the list of
the bytes of the C string before its terminating NUL.  A reading of the clock
is a parameter `now` of the operation that reads it.  A local index variable
that the C code leaves uninitialised when it ignores a failed `bitmap_alloc`
is read as the parameter `u`.  Sizes and offsets of type `off_t` are taken
non-negative.

The inode table `fs_ctx.itable` is a map on all indices, of which the slots
`0 ≤ k < sb_num_inodes` are the table of the image.  `vsfs_read` and
`vsfs_write` index it with the result of path resolution without a test; the
statements about them are made for paths that resolve.  `vsfs_utimens`, whose
behaviour on a path that does not resolve is examined, tests the index against
the table and ends with a `fault` outside it.

The repository holds two more exercises, which share no state with the engine.
Of the thread library (`src/A2/thread.c`) the file embeds `thread_kill` and
the ready queue, of the paging simulator (`src/A3/clock.c`) the function
`clock_evict`.  There a pointer is an address, with 0 for `NULL`; the nodes
that are allocated form a partial map from addresses; an access outside an
object ends the run with no result; a loop whose termination depends on the
data takes fuel.  Constants of headers that are not among the sources
(`THREAD_MAX_THREADS`, `THREAD_INVALID`, `THREAD_NONE`, `memsize`) are
parameters.
-/

namespace Vsfs

set_option maxRecDepth 100000
set_option autoImplicit false

/-! ## Constants of `vsfs.h` and `errno.h` -/

/-- Modelled from the spec: `vsfs.h` is not among the sources; the block size
is the 4096 bytes of the spec's concrete scenario. -/
abbrev VSFS_BLOCK_SIZE : Nat := 4096

/-- Modelled from the spec: number of direct block pointers of an inode. -/
abbrev VSFS_NUM_DIRECT : Nat := 5

/-- Modelled from the spec: inode number reserved for the root directory. -/
abbrev VSFS_ROOT_INO : Nat := 0

/-- Modelled from the spec: the inode number that marks a free directory
entry; `vsfs.h` is not among the sources, the value is the largest `uint32_t`,
which `path_lookup` returns as a negative `int`. -/
abbrev VSFS_INO_MAX : Nat := 4294967295

/-- Modelled from the spec: the block number that marks an unassigned block
pointer; block 0 holds the superblock and is never a data block. -/
abbrev VSFS_BLK_UNASSIGNED : Nat := 0

/-- Modelled from the spec: size of the name field of a directory entry,
terminating NUL included (`vsfs.h` is not among the sources). -/
abbrev VSFS_NAME_MAX : Nat := 252

/-- Modelled from the spec: maximum path length (`_POSIX_PATH_MAX`). -/
abbrev VSFS_PATH_MAX : Nat := 256

/-- Modelled from the spec: `sizeof(vsfs_dentry)`, a 4-byte inode number
followed by the name field. -/
abbrev DENTRY_SIZE : Nat := 4 + VSFS_NAME_MAX

/-- Number of directory entries in one block (`dentry_per_blk`). -/
abbrev dentry_per_blk : Nat := VSFS_BLOCK_SIZE / DENTRY_SIZE

abbrev ENOENT : Int := 2
abbrev ENOMEM : Int := 12
abbrev EFBIG : Int := 27
abbrev ENOSPC : Int := 28
abbrev ENAMETOOLONG : Int := 36
abbrev ENOSYS : Int := 38

/-- The largest file size `vsfs_truncate` accepts, `VSFS_BLOCK_SIZE * 1029`. -/
abbrev MAX_FILE_SIZE : Nat := VSFS_BLOCK_SIZE * 1029

/-! ## Machine arithmetic -/

/-- The C `--` on a `uint32_t`: 0 wraps to the largest value. -/
def dec32 (x : Nat) : Nat := if x = 0 then 4294967295 else x - 1

/-- The C `++` on a `uint32_t`. -/
def inc32 (x : Nat) : Nat := (x + 1) % 4294967296

/-- Subtraction of two `uint64_t`: the difference wraps modulo `2^64` when
`y` exceeds `x`. -/
def sub64 (x y : Nat) : Nat := if y ≤ x then x - y else 18446744073709551616 - (y - x)

/-- Conversion of a `uint32_t` to `int`. -/
def toInt32 (x : Nat) : Int := if x < 2147483648 then (x : Int) else (x : Int) - 4294967296

/-- Modelled from the spec: `div_round_up` of `util.h` (not among the
sources), the `ceil(size / block_size)` of the spec. -/
def div_round_up (x y : Nat) : Nat := (x + y - 1) / y

/-! ## Data model -/

/-- The counters of `vsfs_superblock` that the driver uses. -/
structure vsfs_superblock where
  sb_num_inodes : Nat
  sb_free_inodes : Nat
  sb_num_blocks : Nat
  sb_free_blocks : Nat

/-- An inode (`vsfs_inode`); `i_direct` is read at indices below
`VSFS_NUM_DIRECT` only. -/
structure vsfs_inode where
  i_mode : Nat
  i_nlink : Nat
  i_blocks : Nat
  i_size : Nat
  i_mtime : Nat
  i_direct : Nat → Nat
  i_indirect : Nat

/-- The inode slot after `memset(inode, 0, sizeof(vsfs_inode))`. -/
def zero_inode : vsfs_inode :=
  { i_mode := 0, i_nlink := 0, i_blocks := 0, i_size := 0, i_mtime := 0,
    i_direct := fun _ => 0, i_indirect := 0 }

/-- The file system context (`fs_ctx`): the mapped image and the typed views
of its metadata.  The inode table is indexed by an `int`, as the C code
indexes it with the result of `path_lookup`. -/
structure fs_ctx where
  image : Nat → Nat
  sb : vsfs_superblock
  ibmap : Nat → Bool
  dbmap : Nat → Bool
  itable : Int → vsfs_inode

/-- Pointwise update of a map. -/
def upd {α β : Type} [DecidableEq α] (f : α → β) (a : α) (v : β) : α → β :=
  fun x => if x = a then v else f x

/-! ## Bytes of the image -/

/-- The C `memset(image + a, v, len)`. -/
def memset (img : Nat → Nat) (a v len : Nat) : Nat → Nat :=
  fun x => if a ≤ x ∧ x < a + len then v else img x

/-- The C `memcpy(image + a, buf, len)`. -/
def memcpy_to (img : Nat → Nat) (a : Nat) (buf : List Nat) (len : Nat) : Nat → Nat :=
  fun x => if a ≤ x ∧ x < a + len then buf.getD (x - a) 0 else img x

/-- The bytes that `memcpy(buf, image + a, len)` copies out. -/
def memcpy_from (img : Nat → Nat) (a len : Nat) : List Nat :=
  (List.range len).map (fun k => img (a + k))

/-- The C `strncpy(image + a, src, n)`: the bytes of `src`, then NULs, `n`
bytes in all. -/
def strncpy (img : Nat → Nat) (a : Nat) (src : List Nat) (n : Nat) : Nat → Nat :=
  fun x => if a ≤ x ∧ x < a + n then src.getD (x - a) 0 else img x

/-- The test `strcmp(image + a, name) == 0`. -/
def strcmp_eq (img : Nat → Nat) : Nat → List Nat → Bool
  | a, [] => img a % 256 == 0
  | a, c :: cs => img a % 256 == c && strcmp_eq img (a + 1) cs

/-- A `uint32_t` read from the image at byte offset `a`. -/
def read32 (img : Nat → Nat) (a : Nat) : Nat :=
  img a % 256 + 256 * (img (a + 1) % 256) + 65536 * (img (a + 2) % 256)
    + 16777216 * (img (a + 3) % 256)

/-- A `uint32_t` stored to the image at byte offset `a`. -/
def write32 (img : Nat → Nat) (a v : Nat) : Nat → Nat :=
  fun x =>
    if x = a then v % 256
    else if x = a + 1 then v / 256 % 256
    else if x = a + 2 then v / 65536 % 256
    else if x = a + 3 then v / 16777216 % 256
    else img x

/-! ## Bitmaps (`bitmap.h`) -/

/-- Modelled from the spec: `bitmap.c` is not among the sources.  The spec's
`allocate()` "finds the lowest-numbered clear bit, marking it pending; caller
must confirm by setting it, or the slot remains free", and fails when no bit
is clear.  This is the index it returns for the first `nbits` bits of `bm`;
the pending mark is `alloc_pending`. -/
def bitmap_alloc (bm : Nat → Bool) (nbits : Nat) : Option Nat :=
  (List.range nbits).find? (fun i => !bm i)

/-- Modelled from the spec: the bitmap as the allocator sees it after an
`allocate()` that the caller has not confirmed yet: the bit that was found is
marked pending, so that the next `allocate()` does not return it.  Where the
C code calls `bitmap_set` on the index right after `bitmap_alloc`, the mark
and the confirmation are the same bit and only the `bitmap_set` is written
out. -/
def alloc_pending (bm : Nat → Bool) (nbits : Nat) : Nat → Bool :=
  match bitmap_alloc bm nbits with
  | some p => upd bm p true
  | none => bm

/-- Modelled from the spec: `bitmap_set` of `bitmap.c`, which gives bit
`index` the value `value`. -/
def bitmap_set (bm : Nat → Bool) (_nbits index : Nat) (value : Bool) : Nat → Bool :=
  upd bm index value

/-- Modelled from the spec: `bitmap_free` of `bitmap.c`, the spec's
`free(index)`, which clears the bit unconditionally. -/
def bitmap_free (bm : Nat → Bool) (_nbits index : Nat) : Nat → Bool :=
  upd bm index false

/-- The index variable after `bitmap_alloc(bm, nbits, &idx)` whose result the
caller does not test: the index found, or the uninitialised value `u`. -/
def alloc_idx (u : Nat) (bm : Nat → Bool) (nbits : Nat) : Nat :=
  (bitmap_alloc bm nbits).getD u

/-- Number of clear bits among the first `n` bits of a bitmap. -/
def zero_bits (bm : Nat → Bool) (n : Nat) : Nat :=
  ((List.range n).filter (fun i => !bm i)).length

/-! ## Block addressing and directory entries -/

/-- Byte offset in the image of block `blk`. -/
def blk_addr (blk : Nat) : Nat := VSFS_BLOCK_SIZE * blk

/-- The physical block of logical block `i` of an inode: `i_direct[i]` below
`VSFS_NUM_DIRECT`, else entry `i - VSFS_NUM_DIRECT` of the indirect block. -/
def blk_of (img : Nat → Nat) (inode : vsfs_inode) (i : Nat) : Nat :=
  if i < VSFS_NUM_DIRECT then inode.i_direct i
  else read32 img (blk_addr inode.i_indirect + 4 * (i - VSFS_NUM_DIRECT))

/-- Byte offset of `dt[j]` in directory block `blk`. -/
def dentry_addr (blk j : Nat) : Nat := blk_addr blk + DENTRY_SIZE * j

/-- Scan of one directory block by `path_lookup`: the first entry whose
name compares equal to `name`. -/
def lookup_in_block (img : Nat → Nat) (blk : Nat) (name : List Nat) : Option Nat :=
  ((List.range dentry_per_blk).find? (fun j => strcmp_eq img (dentry_addr blk j + 4) name)).map
    (dentry_addr blk)

/-- The function `path_lookup`: the `int` it returns and the directory entry
it stores in `*dirt` (the byte offset of the entry), if it stores one. -/
def path_lookup (s : fs_ctx) (path : List Nat) : Int × Option Nat :=
  match path with
  | [] => (-ENOSYS, none)
  | c :: name =>
    if c ≠ 47 then (-ENOSYS, none)
    else if name = [] then (0, none)
    else
      let root_inode := s.itable VSFS_ROOT_INO
      match (List.range root_inode.i_blocks).findSome?
          (fun i => lookup_in_block s.image (blk_of s.image root_inode i) name) with
      | some d => (toInt32 (read32 s.image d), some d)
      | none => (-ENOSYS, none)

/-! ## Statistics and attributes -/

/-- The fields of `struct stat` that `vsfs_getattr` fills. -/
structure stat where
  st_mode : Nat
  st_nlink : Nat
  st_size : Nat
  st_blocks : Nat
  st_mtim : Nat

/-- The `struct stat` after `memset(st, 0, sizeof(*st))`. -/
def zero_stat : stat :=
  { st_mode := 0, st_nlink := 0, st_size := 0, st_blocks := 0, st_mtim := 0 }

/-- The function `vsfs_getattr`. -/
def vsfs_getattr (s : fs_ctx) (path : List Nat) : Int × stat :=
  if path.length ≥ VSFS_PATH_MAX then (-ENAMETOOLONG, zero_stat)
  else
    let inode_num := (path_lookup s path).1
    if inode_num < 0 then (-ENOENT, zero_stat)
    else
      let inode := s.itable inode_num
      let st_blocks := inode.i_blocks * VSFS_BLOCK_SIZE % 4294967296 / 512
      (0, { st_mode := inode.i_mode, st_nlink := inode.i_nlink, st_size := inode.i_size,
            st_blocks := if inode.i_blocks > VSFS_NUM_DIRECT
                         then st_blocks + VSFS_BLOCK_SIZE / 512 else st_blocks,
            st_mtim := inode.i_mtime })

/-! ## Creating a file -/

/-- Scan of one directory block by `create_dentry_for_newfile`: the first
entry whose inode number is `VSFS_INO_MAX`. -/
def free_slot_in_block (img : Nat → Nat) (blk : Nat) : Option Nat :=
  ((List.range dentry_per_blk).find? (fun j => read32 img (dentry_addr blk j) == VSFS_INO_MAX)).map
    (dentry_addr blk)

/-- The statements `dt[j].ino = inode_idx; strncpy(dt[j].name, path + 1,
VSFS_NAME_MAX)` for the entry at byte offset `d`. -/
def fill_dentry (img : Nat → Nat) (d inode_idx : Nat) (path : List Nat) : Nat → Nat :=
  strncpy (write32 img d inode_idx) (d + 4) path.tail VSFS_NAME_MAX

/-- The loop `for (i = 1; i < dentry_per_blk; i++) dt[i].ino = VSFS_INO_MAX`
on directory block `blk`. -/
def mark_rest_free (img : Nat → Nat) (blk : Nat) : Nat → Nat :=
  (List.range' 1 (dentry_per_blk - 1)).foldl
    (fun im i => write32 im (dentry_addr blk i) VSFS_INO_MAX) img

/-- The function `create_dentry_for_newfile`. -/
def create_dentry_for_newfile (u : Nat) (s : fs_ctx) (inode_idx : Nat) (path : List Nat) :
    Int × fs_ctx :=
  let root := s.itable VSFS_ROOT_INO
  match (List.range root.i_blocks).findSome?
      (fun i => free_slot_in_block s.image (blk_of s.image root i)) with
  | some d => (0, { s with image := fill_dentry s.image d inode_idx path })
  | none =>
    if root.i_blocks < VSFS_NUM_DIRECT then
      let dt_idx := alloc_idx u s.dbmap s.sb.sb_num_blocks
      let dbmap := bitmap_set s.dbmap s.sb.sb_num_blocks dt_idx true
      let img := memset s.image (blk_addr dt_idx) 0 VSFS_BLOCK_SIZE
      let img := fill_dentry img (dentry_addr dt_idx 0) inode_idx path
      let img := mark_rest_free img dt_idx
      let root1 := { root with i_direct := upd root.i_direct root.i_blocks dt_idx,
                               i_blocks := inc32 root.i_blocks,
                               i_size := (root.i_size + VSFS_BLOCK_SIZE) % 18446744073709551616 }
      (0, { s with image := img, dbmap := dbmap,
                   itable := upd s.itable VSFS_ROOT_INO root1,
                   sb := { s.sb with sb_free_blocks := dec32 s.sb.sb_free_blocks } })
    else if root.i_blocks = VSFS_NUM_DIRECT then
      let ptr_dt_idx := alloc_idx u s.dbmap s.sb.sb_num_blocks
      match bitmap_alloc (alloc_pending s.dbmap s.sb.sb_num_blocks) s.sb.sb_num_blocks with
      | none => (-ENOSPC, s)
      | some dt_idx =>
        let dbmap := bitmap_set s.dbmap s.sb.sb_num_blocks ptr_dt_idx true
        let dbmap := bitmap_set dbmap s.sb.sb_num_blocks dt_idx true
        let img := memset s.image (blk_addr ptr_dt_idx) 0 VSFS_BLOCK_SIZE
        let img := memset img (blk_addr dt_idx) 0 VSFS_BLOCK_SIZE
        let img := write32 img (blk_addr ptr_dt_idx) dt_idx
        let img := fill_dentry img (dentry_addr dt_idx 0) inode_idx path
        let img := mark_rest_free img dt_idx
        let root1 := { root with i_indirect := ptr_dt_idx,
                                 i_blocks := inc32 root.i_blocks,
                                 i_size := (root.i_size + VSFS_BLOCK_SIZE) % 18446744073709551616 }
        (0, { s with image := img, dbmap := dbmap,
                     itable := upd s.itable VSFS_ROOT_INO root1,
                     sb := { s.sb with sb_free_blocks := dec32 (dec32 s.sb.sb_free_blocks) } })
    else if root.i_blocks < 1029 then
      let dt_idx := alloc_idx u s.dbmap s.sb.sb_num_blocks
      let dbmap := bitmap_set s.dbmap s.sb.sb_num_blocks dt_idx true
      let img := write32 s.image
        (blk_addr root.i_indirect + 4 * (root.i_blocks - VSFS_NUM_DIRECT)) dt_idx
      let img := fill_dentry img (dentry_addr dt_idx 0) inode_idx path
      let img := mark_rest_free img dt_idx
      let root1 := { root with i_blocks := inc32 root.i_blocks,
                               i_size := (root.i_size + VSFS_BLOCK_SIZE) % 18446744073709551616 }
      (0, { s with image := img, dbmap := dbmap,
                   itable := upd s.itable VSFS_ROOT_INO root1,
                   sb := { s.sb with sb_free_blocks := dec32 s.sb.sb_free_blocks } })
    else (-ENOSPC, s)

/-- The function `vsfs_create`; `mode` is the `mode_t` argument. -/
def vsfs_create (u now : Nat) (s : fs_ctx) (path : List Nat) (mode : Nat) : Int × fs_ctx :=
  if s.sb.sb_free_inodes = 0 then (-ENOSPC, s)
  else if s.sb.sb_free_blocks = 0 then (-ENOSPC, s)
  else
    let inode_idx := alloc_idx u s.ibmap s.sb.sb_num_blocks
    let n_inode := { zero_inode with i_mode := mode, i_nlink := 1, i_blocks := 0, i_size := 0,
                                     i_mtime := now }
    let s1 := { s with ibmap := bitmap_set s.ibmap s.sb.sb_num_blocks inode_idx true,
                       sb := { s.sb with sb_free_inodes := dec32 s.sb.sb_free_inodes },
                       itable := upd s.itable (inode_idx : Int) n_inode }
    let r := create_dentry_for_newfile u s1 inode_idx path
    if r.1 ≠ 0 then r
    else
      (0, { r.2 with itable := upd r.2.itable VSFS_ROOT_INO
                                 { r.2.itable VSFS_ROOT_INO with i_mtime := now } })

/-! ## Removing a file -/

/-- One iteration of the loop of `vsfs_unlink` that frees the data blocks of
inode `ino`. -/
def unlink_step (ino : Int) (s : fs_ctx) (i : Nat) : fs_ctx :=
  { s with dbmap := bitmap_free s.dbmap s.sb.sb_num_blocks (blk_of s.image (s.itable ino) i),
           sb := { s.sb with sb_free_blocks := inc32 s.sb.sb_free_blocks } }

/-- The statements of `vsfs_unlink` that free the blocks of inode `ino`: the
loop over its data blocks, then the indirect pointer block if the block count
exceeds `VSFS_NUM_DIRECT`. -/
def unlink_blocks (s1 : fs_ctx) (ino : Int) : fs_ctx :=
  let inode := s1.itable ino
  let s2 := (List.range' 0 inode.i_blocks).foldl (unlink_step ino) s1
  if inode.i_blocks > VSFS_NUM_DIRECT then
    { s2 with dbmap := bitmap_free s2.dbmap s2.sb.sb_num_blocks inode.i_indirect,
              sb := { s2.sb with sb_free_blocks := inc32 s2.sb.sb_free_blocks } }
  else s2

/-- The function `vsfs_unlink`. -/
def vsfs_unlink (u now : Nat) (s : fs_ctx) (path : List Nat) : Int × fs_ctx :=
  let r := path_lookup s path
  let inode_num := r.1
  if inode_num < 0 then (-ENOENT, s)
  else
    let dt := r.2.getD u
    let img := write32 s.image dt VSFS_INO_MAX
    let img := memset img (dt + 4) 0 VSFS_NAME_MAX
    let s3 := unlink_blocks { s with image := img } inode_num
    let s4 := { s3 with itable := upd s3.itable inode_num zero_inode,
                        ibmap := bitmap_free s3.ibmap s3.sb.sb_num_blocks inode_num.toNat,
                        sb := { s3.sb with sb_free_inodes := inc32 s3.sb.sb_free_inodes } }
    (0, { s4 with itable := upd s4.itable VSFS_ROOT_INO
                              { s4.itable VSFS_ROOT_INO with i_mtime := now } })

/-! ## Changing the size of a file -/

/-- The statements that allocate one data block in `extending_file`:
`bitmap_alloc`, `bitmap_set`, the decrement of the free count and the
`memset` of the block; the result carries the block number. -/
def alloc_zeroed_block (u : Nat) (s : fs_ctx) : Nat × fs_ctx :=
  let idx := alloc_idx u s.dbmap s.sb.sb_num_blocks
  (idx, { s with dbmap := bitmap_set s.dbmap s.sb.sb_num_blocks idx true,
                 sb := { s.sb with sb_free_blocks := dec32 s.sb.sb_free_blocks },
                 image := memset s.image (blk_addr idx) 0 VSFS_BLOCK_SIZE })

/-- The `memset` of `extending_file` and `shrinking_file` that clears block
`blk` after the byte at in-block position `last`. -/
def zero_tail (img : Nat → Nat) (blk last : Nat) : Nat → Nat :=
  memset img (blk_addr blk + last + 1) 0 (VSFS_BLOCK_SIZE - last - 1)

/-- One iteration of the loop of `extending_file` on inode `ino`; the loop
state is the context and `indirect_ptr_flag`. -/
def extend_step (u : Nat) (ino : Int) (cur_blks f_size : Nat) (st : fs_ctx × Bool) (i : Nat) :
    fs_ctx × Bool :=
  let s := st.1
  if i < VSFS_NUM_DIRECT then
    if i < cur_blks then
      let last := sub64 f_size 1 % VSFS_BLOCK_SIZE
      ({ s with image := zero_tail s.image ((s.itable ino).i_direct i) last }, st.2)
    else
      let r := alloc_zeroed_block u s
      let inode := r.2.itable ino
      ({ r.2 with itable := upd r.2.itable ino { inode with i_direct := upd inode.i_direct i r.1 } },
       st.2)
  else
    let s1 :=
      if st.2 = false then
        let ptr_dt_idx := alloc_idx u s.dbmap s.sb.sb_num_blocks
        { s with dbmap := bitmap_set s.dbmap s.sb.sb_num_blocks ptr_dt_idx true,
                 itable := upd s.itable ino { s.itable ino with i_indirect := ptr_dt_idx },
                 sb := { s.sb with sb_free_blocks := dec32 s.sb.sb_free_blocks } }
      else s
    let slot := blk_addr (s1.itable ino).i_indirect + 4 * (i - VSFS_NUM_DIRECT)
    if i < cur_blks then
      let last := sub64 f_size 1 % VSFS_BLOCK_SIZE
      ({ s1 with image := zero_tail s1.image (read32 s1.image slot) last }, true)
    else
      let idx := alloc_idx u s1.dbmap s1.sb.sb_num_blocks
      ({ s1 with dbmap := bitmap_set s1.dbmap s1.sb.sb_num_blocks idx true,
                 sb := { s1.sb with sb_free_blocks := dec32 s1.sb.sb_free_blocks },
                 image := memset (write32 s1.image slot idx) (blk_addr idx) 0 VSFS_BLOCK_SIZE },
       true)

/-- The branch `if (inode->i_size == 0)` of `extending_file`, which gives an
empty file its first block: the context and the value of `cur_blks`
afterwards. -/
def extend_first (u : Nat) (s : fs_ctx) (ino : Int) : fs_ctx × Nat :=
  if (s.itable ino).i_size = 0 then
    let r := alloc_zeroed_block u s
    let inode1 := r.2.itable ino
    ({ r.2 with itable := upd r.2.itable ino { inode1 with i_direct := upd inode1.i_direct 0 r.1 } },
     div_round_up (s.itable ino).i_size VSFS_BLOCK_SIZE + 1)
  else (s, (s.itable ino).i_blocks)

/-- The loop `for (i = cur_blks - 1; i < new_blks; i++)` of `extending_file`,
started with `indirect_ptr_flag = (inode->i_blocks > 5)`. -/
def extend_loop (u : Nat) (ino : Int) (s1 : fs_ctx) (cur_blks new_blks : Nat) : fs_ctx × Bool :=
  (List.range' (sub64 cur_blks 1) (new_blks - sub64 cur_blks 1)).foldl
    (extend_step u ino cur_blks (s1.itable ino).i_size)
    (s1, decide ((s1.itable ino).i_blocks > 5))

/-- The last statements of `extending_file` and `shrinking_file`, which store
the new block count, the new size and the time. -/
def set_size_fields (now : Nat) (s : fs_ctx) (ino : Int) (new_blks size : Nat) : fs_ctx :=
  { s with itable := upd s.itable ino
             { s.itable ino with i_blocks := new_blks % 4294967296, i_size := size,
                                 i_mtime := now } }

/-- The function `extending_file` on the inode `itable[ino]`. -/
def extending_file (u now : Nat) (s : fs_ctx) (size : Nat) (ino : Int) : Int × fs_ctx :=
  let new_blks := div_round_up size VSFS_BLOCK_SIZE
  let cur_blks := (s.itable ino).i_blocks
  if sub64 new_blks cur_blks > s.sb.sb_free_blocks then (-ENOSPC, s)
  else if cur_blks ≤ VSFS_NUM_DIRECT ∧ new_blks > VSFS_NUM_DIRECT
      ∧ (sub64 new_blks cur_blks + 1) % 18446744073709551616 > s.sb.sb_free_blocks then (-ENOSPC, s)
  else
    (0, set_size_fields now
          (extend_loop u ino (extend_first u s ino).1 (extend_first u s ino).2 new_blks).1
          ino new_blks size)

/-- The statements of `shrinking_file` that release logical block `i` of inode
`ino`: the block is cleared and freed, the free count incremented and the
pointer set to `VSFS_BLK_UNASSIGNED`. -/
def release_block (ino : Int) (s : fs_ctx) (i : Nat) : fs_ctx :=
  let inode := s.itable ino
  if i < VSFS_NUM_DIRECT then
    { s with image := memset s.image (blk_addr (inode.i_direct i)) 0 VSFS_BLOCK_SIZE,
             dbmap := bitmap_free s.dbmap s.sb.sb_num_blocks (inode.i_direct i),
             sb := { s.sb with sb_free_blocks := inc32 s.sb.sb_free_blocks },
             itable := upd s.itable ino
               { inode with i_direct := upd inode.i_direct i VSFS_BLK_UNASSIGNED } }
  else
    let slot := blk_addr inode.i_indirect + 4 * (i - VSFS_NUM_DIRECT)
    let blk := read32 s.image slot
    let img := memset s.image (blk_addr blk) 0 VSFS_BLOCK_SIZE
    { s with dbmap := bitmap_free s.dbmap s.sb.sb_num_blocks (read32 img slot),
             sb := { s.sb with sb_free_blocks := inc32 s.sb.sb_free_blocks },
             image := write32 img slot VSFS_BLK_UNASSIGNED }

/-- One iteration of the second loop of `shrinking_file` (`new_blks != 0`). -/
def shrink_step (ino : Int) (new_blks size : Nat) (s : fs_ctx) (i : Nat) : fs_ctx :=
  if i < new_blks then
    let last := (size - 1) % VSFS_BLOCK_SIZE
    { s with image := zero_tail s.image (blk_of s.image (s.itable ino) i) last }
  else release_block ino s i

/-- The two loops of `shrinking_file`: all blocks are released when
`new_blks == 0`; otherwise the loop starts at the new last block. -/
def shrink_loop (ino : Int) (s : fs_ctx) (size : Nat) : fs_ctx :=
  let new_blks := div_round_up size VSFS_BLOCK_SIZE
  let cur_blks := (s.itable ino).i_blocks
  if new_blks = 0 then (List.range' 0 cur_blks).foldl (release_block ino) s
  else (List.range' (new_blks - 1) (cur_blks - (new_blks - 1))).foldl
         (shrink_step ino new_blks size) s

/-- The statements of `shrinking_file` that free the indirect pointer block
(`if (new_blks <= 5 && cur_blks > 5)`). -/
def shrink_indirect (s1 : fs_ctx) (ino : Int) (new_blks cur_blks : Nat) : fs_ctx :=
  if new_blks ≤ 5 ∧ cur_blks > 5 then
    let ind := (s1.itable ino).i_indirect
    { s1 with image := memset s1.image (blk_addr ind) 0 VSFS_BLOCK_SIZE,
              dbmap := bitmap_free s1.dbmap s1.sb.sb_num_blocks ind,
              itable := upd s1.itable ino { s1.itable ino with i_indirect := VSFS_BLK_UNASSIGNED },
              sb := { s1.sb with sb_free_blocks := inc32 s1.sb.sb_free_blocks } }
  else s1

/-- The function `shrinking_file` on the inode `itable[ino]`. -/
def shrinking_file (now : Nat) (s : fs_ctx) (size : Nat) (ino : Int) : Int × fs_ctx :=
  let new_blks := div_round_up size VSFS_BLOCK_SIZE
  let cur_blks := (s.itable ino).i_blocks
  (0, set_size_fields now (shrink_indirect (shrink_loop ino s size) ino new_blks cur_blks)
        ino new_blks size)

/-- The function `vsfs_truncate`. -/
def vsfs_truncate (u now : Nat) (s : fs_ctx) (path : List Nat) (size : Nat) : Int × fs_ctx :=
  let inode_num := (path_lookup s path).1
  if inode_num < 0 then (-ENOENT, s)
  else
    let f_size := (s.itable inode_num).i_size
    if f_size = size then (0, s)
    else if size > MAX_FILE_SIZE then (-EFBIG, s)
    else if f_size > size then shrinking_file now s size inode_num
    else extending_file u now s size inode_num

/-! ## Reading and writing -/

/-- The function `vsfs_read`: the `int` it returns and the bytes it copies
into the caller's buffer. -/
def vsfs_read (s : fs_ctx) (path : List Nat) (size offset : Nat) : Int × List Nat :=
  let inode_num := (path_lookup s path).1
  let inode := s.itable inode_num
  if offset ≥ inode.i_size then (0, [])
  else if inode.i_size = 0 then (0, [])
  else
    let blk_idx := offset / VSFS_BLOCK_SIZE
    let blk_offt := offset % VSFS_BLOCK_SIZE
    let size1 :=
      if blk_idx + 1 = inode.i_blocks ∧ VSFS_BLOCK_SIZE - blk_offt < size
      then VSFS_BLOCK_SIZE - blk_offt else size
    let blk := blk_of s.image inode blk_idx
    (toInt32 (size1 % 4294967296), memcpy_from s.image (blk_addr blk + blk_offt) size1)

/-- The function `vsfs_write`; the `size` argument is the length of `buf`. -/
def vsfs_write (u now : Nat) (s : fs_ctx) (path : List Nat) (buf : List Nat) (offset : Nat) :
    Int × fs_ctx :=
  let size := buf.length
  let inode_num := (path_lookup s path).1
  let r : Int × fs_ctx :=
    if size + offset > (s.itable inode_num).i_size then vsfs_truncate u now s path (size + offset)
    else (0, s)
  if r.1 < 0 then r
  else
    let s1 := { r.2 with itable := upd r.2.itable inode_num { r.2.itable inode_num with i_mtime := now } }
    let blk_idx := offset / VSFS_BLOCK_SIZE
    let blk_offt := offset % VSFS_BLOCK_SIZE
    let blk := blk_of s1.image (s1.itable inode_num) blk_idx
    (toInt32 (size % 4294967296),
     { s1 with image := memcpy_to s1.image (blk_addr blk + blk_offt) buf size })

/-! ## Predicates used in the statements -/

/-- The inode invariant of the data model: `block count == ceil(size /
block_size)`. -/
def blocks_ok (inode : vsfs_inode) : Prop :=
  inode.i_blocks = div_round_up inode.i_size VSFS_BLOCK_SIZE

instance (inode : vsfs_inode) : Decidable (blocks_ok inode) := by
  unfold blocks_ok
  exact inferInstance

/-! ## Concrete images used to instantiate the theorems -/

/-- A small image: 4 metadata blocks, an empty root directory, 64 inodes and
40 blocks. -/
def img_empty : fs_ctx :=
  { image := fun _ => 0,
    sb := { sb_num_inodes := 64, sb_free_inodes := 63, sb_num_blocks := 40, sb_free_blocks := 36 },
    ibmap := fun i => decide (i < 1),
    dbmap := fun i => decide (i < 4),
    itable := fun k => if k = 0 then { zero_inode with i_mode := 16877, i_nlink := 2 }
                       else zero_inode }

/-- The path `/foo`. -/
def path_foo : List Nat := [47, 102, 111, 111]

/-- The image `img_empty` after `create("/foo", 0100644)`. -/
def img_foo : fs_ctx := (vsfs_create 0 1 img_empty path_foo 33188).2

/-- The image `img_foo` after `truncate("/foo", 28000)`: the file has 7 data
blocks and an indirect pointer block. -/
def img_foo7 : fs_ctx := (vsfs_truncate 0 2 img_foo path_foo 28000).2

/-- The image `img_foo` after `write("/foo", [1, 2, 3, 4, 5], offset 0)`. -/
def img_foo5 : fs_ctx := (vsfs_write 0 2 img_foo path_foo [1, 2, 3, 4, 5] 0).2

/-- An image like `img_empty` with 2048 blocks, 2044 of them free. -/
def img_big : fs_ctx :=
  { img_empty with sb := { sb_num_inodes := 64, sb_free_inodes := 63, sb_num_blocks := 2048,
                           sb_free_blocks := 2044 } }

/-- The image `img_big` after `create("/foo", 0100644)`. -/
def img_big_foo : fs_ctx := (vsfs_create 0 1 img_big path_foo 33188).2

/-- The path `/x`. -/
def path_x : List Nat := [47, 120]

/-- Byte `a` of a directory region that starts at block 4 and is full: entry
number `e` (256 bytes each) holds inode number `e + 1` and the two-letter
name made of the letters number `e / 16` and `e % 16`. -/
def full_dir_byte (a : Nat) : Nat :=
  let e := (a - 4 * VSFS_BLOCK_SIZE) / DENTRY_SIZE
  let off := a % DENTRY_SIZE
  if off = 0 then e + 1
  else if off = 4 then 97 + e / 16
  else if off = 5 then 97 + e % 16
  else 0

/-- An image whose root directory has exactly 5 data blocks (blocks 4 to 8),
all 80 entries in use by the empty files with inode numbers 1 to 80; 128
inodes, 200 blocks, blocks 0 to 8 in use. -/
def img_full5 : fs_ctx :=
  { image := fun a => if 4 * VSFS_BLOCK_SIZE ≤ a ∧ a < 9 * VSFS_BLOCK_SIZE then full_dir_byte a else 0,
    sb := { sb_num_inodes := 128, sb_free_inodes := 47, sb_num_blocks := 200,
            sb_free_blocks := 191 },
    ibmap := fun i => decide (i < 81),
    dbmap := fun i => decide (i < 9),
    itable := fun k =>
      if k = 0 then { zero_inode with i_mode := 16877, i_nlink := 2, i_blocks := 5,
                                      i_size := 20480, i_direct := fun i => 4 + i }
      else if 1 ≤ k ∧ k ≤ 80 then { zero_inode with i_mode := 33188, i_nlink := 1 }
      else zero_inode }

/-- Byte `a` of the directory region of `img_full1029`: block 400 is the
root's indirect pointer block, whose entry `e` holds block number `406 + e`;
blocks 401 to 1429 are directory blocks, where entry number `q` (256 bytes
each) holds inode number `q + 1` and a four-letter name spelling `q`. -/
def full1029_byte (a : Nat) : Nat :=
  if a / VSFS_BLOCK_SIZE = 400 then
    (if a % 4 = 0 then (406 + a % VSFS_BLOCK_SIZE / 4) % 256
     else if a % 4 = 1 then (406 + a % VSFS_BLOCK_SIZE / 4) / 256 % 256
     else 0)
  else if a % DENTRY_SIZE = 0 then ((a - 401 * VSFS_BLOCK_SIZE) / DENTRY_SIZE + 1) % 256
  else if a % DENTRY_SIZE = 1 then ((a - 401 * VSFS_BLOCK_SIZE) / DENTRY_SIZE + 1) / 256 % 256
  else if a % DENTRY_SIZE = 4 then 97 + (a - 401 * VSFS_BLOCK_SIZE) / DENTRY_SIZE / 4096 % 16
  else if a % DENTRY_SIZE = 5 then 97 + (a - 401 * VSFS_BLOCK_SIZE) / DENTRY_SIZE / 256 % 16
  else if a % DENTRY_SIZE = 6 then 97 + (a - 401 * VSFS_BLOCK_SIZE) / DENTRY_SIZE / 16 % 16
  else if a % DENTRY_SIZE = 7 then 97 + (a - 401 * VSFS_BLOCK_SIZE) / DENTRY_SIZE % 16
  else 0

/-- An image whose root directory is as large as it can get: 1029 directory
blocks (401 to 1429, the last 1024 reached through the indirect pointer block
400), all 16464 entries in use by the empty files with inode numbers 1 to
16464; 20000 inodes, 20000 blocks, blocks 0 to 1429 in use. -/
def img_full1029 : fs_ctx :=
  { image := fun a =>
      if 400 * VSFS_BLOCK_SIZE ≤ a ∧ a < 1430 * VSFS_BLOCK_SIZE then full1029_byte a else 0,
    sb := { sb_num_inodes := 20000, sb_free_inodes := 3535, sb_num_blocks := 20000,
            sb_free_blocks := 18570 },
    ibmap := fun i => decide (i < 16465),
    dbmap := fun i => decide (i < 1430),
    itable := fun k =>
      if k = 0 then { zero_inode with i_mode := 16877, i_nlink := 2, i_blocks := 1029,
                                      i_size := 4214784, i_direct := fun i => 401 + i,
                                      i_indirect := 400 }
      else if 1 ≤ k ∧ k ≤ 16464 then { zero_inode with i_mode := 33188, i_nlink := 1 }
      else zero_inode }

/-- The path `/aa`, the name of entry 0 of `img_full5`. -/
def path_aa : List Nat := [47, 97, 97]

/-- The image `img_full5` with no free block at all: 9 blocks, all in use,
and a free block count of 0. -/
def img_full5_tight : fs_ctx :=
  { img_full5 with sb := { sb_num_inodes := 128, sb_free_inodes := 47, sb_num_blocks := 9,
                           sb_free_blocks := 0 } }

/-- The image `img_empty` after `create("/foo")` and `create("/x")`, which
get the inode numbers 1 and 2. -/
def img_foo_x : fs_ctx := (vsfs_create 0 2 img_foo path_x 33188).2

/-- The image `img_foo_x` after `remove("/foo")`: inode 1 is free. -/
def img_only_x : fs_ctx := (vsfs_unlink 0 3 img_foo_x path_foo).2

/-! ## Invariant of the loop of `extending_file` -/

/-- The physical block of logical block `j` of inode `k` in context `s`. -/
def file_blk (s : fs_ctx) (k : Int) (j : Nat) : Nat := blk_of s.image (s.itable k) j

/-- What the loop of `extending_file` on inode `k` assumes of the context `s1`
in which its allocating iterations start: `c` is the block count of the
inode, `c1` the number of blocks it holds in `s1`, `n` the new block count. -/
structure grow_pre (s1 : fs_ctx) (k : Int) (c c1 n : Nat) : Prop where
  p_nb : s1.sb.sb_num_blocks < 4294967296
  p_c1 : 1 ≤ c1 ∧ c1 ≤ n ∧ n ≤ 1029
  p_c : (c ≤ 5 → c1 ≤ 5) ∧ (5 < c → c1 = c)
  p_used : ∀ j, j < c1 → s1.dbmap (file_blk s1 k j) = true
  p_ind : 5 < c → s1.dbmap (s1.itable k).i_indirect = true
  p_free : (n - c1) + (if c ≤ 5 ∧ 5 < n then 1 else 0) ≤ s1.sb.sb_free_blocks
  p_sbok : s1.sb.sb_free_blocks = zero_bits s1.dbmap s1.sb.sb_num_blocks

/-- The invariant of the loop of `extending_file` on inode `k` before the
iteration with index `i`, relative to the context `s1` in which the
allocating iterations start. -/
structure grow_inv (s1 : fs_ctx) (k : Int) (c c1 i : Nat) (st : fs_ctx × Bool) : Prop where
  f_nb : st.1.sb.sb_num_blocks = s1.sb.sb_num_blocks
  f_it : ∀ j : Int, j ≠ k → st.1.itable j = s1.itable j
  f_mono : ∀ b, s1.dbmap b = true → st.1.dbmap b = true
  f_sbok : st.1.sb.sb_free_blocks = zero_bits st.1.dbmap s1.sb.sb_num_blocks
  f_cnt : st.1.sb.sb_free_blocks + ((i - c1) + (if c ≤ 5 ∧ 5 < i then 1 else 0))
    = s1.sb.sb_free_blocks
  f_flag : st.2 = (decide (5 < c) || decide (5 < i))
  f_new : ∀ j, c1 ≤ j → j < i →
    s1.dbmap (file_blk st.1 k j) = false ∧ st.1.dbmap (file_blk st.1 k j) = true
    ∧ file_blk st.1 k j < s1.sb.sb_num_blocks
    ∧ ∀ y, y < VSFS_BLOCK_SIZE → st.1.image (blk_addr (file_blk st.1 k j) + y) = 0
  f_old : ∀ j, j < c1 → file_blk st.1 k j = file_blk s1 k j
  f_ind0 : (5 < c ∨ i ≤ 5) → (st.1.itable k).i_indirect = (s1.itable k).i_indirect
  f_ind1 : c ≤ 5 → 5 < i →
    s1.dbmap (st.1.itable k).i_indirect = false ∧ st.1.dbmap (st.1.itable k).i_indirect = true
    ∧ (st.1.itable k).i_indirect < s1.sb.sb_num_blocks
    ∧ ∀ j, c1 ≤ j → j < i → file_blk st.1 k j ≠ (st.1.itable k).i_indirect
  f_img : ∀ x, s1.dbmap (x / VSFS_BLOCK_SIZE) = true →
    (5 < c → x / VSFS_BLOCK_SIZE = (s1.itable k).i_indirect →
      x % VSFS_BLOCK_SIZE < 4 * (c1 - 5)) →
    st.1.image x = s1.image x
  f_only : ∀ b, st.1.dbmap b = true →
    s1.dbmap b = true ∨ (c ≤ 5 ∧ 5 < i ∧ b = (st.1.itable k).i_indirect)
    ∨ ∃ j, c1 ≤ j ∧ j < i ∧ b = file_blk st.1 k j
  f_inj : ∀ j1 j2, c1 ≤ j1 → j1 < j2 → j2 < i → file_blk st.1 k j1 ≠ file_blk st.1 k j2

/-- The context after the first iteration of the loop of `extending_file`
on a file that holds `c1` blocks: the iteration with index `c1 - 1` clears
the last block held past the last byte of the file. -/
def tail_cleared (s : fs_ctx) (k : Int) (c1 : Nat) : fs_ctx :=
  { s with image := zero_tail s.image (file_blk s k (c1 - 1))
                      (sub64 (s.itable k).i_size 1 % VSFS_BLOCK_SIZE) }

/-- The engine invariants of the data model that a grow of inode `k` relies
on: the block count of the volume fits `uint32_t`, the free block count is the
number of clear bits of the data bitmap, the block count of the inode is
`ceil(size / block_size)`, the blocks the inode holds are marked in the data
bitmap, and the indirect pointer block is none of its data blocks. -/
structure file_wf (s : fs_ctx) (k : Int) : Prop where
  w_nb : s.sb.sb_num_blocks < 4294967296
  w_free : s.sb.sb_free_blocks = zero_bits s.dbmap s.sb.sb_num_blocks
  w_blocks : blocks_ok (s.itable k)
  w_used : ∀ j, j < (s.itable k).i_blocks → s.dbmap (file_blk s k j) = true
  w_ind : 5 < (s.itable k).i_blocks → s.dbmap (s.itable k).i_indirect = true
  w_sep : 5 < (s.itable k).i_blocks →
    ∀ j, j < (s.itable k).i_blocks → file_blk s k j ≠ (s.itable k).i_indirect

/-- What a successful `extending_file` of inode `k` from `c` blocks to `n`
blocks and `size` bytes guarantees of the resulting context `st`, relative to
the context `s` before the call. -/
structure grow_post (s : fs_ctx) (k : Int) (c n size : Nat) (st : fs_ctx) : Prop where
  g_nb : st.sb.sb_num_blocks = s.sb.sb_num_blocks
  g_it : ∀ j : Int, j ≠ k → st.itable j = s.itable j
  g_size : (st.itable k).i_size = size ∧ (st.itable k).i_blocks = n
  g_mono : ∀ b, s.dbmap b = true → st.dbmap b = true
  g_sbok : st.sb.sb_free_blocks = zero_bits st.dbmap st.sb.sb_num_blocks
  g_cnt : st.sb.sb_free_blocks + ((n - c) + (if c ≤ 5 ∧ 5 < n then 1 else 0))
    = s.sb.sb_free_blocks
  g_old : ∀ j, j < c → file_blk st k j = file_blk s k j
  g_new : ∀ j, c ≤ j → j < n →
    s.dbmap (file_blk st k j) = false ∧ st.dbmap (file_blk st k j) = true
    ∧ file_blk st k j < s.sb.sb_num_blocks
    ∧ ∀ y, y < VSFS_BLOCK_SIZE → st.image (blk_addr (file_blk st k j) + y) = 0
  g_tail : 0 < c → ∀ y, ((s.itable k).i_size - 1) % VSFS_BLOCK_SIZE < y → y < VSFS_BLOCK_SIZE →
    st.image (blk_addr (file_blk st k (c - 1)) + y) = 0
  g_ind0 : (5 < c ∨ n ≤ 5) → (st.itable k).i_indirect = (s.itable k).i_indirect
  g_ind1 : c ≤ 5 → 5 < n →
    s.dbmap (st.itable k).i_indirect = false ∧ st.dbmap (st.itable k).i_indirect = true
    ∧ (st.itable k).i_indirect < s.sb.sb_num_blocks
    ∧ ∀ j, j < n → file_blk st k j ≠ (st.itable k).i_indirect
  g_img : ∀ x, s.dbmap (x / VSFS_BLOCK_SIZE) = true →
    (0 < c → x / VSFS_BLOCK_SIZE = file_blk s k (c - 1) →
      x % VSFS_BLOCK_SIZE ≤ ((s.itable k).i_size - 1) % VSFS_BLOCK_SIZE) →
    (5 < c → x / VSFS_BLOCK_SIZE ≠ (s.itable k).i_indirect) →
    st.image x = s.image x
  g_only : ∀ b, st.dbmap b = true →
    s.dbmap b = true ∨ (c ≤ 5 ∧ 5 < n ∧ b = (st.itable k).i_indirect)
    ∨ ∃ j, c ≤ j ∧ j < n ∧ b = file_blk st k j
  g_inj : ∀ j1 j2, c ≤ j1 → j1 < j2 → j2 < n → file_blk st k j1 ≠ file_blk st k j2

/-! ## Invariants of the volume around one file -/

/-- The statements of `vsfs_write` after the grow: the modification time is
stored and the bytes of `buf` are copied into the block of the file that
holds `offset`. -/
def write_data (now : Nat) (t : fs_ctx) (k : Int) (buf : List Nat) (offset : Nat) : fs_ctx :=
  let s1 := { t with itable := upd t.itable k { t.itable k with i_mtime := now } }
  let blk := blk_of s1.image (s1.itable k) (offset / VSFS_BLOCK_SIZE)
  { s1 with image := memcpy_to s1.image (blk_addr blk + offset % VSFS_BLOCK_SIZE) buf buf.length }

/-! ## A sequence of writes -/

/-- The special value `UTIME_NOW` of `tv_nsec` (`<sys/stat.h>`). -/
abbrev UTIME_NOW : Nat := 1073741823

/-- The special value `UTIME_OMIT` of `tv_nsec` (`<sys/stat.h>`). -/
abbrev UTIME_OMIT : Nat := 1073741822

/-- What the C code does outside its objects: an index outside an array (the
inode table, `thread_pool`), or `->` through a `NULL` pointer. -/
inductive fault where
  | out_of_range
  | null_deref

/-- The function `vsfs_utimens`: `t1` is the time `times[1]` as an inode
stores it and `t1_nsec` its field `tv_nsec`.  The result of `path_lookup` is
converted to the unsigned `vsfs_blk_t num`, which indexes the inode table
without a test; the table has `sb_num_inodes` entries, and an index outside
it is a fault. -/
def vsfs_utimens (now : Nat) (s : fs_ctx) (path : List Nat) (t1 t1_nsec : Nat) :
    Except fault (Int × fs_ctx) :=
  if t1_nsec = UTIME_OMIT then Except.ok (0, s)
  else
    let num : Nat := ((path_lookup s path).1 % 4294967296).toNat
    if num < s.sb.sb_num_inodes then
      let ino := s.itable num
      if t1_nsec = UTIME_NOW then
        Except.ok (0, { s with itable := upd s.itable (num : Int) { ino with i_mtime := now } })
      else
        Except.ok (0, { s with itable := upd s.itable (num : Int) { ino with i_mtime := t1 } })
    else Except.error fault.out_of_range

/-! ## More concrete images -/

/-- The path `/zz`, which names no entry of the images below. -/
def path_zz : List Nat := [47, 122, 122]

/-- The path `foo`, which lacks the leading `/`. -/
def path_rel : List Nat := [102, 111, 111]

/-- The image `img_foo` with every block in use and a free block count of 0:
its directory block still has 15 free slots and 62 inodes are free. -/
def img_foo_tight : fs_ctx :=
  { img_foo with sb := { sb_num_inodes := 64, sb_free_inodes := 62, sb_num_blocks := 40,
                         sb_free_blocks := 0 },
                 dbmap := fun _ => true }

/-- The image `img_foo` after `truncate("/foo", 20480)`: the file holds the
five blocks 5 to 9. -/
def img_foo20k : fs_ctx := (vsfs_truncate 0 2 img_foo path_foo 20480).2

/-- The image `img_foo20k` after `create("/x", 0100644)`. -/
def img_foo20k_x : fs_ctx := (vsfs_create 0 3 img_foo20k path_x 33188).2

/-- The image `img_foo20k_x` after `write("/x", eight bytes 9, offset 0)`: the
file `/x` holds block 10. -/
def img_foo20k_xw : fs_ctx := (vsfs_write 0 4 img_foo20k_x path_x [9, 9, 9, 9, 9, 9, 9, 9] 0).2

/-- The image `img_foo20k_xw` after `remove("/x")`: block 10 is free and
keeps its bytes. -/
def img_foo20k_rm : fs_ctx := (vsfs_unlink 0 5 img_foo20k_xw path_x).2

/-- The image `img_foo20k_rm` after `truncate("/foo", 24576)`: the file has
six data blocks and an indirect pointer block. -/
def img_foo24k : fs_ctx := (vsfs_truncate 0 6 img_foo20k_rm path_foo 24576).2

/-! ## Listing the root directory -/

/-- One iteration of the inner loop of `vsfs_readdir` on directory block
`blk`.  The loop state is the value the function has returned, if it has (0
while it is still running), and the state of the caller's buffer; `filler`
gets the buffer and the byte offset of `dt[j].name` and gives the new buffer
and its `int` result. -/
def readdir_step {β : Type} (img : Nat → Nat) (filler : β → Nat → β × Int) (blk : Nat)
    (acc : Int × β) (j : Nat) : Int × β :=
  if acc.1 ≠ 0 then acc
  else if read32 img (dentry_addr blk j) = VSFS_INO_MAX then acc
  else if (filler acc.2 (dentry_addr blk j + 4)).2 ≠ 0 then
    (-ENOMEM, (filler acc.2 (dentry_addr blk j + 4)).1)
  else (0, (filler acc.2 (dentry_addr blk j + 4)).1)

/-- The function `vsfs_readdir`: the `int` it returns and the caller's buffer
afterwards. -/
def vsfs_readdir {β : Type} (s : fs_ctx) (filler : β → Nat → β × Int) (buf : β) : Int × β :=
  let root := s.itable VSFS_ROOT_INO
  (List.range root.i_blocks).foldl
    (fun acc i =>
      (List.range dentry_per_blk).foldl (readdir_step s.image filler (blk_of s.image root i)) acc)
    (0, buf)

/-- The names of the live entries of the root directory, each given by the
byte offset of its name: the entries whose inode number is not
`VSFS_INO_MAX`, in logical block order and then slot order. -/
def live_entries (s : fs_ctx) : List Nat :=
  (List.range (s.itable 0).i_blocks).flatMap (fun i =>
    (List.range dentry_per_blk).filterMap (fun j =>
      if read32 s.image (dentry_addr (blk_of s.image (s.itable 0) i) j) = VSFS_INO_MAX then none
      else some (dentry_addr (blk_of s.image (s.itable 0) i) j + 4)))

/-- The names of a list passed to the sink one after the other, up to and
including the first that the sink rejects: the result is 0 and the buffer
after all names when the sink accepts every name, and `-ENOMEM` and the
buffer after the rejected name otherwise. -/
def feed {β : Type} (filler : β → Nat → β × Int) : β → List Nat → Int × β
  | b, [] => (0, b)
  | b, a :: as =>
    if (filler b a).2 ≠ 0 then (-ENOMEM, (filler b a).1) else feed filler (filler b a).1 as

/-! ## Invariant of the releasing loop of `shrinking_file` -/

/-- The invariant of the loops of `shrinking_file` on inode `k` before the
releasing iteration with index `i`, relative to the context `t` in which the
releasing iterations `n0, …, c - 1` start. -/
structure release_inv (t : fs_ctx) (k : Int) (n0 c i : Nat) (st : fs_ctx) : Prop where
  r_nb : st.sb.sb_num_blocks = t.sb.sb_num_blocks
  r_it : ∀ j : Int, j ≠ k → st.itable j = t.itable j
  r_free : st.sb.sb_free_blocks = t.sb.sb_free_blocks + (i - n0)
  r_ind : (st.itable k).i_indirect = (t.itable k).i_indirect
  r_bits : ∀ j, n0 ≤ j → j < i → st.dbmap (file_blk t k j) = false
  r_zero : ∀ j, n0 ≤ j → j < i → ∀ y, y < VSFS_BLOCK_SIZE →
    st.image (blk_addr (file_blk t k j) + y) = 0
  r_ptr_d : ∀ j, n0 ≤ j → j < i → j < 5 → (st.itable k).i_direct j = VSFS_BLK_UNASSIGNED
  r_ptr_i : ∀ j, n0 ≤ j → j < i → 5 ≤ j →
    read32 st.image (blk_addr (t.itable k).i_indirect + 4 * (j - 5)) = VSFS_BLK_UNASSIGNED
  r_pend : ∀ j, i ≤ j → j < c → file_blk st k j = file_blk t k j
  r_kept : ∀ j, j < n0 → file_blk st k j = file_blk t k j
  r_keep0 : ∀ x, st.image x = 0 ∨ st.image x = t.image x
  r_img : ∀ x, (∀ j, n0 ≤ j → j < i → x / VSFS_BLOCK_SIZE ≠ file_blk t k j) →
    (5 < c → x / VSFS_BLOCK_SIZE = (t.itable k).i_indirect → x % VSFS_BLOCK_SIZE < 4 * (n0 - 5)) →
    st.image x = t.image x
  r_dbmap : ∀ b, st.dbmap b = true → t.dbmap b = true

/-- The context after the first iteration of the second loop of
`shrinking_file` (`new_blks != 0`): the iteration with index `nb - 1` clears
the new last block past the last byte of the new size. -/
def shrink_tail (s : fs_ctx) (k : Int) (nb size : Nat) : fs_ctx :=
  { s with image := zero_tail s.image (file_blk s k (nb - 1)) ((size - 1) % VSFS_BLOCK_SIZE) }

/-- What `shrinking_file` of inode `k` from `c` blocks to `nb` blocks and
`size` bytes guarantees of the resulting context `st`, relative to the
context `s` before the call. -/
structure shrink_post (s : fs_ctx) (k : Int) (c nb size : Nat) (st : fs_ctx) : Prop where
  q_nb : st.sb.sb_num_blocks = s.sb.sb_num_blocks
  q_it : ∀ j : Int, j ≠ k → st.itable j = s.itable j
  q_size : (st.itable k).i_size = size ∧ (st.itable k).i_blocks = nb
  q_cnt : st.sb.sb_free_blocks
    = s.sb.sb_free_blocks + (c - nb) + (if nb ≤ 5 ∧ 5 < c then 1 else 0)
  q_bits : ∀ i, nb ≤ i → i < c → st.dbmap (file_blk s k i) = false
  q_zero : ∀ i, nb ≤ i → i < c → ∀ y, y < VSFS_BLOCK_SIZE →
    st.image (blk_addr (file_blk s k i) + y) = 0
  q_ptr_d : ∀ i, nb ≤ i → i < c → i < 5 → (st.itable k).i_direct i = VSFS_BLK_UNASSIGNED
  q_ptr_i : 5 < nb → ∀ i, nb ≤ i → i < c →
    read32 st.image (blk_addr (st.itable k).i_indirect + 4 * (i - 5)) = VSFS_BLK_UNASSIGNED
  q_ind_kept : 5 < nb → (st.itable k).i_indirect = (s.itable k).i_indirect
  q_ind_freed : nb ≤ 5 → 5 < c →
    st.dbmap (s.itable k).i_indirect = false ∧ (st.itable k).i_indirect = VSFS_BLK_UNASSIGNED
  q_kept : ∀ j, j < nb → file_blk st k j = file_blk s k j
  q_tail : 0 < nb → ∀ y, (size - 1) % VSFS_BLOCK_SIZE < y → y < VSFS_BLOCK_SIZE →
    st.image (blk_addr (file_blk s k (nb - 1)) + y) = 0
  q_img : ∀ x, (∀ i, nb ≤ i → i < c → x / VSFS_BLOCK_SIZE ≠ file_blk s k i) →
    (5 < c → x / VSFS_BLOCK_SIZE ≠ (s.itable k).i_indirect) →
    (0 < nb → x / VSFS_BLOCK_SIZE = file_blk s k (nb - 1) →
      x % VSFS_BLOCK_SIZE ≤ (size - 1) % VSFS_BLOCK_SIZE) →
    st.image x = s.image x


/-- Byte `a` of the directory region (blocks 4 to 6) of `img_ino40`: the
entries 0 to 38 are those of `full_dir_byte`, the entries 39 to 47 are free
(inode number `VSFS_INO_MAX`) with an empty name. -/
def ino40_dir_byte (a : Nat) : Nat :=
  if (a - 4 * VSFS_BLOCK_SIZE) / DENTRY_SIZE < 39 then full_dir_byte a
  else if a % DENTRY_SIZE < 4 then 255
  else 0

/-- An image with more inodes than blocks (64 inodes, 40 blocks) in which the
inodes 0 to 39 are in use: the root directory has 3 blocks (4 to 6) whose
entries 0 to 38 name the empty files with inode numbers 1 to 39; 24 inodes
(40 to 63) and 33 blocks are free. -/
def img_ino40 : fs_ctx :=
  { image := fun a => if 4 * VSFS_BLOCK_SIZE ≤ a ∧ a < 7 * VSFS_BLOCK_SIZE then ino40_dir_byte a else 0,
    sb := { sb_num_inodes := 64, sb_free_inodes := 24, sb_num_blocks := 40, sb_free_blocks := 33 },
    ibmap := fun i => decide (i < 40),
    dbmap := fun i => decide (i < 7),
    itable := fun k =>
      if k = 0 then { zero_inode with i_mode := 16877, i_nlink := 2, i_blocks := 3,
                                      i_size := 12288, i_direct := fun i => 4 + i }
      else if 1 ≤ k ∧ k ≤ 39 then { zero_inode with i_mode := 33188, i_nlink := 1 }
      else zero_inode }

/-- Byte `a` of `img_full6`: blocks 4 to 8 and block 10 are full directory
blocks (`full_dir_byte`), block 9 is the root's indirect pointer block, whose
entry 0 holds block number 10, and the free block 11 still holds one byte of
a removed file, the letter `x` at offset 260. -/
def full6_byte (a : Nat) : Nat :=
  if a / VSFS_BLOCK_SIZE = 9 then (if a % VSFS_BLOCK_SIZE = 0 then 10 else 0)
  else if a / VSFS_BLOCK_SIZE = 11 then (if a % VSFS_BLOCK_SIZE = 260 then 120 else 0)
  else if 4 ≤ a / VSFS_BLOCK_SIZE ∧ a / VSFS_BLOCK_SIZE ≤ 10 then full_dir_byte a
  else 0

/-- An image whose root directory has 6 data blocks (4 to 8 and, through the
indirect pointer block 9, block 10), all 96 entries in use by empty files
(inode numbers 1 to 80 and 97 to 112); 128 inodes, 200 blocks, blocks 0 to 10
in use.  Block 11 is free and holds a stale byte. -/
def img_full6 : fs_ctx :=
  { image := full6_byte,
    sb := { sb_num_inodes := 128, sb_free_inodes := 31, sb_num_blocks := 200,
            sb_free_blocks := 189 },
    ibmap := fun i => decide (i < 81 ∨ (97 ≤ i ∧ i < 113)),
    dbmap := fun i => decide (i < 11),
    itable := fun k =>
      if k = 0 then { zero_inode with i_mode := 16877, i_nlink := 2, i_blocks := 6,
                                      i_size := 24576, i_direct := fun i => 4 + i,
                                      i_indirect := 9 }
      else if (1 ≤ k ∧ k ≤ 80) ∨ (97 ≤ k ∧ k ≤ 112) then
        { zero_inode with i_mode := 33188, i_nlink := 1 }
      else zero_inode }

/-- The path `/y`. -/
def path_y : List Nat := [47, 121]

/-! ## The thread library (`src/A2/thread.c`): `thread_kill` -/

/-- The value `RUNNING` of `enum thread_state`. -/
abbrev RUNNING : Int := -10

/-- The value `READY` of `enum thread_state`. -/
abbrev READY : Int := -11

/-- The value `DYING` of `enum thread_state`. -/
abbrev DYING : Int := -12

/-- The fields of the thread control block (`struct thread`) that
`thread_kill` reads and writes. -/
structure thread where
  tid : Int
  state : Int

/-- The globals `cur_tid` and `thread_pool`; a slot that holds `NULL` is
`none`.  The array has `THREAD_MAX_THREADS` slots, with indices from 0. -/
structure thread_ctx where
  cur_tid : Int
  thread_pool : Int → Option thread

/-- The expression `thread_pool[i]` for an array of `max_threads` slots
(`THREAD_MAX_THREADS` of `thread.h`, which is not among the sources and is
taken as a parameter). -/
def pool_slot (max_threads : Int) (pool : Int → Option thread) (i : Int) :
    Except fault (Option thread) :=
  if 0 ≤ i ∧ i < max_threads then Except.ok (pool i) else Except.error fault.out_of_range

/-- The function `thread_kill`; `max_threads` and `thread_invalid` are
`THREAD_MAX_THREADS` and `THREAD_INVALID` of `thread.h`.  The second and third
operand of `||` and the operand of `&&` are evaluated only when C evaluates
them.  The calls `interrupts_off` and `interrupts_set` change the signal mask
only and are left out. -/
def thread_kill (max_threads thread_invalid : Int) (st : thread_ctx) (tid : Int) :
    Except fault (Int × thread_ctx) :=
  if tid < -2 ∨ tid ≥ max_threads then Except.ok (thread_invalid, st)
  else
    (if tid > 0 then
      (pool_slot max_threads st.thread_pool tid).map (fun slot =>
        match slot with
        | none => true
        | some t => decide (t.state = DYING))
     else Except.ok false).bind (fun invalid =>
      if invalid then Except.ok (thread_invalid, st)
      else if st.cur_tid = tid then Except.ok (thread_invalid, st)
      else
        (pool_slot max_threads st.thread_pool tid).bind (fun slot =>
          match slot with
          | none => Except.error fault.null_deref
          | some t =>
            Except.ok (tid,
              { st with thread_pool := upd st.thread_pool tid (some { t with state := DYING }) })))

/-- Thread 1 is running after thread 0 has exited: slot 0 is marked `DYING`. -/
def thr_exited0 : thread_ctx :=
  { cur_tid := 1,
    thread_pool := fun i =>
      if i = 0 then some { tid := 0, state := DYING }
      else if i = 1 then some { tid := 1, state := RUNNING }
      else none }

/-- Thread 1 is running after thread 0 has exited and `clean_zombies` has
freed its control block: slot 0 is `NULL`. -/
def thr_cleaned0 : thread_ctx :=
  { cur_tid := 1,
    thread_pool := fun i => if i = 1 then some { tid := 1, state := RUNNING } else none }

/-! ## The thread library: the ready queue -/

/-- A node of the ready queue (`struct ready_node`); a pointer is an address,
0 is `NULL`. -/
structure ready_node where
  next : Nat
  tid : Int

/-- The ready queue: the nodes that are allocated, by address, and the globals
`readyHead` and `readyTail`. -/
structure queue_ctx where
  heap : Nat → Option ready_node
  readyHead : Nat
  readyTail : Nat

/-- The node that a pointer refers to; there is none when the pointer is
`NULL` or the memory is not allocated. -/
def node_at (heap : Nat → Option ready_node) (p : Nat) : Option ready_node :=
  if p = 0 then none else heap p

/-- The function `enqueue`; `p` is the pointer that `malloc369` returns
(`malloc369.h` is not among the sources).  The result is `none` when the code
goes through a pointer that refers to no node. -/
def enqueue (p : Nat) (tid : Int) (q : queue_ctx) : Option queue_ctx :=
  if p = 0 then none
  else if q.readyHead = 0 ∧ q.readyTail = 0 then
    some { heap := upd q.heap p (some { next := 0, tid := tid }), readyHead := p, readyTail := p }
  else
    let h1 := upd q.heap p (some { next := 0, tid := tid })
    (node_at h1 q.readyTail).map (fun t =>
      { heap := upd h1 q.readyTail (some { t with next := p }), readyHead := q.readyHead,
        readyTail := p })

/-- The function `dequeue`; `thread_none` is `THREAD_NONE` of `thread.h`,
`free369` returns the node to the allocator. -/
def dequeue (thread_none : Int) (q : queue_ctx) : Option (Int × queue_ctx) :=
  if q.readyHead = 0 ∧ q.readyTail = 0 then some (thread_none, q)
  else
    (node_at q.heap q.readyHead).map (fun n =>
      (n.tid, { heap := upd q.heap q.readyHead none, readyHead := n.next,
                readyTail := if n.next = 0 then 0 else q.readyTail }))

/-- The statements of `remove_from_queue` that unlink and free the node `cur`,
whose predecessor is `prev` (`NULL` for the head). -/
def unlink_node (q : queue_ctx) (cur prev : Nat) (c : ready_node) : Option (Int × queue_ctx) :=
  (if prev = 0 then some { q with readyHead := c.next }
   else (node_at q.heap prev).map (fun pn =>
     { q with heap := upd q.heap prev (some { pn with next := c.next }) })).map (fun q1 =>
    (0, { heap := upd q1.heap cur none, readyHead := q1.readyHead,
          readyTail := if cur = q1.readyTail then prev else q1.readyTail }))

/-- The loop of `remove_from_queue`, with the loop variables `cur` and
`prev`; every iteration takes one unit of fuel, and the result is `none` when
the fuel runs out or a pointer refers to no node. -/
def remove_loop (tid : Int) : Nat → queue_ctx → Nat → Nat → Option (Int × queue_ctx)
  | 0, _, _, _ => none
  | fuel + 1, q, cur, prev =>
    if cur = 0 then some (-1, q)
    else
      match q.heap cur with
      | none => none
      | some c =>
        if c.tid = tid then unlink_node q cur prev c
        else remove_loop tid fuel q c.next cur

/-- The function `remove_from_queue`. -/
def remove_from_queue (fuel : Nat) (tid : Int) (q : queue_ctx) : Option (Int × queue_ctx) :=
  remove_loop tid fuel q q.readyHead 0

/-- A sequence of `enqueue` calls; each call comes with the pointer that
`malloc369` returns to it. -/
def enqueue_all : queue_ctx → List (Nat × Int) → Option queue_ctx
  | q, [] => some q
  | q, c :: rest => (enqueue c.1 c.2 q).bind (fun q1 => enqueue_all q1 rest)

/-- The results of `n` successive `dequeue` calls, and the queue after
them. -/
def dequeue_n (thread_none : Int) : Nat → queue_ctx → Option (List Int × queue_ctx)
  | 0, q => some ([], q)
  | n + 1, q =>
    (dequeue thread_none q).bind (fun r =>
      (dequeue_n thread_none n r.2).map (fun r2 => (r.1 :: r2.1, r2.2)))

/-- The nodes at the addresses `as`, in this order, form a `next`-linked chain
that starts at `p`, ends with `NULL` and carries the identifiers `l`. -/
def chain (h : Nat → Option ready_node) : Nat → List Nat → List Int → Prop
  | p, [], [] => p = 0
  | p, a :: as, x :: xs =>
    p = a ∧ a ≠ 0 ∧ h a = some { next := as.headD 0, tid := x } ∧ chain h (as.headD 0) as xs
  | _, _, _ => False

/-- The queue `q` holds the identifiers `l`, oldest first, in the nodes at the
pairwise distinct addresses `as`. -/
structure queue_rep (q : queue_ctx) (as : List Nat) (l : List Int) : Prop where
  q_chain : chain q.heap q.readyHead as l
  q_nodup : as.Nodup
  q_tail : q.readyTail = as.getLastD 0

/-- The queue `q` holds the identifiers `l`, oldest first. -/
def is_queue (q : queue_ctx) (l : List Int) : Prop := ∃ as, queue_rep q as l

/-- The empty queue, with no node allocated. -/
def queue_empty : queue_ctx := { heap := fun _ => none, readyHead := 0, readyTail := 0 }

/-! ## The paging simulator: `clock_evict` (`src/A3/clock.c`) -/

/-- The constant `mask_ref_bit` of `pagetable.c`. -/
abbrev mask_ref_bit : Nat := 1

/-- The function `get_referenced` on the field `frame` of a page table
entry. -/
def get_referenced (frame : Nat) : Bool := frame &&& mask_ref_bit != 0

/-- The function `set_referenced` on the field `frame` of a page table entry;
`~mask_ref_bit` is the `unsigned int` 0xFFFFFFFE. -/
def set_referenced (frame : Nat) (val : Bool) : Nat :=
  if val then frame ||| mask_ref_bit else frame &&& 4294967294

/-- The state that `clock_evict` works on: the global `clock_hand`, the
pointers `coremap[i].pte` (0 is `NULL`) and the field `frame` of the page
table entry at each address. -/
structure clock_ctx where
  clock_hand : Int
  coremap : Int → Nat
  pte_frame : Nat → Nat

/-- The statements `clock_hand++; clock_hand = clock_hand % memsize;` on the
`int clock_hand`: the operand of `%` is converted to the unsigned type of
`memsize` and the result back to `int`.  The declaration of `memsize`
(`sim.h`) is not among the sources and `memsize` is a parameter; with another
integer type the value is the same whenever
`0 <= clock_hand < memsize < 2^31`. -/
def next_hand (memsize : Nat) (hand : Int) : Int :=
  toInt32 (((hand + 1) % 18446744073709551616).toNat % memsize % 4294967296)

/-- The body of the loop of `clock_evict`. -/
def clock_step (memsize : Nat) (s : clock_ctx) : clock_ctx :=
  { s with pte_frame := upd s.pte_frame (s.coremap s.clock_hand)
             (set_referenced (s.pte_frame (s.coremap s.clock_hand)) false),
           clock_hand := next_hand memsize s.clock_hand }

/-- The loop of `clock_evict`.  Every evaluation of the loop condition takes
one unit of fuel and inspects one frame; the result carries the number of
frames inspected.  It is `none` when the fuel runs out, when `clock_hand` is
no index of the `memsize` entries of `coremap`, or when the entry holds
`NULL`. -/
def clock_loop (memsize : Nat) : Nat → clock_ctx → Option (clock_ctx × Nat)
  | 0, _ => none
  | fuel + 1, s =>
    if ¬ (0 ≤ s.clock_hand ∧ s.clock_hand < memsize) then none
    else if s.coremap s.clock_hand = 0 then none
    else if get_referenced (s.pte_frame (s.coremap s.clock_hand)) then
      (clock_loop memsize fuel (clock_step memsize s)).map (fun r => (r.1, r.2 + 1))
    else some (s, 1)

/-- The function `clock_evict`: the frame it returns, the state afterwards and
the number of frames it has inspected. -/
def clock_evict (memsize fuel : Nat) (s : clock_ctx) : Option (Int × clock_ctx × Nat) :=
  (clock_loop memsize fuel s).map (fun r =>
    (r.1.clock_hand, { r.1 with clock_hand := next_hand memsize r.1.clock_hand }, r.2))

/-- The referenced bit of frame `i`. -/
def frame_ref (s : clock_ctx) (i : Nat) : Bool :=
  get_referenced (s.pte_frame (s.coremap (i : Int)))

/-- The state after `k` iterations of the loop of `clock_evict`. -/
def sweep (memsize : Nat) : Nat → clock_ctx → clock_ctx
  | 0, s => s
  | k + 1, s => sweep memsize k (clock_step memsize s)

/-- What `clock_evict` assumes of the state: the hand `h` is a frame number,
the number of frames fits the `int` of the hand, every frame has a page table
entry and no two frames share one. -/
structure clock_wf (memsize : Nat) (s : clock_ctx) (h : Nat) : Prop where
  c_hand : s.clock_hand = (h : Int)
  c_lt : h < memsize
  c_int : memsize < 2147483648
  c_pte : ∀ i, i < memsize → s.coremap (i : Int) ≠ 0
  c_inj : ∀ i j, i < memsize → j < memsize → s.coremap (i : Int) = s.coremap (j : Int) → i = j

/-- Four frames whose page table entries are at the addresses 100, 200, 300,
400; the frames 2, 3 and 0 are referenced, the hand is at frame 2. -/
def clock_four : clock_ctx :=
  { clock_hand := 2,
    coremap := fun i => (100 * (i + 1)).toNat,
    pte_frame := fun p => if p = 200 then 4 else 5 }

/-! ## An image with five full directory blocks and fewer blocks than inodes -/

/-- Byte offset of slot `j` of logical block `i` of the root directory. -/
def root_slot (s : fs_ctx) (i j : Nat) : Nat :=
  dentry_addr (blk_of s.image (s.itable VSFS_ROOT_INO) i) j

/-- Slot `(i, j)` of the root directory is a slot of an allocated block, is
not free (its inode number is not `VSFS_INO_MAX`) and its name equals
`name`. -/
def live_match (s : fs_ctx) (name : List Nat) (i j : Nat) : Prop :=
  i < (s.itable VSFS_ROOT_INO).i_blocks ∧ j < dentry_per_blk
    ∧ read32 s.image (root_slot s i j) ≠ VSFS_INO_MAX
    ∧ strcmp_eq s.image (root_slot s i j + 4) name = true

instance (s : fs_ctx) (name : List Nat) (i j : Nat) : Decidable (live_match s name i j) := by
  unfold live_match
  exact inferInstance

/-- Slot `(i, j)` comes before slot `(i2, j2)`: logical block order, then
slot order. -/
def slot_before (i j i2 j2 : Nat) : Prop := i < i2 ∨ (i = i2 ∧ j < j2)

/-- The state of a directory that create and remove have built: a free slot
that still carries the name `name` is followed by no slot in use with that
name, and the inode numbers of the slots in use are below `2^31`. -/
structure dir_ordered (s : fs_ctx) (name : List Nat) : Prop where
  stale_last : ∀ i j i2 j2, i < (s.itable VSFS_ROOT_INO).i_blocks → j < dentry_per_blk →
    read32 s.image (root_slot s i j) = VSFS_INO_MAX →
    strcmp_eq s.image (root_slot s i j + 4) name = true →
    slot_before i j i2 j2 → ¬ live_match s name i2 j2
  ino_small : ∀ i j, i < (s.itable VSFS_ROOT_INO).i_blocks → j < dentry_per_blk →
    read32 s.image (root_slot s i j) ≠ VSFS_INO_MAX →
    read32 s.image (root_slot s i j) < 2147483648

/-- The image `img_full6` after `create("/y")`: the seventh directory block
(block 11) holds the entry `y` in slot 0 and the stale name `x` in the free
slot 1. -/
def img_full6_y : fs_ctx := (vsfs_create 0 1 img_full6 path_y 33188).2

/-! ## The blocks that the inodes reference -/

/-- Index `k` is a slot of the inode table of `s`. -/
def in_table (s : fs_ctx) (k : Int) : Prop := 0 ≤ k ∧ k < (s.sb.sb_num_inodes : Int)

/-- Block `b` is referenced by inode `k`: it is the block of one of the
logical blocks below the block count (a direct pointer, or an entry of the
indirect pointer block), or it is the indirect pointer block and the block
count exceeds `VSFS_NUM_DIRECT`. -/
def refs (s : fs_ctx) (k : Int) (b : Nat) : Prop :=
  (∃ j, j < (s.itable k).i_blocks ∧ b = file_blk s k j)
  ∨ (5 < (s.itable k).i_blocks ∧ b = (s.itable k).i_indirect)

/-- The block-ownership invariant for the inodes of the table; `d0` is the
first block of the data region (a field of the superblock that the driver
does not use).  Every referenced block lies in the data region and has its
data-bitmap bit set, and no block is referenced twice: not by two logical
blocks of one inode, not as a data block and as the indirect pointer block of
one inode, and not by two inodes. -/
structure owns (d0 : Nat) (s : fs_ctx) : Prop where
  o_set : ∀ k b, in_table s k → refs s k b →
    d0 ≤ b ∧ b < s.sb.sb_num_blocks ∧ s.dbmap b = true
  o_inj : ∀ k j1 j2, in_table s k → j1 < (s.itable k).i_blocks → j2 < (s.itable k).i_blocks →
    file_blk s k j1 = file_blk s k j2 → j1 = j2
  o_sep : ∀ k j, in_table s k → 5 < (s.itable k).i_blocks → j < (s.itable k).i_blocks →
    file_blk s k j ≠ (s.itable k).i_indirect
  o_disj : ∀ k1 k2 b, in_table s k1 → in_table s k2 → refs s k1 b → refs s k2 b → k1 = k2

/-- The engine invariants that the mutating operations rely on: the inode
table has a slot for the root, the block count leaves room in `uint32_t` for
the free count while the blocks of a file are released, the free block count
is the number of clear bits of the data bitmap, the blocks before the data
region are marked in use, and every inode of the table has
`block count == ceil(size / block_size)`, at most 1029. -/
structure engine_inv (d0 : Nat) (s : fs_ctx) : Prop where
  e_ni : 0 < s.sb.sb_num_inodes
  e_nb : s.sb.sb_num_blocks + 1030 < 4294967296
  e_free : s.sb.sb_free_blocks = zero_bits s.dbmap s.sb.sb_num_blocks
  e_meta : ∀ b, b < d0 → s.dbmap b = true
  e_blocks : ∀ k, in_table s k → blocks_ok (s.itable k) ∧ (s.itable k).i_blocks ≤ 1029

/-- What `create_dentry_for_newfile` leaves when it has given the root
directory of `s` one more data block `p`, in the resulting context `st`: the
block was free and is marked in use, it is the root's last logical block, its
slot 0 holds the inode number `v` and its other slots are free; the root's
other logical blocks, the other inodes and the bits that were set are as they
were, and so is every byte of a block that was in use, apart from the bytes
of the root's indirect pointer block when the root had one. -/
structure root_grown (s st : fs_ctx) (p v : Nat) : Prop where
  r_ni : st.sb.sb_num_inodes = s.sb.sb_num_inodes
  r_nb : st.sb.sb_num_blocks = s.sb.sb_num_blocks
  r_p : p < s.sb.sb_num_blocks
  r_clr : s.dbmap p = false
  r_it : ∀ k2 : Int, k2 ≠ 0 → st.itable k2 = s.itable k2
  r_n : (st.itable 0).i_blocks = (s.itable 0).i_blocks + 1
  r_old : ∀ j, j < (s.itable 0).i_blocks → file_blk st 0 j = file_blk s 0 j
  r_new : file_blk st 0 (s.itable 0).i_blocks = p
  r_img : ∀ x, s.dbmap (x / VSFS_BLOCK_SIZE) = true →
    (5 < (s.itable 0).i_blocks → x / VSFS_BLOCK_SIZE ≠ (s.itable 0).i_indirect) →
    st.image x = s.image x
  r_db : ∀ b, s.dbmap b = true → st.dbmap b = true
  r_dbp : st.dbmap p = true
  r_e0 : read32 st.image (dentry_addr p 0) = v
  r_rest : ∀ j, 1 ≤ j → j < dentry_per_blk → read32 st.image (dentry_addr p j) = VSFS_INO_MAX
  r_ind : (s.itable 0).i_blocks ≠ 5 →
    5 < (s.itable 0).i_blocks → (st.itable 0).i_indirect = (s.itable 0).i_indirect
  r_first : (s.itable 0).i_blocks = 5 →
    (st.itable 0).i_indirect < s.sb.sb_num_blocks ∧ s.dbmap (st.itable 0).i_indirect = false
    ∧ (st.itable 0).i_indirect ≠ p ∧ st.dbmap (st.itable 0).i_indirect = true

/-- The statements of `vsfs_create` that take the inode `inode_idx`: the bit
is set, the free inode count decremented and the slot initialised. -/
def create_init (now : Nat) (s : fs_ctx) (inode_idx mode : Nat) : fs_ctx :=
  { s with ibmap := bitmap_set s.ibmap s.sb.sb_num_blocks inode_idx true,
           sb := { s.sb with sb_free_inodes := dec32 s.sb.sb_free_inodes },
           itable := upd s.itable (inode_idx : Int)
             { zero_inode with i_mode := mode, i_nlink := 1, i_blocks := 0, i_size := 0,
                               i_mtime := now } }

/-- Logical block `j1` of inode `k1` is the data block of no other logical
block of an inode among the slots `0, 1, …` of the table. -/
def sole_ref (s : fs_ctx) (k1 j1 : Nat) : Prop :=
  ∀ k2 : Nat, k2 < s.sb.sb_num_inodes → ∀ j2, j2 < (s.itable (k2 : Int)).i_blocks →
    file_blk s (k1 : Int) j1 = file_blk s (k2 : Int) j2 → k1 = k2 ∧ j1 = j2

instance (s : fs_ctx) (k1 j1 : Nat) : Decidable (sole_ref s k1 j1) := by
  unfold sole_ref
  exact inferInstance
/-! ## The slots of the root directory -/

/-- The root directory as create and remove keep it: a free slot whose name
is not empty (its first byte is not NUL) is followed, in logical block order
and then slot order, by free slots only, and the inode number of every slot
in use is below `2^31` (path resolution returns it as an `int`). -/
structure dir_inv (s : fs_ctx) : Prop where
  stale : ∀ i j i2 j2, i < (s.itable 0).i_blocks → j < dentry_per_blk →
    i2 < (s.itable 0).i_blocks → j2 < dentry_per_blk → slot_before i j i2 j2 →
    read32 s.image (dentry_addr (file_blk s 0 i) j) = VSFS_INO_MAX →
    s.image (dentry_addr (file_blk s 0 i) j + 4) % 256 ≠ 0 →
    read32 s.image (dentry_addr (file_blk s 0 i2) j2) = VSFS_INO_MAX
  small : ∀ i j, i < (s.itable 0).i_blocks → j < dentry_per_blk →
    read32 s.image (dentry_addr (file_blk s 0 i) j) ≠ VSFS_INO_MAX →
    read32 s.image (dentry_addr (file_blk s 0 i) j) < 2147483648
/-! # Theorems -/

/-! ## Basic facts -/

@[simp] theorem upd_same {α β : Type} [DecidableEq α] (f : α → β) (a : α) (v : β) :
    upd f a v a = v := by
  simp [upd]

theorem upd_other {α β : Type} [DecidableEq α] (f : α → β) (a x : α) (v : β) (h : x ≠ a) :
    upd f a v x = f x := by
  simp [upd, h]

/-- A loop over `i = a, ..., a + len - 1` keeps an invariant that every
iteration keeps. -/
theorem foldl_range_inv {σ : Type} (P : Nat → σ → Prop) (f : σ → Nat → σ) (len a : Nat) (s0 : σ)
    (h0 : P a s0)
    (hstep : ∀ i s, a ≤ i → i < a + len → P i s → P (i + 1) (f s i)) :
    P (a + len) ((List.range' a len).foldl f s0) := by
  induction len generalizing a s0 with
  | zero => simpa using h0
  | succ n ih =>
    rw [List.range'_succ, List.foldl_cons]
    have h1 : P (a + 1) (f s0 a) := hstep a s0 (Nat.le_refl a) (by omega) h0
    have := ih (a + 1) (f s0 a) h1 (fun i s hi hlt hp => hstep i s (by omega) (by omega) hp)
    have e : a + 1 + n = a + (n + 1) := by omega
    rw [e] at this
    exact this

/-! ## Size change: requests beyond the addressing limit -/

/-- A request beyond `MAX_FILE_SIZE` on an existing file whose size is within
the limit is refused with EFBIG and the context is returned as it was. -/
theorem vsfs_truncate_efbig (u now : Nat) (s : fs_ctx) (path : List Nat) (size : Nat)
    (hex : 0 ≤ (path_lookup s path).1)
    (hsz : (s.itable (path_lookup s path).1).i_size ≤ MAX_FILE_SIZE)
    (hbig : 4214784 < size) :
    vsfs_truncate u now s path size = (-EFBIG, s) := by
  unfold vsfs_truncate
  have h1 : ¬ (path_lookup s path).1 < 0 := by omega
  have h2 : (s.itable (path_lookup s path).1).i_size ≠ size := by
    simp only [MAX_FILE_SIZE, VSFS_BLOCK_SIZE] at hsz
    omega
  have h3 : size > MAX_FILE_SIZE := by
    simp only [MAX_FILE_SIZE, VSFS_BLOCK_SIZE]
    omega
  simp [h1, h2, h3]

/-- C3: for an existing file (whose size is within the addressing limit) and
every new size greater than (5 + 1024) x 4096 = 4,214,784 bytes, `set_size`
fails with EFBIG and returns the context exactly as it was: size, block count,
bitmaps, superblock counters and block contents are unchanged. -/
theorem truncate_too_large_no_mutation (u now : Nat) (s : fs_ctx) (path : List Nat) (size : Nat)
    (hex : 0 ≤ (path_lookup s path).1)
    (hsz : (s.itable (path_lookup s path).1).i_size ≤ MAX_FILE_SIZE)
    (hbig : 4214784 < size) :
    vsfs_truncate u now s path size = (-EFBIG, s) :=
  vsfs_truncate_efbig u now s path size hex hsz hbig

/-! ## The block-count invariant of an inode -/

/-- A loop keeps a property of the loop state that every iteration keeps. -/
theorem foldl_keeps {σ : Type} (Q : σ → Prop) (f : σ → Nat → σ) (l : List Nat) (s0 : σ)
    (h0 : Q s0) (hstep : ∀ s i, Q s → Q (f s i)) : Q (l.foldl f s0) := by
  induction l generalizing s0 with
  | nil => simpa using h0
  | cons a t ih => exact ih (f s0 a) (hstep s0 a h0)

theorem extend_step_sizes (u : Nat) (ino : Int) (cur f_size : Nat) (st : fs_ctx × Bool) (i : Nat)
    (j : Int) :
    ((extend_step u ino cur f_size st i).1.itable j).i_blocks = (st.1.itable j).i_blocks
    ∧ ((extend_step u ino cur f_size st i).1.itable j).i_size = (st.1.itable j).i_size := by
  unfold extend_step alloc_zeroed_block
  simp only []
  by_cases hj : j = ino
  · subst hj
    split_ifs <;> simp [upd]
  · split_ifs <;> simp [upd, hj]

theorem release_block_sizes (ino : Int) (s : fs_ctx) (i : Nat) (j : Int) :
    ((release_block ino s i).itable j).i_blocks = (s.itable j).i_blocks
    ∧ ((release_block ino s i).itable j).i_size = (s.itable j).i_size := by
  unfold release_block
  simp only []
  by_cases hj : j = ino
  · subst hj
    split_ifs <;> simp [upd]
  · split_ifs <;> simp [upd, hj]

theorem shrink_step_sizes (ino : Int) (nb size : Nat) (s : fs_ctx) (i : Nat) (j : Int) :
    ((shrink_step ino nb size s i).itable j).i_blocks = (s.itable j).i_blocks
    ∧ ((shrink_step ino nb size s i).itable j).i_size = (s.itable j).i_size := by
  unfold shrink_step
  simp only []
  split_ifs
  · simp
  · exact release_block_sizes ino s i j

theorem div_round_up_le (size : Nat) (h : size ≤ MAX_FILE_SIZE) :
    div_round_up size VSFS_BLOCK_SIZE ≤ 1029 := by
  unfold div_round_up
  simp only [MAX_FILE_SIZE, VSFS_BLOCK_SIZE] at *
  omega

theorem extend_first_sizes (u : Nat) (s : fs_ctx) (ino j : Int) :
    ((extend_first u s ino).1.itable j).i_blocks = (s.itable j).i_blocks
    ∧ ((extend_first u s ino).1.itable j).i_size = (s.itable j).i_size := by
  unfold extend_first alloc_zeroed_block
  simp only []
  by_cases hj : j = ino
  · subst hj
    split_ifs <;> simp [upd]
  · split_ifs <;> simp [upd, hj]

theorem extend_fold_sizes (u : Nat) (ino : Int) (cur f_size : Nat) (j : Int) (l : List Nat)
    (st0 : fs_ctx × Bool) :
    (((l.foldl (extend_step u ino cur f_size) st0).1.itable j).i_blocks = (st0.1.itable j).i_blocks
    ∧ ((l.foldl (extend_step u ino cur f_size) st0).1.itable j).i_size
        = (st0.1.itable j).i_size) := by
  induction l generalizing st0 with
  | nil => exact ⟨rfl, rfl⟩
  | cons a t ih =>
    rw [List.foldl_cons]
    have h1 := ih (extend_step u ino cur f_size st0 a)
    have h2 := extend_step_sizes u ino cur f_size st0 a j
    exact ⟨h1.1.trans h2.1, h1.2.trans h2.2⟩

theorem extend_loop_sizes (u : Nat) (ino : Int) (s1 : fs_ctx) (cur nb : Nat) (j : Int) :
    ((extend_loop u ino s1 cur nb).1.itable j).i_blocks = (s1.itable j).i_blocks
    ∧ ((extend_loop u ino s1 cur nb).1.itable j).i_size = (s1.itable j).i_size := by
  unfold extend_loop
  exact extend_fold_sizes u ino cur _ j _ (s1, decide ((s1.itable ino).i_blocks > 5))

theorem shrink_loop_sizes (ino : Int) (s : fs_ctx) (size : Nat) (j : Int) :
    ((shrink_loop ino s size).itable j).i_blocks = (s.itable j).i_blocks
    ∧ ((shrink_loop ino s size).itable j).i_size = (s.itable j).i_size := by
  unfold shrink_loop
  simp only []
  split_ifs
  · refine @foldl_keeps fs_ctx
      (fun st => (st.itable j).i_blocks = (s.itable j).i_blocks
        ∧ (st.itable j).i_size = (s.itable j).i_size) _ _ _ ⟨rfl, rfl⟩ ?_
    intro st i hst
    have := release_block_sizes ino st i j
    rw [this.1, this.2]
    exact hst
  · refine @foldl_keeps fs_ctx
      (fun st => (st.itable j).i_blocks = (s.itable j).i_blocks
        ∧ (st.itable j).i_size = (s.itable j).i_size) _ _ _ ⟨rfl, rfl⟩ ?_
    intro st i hst
    have := shrink_step_sizes ino (div_round_up size VSFS_BLOCK_SIZE) size st i j
    rw [this.1, this.2]
    exact hst

theorem shrink_indirect_sizes (s : fs_ctx) (ino : Int) (nb cur : Nat) (j : Int) :
    ((shrink_indirect s ino nb cur).itable j).i_blocks = (s.itable j).i_blocks
    ∧ ((shrink_indirect s ino nb cur).itable j).i_size = (s.itable j).i_size := by
  unfold shrink_indirect
  simp only []
  by_cases hj : j = ino
  · subst hj
    split_ifs <;> simp [upd]
  · split_ifs <;> simp [upd, hj]

theorem set_size_fields_blocks_ok (now : Nat) (s : fs_ctx) (ino : Int) (size : Nat) (j : Int)
    (hsize : size ≤ MAX_FILE_SIZE) (h : blocks_ok (s.itable j)) :
    blocks_ok ((set_size_fields now s ino (div_round_up size VSFS_BLOCK_SIZE) size).itable j) := by
  have hnb := div_round_up_le size hsize
  unfold set_size_fields
  by_cases hj : j = ino
  · subst hj
    simp only [upd_same, blocks_ok]
    omega
  · simpa [upd_other _ _ _ _ hj] using h

theorem extending_file_blocks_ok (u now : Nat) (s : fs_ctx) (size : Nat) (ino j : Int)
    (hsize : size ≤ MAX_FILE_SIZE) (h : blocks_ok (s.itable j)) :
    blocks_ok ((extending_file u now s size ino).2.itable j) := by
  unfold extending_file
  simp only []
  split_ifs with h1 h2
  · exact h
  · exact h
  · apply set_size_fields_blocks_ok _ _ _ _ _ hsize
    unfold blocks_ok
    rw [(extend_loop_sizes u ino _ _ _ j).1, (extend_loop_sizes u ino _ _ _ j).2,
      (extend_first_sizes u s ino j).1, (extend_first_sizes u s ino j).2]
    exact h

theorem shrinking_file_blocks_ok (now : Nat) (s : fs_ctx) (size : Nat) (ino j : Int)
    (hsize : size ≤ MAX_FILE_SIZE) (h : blocks_ok (s.itable j)) :
    blocks_ok ((shrinking_file now s size ino).2.itable j) := by
  unfold shrinking_file
  simp only []
  apply set_size_fields_blocks_ok _ _ _ _ _ hsize
  unfold blocks_ok
  rw [(shrink_indirect_sizes _ ino _ _ j).1, (shrink_indirect_sizes _ ino _ _ j).2,
    (shrink_loop_sizes ino s size j).1, (shrink_loop_sizes ino s size j).2]
  exact h

theorem vsfs_truncate_blocks_ok (u now : Nat) (s : fs_ctx) (path : List Nat) (size : Nat) (j : Int)
    (h : blocks_ok (s.itable j)) :
    blocks_ok ((vsfs_truncate u now s path size).2.itable j) := by
  unfold vsfs_truncate
  simp only []
  split_ifs with h1 h2 h3 h4
  · exact h
  · exact h
  · exact h
  · exact shrinking_file_blocks_ok now s size _ j (by omega) h
  · exact extending_file_blocks_ok u now s size _ j (by omega) h

theorem vsfs_write_blocks_ok (u now : Nat) (s : fs_ctx) (path buf : List Nat) (offset : Nat)
    (j : Int) (h : blocks_ok (s.itable j)) :
    blocks_ok ((vsfs_write u now s path buf offset).2.itable j) := by
  have ht := vsfs_truncate_blocks_ok u now s path (buf.length + offset) j h
  unfold vsfs_write
  simp only []
  split_ifs with h1 h2 h3
  · exact ht
  · by_cases hj : j = (path_lookup s path).1
    · subst hj
      simpa [blocks_ok] using ht
    · simpa [blocks_ok, upd_other _ _ _ _ hj] using ht
  · omega
  · by_cases hj : j = (path_lookup s path).1
    · subst hj
      simpa [blocks_ok] using h
    · simpa [blocks_ok, upd_other _ _ _ _ hj] using h

theorem root_grow_blocks_ok (root : vsfs_inode) (h : blocks_ok root) (hlt : root.i_blocks < 1029) :
    inc32 root.i_blocks
      = div_round_up ((root.i_size + VSFS_BLOCK_SIZE) % 18446744073709551616) VSFS_BLOCK_SIZE := by
  unfold blocks_ok div_round_up at h
  unfold inc32 div_round_up
  simp only [VSFS_BLOCK_SIZE] at *
  omega

theorem root_cast : ((VSFS_ROOT_INO : Nat) : Int) = 0 := rfl

theorem create_dentry_blocks_ok (u : Nat) (s : fs_ctx) (inode_idx : Nat) (path : List Nat)
    (j : Int) (h : blocks_ok (s.itable j)) :
    blocks_ok ((create_dentry_for_newfile u s inode_idx path).2.itable j) := by
  unfold create_dentry_for_newfile
  simp only [root_cast]
  split
  · exact h
  · by_cases hj : j = 0
    · subst hj
      split_ifs with h1 h2 h3
      · simp only [upd_same, blocks_ok]
        exact root_grow_blocks_ok _ h (by simp only [VSFS_NUM_DIRECT] at h1; omega)
      · split
        · exact h
        · simp only [upd_same, blocks_ok]
          exact root_grow_blocks_ok _ h (by simp only [VSFS_NUM_DIRECT] at h2; omega)
      · simp only [upd_same, blocks_ok]
        exact root_grow_blocks_ok _ h (by omega)
      · exact h
    · split_ifs with h1 h2 h3
      · simpa only [upd_other _ _ _ _ hj] using h
      · split
        · exact h
        · simpa only [upd_other _ _ _ _ hj] using h
      · simpa only [upd_other _ _ _ _ hj] using h
      · exact h

theorem vsfs_create_blocks_ok (u now : Nat) (s : fs_ctx) (path : List Nat) (mode : Nat)
    (j : Int) (h : blocks_ok (s.itable j)) :
    blocks_ok ((vsfs_create u now s path mode).2.itable j) := by
  have hd : blocks_ok ((create_dentry_for_newfile u
      { s with ibmap := bitmap_set s.ibmap s.sb.sb_num_blocks
                 (alloc_idx u s.ibmap s.sb.sb_num_blocks) true,
               sb := { s.sb with sb_free_inodes := dec32 s.sb.sb_free_inodes },
               itable := upd s.itable ((alloc_idx u s.ibmap s.sb.sb_num_blocks : Nat) : Int)
                 { zero_inode with i_mode := mode, i_nlink := 1, i_blocks := 0, i_size := 0,
                                   i_mtime := now } }
      (alloc_idx u s.ibmap s.sb.sb_num_blocks) path).2.itable j) := by
    apply create_dentry_blocks_ok
    by_cases hj : j = ((alloc_idx u s.ibmap s.sb.sb_num_blocks : Nat) : Int)
    · subst hj
      simp only [upd_same, blocks_ok, div_round_up, VSFS_BLOCK_SIZE]
    · simpa only [upd_other _ _ _ _ hj] using h
  unfold vsfs_create
  simp only [root_cast]
  split_ifs with h1 h2 h3
  · exact h
  · exact h
  · exact hd
  · by_cases hj : j = 0
    · subst hj
      simp only [upd_same, blocks_ok]
      exact hd
    · simp only [upd_other _ _ _ _ hj]
      exact hd

/-- C7: an inode (a regular file or the root directory) whose block count
equals `ceil(size / 4096)` before `create`, `set_size`, `write` or the
creation of a directory entry still has block count equal to
`ceil(size / 4096)` when the operation has completed. -/
theorem mutating_ops_keep_blocks_ok (u now : Nat) (s : fs_ctx) (path buf : List Nat)
    (mode size offset inode_idx : Nat) (j : Int) (h : blocks_ok (s.itable j)) :
    blocks_ok ((vsfs_create u now s path mode).2.itable j)
    ∧ blocks_ok ((vsfs_truncate u now s path size).2.itable j)
    ∧ blocks_ok ((vsfs_write u now s path buf offset).2.itable j)
    ∧ blocks_ok ((create_dentry_for_newfile u s inode_idx path).2.itable j) :=
  ⟨vsfs_create_blocks_ok u now s path mode j h,
   vsfs_truncate_blocks_ok u now s path size j h,
   vsfs_write_blocks_ok u now s path buf offset j h,
   create_dentry_blocks_ok u s inode_idx path j h⟩

/-! ## Bytes of the image -/

theorem read32_congr (img img2 : Nat → Nat) (a : Nat)
    (h : ∀ x, a ≤ x → x < a + 4 → img2 x = img x) : read32 img2 a = read32 img a := by
  unfold read32
  rw [h a (by omega) (by omega), h (a + 1) (by omega) (by omega), h (a + 2) (by omega) (by omega),
    h (a + 3) (by omega) (by omega)]

theorem read32_lt (img : Nat → Nat) (a : Nat) : read32 img a < 4294967296 := by
  unfold read32
  omega

theorem read32_write32_same (img : Nat → Nat) (a v : Nat) :
    read32 (write32 img a v) a = v % 4294967296 := by
  unfold read32 write32
  simp
  omega

theorem write32_other (img : Nat → Nat) (a v x : Nat) (h : x < a ∨ a + 4 ≤ x) :
    write32 img a v x = img x := by
  unfold write32
  have h0 : x ≠ a := by omega
  have h1 : x ≠ a + 1 := by omega
  have h2 : x ≠ a + 2 := by omega
  have h3 : x ≠ a + 3 := by omega
  simp [h0, h1, h2, h3]

theorem memset_other (img : Nat → Nat) (a v len x : Nat) (h : x < a ∨ a + len ≤ x) :
    memset img a v len x = img x := by
  unfold memset
  have : ¬ (a ≤ x ∧ x < a + len) := by omega
  simp [this]

theorem memset_inside (img : Nat → Nat) (a v len x : Nat) (h1 : a ≤ x) (h2 : x < a + len) :
    memset img a v len x = v := by
  unfold memset
  simp [h1, h2]

/-! ## Shrinking across the direct/indirect boundary -/

theorem release_block_counters (ino : Int) (s : fs_ctx) (i : Nat) :
    (release_block ino s i).sb.sb_free_blocks = inc32 s.sb.sb_free_blocks
    ∧ ((release_block ino s i).itable ino).i_indirect = (s.itable ino).i_indirect := by
  unfold release_block
  simp only []
  split_ifs <;> simp [upd]

theorem shrink_step_counters (ino : Int) (nb size : Nat) (s : fs_ctx) (i : Nat) :
    (shrink_step ino nb size s i).sb.sb_free_blocks
      = (if i < nb then s.sb.sb_free_blocks else inc32 s.sb.sb_free_blocks)
    ∧ ((shrink_step ino nb size s i).itable ino).i_indirect = (s.itable ino).i_indirect := by
  unfold shrink_step
  simp only []
  split_ifs
  · simp
  · exact release_block_counters ino s i

theorem inc32_of_lt (x : Nat) (h : x + 1 < 4294967296) : inc32 x = x + 1 := by
  unfold inc32
  omega

/-- Counters after the loops of `shrinking_file`: one increment of the free
count for every block index from the new block count up to the old one. -/
theorem shrink_loop_counters (ino : Int) (s : fs_ctx) (size : Nat)
    (hle : div_round_up size VSFS_BLOCK_SIZE ≤ (s.itable ino).i_blocks)
    (hfree : s.sb.sb_free_blocks
      + ((s.itable ino).i_blocks - div_round_up size VSFS_BLOCK_SIZE) < 4294967296) :
    (shrink_loop ino s size).sb.sb_free_blocks
      = s.sb.sb_free_blocks + ((s.itable ino).i_blocks - div_round_up size VSFS_BLOCK_SIZE)
    ∧ ((shrink_loop ino s size).itable ino).i_indirect = (s.itable ino).i_indirect := by
  unfold shrink_loop
  simp only []
  generalize hnb : div_round_up size VSFS_BLOCK_SIZE = nb at *
  generalize hc : (s.itable ino).i_blocks = c at *
  split_ifs with h0
  · subst h0
    have := @foldl_range_inv fs_ctx
      (fun i st => i ≤ c → (st.sb.sb_free_blocks = s.sb.sb_free_blocks + i
        ∧ (st.itable ino).i_indirect = (s.itable ino).i_indirect))
      (release_block ino) c 0 s (fun _ => ⟨rfl, rfl⟩)
      (by
        intro i st _ hi hp _
        have hp := hp (by omega)
        have hr := release_block_counters ino st i
        rw [hr.1, hr.2, hp.1, hp.2, inc32_of_lt _ (by omega)]
        exact ⟨by omega, rfl⟩)
    simpa using this (by omega)
  · have := @foldl_range_inv fs_ctx
      (fun i st => i ≤ c → (st.sb.sb_free_blocks = s.sb.sb_free_blocks + (i - nb)
        ∧ (st.itable ino).i_indirect = (s.itable ino).i_indirect))
      (shrink_step ino nb size) (c - (nb - 1)) (nb - 1) s
      (fun _ => ⟨by omega, rfl⟩)
      (by
        intro i st _ hi hp _
        have hp := hp (by omega)
        have hr := shrink_step_counters ino nb size st i
        rw [hr.1, hr.2, hp.1, hp.2]
        split_ifs with hlt
        · exact ⟨by omega, rfl⟩
        · rw [inc32_of_lt _ (by omega)]
          exact ⟨by omega, rfl⟩)
    have e : nb - 1 + (c - (nb - 1)) = c := by omega
    rw [e] at this
    exact this (Nat.le_refl c)

/-- C9: for a file with block count `c > 5` and a smaller target size whose
block count `n` is at most 5 (size 0 included), `set_size` succeeds, clears
the data-bitmap bit of the file's former indirect pointer block, stores the
unassigned sentinel in the inode's indirect slot and increases the free block
count by exactly `(c - n) + 1`. -/
theorem shrink_below_boundary_frees_indirect (u now : Nat) (s : fs_ctx) (path : List Nat)
    (size : Nat) (k : Int) (hk : (path_lookup s path).1 = k) (hex : 0 ≤ k)
    (hc : 5 < (s.itable k).i_blocks)
    (hsize : size < (s.itable k).i_size)
    (hn : div_round_up size VSFS_BLOCK_SIZE ≤ 5)
    (hfree : s.sb.sb_free_blocks
      + ((s.itable k).i_blocks - div_round_up size VSFS_BLOCK_SIZE) + 1 < 4294967296) :
    (vsfs_truncate u now s path size).1 = 0
    ∧ (vsfs_truncate u now s path size).2.dbmap (s.itable k).i_indirect = false
    ∧ ((vsfs_truncate u now s path size).2.itable k).i_indirect = VSFS_BLK_UNASSIGNED
    ∧ (vsfs_truncate u now s path size).2.sb.sb_free_blocks
        = s.sb.sb_free_blocks
          + ((s.itable k).i_blocks - div_round_up size VSFS_BLOCK_SIZE) + 1 := by
  have hloop := shrink_loop_counters k s size (by omega) (by omega)
  have h1 : ¬ k < 0 := by omega
  have h2 : (s.itable k).i_size ≠ size := by omega
  have h3 : ¬ size > MAX_FILE_SIZE := by
    have : div_round_up size VSFS_BLOCK_SIZE ≤ 5 := hn
    unfold div_round_up at this
    simp only [MAX_FILE_SIZE, VSFS_BLOCK_SIZE] at *
    omega
  have h4 : (s.itable k).i_size > size := hsize
  have hcond : div_round_up size VSFS_BLOCK_SIZE ≤ 5 ∧ (s.itable k).i_blocks > 5 := ⟨hn, hc⟩
  unfold vsfs_truncate
  simp only [hk, h1, h2, h3, h4, if_true, if_false]
  unfold shrinking_file set_size_fields shrink_indirect
  simp only [hcond, and_self, if_true, upd_same, bitmap_free, hloop.1, hloop.2]
  refine ⟨trivial, trivial, trivial, ?_⟩
  rw [inc32_of_lt _ (by omega)]

/-! ## First match of a scan -/

/-- A scan `i = 0, ..., n - 1` for the first index with property `p`. -/
theorem find_range_spec (p : Nat → Bool) (n : Nat) :
    match (List.range n).find? p with
    | some i => i < n ∧ p i = true ∧ ∀ j, j < i → p j = false
    | none => ∀ j, j < n → p j = false := by
  induction n with
  | zero => simp
  | succ n ih =>
    rw [List.range_succ, List.find?_append]
    cases h : (List.range n).find? p with
    | some i =>
      rw [h] at ih
      simp only [Option.or_some]
      exact ⟨by omega, ih.2.1, ih.2.2⟩
    | none =>
      rw [h] at ih
      simp only [Option.none_or, List.find?_singleton]
      by_cases hp : p n = true
      · simp only [hp, if_true]
        exact ⟨by omega, trivial, ih⟩
      · simp only [hp]
        intro j hj
        by_cases hjn : j = n
        · subst hjn
          simpa using hp
        · exact ih j (by omega)

theorem find_range_some (p : Nat → Bool) (n i : Nat) (h : (List.range n).find? p = some i) :
    i < n ∧ p i = true ∧ ∀ j, j < i → p j = false := by
  have := find_range_spec p n
  rw [h] at this
  exact this

theorem find_range_none (p : Nat → Bool) (n : Nat) (h : (List.range n).find? p = none) :
    ∀ j, j < n → p j = false := by
  have := find_range_spec p n
  rw [h] at this
  exact this

theorem find_range_of_first (p : Nat → Bool) (n i : Nat) (hi : i < n) (hp : p i = true)
    (hfirst : ∀ j, j < i → p j = false) : (List.range n).find? p = some i := by
  have := find_range_spec p n
  cases h : (List.range n).find? p with
  | none =>
    rw [h] at this
    have := this i hi
    simp [hp] at this
  | some i2 =>
    rw [h] at this
    rcases Nat.lt_trichotomy i2 i with hlt | heq | hgt
    · have := hfirst i2 hlt
      simp [this] at *
    · rw [heq]
    · have := this.2.2 i hgt
      simp [hp] at this

/-- What a successful `path_lookup` of a file name returns: the entry `d` is
slot `j` of the root's logical block `i`, its name field compares equal to the
name, and the result is the entry's inode number as an `int`. -/
theorem path_lookup_some (s : fs_ctx) (path : List Nat) (k : Int) (d : Nat)
    (h : path_lookup s path = (k, some d)) :
    ∃ i j, i < (s.itable VSFS_ROOT_INO).i_blocks ∧ j < dentry_per_blk
      ∧ d = dentry_addr (blk_of s.image (s.itable VSFS_ROOT_INO) i) j
      ∧ strcmp_eq s.image (d + 4) path.tail = true
      ∧ k = toInt32 (read32 s.image d) := by
  unfold path_lookup at h
  cases path with
  | nil => simp at h
  | cons c name =>
    simp only [] at h
    split_ifs at h with h1 h2
    · simp at h
    · simp at h
    · split at h
      · rename_i d2 hfind
        simp only [Prod.mk.injEq, Option.some.injEq] at h
        obtain ⟨hk, hd⟩ := h
        subst hd
        obtain ⟨i, hi, hblk⟩ := List.exists_of_findSome?_eq_some hfind
        unfold lookup_in_block at hblk
        simp only [Option.map_eq_some'] at hblk
        obtain ⟨j, hj, hdj⟩ := hblk
        have hspec := find_range_some _ _ _ hj
        refine ⟨i, j, by simpa using hi, hspec.1, hdj.symm, ?_, hk.symm⟩
        rw [← hdj]
        exact hspec.2.1
      · simp at h

theorem unlink_image_blk_of (s : fs_ctx) (k : Int) (d j blk i : Nat)
    (hd : d = dentry_addr blk j) (hj : j < dentry_per_blk)
    (hi : i < 1029)
    (hdis : 5 ≤ i → (s.itable k).i_indirect ≠ blk) :
    blk_of (memset (write32 s.image d VSFS_INO_MAX) (d + 4) 0 VSFS_NAME_MAX) (s.itable k) i
      = blk_of s.image (s.itable k) i := by
  unfold blk_of
  split_ifs with h5
  · rfl
  · have hne := hdis (by simp only [VSFS_NUM_DIRECT] at h5; omega)
    apply read32_congr
    intro x hx1 hx2
    have hout : x < d ∨ d + 256 ≤ x := by
      subst hd
      unfold dentry_addr blk_addr at *
      simp only [dentry_per_blk, VSFS_BLOCK_SIZE, DENTRY_SIZE, VSFS_NAME_MAX, VSFS_NUM_DIRECT] at *
      rcases Nat.lt_or_ge (s.itable k).i_indirect blk with hlt | hge
      · left
        omega
      · right
        have : blk < (s.itable k).i_indirect := by omega
        omega
    rw [memset_other _ _ _ _ _ (by simp only [VSFS_NAME_MAX]; omega),
      write32_other _ _ _ _ (by omega)]

/-- Instance of C3 on the file `/foo` of `img_foo`. -/
theorem truncate_too_large_no_mutation_witness :
    vsfs_truncate 0 2 img_foo path_foo 4214785 = (-EFBIG, img_foo) :=
  truncate_too_large_no_mutation 0 2 img_foo path_foo 4214785 (by decide) (by decide) (by decide)

/-- Instance of C7 on inode 1 of `img_foo`. -/
theorem mutating_ops_keep_blocks_ok_witness :
    blocks_ok ((vsfs_create 0 2 img_foo path_x 33188).2.itable 1)
    ∧ blocks_ok ((vsfs_truncate 0 2 img_foo path_foo 28000).2.itable 1)
    ∧ blocks_ok ((vsfs_write 0 2 img_foo path_foo [1, 2, 3] 5000).2.itable 1)
    ∧ blocks_ok ((create_dentry_for_newfile 0 img_foo 2 path_x).2.itable 1) :=
  mutating_ops_keep_blocks_ok 0 2 img_foo path_foo [1, 2, 3] 33188 28000 5000 2 1 (by decide)
    |> fun h => ⟨vsfs_create_blocks_ok 0 2 img_foo path_x 33188 1 (by decide), h.2.1, h.2.2.1,
        create_dentry_blocks_ok 0 img_foo 2 path_x 1 (by decide)⟩

/-- Instance of C9: shrinking `/foo` of `img_foo7` from 7 blocks to 2. -/
theorem shrink_below_boundary_frees_indirect_witness :
    (vsfs_truncate 0 3 img_foo7 path_foo 4097).1 = 0
    ∧ (vsfs_truncate 0 3 img_foo7 path_foo 4097).2.dbmap (img_foo7.itable 1).i_indirect = false
    ∧ ((vsfs_truncate 0 3 img_foo7 path_foo 4097).2.itable 1).i_indirect = VSFS_BLK_UNASSIGNED
    ∧ (vsfs_truncate 0 3 img_foo7 path_foo 4097).2.sb.sb_free_blocks
        = img_foo7.sb.sb_free_blocks
          + ((img_foo7.itable 1).i_blocks - div_round_up 4097 VSFS_BLOCK_SIZE) + 1 :=
  shrink_below_boundary_frees_indirect 0 3 img_foo7 path_foo 4097 1 (by decide) (by decide)
    (by decide) (by decide) (by decide) (by decide)

/-- C15: a read whose offset is greater than or equal to the file's current
size (every read of an empty file included) returns the zero-length result 0
and copies nothing into the caller's buffer; `vsfs_read` has no effect on the
context. -/
theorem read_at_or_past_eof (s : fs_ctx) (path : List Nat) (size offset : Nat)
    (h : (s.itable (path_lookup s path).1).i_size ≤ offset) :
    vsfs_read s path size offset = (0, []) := by
  unfold vsfs_read
  simp only [ge_iff_le, h, if_true]

/-- Instance of C15: a read at offset 5 of the 5-byte file of `img_foo5`. -/
theorem read_at_or_past_eof_witness : vsfs_read img_foo5 path_foo 100 5 = (0, []) :=
  read_at_or_past_eof img_foo5 path_foo 100 5 (by decide)

/-- C14 (evaluation at the failing input): the file `/foo` of `img_foo5` has
5 bytes and one block, and a read of 100 bytes at offset 0 returns 100 bytes,
more than the 5 bytes between the offset and the end of the file. -/
theorem read_returns_bytes_past_eof :
    (img_foo5.itable (path_lookup img_foo5 path_foo).1).i_size = 5
    ∧ (vsfs_read img_foo5 path_foo 100 0).1 = 100
    ∧ (vsfs_read img_foo5 path_foo 100 0).2.length = 100 := by
  decide

/-! ## Reuse of a freed slot and of a freed inode number -/

/-- C12 (counterexample): in `img_only_x` inode 1 is free and `/x` has inode
number 2.  `remove("/x")` succeeds and frees inode number 2; the next
`create("/foo")` succeeds and its directory entry carries inode number 1. -/
theorem create_after_remove_takes_lowest_inode :
    (path_lookup img_only_x path_x).1 = 2
    ∧ (vsfs_unlink 0 4 img_only_x path_x).1 = 0
    ∧ (vsfs_unlink 0 4 img_only_x path_x).2.ibmap 2 = false
    ∧ (vsfs_create 0 5 (vsfs_unlink 0 4 img_only_x path_x).2 path_foo 33188).1 = 0
    ∧ (path_lookup (vsfs_create 0 5 (vsfs_unlink 0 4 img_only_x path_x).2 path_foo 33188).2
        path_foo).1 = 1 := by
  decide

/-! ## Failed and successful grow requests -/

theorem vsfs_truncate_error_keeps (u now : Nat) (s : fs_ctx) (path : List Nat) (size : Nat)
    (h : (vsfs_truncate u now s path size).1 < 0) : (vsfs_truncate u now s path size).2 = s := by
  unfold vsfs_truncate at h ⊢
  simp only [] at h ⊢
  split_ifs at h ⊢ with h1 h2 h3 h4
  · rfl
  · rfl
  · rfl
  · unfold shrinking_file at h
    simp at h
  · unfold extending_file at h ⊢
    simp only [] at h ⊢
    split_ifs at h ⊢
    · rfl
    · rfl
    · simp at h

/-- C18: when the range of a write extends past the file's current size and
the grow it requires fails with ENOSPC or with EFBIG, `write` returns that
same error and the context is exactly as before the call: no byte of the
image, and no size, block count or modification time, has changed.  In
particular a write on an existing file whose `offset + length` exceeds
4,214,784 yields EFBIG. -/
theorem write_failed_grow_no_mutation (u now : Nat) (s : fs_ctx) (path buf : List Nat)
    (offset : Nat)
    (hpast : (s.itable (path_lookup s path).1).i_size < buf.length + offset)
    (herr : (vsfs_truncate u now s path (buf.length + offset)).1 = -ENOSPC
      ∨ (vsfs_truncate u now s path (buf.length + offset)).1 = -EFBIG) :
    vsfs_write u now s path buf offset
      = ((vsfs_truncate u now s path (buf.length + offset)).1, s)
    ∧ (0 ≤ (path_lookup s path).1 → (s.itable (path_lookup s path).1).i_size ≤ MAX_FILE_SIZE →
        4214784 < buf.length + offset → vsfs_write u now s path buf offset = (-EFBIG, s)) := by
  have hneg : (vsfs_truncate u now s path (buf.length + offset)).1 < 0 := by
    rcases herr with h | h <;> rw [h] <;> decide
  have hkeep := vsfs_truncate_error_keeps u now s path (buf.length + offset) hneg
  have hw : vsfs_write u now s path buf offset
      = ((vsfs_truncate u now s path (buf.length + offset)).1, s) := by
    unfold vsfs_write
    have hgt : buf.length + offset > (s.itable (path_lookup s path).1).i_size := hpast
    simp only [hgt, if_true, hneg]
    exact Prod.ext rfl hkeep
  refine ⟨hw, ?_⟩
  intro hex hsz hbig
  rw [hw, vsfs_truncate_efbig u now s path _ hex hsz hbig]

/-- Instance of C18: a 5-byte write at offset 4,214,784 to `/foo` of
`img_foo`. -/
theorem write_failed_grow_no_mutation_witness :
    vsfs_write 0 2 img_foo path_foo [1, 2, 3, 4, 5] 4214784 = (-EFBIG, img_foo) :=
  ((write_failed_grow_no_mutation 0 2 img_foo path_foo [1, 2, 3, 4, 5] 4214784 (by decide)
    (Or.inr (by decide))).2 (by decide) (by decide) (by decide))

theorem sub64_of_le (x y : Nat) (h : y ≤ x) : sub64 x y = x - y := by
  unfold sub64
  simp [h]

/-- C16: for a file with block count `c` (equal to `ceil(size / 4096)`) and a
larger target size with block count `n <= 1029`: if the number of blocks the
grow needs, `(n - c)` plus 1 when `c <= 5 < n`, exceeds the free block count
of the superblock, `set_size` fails with ENOSPC and the context is unchanged;
otherwise `set_size` succeeds. -/
theorem grow_space_check (u now : Nat) (s : fs_ctx) (path : List Nat) (size : Nat) (k : Int)
    (hk : (path_lookup s path).1 = k) (hex : 0 ≤ k)
    (hok : blocks_ok (s.itable k))
    (hgrow : (s.itable k).i_size < size)
    (hmax : div_round_up size VSFS_BLOCK_SIZE ≤ 1029) :
    (s.sb.sb_free_blocks
        < (div_round_up size VSFS_BLOCK_SIZE - (s.itable k).i_blocks)
          + (if (s.itable k).i_blocks ≤ 5 ∧ 5 < div_round_up size VSFS_BLOCK_SIZE then 1 else 0) →
      vsfs_truncate u now s path size = (-ENOSPC, s))
    ∧ ((div_round_up size VSFS_BLOCK_SIZE - (s.itable k).i_blocks)
          + (if (s.itable k).i_blocks ≤ 5 ∧ 5 < div_round_up size VSFS_BLOCK_SIZE then 1 else 0)
        ≤ s.sb.sb_free_blocks →
      (vsfs_truncate u now s path size).1 = 0) := by
  have h1 : ¬ k < 0 := by omega
  have h2 : (s.itable k).i_size ≠ size := by omega
  have h3 : ¬ size > MAX_FILE_SIZE := by
    unfold div_round_up at hmax
    simp only [MAX_FILE_SIZE, VSFS_BLOCK_SIZE] at *
    omega
  have h4 : ¬ (s.itable k).i_size > size := by omega
  have hle : (s.itable k).i_blocks ≤ div_round_up size VSFS_BLOCK_SIZE := by
    unfold blocks_ok at hok
    rw [hok]
    unfold div_round_up
    simp only [VSFS_BLOCK_SIZE]
    omega
  have htr : vsfs_truncate u now s path size = extending_file u now s size k := by
    unfold vsfs_truncate
    simp only [hk, h1, h2, h3, h4, if_false]
  rw [htr]
  unfold extending_file
  simp only [sub64_of_le _ _ hle, VSFS_NUM_DIRECT]
  generalize div_round_up size VSFS_BLOCK_SIZE = n at *
  generalize (s.itable k).i_blocks = c at *
  constructor
  · intro hlt
    by_cases hb : c ≤ 5 ∧ 5 < n
    · simp only [hb, and_self, if_true] at hlt
      by_cases hc1 : n - c > s.sb.sb_free_blocks
      · simp only [hc1, if_true]
      · have hc2 : c ≤ 5 ∧ n > 5 ∧ (n - c + 1) % 18446744073709551616 > s.sb.sb_free_blocks :=
          ⟨hb.1, hb.2, by omega⟩
        simp only [hc1, hc2, and_self, if_true, if_false]
    · simp only [hb, if_false] at hlt
      have hc1 : n - c > s.sb.sb_free_blocks := by omega
      simp only [hc1, if_true]
  · intro hge
    have hc1 : ¬ n - c > s.sb.sb_free_blocks := by
      split_ifs at hge <;> omega
    have hc2 : ¬ (c ≤ 5 ∧ n > 5 ∧ (n - c + 1) % 18446744073709551616 > s.sb.sb_free_blocks) := by
      intro hcon
      have hb : c ≤ 5 ∧ 5 < n := ⟨hcon.1, hcon.2.1⟩
      simp only [hb, and_self, if_true] at hge
      omega
    simp only [hc1, hc2, if_false]

/-- Instance of C16: growing the empty file `/aa` of `img_full5_tight`, which
has no free block, to 5 bytes. -/
theorem grow_space_check_witness :
    vsfs_truncate 0 2 img_full5_tight path_aa 5 = (-ENOSPC, img_full5_tight) :=
  (grow_space_check 0 2 img_full5_tight path_aa 5 1 (by decide) (by decide) (by decide)
    (by decide) (by decide)).1 (by decide)

/-! ## Counters of a grow -/

theorem dec32_of_pos (x : Nat) (h : 0 < x) : dec32 x = x - 1 := by
  unfold dec32
  have : x ≠ 0 := by omega
  simp [this]

theorem sub64_one (x : Nat) (h : 1 ≤ x) : sub64 x 1 = x - 1 := sub64_of_le x 1 h

theorem extend_step_counters (u : Nat) (ino : Int) (cur f_size : Nat) (st : fs_ctx × Bool)
    (i : Nat) :
    (extend_step u ino cur f_size st i).1.sb.sb_free_blocks
      = (if i < 5 then (if i < cur then st.1.sb.sb_free_blocks else dec32 st.1.sb.sb_free_blocks)
         else if i < cur then (if st.2 = false then dec32 st.1.sb.sb_free_blocks
                               else st.1.sb.sb_free_blocks)
         else dec32 (if st.2 = false then dec32 st.1.sb.sb_free_blocks
                     else st.1.sb.sb_free_blocks))
    ∧ (extend_step u ino cur f_size st i).2 = (if i < 5 then st.2 else true)
    ∧ (extend_step u ino cur f_size st i).1.sb.sb_num_blocks = st.1.sb.sb_num_blocks
    ∧ (extend_step u ino cur f_size st i).1.sb.sb_free_inodes = st.1.sb.sb_free_inodes
    ∧ (extend_step u ino cur f_size st i).1.sb.sb_num_inodes = st.1.sb.sb_num_inodes
    ∧ (extend_step u ino cur f_size st i).1.ibmap = st.1.ibmap := by
  unfold extend_step alloc_zeroed_block
  simp only [VSFS_NUM_DIRECT]
  split_ifs <;> simp

theorem extend_step_arith (F F1 cur new i : Nat) (flag0 : Bool) (h1 : cur - 1 ≤ i)
    (h2 : i + 1 ≤ new) (hcur : 1 ≤ cur) (hflag : flag0 = false → cur ≤ 5)
    (hfree : (new - cur) + (if flag0 = false ∧ 5 < new then 1 else 0) ≤ F1)
    (hinv : F + ((i - cur) + (if flag0 = false ∧ 5 < i then 1 else 0)) = F1) :
    (if i < 5 then (if i < cur then F else dec32 F)
     else if i < cur then (if (flag0 || decide (5 < i)) = false then dec32 F else F)
     else dec32 (if (flag0 || decide (5 < i)) = false then dec32 F else F))
      + ((i + 1 - cur) + (if flag0 = false ∧ 5 < i + 1 then 1 else 0)) = F1 := by
  unfold dec32
  cases flag0
  · have hc := hflag rfl
    simp only [true_and, Bool.false_or, decide_eq_false_iff_not, not_lt] at *
    split_ifs at * <;> omega
  · simp only [Bool.true_or, Bool.true_eq_false, false_and, if_false] at *
    split_ifs at * <;> omega

theorem extend_flag_arith (flag0 : Bool) (i : Nat) :
    (if i < 5 then (flag0 || decide (5 < i)) else true) = (flag0 || decide (5 < i + 1)) := by
  by_cases h5 : i < 5
  · have n1 : ¬ 5 < i := by omega
    have n2 : ¬ 5 < i + 1 := by omega
    simp [h5, n1, n2]
  · have n2 : 5 < i + 1 := by omega
    simp [h5, n2]

/-- Counters after the loop of `extending_file`, started at `cur - 1` with
`free` free blocks: one decrement for every block index from `cur` up to
`new`, and one more for the indirect pointer block when the flag was clear
and the loop passes index 5. -/
theorem extend_fold_counters (u : Nat) (ino : Int) (cur f_size new : Nat) (s1 : fs_ctx)
    (flag : Bool) (hcur : 1 ≤ cur) (hnew : cur ≤ new)
    (hflag : flag = false → cur ≤ 5)
    (hfree : (new - cur) + (if flag = false ∧ 5 < new then 1 else 0) ≤ s1.sb.sb_free_blocks) :
    ((List.range' (cur - 1) (new - (cur - 1))).foldl (extend_step u ino cur f_size)
        (s1, flag)).1.sb.sb_free_blocks
      + ((new - cur) + (if flag = false ∧ 5 < new then 1 else 0)) = s1.sb.sb_free_blocks
    ∧ ((List.range' (cur - 1) (new - (cur - 1))).foldl (extend_step u ino cur f_size)
        (s1, flag)).1.sb.sb_num_blocks = s1.sb.sb_num_blocks := by
  have := @foldl_range_inv (fs_ctx × Bool)
    (fun i st => i ≤ new →
      (st.1.sb.sb_free_blocks + ((i - cur) + (if flag = false ∧ 5 < i then 1 else 0))
          = s1.sb.sb_free_blocks
        ∧ st.2 = (flag || decide (5 < i))
        ∧ st.1.sb.sb_num_blocks = s1.sb.sb_num_blocks))
    (extend_step u ino cur f_size) (new - (cur - 1)) (cur - 1) (s1, flag)
    (by
      intro _
      have h5 : ¬ (flag = false ∧ 5 < cur - 1) := by
        intro hc
        have := hflag hc.1
        omega
      have hsub : cur - 1 - cur = 0 := by omega
      refine ⟨?_, ?_, rfl⟩
      · simp only [h5, if_false, hsub, Nat.add_zero]
      · cases flag
        · have : ¬ 5 < cur - 1 := by
            have := hflag rfl
            omega
          simp [this]
        · simp)
    (by
      intro i st hlo hhi hp hle
      obtain ⟨hp1, hp2, hp3⟩ := hp (by omega)
      obtain ⟨hs1, hs2, hs3, _⟩ := extend_step_counters u ino cur f_size st i
      rw [hs1, hs2, hs3, hp2]
      exact ⟨extend_step_arith _ _ cur new i flag hlo hle hcur hflag hfree hp1,
        extend_flag_arith flag i, hp3⟩)
  have e : cur - 1 + (new - (cur - 1)) = new := by omega
  rw [e] at this
  obtain ⟨h1, _, h3⟩ := this (Nat.le_refl new)
  exact ⟨h1, h3⟩

theorem extend_loop_counters (u : Nat) (ino : Int) (s1 : fs_ctx) (cur new : Nat)
    (hcur : 1 ≤ cur) (hnew : cur ≤ new)
    (hflag : (s1.itable ino).i_blocks ≤ 5 → cur ≤ 5)
    (hfree : (new - cur) + (if (s1.itable ino).i_blocks ≤ 5 ∧ 5 < new then 1 else 0)
      ≤ s1.sb.sb_free_blocks) :
    (extend_loop u ino s1 cur new).1.sb.sb_free_blocks
      + ((new - cur) + (if (s1.itable ino).i_blocks ≤ 5 ∧ 5 < new then 1 else 0))
      = s1.sb.sb_free_blocks
    ∧ (extend_loop u ino s1 cur new).1.sb.sb_num_blocks = s1.sb.sb_num_blocks := by
  rw [extend_loop, sub64_one cur hcur]
  have hiff : ∀ n : Nat, (decide ((s1.itable ino).i_blocks > 5) = false ∧ 5 < n)
      ↔ ((s1.itable ino).i_blocks ≤ 5 ∧ 5 < n) := by
    intro n
    simp
  have := extend_fold_counters u ino cur (s1.itable ino).i_size new s1
    (decide ((s1.itable ino).i_blocks > 5)) hcur hnew
    (by
      intro h
      apply hflag
      simpa using h)
    (by
      rw [if_congr (hiff new) rfl rfl]
      exact hfree)
  rw [if_congr (hiff new) rfl rfl] at this
  exact this

theorem extend_first_counters (u : Nat) (s : fs_ctx) (ino : Int) :
    (extend_first u s ino).1.sb.sb_free_blocks
      = (if (s.itable ino).i_size = 0 then dec32 s.sb.sb_free_blocks else s.sb.sb_free_blocks)
    ∧ (extend_first u s ino).2
      = (if (s.itable ino).i_size = 0 then 1 else (s.itable ino).i_blocks)
    ∧ (extend_first u s ino).1.sb.sb_num_blocks = s.sb.sb_num_blocks := by
  unfold extend_first alloc_zeroed_block
  split_ifs with h
  · simp [h, div_round_up, VSFS_BLOCK_SIZE]
  · simp

/-- Counters and inode fields after a successful `extending_file` on a file
whose block count `c` equals `ceil(size / 4096)`: the free block count drops
by `(n - c)`, plus 1 when `c <= 5 < n`. -/
theorem extending_file_counters (u now : Nat) (s : fs_ctx) (size : Nat) (k : Int)
    (hok : blocks_ok (s.itable k))
    (hgrow : (s.itable k).i_size < size)
    (hmax : div_round_up size VSFS_BLOCK_SIZE ≤ 1029)
    (hfree : (div_round_up size VSFS_BLOCK_SIZE - (s.itable k).i_blocks)
          + (if (s.itable k).i_blocks ≤ 5 ∧ 5 < div_round_up size VSFS_BLOCK_SIZE then 1 else 0)
        ≤ s.sb.sb_free_blocks) :
    (extending_file u now s size k).1 = 0
    ∧ (extending_file u now s size k).2.sb.sb_free_blocks
        + ((div_round_up size VSFS_BLOCK_SIZE - (s.itable k).i_blocks)
          + (if (s.itable k).i_blocks ≤ 5 ∧ 5 < div_round_up size VSFS_BLOCK_SIZE then 1 else 0))
        = s.sb.sb_free_blocks
    ∧ ((extending_file u now s size k).2.itable k).i_blocks = div_round_up size VSFS_BLOCK_SIZE
    ∧ ((extending_file u now s size k).2.itable k).i_size = size
    ∧ (extending_file u now s size k).2.sb.sb_num_blocks = s.sb.sb_num_blocks := by
  have hle : (s.itable k).i_blocks ≤ div_round_up size VSFS_BLOCK_SIZE := by
    unfold blocks_ok at hok
    rw [hok]
    unfold div_round_up
    simp only [VSFS_BLOCK_SIZE]
    omega
  have hn1 : 1 ≤ div_round_up size VSFS_BLOCK_SIZE := by
    unfold div_round_up
    simp only [VSFS_BLOCK_SIZE]
    omega
  have hsz0 : (s.itable k).i_size = 0 ↔ (s.itable k).i_blocks = 0 := by
    unfold blocks_ok div_round_up at hok
    simp only [VSFS_BLOCK_SIZE] at hok
    omega
  obtain ⟨f1, f2, f3⟩ := extend_first_counters u s k
  have hb1 := (extend_first_sizes u s k k).1
  have hc1 : ¬ sub64 (div_round_up size VSFS_BLOCK_SIZE) (s.itable k).i_blocks
      > s.sb.sb_free_blocks := by
    rw [sub64_of_le _ _ hle]
    split_ifs at hfree <;> omega
  have hc2 : ¬ ((s.itable k).i_blocks ≤ VSFS_NUM_DIRECT
      ∧ div_round_up size VSFS_BLOCK_SIZE > VSFS_NUM_DIRECT
      ∧ (sub64 (div_round_up size VSFS_BLOCK_SIZE) (s.itable k).i_blocks + 1)
          % 18446744073709551616 > s.sb.sb_free_blocks) := by
    rw [sub64_of_le _ _ hle]
    simp only [VSFS_NUM_DIRECT]
    intro hcon
    have hb : (s.itable k).i_blocks ≤ 5 ∧ 5 < div_round_up size VSFS_BLOCK_SIZE :=
      ⟨hcon.1, hcon.2.1⟩
    simp only [hb, and_self, if_true] at hfree
    omega
  have key : ∀ cur1 F1 : Nat, (extend_first u s k).2 = cur1 →
      (extend_first u s k).1.sb.sb_free_blocks = F1 → 1 ≤ cur1 →
      cur1 ≤ div_round_up size VSFS_BLOCK_SIZE → ((s.itable k).i_blocks ≤ 5 → cur1 ≤ 5) →
      F1 + (cur1 - (s.itable k).i_blocks) = s.sb.sb_free_blocks →
      (s.itable k).i_blocks ≤ cur1 →
      (extend_loop u k (extend_first u s k).1 (extend_first u s k).2
          (div_round_up size VSFS_BLOCK_SIZE)).1.sb.sb_free_blocks
        + ((div_round_up size VSFS_BLOCK_SIZE - (s.itable k).i_blocks)
          + (if (s.itable k).i_blocks ≤ 5 ∧ 5 < div_round_up size VSFS_BLOCK_SIZE then 1 else 0))
        = s.sb.sb_free_blocks
      ∧ (extend_loop u k (extend_first u s k).1 (extend_first u s k).2
          (div_round_up size VSFS_BLOCK_SIZE)).1.sb.sb_num_blocks = s.sb.sb_num_blocks := by
    intro cur1 F1 e2 e1 h1 h2 h3 h4 h5
    have hloop := extend_loop_counters u k (extend_first u s k).1 (extend_first u s k).2
      (div_round_up size VSFS_BLOCK_SIZE) (by rw [e2]; exact h1) (by rw [e2]; exact h2)
      (by rw [e2, hb1]; exact h3)
      (by
        rw [e1, e2, hb1]
        split_ifs at hfree ⊢ <;> omega)
    rw [e1, e2, hb1] at hloop
    rw [e2]
    refine ⟨?_, hloop.2.trans f3⟩
    have h := hloop.1
    split_ifs at h hfree ⊢ <;> omega
  have hres : (extend_loop u k (extend_first u s k).1 (extend_first u s k).2
          (div_round_up size VSFS_BLOCK_SIZE)).1.sb.sb_free_blocks
        + ((div_round_up size VSFS_BLOCK_SIZE - (s.itable k).i_blocks)
          + (if (s.itable k).i_blocks ≤ 5 ∧ 5 < div_round_up size VSFS_BLOCK_SIZE then 1 else 0))
        = s.sb.sb_free_blocks
      ∧ (extend_loop u k (extend_first u s k).1 (extend_first u s k).2
          (div_round_up size VSFS_BLOCK_SIZE)).1.sb.sb_num_blocks = s.sb.sb_num_blocks := by
    by_cases h0 : (s.itable k).i_size = 0
    · have hc0 : (s.itable k).i_blocks = 0 := hsz0.1 h0
      rw [if_pos h0] at f1 f2
      have hpos : 0 < s.sb.sb_free_blocks := by
        split_ifs at hfree <;> omega
      exact key 1 (s.sb.sb_free_blocks - 1) f2 (by rw [f1, dec32_of_pos _ hpos]) (by omega)
        hn1 (by omega) (by omega) (by omega)
    · have hc0 : (s.itable k).i_blocks ≠ 0 := fun h => h0 (hsz0.2 h)
      rw [if_neg h0] at f1 f2
      exact key _ _ f2 f1 (by omega) hle (fun h => h) (by omega) (Nat.le_refl _)
  unfold extending_file
  simp only [hc1, hc2, if_false, set_size_fields, upd_same]
  exact ⟨trivial, hres.1, by omega, trivial, hres.2⟩

/-- C4: for an empty file (size 0, block count 0) in an image with at least
1030 free blocks, `set_size(path, 4214784)` succeeds and leaves the file with
size 4214784 and block count 1029, and the free block count of the superblock
decreases by exactly 1030 (1029 data blocks and the indirect pointer block);
`set_size(path, 4214785)` on the same file fails with EFBIG, before the grow
and (when the path still resolves to the file) after it. -/
theorem grow_empty_file_to_max (u now : Nat) (s : fs_ctx) (path : List Nat) (k : Int)
    (hk : (path_lookup s path).1 = k) (hex : 0 ≤ k)
    (hsz : (s.itable k).i_size = 0) (hbl : (s.itable k).i_blocks = 0)
    (hfree : 1030 ≤ s.sb.sb_free_blocks) :
    (vsfs_truncate u now s path 4214784).1 = 0
    ∧ ((vsfs_truncate u now s path 4214784).2.itable k).i_size = 4214784
    ∧ ((vsfs_truncate u now s path 4214784).2.itable k).i_blocks = 1029
    ∧ (vsfs_truncate u now s path 4214784).2.sb.sb_free_blocks + 1030 = s.sb.sb_free_blocks
    ∧ vsfs_truncate u now s path 4214785 = (-EFBIG, s)
    ∧ ((path_lookup (vsfs_truncate u now s path 4214784).2 path).1 = k →
        vsfs_truncate u now (vsfs_truncate u now s path 4214784).2 path 4214785
          = (-EFBIG, (vsfs_truncate u now s path 4214784).2)) := by
  have hn : div_round_up 4214784 VSFS_BLOCK_SIZE = 1029 := by decide
  have hok : blocks_ok (s.itable k) := by
    unfold blocks_ok
    rw [hsz, hbl]
    decide
  have hc := extending_file_counters u now s 4214784 k hok (by omega) (by rw [hn])
    (by rw [hn, hbl]; simp; omega)
  rw [hn, hbl] at hc
  have htr : vsfs_truncate u now s path 4214784 = extending_file u now s 4214784 k := by
    unfold vsfs_truncate
    have h1 : ¬ k < 0 := by omega
    simp only [hk, h1, hsz, if_false]
    simp [MAX_FILE_SIZE, VSFS_BLOCK_SIZE]
  rw [htr]
  obtain ⟨c1, c2, c3, c4, _⟩ := hc
  refine ⟨c1, c4, c3, ?_, ?_, ?_⟩
  · simp at c2
    omega
  · exact vsfs_truncate_efbig u now s path 4214785 (by rw [hk]; exact hex)
      (by rw [hk, hsz]; simp) (by omega)
  · intro hk2
    exact vsfs_truncate_efbig u now _ path 4214785 (by rw [hk2]; exact hex)
      (by rw [hk2, c4]; decide) (by omega)

/-- Instance of C4 on the empty file `/foo` of `img_big_foo`. -/
theorem grow_empty_file_to_max_witness :
    (vsfs_truncate 0 2 img_big_foo path_foo 4214784).1 = 0
    ∧ ((vsfs_truncate 0 2 img_big_foo path_foo 4214784).2.itable 1).i_size = 4214784
    ∧ ((vsfs_truncate 0 2 img_big_foo path_foo 4214784).2.itable 1).i_blocks = 1029
    ∧ (vsfs_truncate 0 2 img_big_foo path_foo 4214784).2.sb.sb_free_blocks + 1030
        = img_big_foo.sb.sb_free_blocks
    ∧ vsfs_truncate 0 2 img_big_foo path_foo 4214785 = (-EFBIG, img_big_foo) :=
  (grow_empty_file_to_max 0 2 img_big_foo path_foo 1 (by decide) (by decide) (by decide)
    (by decide) (by decide))
    |> fun h => ⟨h.1, h.2.1, h.2.2.1, h.2.2.2.1, h.2.2.2.2.1⟩

/-! ## The context after a remove -/

theorem unlink_blocks_frame (s : fs_ctx) (ino : Int) :
    (unlink_blocks s ino).image = s.image ∧ (unlink_blocks s ino).itable = s.itable
    ∧ (unlink_blocks s ino).ibmap = s.ibmap
    ∧ (unlink_blocks s ino).sb.sb_free_inodes = s.sb.sb_free_inodes
    ∧ (unlink_blocks s ino).sb.sb_num_blocks = s.sb.sb_num_blocks
    ∧ (unlink_blocks s ino).sb.sb_num_inodes = s.sb.sb_num_inodes := by
  have hl : ∀ l : List Nat,
      (l.foldl (unlink_step ino) s).image = s.image
      ∧ (l.foldl (unlink_step ino) s).itable = s.itable
      ∧ (l.foldl (unlink_step ino) s).ibmap = s.ibmap
      ∧ (l.foldl (unlink_step ino) s).sb.sb_free_inodes = s.sb.sb_free_inodes
      ∧ (l.foldl (unlink_step ino) s).sb.sb_num_blocks = s.sb.sb_num_blocks
      ∧ (l.foldl (unlink_step ino) s).sb.sb_num_inodes = s.sb.sb_num_inodes := by
    intro l
    refine @foldl_keeps fs_ctx (fun st => st.image = s.image ∧ st.itable = s.itable
      ∧ st.ibmap = s.ibmap ∧ st.sb.sb_free_inodes = s.sb.sb_free_inodes
      ∧ st.sb.sb_num_blocks = s.sb.sb_num_blocks
      ∧ st.sb.sb_num_inodes = s.sb.sb_num_inodes) _ l s ⟨rfl, rfl, rfl, rfl, rfl, rfl⟩ ?_
    intro st i h
    unfold unlink_step
    exact h
  have h := hl (List.range' 0 (s.itable ino).i_blocks)
  unfold unlink_blocks
  simp only []
  split_ifs
  · exact h
  · exact h

/-- The context after a successful `vsfs_unlink`, component by component
(the data bitmap and the free block count are described by
`unlink_blocks_spec`). -/
theorem vsfs_unlink_state (u now : Nat) (s : fs_ctx) (path : List Nat) (k : Int) (d : Nat)
    (hl : path_lookup s path = (k, some d)) (hk : 0 ≤ k) :
    (vsfs_unlink u now s path).1 = 0
    ∧ (vsfs_unlink u now s path).2.image
        = memset (write32 s.image d VSFS_INO_MAX) (d + 4) 0 VSFS_NAME_MAX
    ∧ (vsfs_unlink u now s path).2.itable
        = upd (upd s.itable k zero_inode) 0
            { (upd s.itable k zero_inode) 0 with i_mtime := now }
    ∧ (vsfs_unlink u now s path).2.ibmap = upd s.ibmap k.toNat false
    ∧ (vsfs_unlink u now s path).2.sb.sb_free_inodes = inc32 s.sb.sb_free_inodes
    ∧ (vsfs_unlink u now s path).2.sb.sb_num_blocks = s.sb.sb_num_blocks := by
  obtain ⟨f1, f2, f3, f4, f5, _⟩ := unlink_blocks_frame
    { s with image := memset (write32 s.image d VSFS_INO_MAX) (d + 4) 0 VSFS_NAME_MAX } k
  have hkn : ¬ k < 0 := by omega
  unfold vsfs_unlink
  simp only [hl, hkn, if_false, Option.getD_some, root_cast, f1, f2, f3, f4, f5, bitmap_free]
  exact ⟨trivial, trivial, trivial, trivial, trivial, trivial⟩

/-! ## Free slots of the root directory -/

theorem free_slot_in_block_some (img : Nat → Nat) (blk e : Nat)
    (h : free_slot_in_block img blk = some e) :
    ∃ j, j < dentry_per_blk ∧ e = dentry_addr blk j ∧ read32 img e = VSFS_INO_MAX := by
  unfold free_slot_in_block at h
  simp only [Option.map_eq_some'] at h
  obtain ⟨j, hj, hdj⟩ := h
  have hspec := find_range_some _ _ _ hj
  refine ⟨j, hspec.1, hdj.symm, ?_⟩
  rw [← hdj]
  simpa using hspec.2.1

theorem free_slot_in_block_of (img : Nat → Nat) (blk j : Nat) (hj : j < dentry_per_blk)
    (h : read32 img (dentry_addr blk j) = VSFS_INO_MAX) :
    ∃ e, free_slot_in_block img blk = some e := by
  unfold free_slot_in_block
  cases hf : (List.range dentry_per_blk).find?
      (fun j => read32 img (dentry_addr blk j) == VSFS_INO_MAX) with
  | some j2 => exact ⟨dentry_addr blk j2, rfl⟩
  | none =>
    have := find_range_none _ _ hf j hj
    simp [h] at this

theorem create_dentry_found (u : Nat) (s : fs_ctx) (inode_idx : Nat) (path : List Nat) (d : Nat)
    (h : (List.range (s.itable 0).i_blocks).findSome?
      (fun i => free_slot_in_block s.image (blk_of s.image (s.itable 0) i)) = some d) :
    create_dentry_for_newfile u s inode_idx path
      = (0, { s with image := fill_dentry s.image d inode_idx path }) := by
  unfold create_dentry_for_newfile
  simp only [root_cast, h]

theorem blk_of_congr_inode (img : Nat → Nat) (a b : vsfs_inode)
    (h1 : a.i_direct = b.i_direct) (h2 : a.i_indirect = b.i_indirect) (i : Nat) :
    blk_of img a i = blk_of img b i := by
  unfold blk_of
  rw [h1, h2]

theorem alloc_idx_spec (u : Nat) (bm : Nat → Bool) (n b : Nat) (hb : b < n) (hclear : bm b = false) :
    alloc_idx u bm n < n ∧ bm (alloc_idx u bm n) = false
    ∧ ∀ j, j < alloc_idx u bm n → bm j = true := by
  unfold alloc_idx bitmap_alloc
  cases hf : (List.range n).find? (fun i => !bm i) with
  | none =>
    have := find_range_none _ _ hf b hb
    simp [hclear] at this
  | some i =>
    have hs := find_range_some _ _ _ hf
    simp only [Option.getD_some]
    refine ⟨hs.1, by simpa using hs.2.1, ?_⟩
    intro j hj
    simpa using hs.2.2 j hj

/-! ## Reuse of the slot freed by a remove -/

theorem fill_dentry_spec (img : Nat → Nat) (d inode_idx : Nat) (path : List Nat) :
    read32 (fill_dentry img d inode_idx path) d = inode_idx % 4294967296
    ∧ ∀ x, x < VSFS_NAME_MAX → fill_dentry img d inode_idx path (d + 4 + x) = path.tail.getD x 0 := by
  unfold fill_dentry
  constructor
  · rw [read32_congr (write32 img d inode_idx) _ d (fun x _ hx => by
      unfold strncpy
      have : ¬ (d + 4 ≤ x ∧ x < d + 4 + VSFS_NAME_MAX) := by omega
      simp only [this, if_false]), read32_write32_same]
  · intro x hx
    unfold strncpy
    have h1 : d + 4 ≤ d + 4 + x ∧ d + 4 + x < d + 4 + VSFS_NAME_MAX := ⟨by omega, by omega⟩
    have h2 : d + 4 + x - (d + 4) = x := by omega
    simp only [h1, and_self, if_true, h2]

theorem mark_rest_free_other (img : Nat → Nat) (blk x : Nat) (hx : x < dentry_addr blk 1) :
    mark_rest_free img blk x = img x := by
  unfold mark_rest_free
  have := @foldl_range_inv (Nat → Nat) (fun _ im => im x = img x)
    (fun im i => write32 im (dentry_addr blk i) VSFS_INO_MAX) (dentry_per_blk - 1) 1 img rfl
    (by
      intro i im hi _ hp
      simp only []
      rw [write32_other _ _ _ _ (by
        left
        unfold dentry_addr at hx ⊢
        simp only [DENTRY_SIZE, VSFS_NAME_MAX] at hx ⊢
        omega)]
      exact hp)
  exact this

theorem new_block_entry_spec (img : Nat → Nat) (blk inode_idx : Nat) (path : List Nat) :
    read32 (mark_rest_free (fill_dentry img (dentry_addr blk 0) inode_idx path) blk)
        (dentry_addr blk 0) = inode_idx % 4294967296
    ∧ ∀ x, x < VSFS_NAME_MAX →
        mark_rest_free (fill_dentry img (dentry_addr blk 0) inode_idx path) blk
          (dentry_addr blk 0 + 4 + x) = path.tail.getD x 0 := by
  have hlt : ∀ y, y < 256 → dentry_addr blk 0 + y < dentry_addr blk 1 := by
    intro y hy
    unfold dentry_addr
    simp only [DENTRY_SIZE, VSFS_NAME_MAX]
    omega
  obtain ⟨f1, f2⟩ := fill_dentry_spec img (dentry_addr blk 0) inode_idx path
  constructor
  · rw [read32_congr _ _ _ (fun x h1 h2 => mark_rest_free_other _ blk x (by
      have := hlt (x - dentry_addr blk 0) (by omega)
      omega))]
    exact f1
  · intro x hx
    rw [mark_rest_free_other _ blk _ (by
      have := hlt (4 + x) (by simp only [VSFS_NAME_MAX] at hx; omega)
      omega)]
    exact f2 x hx

/-- A successful `create_dentry_for_newfile` has written, in every branch, an
entry that carries the inode number and the name; it changes no inode but the
root's, and no inode bitmap bit. -/
theorem create_dentry_writes (u : Nat) (s : fs_ctx) (inode_idx : Nat) (path : List Nat)
    (hok : (create_dentry_for_newfile u s inode_idx path).1 = 0) :
    (∃ e, read32 (create_dentry_for_newfile u s inode_idx path).2.image e
          = inode_idx % 4294967296
        ∧ ∀ x, x < VSFS_NAME_MAX →
            (create_dentry_for_newfile u s inode_idx path).2.image (e + 4 + x)
              = path.tail.getD x 0)
    ∧ (∀ j : Int, j ≠ 0 → (create_dentry_for_newfile u s inode_idx path).2.itable j = s.itable j)
    ∧ (create_dentry_for_newfile u s inode_idx path).2.ibmap = s.ibmap := by
  unfold create_dentry_for_newfile at hok ⊢
  simp only [root_cast] at hok ⊢
  cases hf : (List.range (s.itable 0).i_blocks).findSome?
      (fun i => free_slot_in_block s.image (blk_of s.image (s.itable 0) i)) with
  | some d =>
    simp only [hf]
    exact ⟨⟨d, fill_dentry_spec _ _ _ _⟩, fun j _ => by first | rfl | trivial,
      by first | rfl | trivial⟩
  | none =>
    simp only [hf] at hok ⊢
    split_ifs at hok ⊢ with h1 h2 h3
    · exact ⟨⟨_, new_block_entry_spec _ _ _ _⟩, fun j hj => upd_other _ _ _ _ hj,
          by first | rfl | trivial⟩
    · cases ha : bitmap_alloc (alloc_pending s.dbmap s.sb.sb_num_blocks) s.sb.sb_num_blocks with
      | none =>
        simp [ha] at hok
      | some dt_idx =>
        simp only [ha]
        exact ⟨⟨_, new_block_entry_spec _ _ _ _⟩, fun j hj => upd_other _ _ _ _ hj,
          by first | rfl | trivial⟩
    · exact ⟨⟨_, new_block_entry_spec _ _ _ _⟩, fun j hj => upd_other _ _ _ _ hj,
          by first | rfl | trivial⟩
    · simp at hok

/-- C12 (amended): after a successful `remove(path1)` has freed inode number
`k`, the next successful `create(path2, mode)` assigns the lowest-numbered
free inode; when no inode number below `k` is free this is `k`: the new inode
is stored in slot `k` of the inode table, bit `k` of the inode bitmap is set,
and the directory entry written by the create carries inode number `k` and
the name. -/
theorem create_takes_lowest_free_inode (u now now2 : Nat) (s : fs_ctx) (path1 path2 : List Nat)
    (mode : Nat) (k : Int) (d : Nat)
    (hl : path_lookup s path1 = (k, some d)) (hk : 0 < k)
    (hlow : ∀ j, j < k.toNat → s.ibmap j = true)
    (hkn : k.toNat < s.sb.sb_num_blocks)
    (hok : (vsfs_create u now2 (vsfs_unlink u now s path1).2 path2 mode).1 = 0) :
    (vsfs_unlink u now s path1).1 = 0
    ∧ (vsfs_unlink u now s path1).2.ibmap k.toNat = false
    ∧ alloc_idx u (vsfs_unlink u now s path1).2.ibmap
        (vsfs_unlink u now s path1).2.sb.sb_num_blocks = k.toNat
    ∧ (vsfs_create u now2 (vsfs_unlink u now s path1).2 path2 mode).2.itable k
        = { zero_inode with i_mode := mode, i_nlink := 1, i_mtime := now2 }
    ∧ (vsfs_create u now2 (vsfs_unlink u now s path1).2 path2 mode).2.ibmap k.toNat = true
    ∧ ∃ e, read32 (vsfs_create u now2 (vsfs_unlink u now s path1).2 path2 mode).2.image e
          = k.toNat
        ∧ ∀ x, x < VSFS_NAME_MAX →
            (vsfs_create u now2 (vsfs_unlink u now s path1).2 path2 mode).2.image (e + 4 + x)
              = path2.tail.getD x 0 := by
  obtain ⟨u1, _, _, u4, _, u6⟩ := vsfs_unlink_state u now s path1 k d hl (by omega)
  obtain ⟨_, _, _, _, _, _, hkv⟩ := path_lookup_some s path1 k d hl
  generalize hs1 : (vsfs_unlink u now s path1).2 = s1 at *
  have hclear : s1.ibmap k.toNat = false := by rw [u4, upd_same]
  obtain ⟨_, a2, a3⟩ := alloc_idx_spec u s1.ibmap s1.sb.sb_num_blocks k.toNat
    (by rw [u6]; exact hkn) hclear
  have hidx : alloc_idx u s1.ibmap s1.sb.sb_num_blocks = k.toNat := by
    rcases Nat.lt_trichotomy (alloc_idx u s1.ibmap s1.sb.sb_num_blocks) k.toNat with h | h | h
    · have hne : alloc_idx u s1.ibmap s1.sb.sb_num_blocks ≠ k.toNat := by omega
      have e := congrFun u4 (alloc_idx u s1.ibmap s1.sb.sb_num_blocks)
      rw [upd_other _ _ _ _ hne, hlow _ h] at e
      rw [e] at a2
      cases a2
    · exact h
    · rw [a3 _ h] at hclear
      cases hclear
  have hk32 : k.toNat < 4294967296 := by
    have hr := read32_lt s.image d
    unfold toInt32 at hkv
    split_ifs at hkv <;> omega
  have hkc : ((k.toNat : Nat) : Int) = k := Int.toNat_of_nonneg (by omega)
  have hk0 : k ≠ 0 := by omega
  refine ⟨u1, hclear, hidx, ?_⟩
  unfold vsfs_create at hok ⊢
  simp only [root_cast, hidx, hkc] at hok ⊢
  split_ifs at hok ⊢ with g1 g2 g3
  · simp at hok
  · simp at hok
  · exact absurd hok g3
  · have hcd := create_dentry_writes u _ k.toNat path2 (by
      by_contra hne
      exact g3 hne)
    obtain ⟨⟨e, he1, he2⟩, hit, hib⟩ := hcd
    simp only [] at he1 he2 hit hib
    refine ⟨?_, ?_, e, ?_, he2⟩
    · simp only []
      rw [upd_other _ _ _ _ hk0, hit k hk0, upd_same]
      rfl
    · simp only [bitmap_set] at hib ⊢
      rw [hib, upd_same]
    · rw [he1]
      omega

/-- Instance of C12 (amended): `remove("/foo")` on `img_foo`, where `/foo`
has inode number 1, then `create("/x")`. -/
theorem create_takes_lowest_free_inode_witness :
    (vsfs_unlink 0 2 img_foo path_foo).1 = 0
    ∧ (vsfs_unlink 0 2 img_foo path_foo).2.ibmap 1 = false
    ∧ alloc_idx 0 (vsfs_unlink 0 2 img_foo path_foo).2.ibmap
        (vsfs_unlink 0 2 img_foo path_foo).2.sb.sb_num_blocks = 1
    ∧ (vsfs_create 0 3 (vsfs_unlink 0 2 img_foo path_foo).2 path_x 33188).2.ibmap 1 = true :=
  (create_takes_lowest_free_inode 0 2 3 img_foo path_foo path_x 33188 1 16384 (by decide)
    (by decide) (by decide) (by decide) (by decide))
    |> fun h => ⟨h.1, h.2.1, h.2.2.1, h.2.2.2.2.1⟩

/-! ## A create that fails after the inode has been taken -/

/-- When the root directory has 1029 blocks or more and none of its slots is
free, `vsfs_create` returns ENOSPC from `create_dentry_for_newfile`, after it
has set the inode's bit, decremented the free inode count and initialised the
inode slot. -/
theorem create_enospc_after_inode_alloc (u now : Nat) (s : fs_ctx) (path : List Nat) (mode : Nat)
    (hfi : s.sb.sb_free_inodes ≠ 0) (hfb : s.sb.sb_free_blocks ≠ 0)
    (hroot : s.ibmap 0 = true)
    (hclear : ∃ b, b < s.sb.sb_num_blocks ∧ s.ibmap b = false)
    (hrc : 1029 ≤ (s.itable 0).i_blocks)
    (hfull : ∀ i, i < (s.itable 0).i_blocks → ∀ j, j < dentry_per_blk →
      read32 s.image (dentry_addr (blk_of s.image (s.itable 0) i) j) ≠ VSFS_INO_MAX) :
    (vsfs_create u now s path mode).1 = -ENOSPC
    ∧ (vsfs_create u now s path mode).2.sb.sb_free_inodes + 1 = s.sb.sb_free_inodes
    ∧ s.ibmap (alloc_idx u s.ibmap s.sb.sb_num_blocks) = false
    ∧ (vsfs_create u now s path mode).2.ibmap (alloc_idx u s.ibmap s.sb.sb_num_blocks) = true
    ∧ (vsfs_create u now s path mode).2.itable (alloc_idx u s.ibmap s.sb.sb_num_blocks : Nat)
        = { zero_inode with i_mode := mode, i_nlink := 1, i_mtime := now } := by
  obtain ⟨b, hb, hbc⟩ := hclear
  obtain ⟨_, a2, _⟩ := alloc_idx_spec u s.ibmap s.sb.sb_num_blocks b hb hbc
  have hidx : ((alloc_idx u s.ibmap s.sb.sb_num_blocks : Nat) : Int) ≠ 0 := by
    intro h0
    have h0n : alloc_idx u s.ibmap s.sb.sb_num_blocks = 0 := by omega
    rw [h0n, hroot] at a2
    cases a2
  have hcd : ∀ s2 : fs_ctx, s2.image = s.image → s2.itable 0 = s.itable 0 →
      ∀ idx : Nat, create_dentry_for_newfile u s2 idx path = (-ENOSPC, s2) := by
    intro s2 himg hrt idx
    have hnone : (List.range (s2.itable 0).i_blocks).findSome?
        (fun i => free_slot_in_block s2.image (blk_of s2.image (s2.itable 0) i)) = none := by
      rw [List.findSome?_eq_none_iff]
      intro i hi
      rw [himg, hrt] at *
      cases hf : free_slot_in_block s.image (blk_of s.image (s.itable 0) i) with
      | none => rfl
      | some e =>
        obtain ⟨j, hj, hej, hfree⟩ := free_slot_in_block_some _ _ _ hf
        rw [hej] at hfree
        exact absurd hfree (hfull i (List.mem_range.1 hi) j hj)
    unfold create_dentry_for_newfile
    simp only [root_cast, hnone]
    have h1 : ¬ (s2.itable 0).i_blocks < VSFS_NUM_DIRECT := by
      rw [hrt]
      simp only [VSFS_NUM_DIRECT]
      omega
    have h2 : ¬ (s2.itable 0).i_blocks = VSFS_NUM_DIRECT := by
      rw [hrt]
      simp only [VSFS_NUM_DIRECT]
      omega
    have h3 : ¬ (s2.itable 0).i_blocks < 1029 := by
      rw [hrt]
      omega
    simp only [h1, h2, h3, if_false]
  have hcd2 := hcd
    { s with ibmap := bitmap_set s.ibmap s.sb.sb_num_blocks
               (alloc_idx u s.ibmap s.sb.sb_num_blocks) true,
             sb := { s.sb with sb_free_inodes := dec32 s.sb.sb_free_inodes },
             itable := upd s.itable ((alloc_idx u s.ibmap s.sb.sb_num_blocks : Nat) : Int)
               { zero_inode with i_mode := mode, i_nlink := 1, i_blocks := 0, i_size := 0,
                                 i_mtime := now } }
    rfl (upd_other _ _ _ _ (Ne.symm hidx)) (alloc_idx u s.ibmap s.sb.sb_num_blocks)
  unfold vsfs_create
  simp only [hfi, hfb, if_false, root_cast]
  rw [hcd2]
  have hne : (-ENOSPC : Int) ≠ 0 := by decide
  simp only [hne, ne_eq, not_false_eq_true, if_true, bitmap_set, upd_same]
  refine ⟨trivial, ?_, a2, trivial, rfl⟩
  rw [dec32_of_pos _ (by omega)]
  omega

theorem img_full1029_indirect_byte (e t : Nat) (he : e < 1024) (ht : t < 4) :
    img_full1029.image (blk_addr 400 + 4 * e + t)
      = (if t = 0 then (406 + e) % 256 else if t = 1 then (406 + e) / 256 % 256 else 0) := by
  unfold img_full1029 full1029_byte blk_addr
  simp only [VSFS_BLOCK_SIZE, DENTRY_SIZE, VSFS_NAME_MAX]
  have c1 : 400 * 4096 ≤ 4096 * 400 + 4 * e + t ∧ 4096 * 400 + 4 * e + t < 1430 * 4096 := by omega
  have c2 : (4096 * 400 + 4 * e + t) / 4096 = 400 := by omega
  have c3 : (4096 * 400 + 4 * e + t) % 4096 / 4 = e := by omega
  have c4 : (4096 * 400 + 4 * e + t) % 4 = t := by omega
  simp only [c1, and_self, if_true, c2, c3, c4]

theorem img_full1029_blk_of (i : Nat) (hi : i < 1029) :
    blk_of img_full1029.image (img_full1029.itable 0) i = 401 + i := by
  unfold blk_of
  by_cases h5 : i < VSFS_NUM_DIRECT
  · simp only [h5, if_true]
    rfl
  · simp only [h5, if_false]
    simp only [VSFS_NUM_DIRECT] at h5 ⊢
    have hind : (img_full1029.itable 0).i_indirect = 400 := rfl
    rw [hind]
    unfold read32
    have b0 := img_full1029_indirect_byte (i - 5) 0 (by omega) (by omega)
    have b1 := img_full1029_indirect_byte (i - 5) 1 (by omega) (by omega)
    have b2 := img_full1029_indirect_byte (i - 5) 2 (by omega) (by omega)
    have b3 := img_full1029_indirect_byte (i - 5) 3 (by omega) (by omega)
    simp only [Nat.add_zero] at b0
    rw [b0, b1, b2, b3]
    simp
    omega

theorem img_full1029_dentry_ino (i j : Nat) (hi : i < 1029) (hj : j < 16) :
    read32 img_full1029.image (dentry_addr (401 + i) j) = 16 * i + j + 1 := by
  unfold read32 img_full1029 full1029_byte dentry_addr blk_addr
  simp only [VSFS_BLOCK_SIZE, DENTRY_SIZE, VSFS_NAME_MAX]
  have hr : ∀ t, t < 4 → (400 * 4096 ≤ 4096 * (401 + i) + 256 * j + t
      ∧ 4096 * (401 + i) + 256 * j + t < 1430 * 4096) := by
    intro t ht
    omega
  have hq : ∀ t, t < 4 → (4096 * (401 + i) + 256 * j + t - 401 * 4096) / 256 = 16 * i + j := by
    intro t ht
    omega
  have hb : ∀ t, t < 4 → (4096 * (401 + i) + 256 * j + t) / 4096 ≠ 400 := by
    intro t ht
    omega
  have hm : ∀ t, t < 4 → (4096 * (401 + i) + 256 * j + t) % 256 = t := by
    intro t ht
    omega
  have r0 := hr 0 (by omega)
  have q0 := hq 0 (by omega)
  have n0 := hb 0 (by omega)
  have m0 := hm 0 (by omega)
  simp only [Nat.add_zero] at r0 q0 n0 m0
  simp only [r0, q0, n0, m0, hr 1 (by omega), hq 1 (by omega), hb 1 (by omega), hm 1 (by omega),
    hr 2 (by omega), hq 2 (by omega), hb 2 (by omega), hm 2 (by omega),
    hr 3 (by omega), hq 3 (by omega), hb 3 (by omega), hm 3 (by omega), and_self, if_true, if_false]
  simp
  omega

theorem img_full1029_alloc : alloc_idx 0 img_full1029.ibmap img_full1029.sb.sb_num_blocks = 16465 := by
  have hn : img_full1029.sb.sb_num_blocks = 20000 := rfl
  have hbm : ∀ i, img_full1029.ibmap i = decide (i < 16465) := fun _ => rfl
  obtain ⟨_, a2, a3⟩ := alloc_idx_spec 0 img_full1029.ibmap img_full1029.sb.sb_num_blocks 16465
    (by rw [hn]; omega) (by rw [hbm]; decide)
  rw [hbm] at a2
  have h1 : ¬ alloc_idx 0 img_full1029.ibmap img_full1029.sb.sb_num_blocks < 16465 := by
    simpa using a2
  have h2 : ¬ 16465 < alloc_idx 0 img_full1029.ibmap img_full1029.sb.sb_num_blocks := by
    intro h
    have := a3 16465 h
    rw [hbm] at this
    simp at this
  omega

/-- C19 (evaluation at the failing input): in `img_full1029` the root
directory has 1029 full blocks, 3535 inodes and 18570 blocks are free.
`create("/x")` returns ENOSPC, yet the free inode count has dropped to 3534,
bit 16465 of the inode bitmap, clear before, is set, and inode slot 16465
holds the new inode. -/
theorem create_enospc_has_taken_inode :
    img_full1029.sb.sb_free_inodes = 3535
    ∧ img_full1029.ibmap 16465 = false
    ∧ (vsfs_create 0 1 img_full1029 path_x 33188).1 = -ENOSPC
    ∧ (vsfs_create 0 1 img_full1029 path_x 33188).2.sb.sb_free_inodes = 3534
    ∧ (vsfs_create 0 1 img_full1029 path_x 33188).2.ibmap 16465 = true
    ∧ (vsfs_create 0 1 img_full1029 path_x 33188).2.itable ((16465 : Nat) : Int)
        = { zero_inode with i_mode := 33188, i_nlink := 1, i_mtime := 1 } := by
  have h := create_enospc_after_inode_alloc 0 1 img_full1029 path_x 33188 (by decide) (by decide)
    (by decide) ⟨16465, by decide, by decide⟩ (by decide)
    (by
      intro i hi j hj
      have hi2 : i < 1029 := hi
      have hj2 : j < 16 := hj
      rw [img_full1029_blk_of i hi2, img_full1029_dentry_ino i j hi2 hj2]
      simp only [VSFS_INO_MAX]
      omega)
  rw [img_full1029_alloc] at h
  have hf : img_full1029.sb.sb_free_inodes = 3535 := rfl
  have h2 := h.2.1
  rw [hf] at h2
  exact ⟨hf, h.2.2.1, h.1, by omega, h.2.2.2.1, h.2.2.2.2⟩

/-! ## Counting clear bits -/

theorem zero_bits_succ (bm : Nat → Bool) (n : Nat) :
    zero_bits bm (n + 1) = zero_bits bm n + (if bm n = true then 0 else 1) := by
  unfold zero_bits
  rw [List.range_succ, List.filter_append, List.length_append]
  by_cases h : bm n = true
  · simp [h]
  · simp [h]

theorem zero_bits_upd_ge (bm : Nat → Bool) (b n : Nat) (v : Bool) (h : n ≤ b) :
    zero_bits (upd bm b v) n = zero_bits bm n := by
  induction n with
  | zero => rfl
  | succ m ih =>
    rw [zero_bits_succ, zero_bits_succ, ih (by omega), upd_other _ _ _ _ (by omega : m ≠ b)]

theorem zero_bits_set (bm : Nat → Bool) (b n : Nat) (hb : b < n) (hclear : bm b = false) :
    zero_bits (upd bm b true) n + 1 = zero_bits bm n := by
  induction n with
  | zero => omega
  | succ m ih =>
    rw [zero_bits_succ, zero_bits_succ]
    by_cases hbm : b = m
    · subst hbm
      rw [zero_bits_upd_ge _ _ _ _ (Nat.le_refl b), upd_same, hclear]
      simp
    · rw [upd_other _ _ _ _ (Ne.symm hbm)]
      have := ih (by omega)
      omega

theorem zero_bits_pos (bm : Nat → Bool) (n : Nat) (h : 0 < zero_bits bm n) :
    ∃ b, b < n ∧ bm b = false := by
  induction n with
  | zero =>
    unfold zero_bits at h
    simp at h
  | succ m ih =>
    rw [zero_bits_succ] at h
    by_cases hm : bm m = true
    · simp only [hm, if_true, Nat.add_zero] at h
      obtain ⟨b, hb, hc⟩ := ih h
      exact ⟨b, by omega, hc⟩
    · exact ⟨m, by omega, by simpa using hm⟩

/-- Taking a block when the free count equals the number of clear bits and is
not 0: `bitmap_alloc` finds a clear bit below the bound, and setting it keeps
the count equal to the decremented free count. -/
theorem alloc_fresh (u : Nat) (bm : Nat → Bool) (n free : Nat) (hsb : free = zero_bits bm n)
    (hpos : 0 < free) :
    alloc_idx u bm n < n ∧ bm (alloc_idx u bm n) = false
    ∧ dec32 free = zero_bits (bitmap_set bm n (alloc_idx u bm n) true) n
    ∧ dec32 free + 1 = free := by
  obtain ⟨b, hb, hc⟩ := zero_bits_pos bm n (by omega)
  obtain ⟨a1, a2, _⟩ := alloc_idx_spec u bm n b hb hc
  have := zero_bits_set bm _ n a1 a2
  rw [dec32_of_pos _ hpos]
  unfold bitmap_set
  exact ⟨a1, a2, by omega, by omega⟩

/-! ## Blocks and pointer slots of the image -/

theorem memset_block_other (img : Nat → Nat) (b x : Nat) (h : x / VSFS_BLOCK_SIZE ≠ b) :
    memset img (blk_addr b) 0 VSFS_BLOCK_SIZE x = img x := by
  apply memset_other
  unfold blk_addr
  simp only [VSFS_BLOCK_SIZE] at *
  omega

theorem memset_block_inside (img : Nat → Nat) (b y : Nat) (h : y < VSFS_BLOCK_SIZE) :
    memset img (blk_addr b) 0 VSFS_BLOCK_SIZE (blk_addr b + y) = 0 := by
  apply memset_inside <;> omega

theorem write32_slot_other_block (img : Nat → Nat) (ind e v x : Nat) (he : e < 1024)
    (h : x / VSFS_BLOCK_SIZE ≠ ind) : write32 img (blk_addr ind + 4 * e) v x = img x := by
  apply write32_other
  unfold blk_addr
  simp only [VSFS_BLOCK_SIZE] at *
  omega

theorem read32_slot_congr (img img2 : Nat → Nat) (ind e : Nat) (he : e < 1024)
    (h : ∀ x, x / VSFS_BLOCK_SIZE = ind → 4 * e ≤ x % VSFS_BLOCK_SIZE →
      x % VSFS_BLOCK_SIZE < 4 * e + 4 → img2 x = img x) :
    read32 img2 (blk_addr ind + 4 * e) = read32 img (blk_addr ind + 4 * e) := by
  apply read32_congr
  intro x h1 h2
  unfold blk_addr at h1 h2
  simp only [VSFS_BLOCK_SIZE] at *
  exact h x (by omega) (by omega) (by omega)

theorem zero_tail_other (img : Nat → Nat) (blk last x : Nat) (hlast : last < VSFS_BLOCK_SIZE)
    (h : x / VSFS_BLOCK_SIZE ≠ blk ∨ x % VSFS_BLOCK_SIZE ≤ last) :
    zero_tail img blk last x = img x := by
  unfold zero_tail
  apply memset_other
  unfold blk_addr
  simp only [VSFS_BLOCK_SIZE] at *
  omega

theorem zero_tail_inside (img : Nat → Nat) (blk last y : Nat) (h1 : last < y)
    (h2 : y < VSFS_BLOCK_SIZE) : zero_tail img blk last (blk_addr blk + y) = 0 := by
  unfold zero_tail
  apply memset_inside <;> simp only [VSFS_BLOCK_SIZE] at * <;> omega

theorem blk_of_direct (img : Nat → Nat) (inode : vsfs_inode) (j : Nat) (h : j < 5) :
    blk_of img inode j = inode.i_direct j := by
  unfold blk_of
  simp only [VSFS_NUM_DIRECT, h, if_true]

theorem blk_of_indirect (img : Nat → Nat) (inode : vsfs_inode) (j : Nat) (h : 5 ≤ j) :
    blk_of img inode j = read32 img (blk_addr inode.i_indirect + 4 * (j - 5)) := by
  unfold blk_of
  have : ¬ j < 5 := by omega
  simp only [VSFS_NUM_DIRECT, this, if_false]

/-! ## Growing a file: the blocks and the bytes -/

theorem extend_step_direct (u : Nat) (k : Int) (cur f_size : Nat) (s : fs_ctx) (fl : Bool)
    (i : Nat) (h5 : i < 5) (hc : ¬ i < cur) :
    extend_step u k cur f_size (s, fl) i
      = ({ s with
            dbmap := upd s.dbmap (alloc_idx u s.dbmap s.sb.sb_num_blocks) true,
            sb := { s.sb with sb_free_blocks := dec32 s.sb.sb_free_blocks },
            image := memset s.image
              (blk_addr (alloc_idx u s.dbmap s.sb.sb_num_blocks)) 0 VSFS_BLOCK_SIZE,
            itable := upd s.itable k
              { s.itable k with
                i_direct := upd (s.itable k).i_direct i
                  (alloc_idx u s.dbmap s.sb.sb_num_blocks) } }, fl) := by
  unfold extend_step alloc_zeroed_block bitmap_set
  simp only [VSFS_NUM_DIRECT, h5, hc, if_true, if_false]

theorem extend_step_ind_first (u : Nat) (k : Int) (cur f_size : Nat) (s : fs_ctx)
    (i : Nat) (h5 : ¬ i < 5) (hc : ¬ i < cur) :
    extend_step u k cur f_size (s, false) i
      = ({ s with
            dbmap := upd (upd s.dbmap (alloc_idx u s.dbmap s.sb.sb_num_blocks) true)
              (alloc_idx u (upd s.dbmap (alloc_idx u s.dbmap s.sb.sb_num_blocks) true)
                s.sb.sb_num_blocks) true,
            sb := { s.sb with sb_free_blocks := dec32 (dec32 s.sb.sb_free_blocks) },
            image := memset (write32 s.image
                (blk_addr (alloc_idx u s.dbmap s.sb.sb_num_blocks) + 4 * (i - 5))
                (alloc_idx u (upd s.dbmap (alloc_idx u s.dbmap s.sb.sb_num_blocks) true)
                  s.sb.sb_num_blocks))
              (blk_addr (alloc_idx u
                (upd s.dbmap (alloc_idx u s.dbmap s.sb.sb_num_blocks) true)
                s.sb.sb_num_blocks)) 0 VSFS_BLOCK_SIZE,
            itable := upd s.itable k
              { s.itable k with
                i_indirect := alloc_idx u s.dbmap s.sb.sb_num_blocks } }, true) := by
  unfold extend_step bitmap_set
  simp only [VSFS_NUM_DIRECT, h5, hc, if_true, if_false, upd_same]

theorem extend_step_ind_next (u : Nat) (k : Int) (cur f_size : Nat) (s : fs_ctx)
    (i : Nat) (h5 : ¬ i < 5) (hc : ¬ i < cur) :
    extend_step u k cur f_size (s, true) i
      = ({ s with
            dbmap := upd s.dbmap (alloc_idx u s.dbmap s.sb.sb_num_blocks) true,
            sb := { s.sb with sb_free_blocks := dec32 s.sb.sb_free_blocks },
            image := memset (write32 s.image
                (blk_addr (s.itable k).i_indirect + 4 * (i - 5))
                (alloc_idx u s.dbmap s.sb.sb_num_blocks))
              (blk_addr (alloc_idx u s.dbmap s.sb.sb_num_blocks)) 0 VSFS_BLOCK_SIZE },
          true) := by
  unfold extend_step bitmap_set
  simp only [VSFS_NUM_DIRECT, h5, hc, if_false, Bool.true_eq_false]

theorem file_blk_direct (s : fs_ctx) (k : Int) (j : Nat) (h : j < 5) :
    file_blk s k j = (s.itable k).i_direct j := blk_of_direct _ _ _ h

theorem file_blk_indirect (s : fs_ctx) (k : Int) (j : Nat) (h : 5 ≤ j) :
    file_blk s k j = read32 s.image (blk_addr (s.itable k).i_indirect + 4 * (j - 5)) :=
  blk_of_indirect _ _ _ h

theorem bool_ne_of (bm : Nat → Bool) (a b : Nat) (ha : bm a = true) (hb : bm b = false) :
    a ≠ b := by
  intro h
  rw [h, hb] at ha
  exact Bool.noConfusion ha

theorem grow_step_direct (u : Nat) (s1 : fs_ctx) (k : Int) (c c1 n f i : Nat) (s : fs_ctx)
    (fl : Bool) (hpre : grow_pre s1 k c c1 n) (hinv : grow_inv s1 k c c1 i (s, fl))
    (hi1 : c1 ≤ i) (hi2 : i < n) (h5 : i < 5) :
    grow_inv s1 k c c1 (i + 1) (extend_step u k c1 f (s, fl) i) := by
  obtain ⟨p_nb, ⟨p1, p2, p3⟩, ⟨p4, p5⟩, p_used, p_ind, p_free, p_sbok⟩ := hpre
  obtain ⟨f_nb, f_it, f_mono, f_sbok, f_cnt, f_flag, f_new, f_old, f_ind0, f_ind1, f_img, f_only, f_inj⟩ := hinv
  dsimp only at f_nb f_it f_mono f_sbok f_cnt f_flag f_new f_old f_ind0 f_ind1 f_img
  rw [extend_step_direct u k c1 f s fl i h5 (by omega)]
  have hpos : 0 < s.sb.sb_free_blocks := by split_ifs at f_cnt p_free <;> omega
  obtain ⟨a1, a2, a3, a4⟩ := alloc_fresh u s.dbmap s.sb.sb_num_blocks s.sb.sb_free_blocks
    (by rw [f_sbok, f_nb]) hpos
  unfold bitmap_set at a3
  generalize alloc_idx u s.dbmap s.sb.sb_num_blocks = b at *
  have hc5 : c ≤ 5 := by
    by_contra hh
    have := p5 (by omega)
    omega
  have hblk : ∀ j, j < 5 → j ≠ i →
      file_blk { s with
            dbmap := upd s.dbmap b true,
            sb := { s.sb with sb_free_blocks := dec32 s.sb.sb_free_blocks },
            image := memset s.image (blk_addr b) 0 VSFS_BLOCK_SIZE,
            itable := upd s.itable k
              { s.itable k with i_direct := upd (s.itable k).i_direct i b } } k j
        = file_blk s k j := by
    intro j hj hji
    rw [file_blk_direct _ _ _ hj, file_blk_direct _ _ _ hj]
    dsimp only
    rw [upd_same]
    dsimp only
    rw [upd_other _ _ _ _ hji]
  have hblki :
      file_blk { s with
            dbmap := upd s.dbmap b true,
            sb := { s.sb with sb_free_blocks := dec32 s.sb.sb_free_blocks },
            image := memset s.image (blk_addr b) 0 VSFS_BLOCK_SIZE,
            itable := upd s.itable k
              { s.itable k with i_direct := upd (s.itable k).i_direct i b } } k i
        = b := by
    rw [file_blk_direct _ _ _ h5]
    dsimp only
    rw [upd_same]
    dsimp only
    rw [upd_same]
  have hs1b : s1.dbmap b = false := by
    cases hb : s1.dbmap b with
    | false => rfl
    | true => rw [f_mono b hb] at a2; exact Bool.noConfusion a2
  refine ⟨?_, ?_, ?_, ?_, ?_, ?_, ?_, ?_, ?_, ?_, ?_, ?_, ?_⟩
  · exact f_nb
  · intro j hj
    dsimp only
    rw [upd_other _ _ _ _ hj]
    exact f_it j hj
  · intro x hx
    dsimp only
    by_cases hxb : x = b
    · rw [hxb, upd_same]
    · rw [upd_other _ _ _ _ hxb]
      exact f_mono x hx
  · dsimp only
    rw [← f_nb]
    exact a3
  · dsimp only
    split_ifs at f_cnt ⊢ <;> omega
  · dsimp only
    rw [f_flag]
    have e1 : decide (5 < i) = false := by simp; omega
    have e2 : decide (5 < i + 1) = false := by simp; omega
    rw [e1, e2]
  · intro j hj1 hj2
    by_cases hji : j = i
    · subst hji
      rw [hblki]
      dsimp only
      refine ⟨hs1b, upd_same _ _ _, by omega, ?_⟩
      intro y hy
      exact memset_block_inside _ _ _ hy
    · rw [hblk j (by omega) hji]
      obtain ⟨n1, n2, n3, n4⟩ := f_new j hj1 (by omega)
      dsimp only
      refine ⟨n1, ?_, n3, ?_⟩
      · rw [upd_other _ _ _ _ (bool_ne_of _ _ _ n2 a2)]
        exact n2
      · intro y hy
        rw [memset_block_other]
        · exact n4 y hy
        · unfold blk_addr
          simp only [VSFS_BLOCK_SIZE] at hy ⊢
          have := bool_ne_of _ _ _ n2 a2
          omega
  · intro j hj
    rw [hblk j (by omega) (by omega)]
    exact f_old j hj
  · intro _
    dsimp only
    rw [upd_same]
    exact f_ind0 (Or.inr (by omega))
  · intro _ h
    omega
  · intro x hx hx2
    dsimp only
    rw [memset_block_other]
    · exact f_img x hx hx2
    · exact bool_ne_of _ _ _ (f_mono _ hx) a2

  · intro x hx
    dsimp only at hx
    by_cases hxb : x = b
    · exact Or.inr (Or.inr ⟨i, hi1, by omega, by rw [hblki]; exact hxb⟩)
    · rw [upd_other _ _ _ _ hxb] at hx
      rcases f_only x hx with h | ⟨_, h, _⟩ | ⟨j, hj1, hj2, hj3⟩
      · exact Or.inl h
      · omega
      · exact Or.inr (Or.inr ⟨j, hj1, by omega, by rw [hblk j (by omega) (by omega)]; exact hj3⟩)

  · intro j1 j2 h1 h2 h3
    by_cases hji : j2 = i
    · rw [hji, hblki, hblk j1 (by omega) (by omega)]
      exact bool_ne_of _ _ _ (f_new j1 h1 (by omega)).2.1 a2
    · rw [hblk j1 (by omega) (by omega), hblk j2 (by omega) hji]
      exact f_inj j1 j2 h1 h2 (by omega)

theorem slot_block (ind e x : Nat) (he : e < 1024) (h1 : blk_addr ind + 4 * e ≤ x)
    (h2 : x < blk_addr ind + 4 * e + 4) :
    x / VSFS_BLOCK_SIZE = ind ∧ 4 * e ≤ x % VSFS_BLOCK_SIZE ∧ x % VSFS_BLOCK_SIZE < 4 * e + 4 := by
  unfold blk_addr at h1 h2
  simp only [VSFS_BLOCK_SIZE] at *
  omega

theorem grow_step_ind_next (u : Nat) (s1 : fs_ctx) (k : Int) (c c1 n f i : Nat) (s : fs_ctx)
    (hpre : grow_pre s1 k c c1 n) (hinv : grow_inv s1 k c c1 i (s, true))
    (hi1 : c1 ≤ i) (hi2 : i < n) (h5 : 5 ≤ i) :
    grow_inv s1 k c c1 (i + 1) (extend_step u k c1 f (s, true) i) := by
  obtain ⟨p_nb, ⟨p1, p2, p3⟩, ⟨p4, p5⟩, p_used, p_ind, p_free, p_sbok⟩ := hpre
  obtain ⟨f_nb, f_it, f_mono, f_sbok, f_cnt, f_flag, f_new, f_old, f_ind0, f_ind1, f_img, f_only, f_inj⟩ := hinv
  dsimp only at f_nb f_it f_mono f_sbok f_cnt f_flag f_new f_old f_ind0 f_ind1 f_img
  rw [extend_step_ind_next u k c1 f s i (by omega) (by omega)]
  have hpos : 0 < s.sb.sb_free_blocks := by split_ifs at f_cnt p_free <;> omega
  obtain ⟨a1, a2, a3, a4⟩ := alloc_fresh u s.dbmap s.sb.sb_num_blocks s.sb.sb_free_blocks
    (by rw [f_sbok, f_nb]) hpos
  unfold bitmap_set at a3
  generalize alloc_idx u s.dbmap s.sb.sb_num_blocks = b at *
  have hcase : 5 < c ∨ (c ≤ 5 ∧ 5 < i) := by
    by_cases hh : 5 < c
    · exact Or.inl hh
    · have e1 : decide (5 < c) = false := by simp; omega
      rw [e1] at f_flag
      simp at f_flag
      exact Or.inr ⟨by omega, f_flag⟩
  have hind : s.dbmap (s.itable k).i_indirect = true := by
    rcases hcase with hh | ⟨hh1, hh2⟩
    · rw [f_ind0 (Or.inl hh)]
      exact f_mono _ (p_ind hh)
    · exact (f_ind1 hh1 hh2).2.1
  have hib : (s.itable k).i_indirect ≠ b := bool_ne_of _ _ _ hind a2
  have hs1b : s1.dbmap b = false := by
    cases hb : s1.dbmap b with
    | false => rfl
    | true => rw [f_mono b hb] at a2; exact Bool.noConfusion a2
  have hblk : ∀ j, j < n → j ≠ i →
      file_blk { s with
            dbmap := upd s.dbmap b true,
            sb := { s.sb with sb_free_blocks := dec32 s.sb.sb_free_blocks },
            image := memset (write32 s.image
                (blk_addr (s.itable k).i_indirect + 4 * (i - 5)) b)
              (blk_addr b) 0 VSFS_BLOCK_SIZE } k j
        = file_blk s k j := by
    intro j hjn hji
    by_cases hj : j < 5
    · rw [file_blk_direct _ _ _ hj, file_blk_direct _ _ _ hj]
    · rw [file_blk_indirect _ _ _ (by omega), file_blk_indirect _ _ _ (by omega)]
      dsimp only
      apply read32_slot_congr _ _ _ _ (by omega)
      intro x hx1 hx2 hx3
      rw [memset_block_other _ _ _ (by rw [hx1]; exact hib)]
      apply write32_other
      unfold blk_addr
      simp only [VSFS_BLOCK_SIZE] at *
      omega
  have hblki :
      file_blk { s with
            dbmap := upd s.dbmap b true,
            sb := { s.sb with sb_free_blocks := dec32 s.sb.sb_free_blocks },
            image := memset (write32 s.image
                (blk_addr (s.itable k).i_indirect + 4 * (i - 5)) b)
              (blk_addr b) 0 VSFS_BLOCK_SIZE } k i
        = b := by
    rw [file_blk_indirect _ _ _ h5]
    dsimp only
    have e : read32 (memset (write32 s.image
                (blk_addr (s.itable k).i_indirect + 4 * (i - 5)) b)
              (blk_addr b) 0 VSFS_BLOCK_SIZE) (blk_addr (s.itable k).i_indirect + 4 * (i - 5))
        = read32 (write32 s.image
                (blk_addr (s.itable k).i_indirect + 4 * (i - 5)) b)
            (blk_addr (s.itable k).i_indirect + 4 * (i - 5)) := by
      apply read32_congr
      intro x hx1 hx2
      have := slot_block _ _ _ (by omega) hx1 hx2
      exact memset_block_other _ _ _ (by rw [this.1]; exact hib)
    rw [e, read32_write32_same]
    exact Nat.mod_eq_of_lt (by omega)
  refine ⟨?_, ?_, ?_, ?_, ?_, ?_, ?_, ?_, ?_, ?_, ?_, ?_, ?_⟩
  · exact f_nb
  · intro j hj
    exact f_it j hj
  · intro x hx
    dsimp only
    by_cases hxb : x = b
    · rw [hxb, upd_same]
    · rw [upd_other _ _ _ _ hxb]
      exact f_mono x hx
  · dsimp only
    rw [← f_nb]
    exact a3
  · dsimp only
    split_ifs at f_cnt ⊢ <;> omega
  · dsimp only
    have e2 : decide (5 < i + 1) = true := by simp; omega
    rw [e2, Bool.or_true]
  · intro j hj1 hj2
    by_cases hji : j = i
    · subst hji
      rw [hblki]
      dsimp only
      refine ⟨hs1b, upd_same _ _ _, by omega, ?_⟩
      intro y hy
      exact memset_block_inside _ _ _ hy
    · rw [hblk j (by omega) hji]
      obtain ⟨n1, n2, n3, n4⟩ := f_new j hj1 (by omega)
      have hjb : file_blk s k j ≠ b := bool_ne_of _ _ _ n2 a2
      have hji2 : file_blk s k j ≠ (s.itable k).i_indirect := by
        rcases hcase with hh | ⟨hh1, hh2⟩
        · rw [f_ind0 (Or.inl hh)]
          exact fun e => bool_ne_of _ _ _ (p_ind hh) n1 e.symm
        · exact (f_ind1 hh1 hh2).2.2.2 j hj1 (by omega)
      dsimp only
      refine ⟨n1, ?_, n3, ?_⟩
      · rw [upd_other _ _ _ _ hjb]
        exact n2
      · intro y hy
        have hdiv : (blk_addr (file_blk s k j) + y) / VSFS_BLOCK_SIZE = file_blk s k j := by
          unfold blk_addr
          simp only [VSFS_BLOCK_SIZE] at hy ⊢
          omega
        rw [memset_block_other _ _ _ (by rw [hdiv]; exact hjb),
          write32_slot_other_block _ _ _ _ _ (by omega) (by rw [hdiv]; exact hji2)]
        exact n4 y hy
  · intro j hj
    rw [hblk j (by omega) (by omega)]
    exact f_old j hj
  · intro _
    dsimp only
    rcases hcase with hh | ⟨hh1, hh2⟩
    · exact f_ind0 (Or.inl hh)
    · omega
  · intro hh1 _
    have hh2 : 5 < i := by rcases hcase with hh | ⟨_, hh⟩ <;> omega
    obtain ⟨q1, q2, q3, q4⟩ := f_ind1 hh1 hh2
    dsimp only
    refine ⟨q1, ?_, q3, ?_⟩
    · rw [upd_other _ _ _ _ hib]
      exact q2
    · intro j hj1 hj2
      by_cases hji : j = i
      · subst hji
        rw [hblki]
        exact fun e => hib e.symm
      · rw [hblk j (by omega) hji]
        exact q4 j hj1 (by omega)
  · intro x hx hx2
    dsimp only
    rw [memset_block_other _ _ _ (bool_ne_of _ _ _ (f_mono _ hx) a2)]
    rw [write32_other]
    · exact f_img x hx hx2
    · rcases hcase with hh | ⟨hh1, hh2⟩
      · rw [f_ind0 (Or.inl hh)]
        have e5 := p5 hh
        by_cases hxi : x / VSFS_BLOCK_SIZE = (s1.itable k).i_indirect
        · have := hx2 hh hxi
          unfold blk_addr
          simp only [VSFS_BLOCK_SIZE] at *
          omega
        · unfold blk_addr
          simp only [VSFS_BLOCK_SIZE] at *
          omega
      · have := bool_ne_of _ _ _ hx (f_ind1 hh1 hh2).1
        unfold blk_addr
        simp only [VSFS_BLOCK_SIZE] at *
        omega

  · intro x hx
    dsimp only at hx
    by_cases hxb : x = b
    · exact Or.inr (Or.inr ⟨i, hi1, by omega, by rw [hblki]; exact hxb⟩)
    · rw [upd_other _ _ _ _ hxb] at hx
      rcases f_only x hx with h | ⟨h1, h2, h3⟩ | ⟨j, hj1, hj2, hj3⟩
      · exact Or.inl h
      · exact Or.inr (Or.inl ⟨h1, by omega, h3⟩)
      · exact Or.inr (Or.inr ⟨j, hj1, by omega, by rw [hblk j (by omega) (by omega)]; exact hj3⟩)

  · intro j1 j2 h1 h2 h3
    by_cases hji : j2 = i
    · rw [hji, hblki, hblk j1 (by omega) (by omega)]
      exact bool_ne_of _ _ _ (f_new j1 h1 (by omega)).2.1 a2
    · rw [hblk j1 (by omega) (by omega), hblk j2 (by omega) hji]
      exact f_inj j1 j2 h1 h2 (by omega)

theorem grow_step_ind_first (u : Nat) (s1 : fs_ctx) (k : Int) (c c1 n f i : Nat) (s : fs_ctx)
    (hpre : grow_pre s1 k c c1 n) (hinv : grow_inv s1 k c c1 i (s, false))
    (hi1 : c1 ≤ i) (hi2 : i < n) (h5 : 5 ≤ i) :
    grow_inv s1 k c c1 (i + 1) (extend_step u k c1 f (s, false) i) := by
  obtain ⟨p_nb, ⟨p1, p2, p3⟩, ⟨p4, p5⟩, p_used, p_ind, p_free, p_sbok⟩ := hpre
  obtain ⟨f_nb, f_it, f_mono, f_sbok, f_cnt, f_flag, f_new, f_old, f_ind0, f_ind1, f_img, f_only, f_inj⟩ := hinv
  dsimp only at f_nb f_it f_mono f_sbok f_cnt f_flag f_new f_old f_ind0 f_ind1 f_img
  rw [extend_step_ind_first u k c1 f s i (by omega) (by omega)]
  have hci : c ≤ 5 ∧ i = 5 := by
    have := f_flag.symm
    simp at this
    omega
  obtain ⟨hc5, hi5⟩ := hci
  subst hi5
  have hpos : 1 < s.sb.sb_free_blocks := by split_ifs at f_cnt p_free <;> omega
  obtain ⟨a1, a2, a3, a4⟩ := alloc_fresh u s.dbmap s.sb.sb_num_blocks s.sb.sb_free_blocks
    (by rw [f_sbok, f_nb]) (by omega)
  generalize alloc_idx u s.dbmap s.sb.sb_num_blocks = ptr at *
  unfold bitmap_set at a3
  obtain ⟨b1, b2, b3, b4⟩ := alloc_fresh u (upd s.dbmap ptr true) s.sb.sb_num_blocks
    (dec32 s.sb.sb_free_blocks) a3 (by omega)
  unfold bitmap_set at b3
  generalize alloc_idx u (upd s.dbmap ptr true) s.sb.sb_num_blocks = b at *
  have hpb : ptr ≠ b := bool_ne_of _ _ _ (upd_same _ _ _) b2
  have hb2 : s.dbmap b = false := by
    rw [upd_other _ _ _ _ (Ne.symm hpb)] at b2
    exact b2
  have hs1b : s1.dbmap b = false := by
    cases hb : s1.dbmap b with
    | false => rfl
    | true => rw [f_mono b hb] at hb2; exact Bool.noConfusion hb2
  have hs1p : s1.dbmap ptr = false := by
    cases hb : s1.dbmap ptr with
    | false => rfl
    | true => rw [f_mono ptr hb] at a2; exact Bool.noConfusion a2
  have hblk : ∀ j, j < 5 →
      file_blk { s with
            dbmap := upd (upd s.dbmap ptr true) b true,
            sb := { s.sb with sb_free_blocks := dec32 (dec32 s.sb.sb_free_blocks) },
            image := memset (write32 s.image (blk_addr ptr + 4 * (5 - 5)) b)
              (blk_addr b) 0 VSFS_BLOCK_SIZE,
            itable := upd s.itable k { s.itable k with i_indirect := ptr } } k j
        = file_blk s k j := by
    intro j hj
    rw [file_blk_direct _ _ _ hj, file_blk_direct _ _ _ hj]
    dsimp only
    rw [upd_same]
  have hblki :
      file_blk { s with
            dbmap := upd (upd s.dbmap ptr true) b true,
            sb := { s.sb with sb_free_blocks := dec32 (dec32 s.sb.sb_free_blocks) },
            image := memset (write32 s.image (blk_addr ptr + 4 * (5 - 5)) b)
              (blk_addr b) 0 VSFS_BLOCK_SIZE,
            itable := upd s.itable k { s.itable k with i_indirect := ptr } } k 5
        = b := by
    rw [file_blk_indirect _ _ _ (Nat.le_refl 5)]
    dsimp only
    rw [upd_same]
    dsimp only
    have e : read32 (memset (write32 s.image (blk_addr ptr + 4 * (5 - 5)) b)
              (blk_addr b) 0 VSFS_BLOCK_SIZE) (blk_addr ptr + 4 * (5 - 5))
        = read32 (write32 s.image (blk_addr ptr + 4 * (5 - 5)) b)
            (blk_addr ptr + 4 * (5 - 5)) := by
      apply read32_congr
      intro x hx1 hx2
      have := slot_block _ _ _ (by omega) hx1 hx2
      exact memset_block_other _ _ _ (by rw [this.1]; exact hpb)
    rw [e, read32_write32_same]
    exact Nat.mod_eq_of_lt (by omega)
  refine ⟨?_, ?_, ?_, ?_, ?_, ?_, ?_, ?_, ?_, ?_, ?_, ?_, ?_⟩
  · exact f_nb
  · intro j hj
    dsimp only
    rw [upd_other _ _ _ _ hj]
    exact f_it j hj
  · intro x hx
    dsimp only
    have hx1 := f_mono x hx
    rw [upd_other _ _ _ _ (bool_ne_of _ _ _ hx1 hb2), upd_other _ _ _ _ (bool_ne_of _ _ _ hx1 a2)]
    exact hx1
  · dsimp only
    rw [← f_nb]
    exact b3
  · dsimp only
    split_ifs at f_cnt ⊢ <;> omega
  · dsimp only
    simp
  · intro j hj1 hj2
    by_cases hji : j = 5
    · subst hji
      rw [hblki]
      dsimp only
      refine ⟨hs1b, upd_same _ _ _, by omega, ?_⟩
      intro y hy
      exact memset_block_inside _ _ _ hy
    · rw [hblk j (by omega)]
      obtain ⟨n1, n2, n3, n4⟩ := f_new j hj1 (by omega)
      have hjb : file_blk s k j ≠ b := bool_ne_of _ _ _ n2 hb2
      have hjp : file_blk s k j ≠ ptr := bool_ne_of _ _ _ n2 a2
      dsimp only
      refine ⟨n1, ?_, n3, ?_⟩
      · rw [upd_other _ _ _ _ hjb, upd_other _ _ _ _ hjp]
        exact n2
      · intro y hy
        have hdiv : (blk_addr (file_blk s k j) + y) / VSFS_BLOCK_SIZE = file_blk s k j := by
          unfold blk_addr
          simp only [VSFS_BLOCK_SIZE] at hy ⊢
          omega
        rw [memset_block_other _ _ _ (by rw [hdiv]; exact hjb),
          write32_slot_other_block _ _ _ _ _ (by omega) (by rw [hdiv]; exact hjp)]
        exact n4 y hy
  · intro j hj
    rw [hblk j (by omega)]
    exact f_old j hj
  · intro h
    omega
  · intro _ _
    dsimp only
    rw [upd_same]
    dsimp only
    refine ⟨hs1p, ?_, by omega, ?_⟩
    · rw [upd_other _ _ _ _ hpb, upd_same]
    · intro j hj1 hj2
      by_cases hji : j = 5
      · subst hji
        rw [hblki]
        exact Ne.symm hpb
      · rw [hblk j (by omega)]
        exact bool_ne_of _ _ _ (f_new j hj1 (by omega)).2.1 a2
  · intro x hx hx2
    dsimp only
    have hx1 := f_mono _ hx
    rw [memset_block_other _ _ _ (bool_ne_of _ _ _ hx1 hb2),
      write32_slot_other_block _ _ _ _ _ (by omega) (bool_ne_of _ _ _ hx1 a2)]
    exact f_img x hx hx2

  · intro x hx
    dsimp only at hx
    by_cases hxb : x = b
    · exact Or.inr (Or.inr ⟨5, hi1, by omega, by rw [hblki]; exact hxb⟩)
    · rw [upd_other _ _ _ _ hxb] at hx
      by_cases hxp : x = ptr
      · refine Or.inr (Or.inl ⟨hc5, by omega, ?_⟩)
        dsimp only
        rw [upd_same]
        exact hxp
      · rw [upd_other _ _ _ _ hxp] at hx
        rcases f_only x hx with h | ⟨_, h, _⟩ | ⟨j, hj1, hj2, hj3⟩
        · exact Or.inl h
        · omega
        · exact Or.inr (Or.inr ⟨j, hj1, by omega, by rw [hblk j (by omega)]; exact hj3⟩)

  · intro j1 j2 h1 h2 h3
    by_cases hji : j2 = 5
    · rw [hji, hblki, hblk j1 (by omega)]
      exact bool_ne_of _ _ _ (f_new j1 h1 (by omega)).2.1 hb2
    · rw [hblk j1 (by omega), hblk j2 (by omega)]
      exact f_inj j1 j2 h1 h2 (by omega)

/-- One allocating iteration of the loop of `extending_file` keeps the
invariant. -/
theorem grow_step (u : Nat) (s1 : fs_ctx) (k : Int) (c c1 n f i : Nat) (st : fs_ctx × Bool)
    (hpre : grow_pre s1 k c c1 n) (hinv : grow_inv s1 k c c1 i st)
    (hi1 : c1 ≤ i) (hi2 : i < n) :
    grow_inv s1 k c c1 (i + 1) (extend_step u k c1 f st i) := by
  obtain ⟨s, fl⟩ := st
  by_cases h5 : i < 5
  · exact grow_step_direct u s1 k c c1 n f i s fl hpre hinv hi1 hi2 h5
  · cases fl with
    | false => exact grow_step_ind_first u s1 k c c1 n f i s hpre hinv hi1 hi2 (by omega)
    | true => exact grow_step_ind_next u s1 k c c1 n f i s hpre hinv hi1 hi2 (by omega)

/-- The allocating iterations `c1, …, n - 1` of the loop of `extending_file`
establish the invariant at `n`. -/
theorem grow_fold (u : Nat) (s1 : fs_ctx) (k : Int) (c c1 n f : Nat)
    (hpre : grow_pre s1 k c c1 n) (m : Nat) :
    ∀ (i : Nat) (st : fs_ctx × Bool), i + m = n → c1 ≤ i → grow_inv s1 k c c1 i st →
      grow_inv s1 k c c1 n ((List.range' i m).foldl (extend_step u k c1 f) st) := by
  induction m with
  | zero =>
    intro i st h1 _ h
    rw [List.range'_zero, List.foldl_nil]
    have : i = n := by omega
    rw [← this]
    exact h
  | succ m ih =>
    intro i st h1 h2 h
    rw [List.range'_succ, List.foldl_cons]
    exact ih (i + 1) _ (by omega) (by omega) (grow_step u s1 k c c1 n f i st hpre h h2 (by omega))

theorem extend_step_tail (u : Nat) (k : Int) (cur f : Nat) (s : fs_ctx) (fl : Bool) (i : Nat)
    (hi : i < cur) (hfl : 5 ≤ i → fl = true) :
    extend_step u k cur f (s, fl) i
      = ({ s with image := zero_tail s.image (file_blk s k i) (sub64 f 1 % VSFS_BLOCK_SIZE) },
          fl) := by
  unfold extend_step file_blk blk_of
  by_cases h5 : i < 5
  · simp only [VSFS_NUM_DIRECT, h5, hi, if_true]
  · have := hfl (by omega)
    subst this
    simp only [VSFS_NUM_DIRECT, h5, hi, if_true, if_false, Bool.true_eq_false]

theorem grow_base (s1 : fs_ctx) (k : Int) (c c1 n : Nat) (hpre : grow_pre s1 k c c1 n) :
    grow_inv s1 k c c1 c1 (s1, decide (5 < c)) := by
  obtain ⟨p_nb, ⟨p1, p2, p3⟩, ⟨p4, p5⟩, p_used, p_ind, p_free, p_sbok⟩ := hpre
  refine ⟨rfl, fun _ _ => rfl, fun _ h => h, p_sbok, ?_, ?_, ?_, fun _ _ => rfl, fun _ => rfl,
    ?_, fun _ _ _ => rfl, fun _ h => Or.inl h, ?_⟩
  · dsimp only
    have : ¬ (c ≤ 5 ∧ 5 < c1) := by
      intro h
      have := p4 h.1
      omega
    simp only [this, if_false]
    omega
  · dsimp only
    by_cases h : 5 < c
    · simp [h]
    · have : ¬ 5 < c1 := by
        have := p4 (by omega)
        omega
      simp [h, this]
  · intro j h1 h2
    omega
  · intro h1 h2
    have := p4 h1
    omega
  · intro j1 j2 h1 h2 h3
    omega

/-- The block map of a file after its last block has been cleared past the
last byte of the file. -/
theorem file_blk_zero_tail (s : fs_ctx) (k : Int) (b last j : Nat) (hj : j < 1029)
    (hlast : last < VSFS_BLOCK_SIZE) (hsep : 5 ≤ j → b ≠ (s.itable k).i_indirect) :
    file_blk { s with image := zero_tail s.image b last } k j = file_blk s k j := by
  by_cases h5 : j < 5
  · rw [file_blk_direct _ _ _ h5, file_blk_direct _ _ _ h5]
  · rw [file_blk_indirect _ _ _ (by omega), file_blk_indirect _ _ _ (by omega)]
    dsimp only
    apply read32_slot_congr _ _ _ _ (by omega)
    intro x hx1 _ _
    apply zero_tail_other _ _ _ _ hlast
    left
    rw [hx1]
    exact Ne.symm (hsep (by omega))

theorem sub64_mod_lt (f : Nat) : sub64 f 1 % VSFS_BLOCK_SIZE < VSFS_BLOCK_SIZE :=
  Nat.mod_lt _ (by decide)

/-- The loop of `extending_file`, started in a context `sF` in which the file
holds `c1` blocks: the invariant holds at `n` relative to the context after
the first iteration, which clears the tail of the last block held. -/
theorem grow_loop_spec (u : Nat) (sF : fs_ctx) (k : Int) (c c1 n : Nat)
    (hpre : grow_pre sF k c c1 n) (hc : (sF.itable k).i_blocks = c)
    (hsep : 5 < c → file_blk sF k (c1 - 1) ≠ (sF.itable k).i_indirect) :
    grow_inv (tail_cleared sF k c1) k c c1 n (extend_loop u k sF c1 n) := by
  have hp := hpre
  obtain ⟨p_nb, ⟨p1, p2, p3⟩, ⟨p4, p5⟩, p_used, p_ind, p_free, p_sbok⟩ := hp
  rw [extend_loop, sub64_one c1 p1]
  have hr : List.range' (c1 - 1) (n - (c1 - 1)) = (c1 - 1) :: List.range' c1 (n - c1) := by
    have e1 : n - (c1 - 1) = (n - c1) + 1 := by omega
    rw [e1, List.range'_succ]
    have e2 : c1 - 1 + 1 = c1 := by omega
    rw [e2]
  rw [hr, List.foldl_cons]
  have hfl : decide ((sF.itable k).i_blocks > 5) = decide (5 < c) := by
    rw [hc]
  rw [hfl, extend_step_tail u k c1 _ sF _ (c1 - 1) (by omega)
    (by
      intro h
      have : 5 < c := by
        by_contra hh
        have := p4 (by omega)
        omega
      simp [this])]
  have hpre1 : grow_pre (tail_cleared sF k c1) k c c1 n := by
    refine ⟨p_nb, ⟨p1, p2, p3⟩, ⟨p4, p5⟩, ?_, p_ind, p_free, p_sbok⟩
    intro j hj
    have e : file_blk (tail_cleared sF k c1) k j = file_blk sF k j := by
      apply file_blk_zero_tail _ _ _ _ _ (by omega) (sub64_mod_lt _)
      intro h5
      apply hsep
      by_contra hh
      have := p4 (by omega)
      omega
    rw [e]
    exact p_used j hj
  exact grow_fold u (tail_cleared sF k c1) k c c1 n _ hpre1 (n - c1) c1 _ (by omega)
    (Nat.le_refl _) (grow_base _ k c c1 n hpre1)

theorem file_blk_set_size_fields (now : Nat) (t : fs_ctx) (k : Int) (n size j : Nat) :
    file_blk (set_size_fields now t k n size) k j = file_blk t k j := by
  unfold file_blk set_size_fields
  dsimp only
  rw [upd_same]
  exact blk_of_congr_inode _ _ _ rfl rfl j

theorem extending_file_state (u now : Nat) (s : fs_ctx) (size : Nat) (k : Int)
    (hle : (s.itable k).i_blocks ≤ div_round_up size VSFS_BLOCK_SIZE)
    (hfree : (div_round_up size VSFS_BLOCK_SIZE - (s.itable k).i_blocks)
          + (if (s.itable k).i_blocks ≤ 5 ∧ 5 < div_round_up size VSFS_BLOCK_SIZE then 1 else 0)
        ≤ s.sb.sb_free_blocks) :
    extending_file u now s size k
      = (0, set_size_fields now
          (extend_loop u k (extend_first u s k).1 (extend_first u s k).2
            (div_round_up size VSFS_BLOCK_SIZE)).1 k (div_round_up size VSFS_BLOCK_SIZE) size) := by
  have hc1 : ¬ sub64 (div_round_up size VSFS_BLOCK_SIZE) (s.itable k).i_blocks
      > s.sb.sb_free_blocks := by
    rw [sub64_of_le _ _ hle]
    split_ifs at hfree <;> omega
  have hc2 : ¬ ((s.itable k).i_blocks ≤ VSFS_NUM_DIRECT
      ∧ div_round_up size VSFS_BLOCK_SIZE > VSFS_NUM_DIRECT
      ∧ (sub64 (div_round_up size VSFS_BLOCK_SIZE) (s.itable k).i_blocks + 1)
          % 18446744073709551616 > s.sb.sb_free_blocks) := by
    rw [sub64_of_le _ _ hle]
    simp only [VSFS_NUM_DIRECT]
    intro hcon
    have hb : (s.itable k).i_blocks ≤ 5 ∧ 5 < div_round_up size VSFS_BLOCK_SIZE :=
      ⟨hcon.1, hcon.2.1⟩
    simp only [hb, and_self, if_true] at hfree
    omega
  unfold extending_file
  simp only [hc1, hc2, if_false]

theorem blk_addr_div (b y : Nat) (hy : y < VSFS_BLOCK_SIZE) :
    (blk_addr b + y) / VSFS_BLOCK_SIZE = b ∧ (blk_addr b + y) % VSFS_BLOCK_SIZE = y := by
  unfold blk_addr
  simp only [VSFS_BLOCK_SIZE] at hy ⊢
  omega

/-- A grow of a file that is not empty. -/
theorem grow_post_nonempty (u now : Nat) (s : fs_ctx) (size : Nat) (k : Int)
    (hwf : file_wf s k) (h0 : (s.itable k).i_size ≠ 0)
    (hgrow : (s.itable k).i_size < size)
    (hmax : div_round_up size VSFS_BLOCK_SIZE ≤ 1029)
    (hfree : (div_round_up size VSFS_BLOCK_SIZE - (s.itable k).i_blocks)
          + (if (s.itable k).i_blocks ≤ 5 ∧ 5 < div_round_up size VSFS_BLOCK_SIZE then 1 else 0)
        ≤ s.sb.sb_free_blocks) :
    grow_post s k (s.itable k).i_blocks (div_round_up size VSFS_BLOCK_SIZE) size
      (extending_file u now s size k).2 := by
  obtain ⟨w_nb, w_free, w_blocks, w_used, w_ind, w_sep⟩ := hwf
  have hle : (s.itable k).i_blocks ≤ div_round_up size VSFS_BLOCK_SIZE := by
    unfold blocks_ok at w_blocks
    rw [w_blocks]
    unfold div_round_up
    simp only [VSFS_BLOCK_SIZE]
    omega
  have hc0 : 1 ≤ (s.itable k).i_blocks := by
    unfold blocks_ok div_round_up at w_blocks
    simp only [VSFS_BLOCK_SIZE] at w_blocks
    omega
  rw [extending_file_state u now s size k hle hfree]
  have hef : extend_first u s k = (s, (s.itable k).i_blocks) := by
    unfold extend_first
    simp only [h0, if_false]
  rw [hef]
  dsimp only
  have hlast : sub64 (s.itable k).i_size 1 % VSFS_BLOCK_SIZE
      = ((s.itable k).i_size - 1) % VSFS_BLOCK_SIZE := by
    rw [sub64_one _ (by omega)]
  have hpre : grow_pre s k (s.itable k).i_blocks (s.itable k).i_blocks
      (div_round_up size VSFS_BLOCK_SIZE) :=
    ⟨w_nb, ⟨hc0, hle, hmax⟩, ⟨fun h => h, fun _ => rfl⟩, w_used, w_ind, hfree, w_free⟩
  have inv := grow_loop_spec u s k _ _ _ hpre rfl (fun h => w_sep h _ (by omega))
  generalize extend_loop u k s (s.itable k).i_blocks (div_round_up size VSFS_BLOCK_SIZE) = L at *
  generalize hn : div_round_up size VSFS_BLOCK_SIZE = n at *
  generalize hc : (s.itable k).i_blocks = c at *
  obtain ⟨f_nb, f_it, f_mono, f_sbok, f_cnt, f_flag, f_new, f_old, f_ind0, f_ind1, f_img, f_only, f_inj⟩ := inv
  have hzt : ∀ j, j < c → file_blk (tail_cleared s k c) k j = file_blk s k j := by
    intro j hj
    apply file_blk_zero_tail _ _ _ _ _ (by omega) (sub64_mod_lt _)
    intro h5
    exact w_sep (by omega) (c - 1) (by omega)
  have hold : ∀ j, j < c → file_blk L.1 k j = file_blk s k j := by
    intro j hj
    rw [f_old j hj, hzt j hj]
  have himg1 : ∀ x, (tail_cleared s k c).image x
      = zero_tail s.image (file_blk s k (c - 1))
          (((s.itable k).i_size - 1) % VSFS_BLOCK_SIZE) x := by
    intro x
    unfold tail_cleared
    dsimp only
    rw [hlast]
  dsimp only [tail_cleared] at f_nb f_it f_mono f_sbok f_cnt f_new f_ind0 f_ind1 f_only
  have hlt : ((s.itable k).i_size - 1) % VSFS_BLOCK_SIZE < VSFS_BLOCK_SIZE :=
    Nat.mod_lt _ (by decide)
  refine ⟨f_nb, ?_, ?_, f_mono, ?_, f_cnt, ?_, ?_, ?_, ?_, ?_, ?_, ?_, ?_⟩
  · intro j hj
    unfold set_size_fields
    dsimp only
    rw [upd_other _ _ _ _ hj]
    exact f_it j hj
  · unfold set_size_fields
    dsimp only
    rw [upd_same]
    exact ⟨rfl, Nat.mod_eq_of_lt (by omega)⟩
  · show L.1.sb.sb_free_blocks = zero_bits L.1.dbmap L.1.sb.sb_num_blocks
    rw [f_nb]
    exact f_sbok
  · intro j hj
    rw [file_blk_set_size_fields]
    exact hold j hj
  · intro j hj1 hj2
    rw [file_blk_set_size_fields]
    exact f_new j hj1 hj2
  · intro _ y hy1 hy2
    rw [file_blk_set_size_fields, hold _ (by omega)]
    show L.1.image (blk_addr (file_blk s k (c - 1)) + y) = 0
    have hd := blk_addr_div (file_blk s k (c - 1)) y hy2
    rw [f_img _ (by rw [hd.1]; exact w_used _ (by omega))
      (by
        intro h5 he
        rw [hd.1] at he
        exact absurd he (w_sep h5 _ (by omega))), himg1]
    exact zero_tail_inside _ _ _ _ hy1 hy2
  · intro h
    unfold set_size_fields
    dsimp only
    rw [upd_same]
    exact f_ind0 h
  · intro h1 h2
    have e : ((set_size_fields now L.1 k n size).itable k).i_indirect
        = (L.1.itable k).i_indirect := by
      unfold set_size_fields
      dsimp only
      rw [upd_same]
    rw [e]
    obtain ⟨q1, q2, q3, q4⟩ := f_ind1 h1 h2
    refine ⟨q1, q2, q3, ?_⟩
    intro j hj
    rw [file_blk_set_size_fields]
    by_cases hjc : j < c
    · rw [hold j hjc]
      exact bool_ne_of _ _ _ (w_used j hjc) q1
    · exact q4 j (by omega) hj
  · intro x hx hx1 hx2
    show L.1.image x = s.image x
    rw [f_img x hx (fun h5 he => absurd he (hx2 h5)), himg1]
    apply zero_tail_other _ _ _ _ hlt
    by_cases he : x / VSFS_BLOCK_SIZE = file_blk s k (c - 1)
    · exact Or.inr (hx1 (by omega) he)
    · exact Or.inl he

  · intro x hx
    have e : ((set_size_fields now L.1 k n size).itable k).i_indirect
        = (L.1.itable k).i_indirect := by
      unfold set_size_fields
      dsimp only
      rw [upd_same]
    rcases f_only x hx with h | ⟨h1, h2, h3⟩ | ⟨j, hj1, hj2, hj3⟩
    · exact Or.inl h
    · exact Or.inr (Or.inl ⟨h1, h2, by rw [e]; exact h3⟩)
    · exact Or.inr (Or.inr ⟨j, hj1, hj2, by rw [file_blk_set_size_fields]; exact hj3⟩)

  · intro j1 j2 h1 h2 h3
    rw [file_blk_set_size_fields, file_blk_set_size_fields]
    exact f_inj j1 j2 h1 h2 h3

theorem extend_first_empty (u : Nat) (s : fs_ctx) (k : Int) (h0 : (s.itable k).i_size = 0) :
    extend_first u s k
      = ({ s with
            dbmap := upd s.dbmap (alloc_idx u s.dbmap s.sb.sb_num_blocks) true,
            sb := { s.sb with sb_free_blocks := dec32 s.sb.sb_free_blocks },
            image := memset s.image
              (blk_addr (alloc_idx u s.dbmap s.sb.sb_num_blocks)) 0 VSFS_BLOCK_SIZE,
            itable := upd s.itable k
              { s.itable k with
                i_direct := upd (s.itable k).i_direct 0
                  (alloc_idx u s.dbmap s.sb.sb_num_blocks) } }, 1) := by
  unfold extend_first alloc_zeroed_block bitmap_set
  simp only [h0, if_true]
  rfl

/-- A grow of an empty file. -/
theorem grow_post_empty (u now : Nat) (s : fs_ctx) (size : Nat) (k : Int)
    (hwf : file_wf s k) (h0 : (s.itable k).i_size = 0)
    (hgrow : (s.itable k).i_size < size)
    (hmax : div_round_up size VSFS_BLOCK_SIZE ≤ 1029)
    (hfree : (div_round_up size VSFS_BLOCK_SIZE - (s.itable k).i_blocks)
          + (if (s.itable k).i_blocks ≤ 5 ∧ 5 < div_round_up size VSFS_BLOCK_SIZE then 1 else 0)
        ≤ s.sb.sb_free_blocks) :
    grow_post s k (s.itable k).i_blocks (div_round_up size VSFS_BLOCK_SIZE) size
      (extending_file u now s size k).2 := by
  obtain ⟨w_nb, w_free, w_blocks, w_used, w_ind, w_sep⟩ := hwf
  have hc0 : (s.itable k).i_blocks = 0 := by
    unfold blocks_ok div_round_up at w_blocks
    simp only [VSFS_BLOCK_SIZE] at w_blocks
    omega
  have hn1 : 1 ≤ div_round_up size VSFS_BLOCK_SIZE := by
    unfold div_round_up
    simp only [VSFS_BLOCK_SIZE]
    omega
  rw [extending_file_state u now s size k (by omega) hfree, extend_first_empty u s k h0]
  have hpos : 0 < s.sb.sb_free_blocks := by omega
  obtain ⟨a1, a2, a3, a4⟩ := alloc_fresh u s.dbmap s.sb.sb_num_blocks s.sb.sb_free_blocks
    w_free hpos
  unfold bitmap_set at a3
  generalize alloc_idx u s.dbmap s.sb.sb_num_blocks = b at *
  generalize hn : div_round_up size VSFS_BLOCK_SIZE = n at *
  generalize hsF : ({ s with
            dbmap := upd s.dbmap b true,
            sb := { s.sb with sb_free_blocks := dec32 s.sb.sb_free_blocks },
            image := memset s.image (blk_addr b) 0 VSFS_BLOCK_SIZE,
            itable := upd s.itable k
              { s.itable k with i_direct := upd (s.itable k).i_direct 0 b } } : fs_ctx) = sF
  dsimp only
  rw [hc0] at hfree ⊢
  have e_db : sF.dbmap = upd s.dbmap b true := by rw [← hsF]
  have e_nb : sF.sb.sb_num_blocks = s.sb.sb_num_blocks := by rw [← hsF]
  have e_fr : sF.sb.sb_free_blocks = dec32 s.sb.sb_free_blocks := by rw [← hsF]
  have e_img : sF.image = memset s.image (blk_addr b) 0 VSFS_BLOCK_SIZE := by rw [← hsF]
  have e_it : sF.itable = upd s.itable k
      { s.itable k with i_direct := upd (s.itable k).i_direct 0 b } := by rw [← hsF]
  have e_blk0 : file_blk sF k 0 = b := by
    rw [file_blk_direct _ _ _ (by omega), e_it, upd_same]
    dsimp only
    rw [upd_same]
  have e_sz : (sF.itable k).i_size = 0 := by
    rw [e_it, upd_same]
    exact h0
  have e_bl : (sF.itable k).i_blocks = 0 := by
    rw [e_it, upd_same]
    exact hc0
  have e_ind : (sF.itable k).i_indirect = (s.itable k).i_indirect := by
    rw [e_it, upd_same]
  have hpre : grow_pre sF k 0 1 n := by
    refine ⟨by rw [e_nb]; exact w_nb, ⟨Nat.le_refl 1, hn1, hmax⟩,
      ⟨fun _ => by omega, fun h => by omega⟩, ?_, fun h => by omega, ?_, ?_⟩
    · intro j hj
      have : j = 0 := by omega
      rw [this, e_blk0, e_db, upd_same]
    · rw [e_fr]
      split_ifs at hfree ⊢ <;> omega
    · rw [e_fr, e_db, e_nb]
      exact a3
  have inv := grow_loop_spec u sF k 0 1 n hpre e_bl (fun h => by omega)
  generalize extend_loop u k sF 1 n = L at *
  obtain ⟨f_nb, f_it, f_mono, f_sbok, f_cnt, f_flag, f_new, f_old, f_ind0, f_ind1, f_img, f_only, f_inj⟩ := inv
  have himg1 : ∀ x, (tail_cleared sF k 1).image x = sF.image x := by
    intro x
    unfold tail_cleared
    dsimp only
    apply zero_tail_other _ _ _ _ (sub64_mod_lt _)
    right
    rw [e_sz]
    have : sub64 0 1 % VSFS_BLOCK_SIZE = 4095 := by decide
    rw [this]
    simp only [VSFS_BLOCK_SIZE]
    omega
  have hblk0 : file_blk L.1 k 0 = b := by
    have e : file_blk (tail_cleared sF k 1) k 0 = file_blk sF k 0 :=
      file_blk_zero_tail _ _ _ _ _ (by omega) (sub64_mod_lt _) (fun h => by omega)
    rw [f_old 0 (by omega), e, e_blk0]
  dsimp only [tail_cleared] at f_nb f_it f_mono f_sbok f_cnt f_new f_ind0 f_ind1 f_only
  have hclr : ∀ x, sF.dbmap x = false → s.dbmap x = false := by
    intro x hx
    cases hs : s.dbmap x with
    | false => rfl
    | true =>
      rw [e_db] at hx
      by_cases hxb : x = b
      · rw [hxb, upd_same] at hx
        exact Bool.noConfusion hx
      · rw [upd_other _ _ _ _ hxb, hs] at hx
        exact Bool.noConfusion hx
  have hset : ∀ x, s.dbmap x = true → sF.dbmap x = true := by
    intro x hx
    rw [e_db, upd_other _ _ _ _ (bool_ne_of _ _ _ hx a2)]
    exact hx
  have hFb : sF.dbmap b = true := by rw [e_db, upd_same]
  refine ⟨by rw [← e_nb]; exact f_nb, ?_, ?_, fun x hx => f_mono x (hset x hx), ?_, ?_, ?_, ?_,
    fun h => by omega, ?_, ?_, ?_, ?_, ?_⟩
  · intro j hj
    unfold set_size_fields
    dsimp only
    rw [upd_other _ _ _ _ hj, f_it j hj, e_it, upd_other _ _ _ _ hj]
  · unfold set_size_fields
    dsimp only
    rw [upd_same]
    exact ⟨rfl, Nat.mod_eq_of_lt (by omega)⟩
  · show L.1.sb.sb_free_blocks = zero_bits L.1.dbmap L.1.sb.sb_num_blocks
    rw [f_nb]
    exact f_sbok
  · show L.1.sb.sb_free_blocks + _ = _
    rw [e_fr] at f_cnt
    split_ifs at f_cnt ⊢ <;> omega
  · intro j hj
    omega
  · intro j _ hj2
    rw [file_blk_set_size_fields]
    by_cases hj0 : j = 0
    · rw [hj0, hblk0]
      refine ⟨a2, f_mono b hFb, a1, ?_⟩
      intro y hy
      show L.1.image (blk_addr b + y) = 0
      have hd := blk_addr_div b y hy
      rw [f_img _ (by rw [hd.1]; exact hFb) (fun h => by omega), himg1, e_img]
      exact memset_block_inside _ _ _ hy
    · obtain ⟨n1, n2, n3, n4⟩ := f_new j (by omega) hj2
      exact ⟨hclr _ n1, n2, by rw [← e_nb]; exact n3, n4⟩
  · intro h
    unfold set_size_fields
    dsimp only
    rw [upd_same]
    dsimp only
    rw [f_ind0 (by omega), e_ind]
  · intro h1 h2
    have e : ((set_size_fields now L.1 k n size).itable k).i_indirect
        = (L.1.itable k).i_indirect := by
      unfold set_size_fields
      dsimp only
      rw [upd_same]
    rw [e]
    obtain ⟨q1, q2, q3, q4⟩ := f_ind1 (by omega) h2
    refine ⟨hclr _ q1, q2, by rw [← e_nb]; exact q3, ?_⟩
    intro j hj
    rw [file_blk_set_size_fields]
    by_cases hj0 : j = 0
    · rw [hj0, hblk0]
      exact bool_ne_of _ _ _ hFb q1
    · exact q4 j (by omega) hj
  · intro x hx _ _
    show L.1.image x = s.image x
    rw [f_img x (hset _ hx) (fun h => by omega), himg1, e_img]
    exact memset_block_other _ _ _ (bool_ne_of _ _ _ hx a2)

  · intro x hx
    have e : ((set_size_fields now L.1 k n size).itable k).i_indirect
        = (L.1.itable k).i_indirect := by
      unfold set_size_fields
      dsimp only
      rw [upd_same]
    rcases f_only x hx with h | ⟨h1, h2, h3⟩ | ⟨j, hj1, hj2, hj3⟩
    · by_cases hxb : x = b
      · exact Or.inr (Or.inr ⟨0, Nat.le_refl 0, by omega,
          by rw [file_blk_set_size_fields, hblk0]; exact hxb⟩)
      · rw [e_db, upd_other _ _ _ _ hxb] at h
        exact Or.inl h
    · exact Or.inr (Or.inl ⟨h1, h2, by rw [e]; exact h3⟩)
    · exact Or.inr (Or.inr ⟨j, by omega, hj2, by rw [file_blk_set_size_fields]; exact hj3⟩)

  · intro j1 j2 h1 h2 h3
    rw [file_blk_set_size_fields, file_blk_set_size_fields]
    by_cases hj0 : j1 = 0
    · rw [hj0, hblk0]
      exact bool_ne_of _ _ _ hFb (f_new j2 (by omega) h3).1
    · exact f_inj j1 j2 (by omega) h2 h3

/-- A successful `extending_file` on a file that satisfies the engine
invariants: the resulting context relative to the context before. -/
theorem extending_file_spec (u now : Nat) (s : fs_ctx) (size : Nat) (k : Int)
    (hwf : file_wf s k) (hgrow : (s.itable k).i_size < size)
    (hmax : div_round_up size VSFS_BLOCK_SIZE ≤ 1029)
    (hfree : (div_round_up size VSFS_BLOCK_SIZE - (s.itable k).i_blocks)
          + (if (s.itable k).i_blocks ≤ 5 ∧ 5 < div_round_up size VSFS_BLOCK_SIZE then 1 else 0)
        ≤ s.sb.sb_free_blocks) :
    grow_post s k (s.itable k).i_blocks (div_round_up size VSFS_BLOCK_SIZE) size
      (extending_file u now s size k).2 := by
  by_cases h0 : (s.itable k).i_size = 0
  · exact grow_post_empty u now s size k hwf h0 hgrow hmax hfree
  · exact grow_post_nonempty u now s size k hwf h0 hgrow hmax hfree

theorem extending_file_enospc (u now : Nat) (s : fs_ctx) (size : Nat) (k : Int)
    (hle : (s.itable k).i_blocks ≤ div_round_up size VSFS_BLOCK_SIZE)
    (hmax : div_round_up size VSFS_BLOCK_SIZE ≤ 1029)
    (hlt : s.sb.sb_free_blocks
        < (div_round_up size VSFS_BLOCK_SIZE - (s.itable k).i_blocks)
          + (if (s.itable k).i_blocks ≤ 5 ∧ 5 < div_round_up size VSFS_BLOCK_SIZE
              then 1 else 0)) :
    extending_file u now s size k = (-ENOSPC, s) := by
  unfold extending_file
  simp only [sub64_of_le _ _ hle, VSFS_NUM_DIRECT]
  generalize div_round_up size VSFS_BLOCK_SIZE = n at *
  generalize (s.itable k).i_blocks = c at *
  by_cases hb : c ≤ 5 ∧ 5 < n
  · simp only [hb, and_self, if_true] at hlt
    by_cases hc1 : n - c > s.sb.sb_free_blocks
    · simp only [hc1, if_true]
    · have hc2 : c ≤ 5 ∧ n > 5 ∧ (n - c + 1) % 18446744073709551616 > s.sb.sb_free_blocks :=
        ⟨hb.1, hb.2, by omega⟩
      simp only [hc1, hc2, and_self, if_true, if_false]
  · simp only [hb, if_false] at hlt
    have hc1 : n - c > s.sb.sb_free_blocks := by omega
    simp only [hc1, if_true]

theorem vsfs_truncate_extends (u now : Nat) (s : fs_ctx) (path : List Nat) (size : Nat) (k : Int)
    (hk : (path_lookup s path).1 = k) (hex : 0 ≤ k)
    (hgrow : (s.itable k).i_size < size)
    (hmax : div_round_up size VSFS_BLOCK_SIZE ≤ 1029) :
    vsfs_truncate u now s path size = extending_file u now s size k := by
  have h1 : ¬ k < 0 := by omega
  have h2 : (s.itable k).i_size ≠ size := by omega
  have h3 : ¬ size > MAX_FILE_SIZE := by
    unfold div_round_up at hmax
    simp only [MAX_FILE_SIZE, VSFS_BLOCK_SIZE] at *
    omega
  have h4 : ¬ (s.itable k).i_size > size := by omega
  unfold vsfs_truncate
  simp only [hk, h1, h2, h3, h4, if_false]

theorem bool_false_of_not_true (bm : Nat → Bool) (b : Nat) (h : ¬ bm b = true) : bm b = false := by
  cases hb : bm b with
  | false => rfl
  | true => exact absurd hb h

theorem memcpy_to_other (img : Nat → Nat) (a : Nat) (buf : List Nat) (len x : Nat)
    (h : x < a ∨ a + len ≤ x) : memcpy_to img a buf len x = img x := by
  unfold memcpy_to
  have : ¬ (a ≤ x ∧ x < a + len) := by omega
  simp only [this, if_false]

theorem vsfs_write_eq (u now : Nat) (s : fs_ctx) (path buf : List Nat) (offset : Nat) :
    vsfs_write u now s path buf offset
      = if (if buf.length + offset > (s.itable (path_lookup s path).1).i_size
              then vsfs_truncate u now s path (buf.length + offset) else (0, s)).1 < 0
        then (if buf.length + offset > (s.itable (path_lookup s path).1).i_size
              then vsfs_truncate u now s path (buf.length + offset) else (0, s))
        else (toInt32 (buf.length % 4294967296),
              write_data now
                (if buf.length + offset > (s.itable (path_lookup s path).1).i_size
                  then vsfs_truncate u now s path (buf.length + offset) else (0, s)).2
                (path_lookup s path).1 buf offset) := rfl

theorem zero_bits_le (bm : Nat → Bool) (n : Nat) : zero_bits bm n ≤ n := by
  induction n with
  | zero => exact Nat.le_of_eq rfl
  | succ m ih =>
    rw [zero_bits_succ]
    split_ifs <;> omega

theorem release_block_direct (k : Int) (s : fs_ctx) (i : Nat) (h5 : i < 5) :
    release_block k s i
      = { s with image := memset s.image (blk_addr (file_blk s k i)) 0 VSFS_BLOCK_SIZE,
                 dbmap := upd s.dbmap (file_blk s k i) false,
                 sb := { s.sb with sb_free_blocks := inc32 s.sb.sb_free_blocks },
                 itable := upd s.itable k
                   { s.itable k with i_direct := upd (s.itable k).i_direct i 0 } } := by
  unfold release_block bitmap_free
  rw [file_blk_direct _ _ _ h5]
  simp only [VSFS_NUM_DIRECT, h5, if_true, VSFS_BLK_UNASSIGNED]

theorem release_block_indirect (k : Int) (s : fs_ctx) (i : Nat) (h5 : 5 ≤ i) (hi : i < 1029)
    (hsep : file_blk s k i ≠ (s.itable k).i_indirect) :
    release_block k s i
      = { s with dbmap := upd s.dbmap (file_blk s k i) false,
                 sb := { s.sb with sb_free_blocks := inc32 s.sb.sb_free_blocks },
                 image := write32 (memset s.image (blk_addr (file_blk s k i)) 0 VSFS_BLOCK_SIZE)
                   (blk_addr (s.itable k).i_indirect + 4 * (i - 5)) 0 } := by
  have h : ¬ i < 5 := by omega
  have e : read32 (memset s.image (blk_addr (file_blk s k i)) 0 VSFS_BLOCK_SIZE)
        (blk_addr (s.itable k).i_indirect + 4 * (i - 5))
      = file_blk s k i := by
    rw [file_blk_indirect _ _ _ h5] at hsep ⊢
    apply read32_slot_congr _ _ _ _ (by omega)
    intro x hx _ _
    exact memset_block_other _ _ _ (by rw [hx]; exact Ne.symm hsep)
  unfold release_block bitmap_free
  simp only [VSFS_NUM_DIRECT, h, if_false, VSFS_BLK_UNASSIGNED]
  rw [← file_blk_indirect _ _ _ h5, e]

theorem file_blk_congr (s s2 : fs_ctx) (k : Int) (j : Nat) (hj : j < 1029)
    (hdir : j < 5 → (s2.itable k).i_direct j = (s.itable k).i_direct j)
    (hind : 5 ≤ j → (s2.itable k).i_indirect = (s.itable k).i_indirect
      ∧ ∀ x, x / VSFS_BLOCK_SIZE = (s.itable k).i_indirect → 4 * (j - 5) ≤ x % VSFS_BLOCK_SIZE →
          x % VSFS_BLOCK_SIZE < 4 * (j - 5) + 4 → s2.image x = s.image x) :
    file_blk s2 k j = file_blk s k j := by
  by_cases h5 : j < 5
  · rw [file_blk_direct _ _ _ h5, file_blk_direct _ _ _ h5]
    exact hdir h5
  · rw [file_blk_indirect _ _ _ (by omega), file_blk_indirect _ _ _ (by omega), (hind (by omega)).1]
    exact read32_slot_congr _ _ _ _ (by omega) (hind (by omega)).2

/-- C21: `get_attributes` on an existing path (shorter than `VSFS_PATH_MAX`,
resolving to an inode whose block count is below 2^20, so that the `uint32_t`
product `i_blocks * VSFS_BLOCK_SIZE` does not wrap) succeeds and reports the
inode's stored mode, link count, size and modification time, and a block
count in 512-byte units of `8 * i_blocks`, plus 8 exactly when
`i_blocks > 5`.  The call reads the context and returns no new one. -/
theorem getattr_reports_inode (s : fs_ctx) (path : List Nat) (k : Int)
    (hlen : path.length < VSFS_PATH_MAX) (hk : (path_lookup s path).1 = k) (hex : 0 ≤ k)
    (hb : (s.itable k).i_blocks < 1048576) :
    vsfs_getattr s path
      = (0, { st_mode := (s.itable k).i_mode, st_nlink := (s.itable k).i_nlink,
              st_size := (s.itable k).i_size,
              st_blocks := 8 * (s.itable k).i_blocks
                + (if 5 < (s.itable k).i_blocks then 8 else 0),
              st_mtim := (s.itable k).i_mtime }) := by
  unfold vsfs_getattr
  have h1 : ¬ path.length ≥ VSFS_PATH_MAX := by omega
  have h2 : ¬ k < 0 := by omega
  rw [if_neg h1]
  dsimp only
  rw [hk, if_neg h2]
  have h3 : (s.itable k).i_blocks * VSFS_BLOCK_SIZE % 4294967296 / 512
      = 8 * (s.itable k).i_blocks := by
    simp only [VSFS_BLOCK_SIZE]
    omega
  rw [h3]
  by_cases h5 : 5 < (s.itable k).i_blocks
  · have h5b : (s.itable k).i_blocks > VSFS_NUM_DIRECT := h5
    rw [if_pos h5, if_pos h5b]
    rfl
  · have h5b : ¬ (s.itable k).i_blocks > VSFS_NUM_DIRECT := h5
    rw [if_neg h5, if_neg h5b]
    rfl

/-- Instance of C21: the file `/foo` of `img_foo7`, which has 7 data blocks and
an indirect pointer block. -/
theorem getattr_reports_inode_witness :
    vsfs_getattr img_foo7 path_foo
      = (0, { st_mode := (img_foo7.itable 1).i_mode, st_nlink := (img_foo7.itable 1).i_nlink,
              st_size := (img_foo7.itable 1).i_size,
              st_blocks := 8 * (img_foo7.itable 1).i_blocks
                + (if 5 < (img_foo7.itable 1).i_blocks then 8 else 0),
              st_mtim := (img_foo7.itable 1).i_mtime }) :=
  getattr_reports_inode img_foo7 path_foo 1 (by decide) (by decide) (by decide) (by decide)

/-! ## Paths that do not resolve -/

theorem path_lookup_not_absolute (s : fs_ctx) (path : List Nat) (h : path.head? ≠ some 47) :
    path_lookup s path = (-ENOSYS, none) := by
  unfold path_lookup
  cases path with
  | nil => rfl
  | cons c name =>
    have hc : c ≠ 47 := by
      intro e
      rw [e] at h
      exact h rfl
    dsimp only
    rw [if_pos hc]

theorem path_lookup_none (s : fs_ctx) (path : List Nat) (hroot : path ≠ [47])
    (h : (path_lookup s path).2 = none) : (path_lookup s path).1 = -ENOSYS := by
  unfold path_lookup at h ⊢
  cases path with
  | nil => rfl
  | cons c name =>
    dsimp only at h ⊢
    by_cases hc : c ≠ 47
    · rw [if_pos hc]
    · have hc2 : c = 47 := by omega
      have hn : ¬ name = [] := by
        intro e
        rw [hc2, e] at hroot
        exact hroot rfl
      rw [if_neg hc, if_neg hn] at h ⊢
      cases hf : (List.range (s.itable VSFS_ROOT_INO).i_blocks).findSome?
          (fun i => lookup_in_block s.image (blk_of s.image (s.itable VSFS_ROOT_INO) i) name) with
      | none => rfl
      | some d =>
        rw [hf] at h
        exact Option.noConfusion h

/-- The operations that test the result of `path_lookup` report every
negative result as ENOENT and return the context as it was. -/
theorem lookup_failure_is_enoent (u now : Nat) (s : fs_ctx) (path : List Nat) (size : Nat)
    (h : (path_lookup s path).1 < 0) :
    (path.length < VSFS_PATH_MAX → vsfs_getattr s path = (-ENOENT, zero_stat))
    ∧ vsfs_unlink u now s path = (-ENOENT, s)
    ∧ vsfs_truncate u now s path size = (-ENOENT, s) := by
  refine ⟨?_, ?_, ?_⟩
  · intro hlen
    unfold vsfs_getattr
    have h1 : ¬ path.length ≥ VSFS_PATH_MAX := by omega
    rw [if_neg h1]
    dsimp only
    rw [if_pos h]
  · unfold vsfs_unlink
    dsimp only
    rw [if_pos h]
  · unfold vsfs_truncate
    dsimp only
    rw [if_pos h]

/-- C23 (counterexample): on `img_foo`, path resolution returns the same
value `-ENOSYS` for the path `foo`, which lacks the leading `/`, and for the
absolute path `/zz`, which matches no entry, and `get_attributes`, `remove`
and `set_size` return the same error ENOENT for both. -/
theorem not_absolute_is_not_distinct :
    (path_lookup img_foo path_rel).1 = -ENOSYS
    ∧ (path_lookup img_foo path_zz).1 = -ENOSYS
    ∧ (vsfs_getattr img_foo path_rel).1 = -ENOENT
    ∧ (vsfs_getattr img_foo path_zz).1 = -ENOENT
    ∧ (vsfs_unlink 0 2 img_foo path_rel).1 = -ENOENT
    ∧ (vsfs_unlink 0 2 img_foo path_zz).1 = -ENOENT
    ∧ (vsfs_truncate 0 2 img_foo path_rel 10).1 = -ENOENT
    ∧ (vsfs_truncate 0 2 img_foo path_zz 10).1 = -ENOENT := by
  decide

/-- C23 (amended): path resolution of a path that lacks the leading `/` fails
with `-ENOSYS`, the value it also returns for every path other than `/` for
which it stores no entry; `get_attributes` (for a path shorter than
`VSFS_PATH_MAX`), `remove` and `set_size` report that failure as ENOENT and
return the context as it was. -/
theorem unresolved_path_is_not_found (u now : Nat) (s : fs_ctx) (path : List Nat) (size : Nat)
    (h : path.head? ≠ some 47 ∨ (path ≠ [47] ∧ (path_lookup s path).2 = none)) :
    (path_lookup s path).1 = -ENOSYS
    ∧ (path.length < VSFS_PATH_MAX → vsfs_getattr s path = (-ENOENT, zero_stat))
    ∧ vsfs_unlink u now s path = (-ENOENT, s)
    ∧ vsfs_truncate u now s path size = (-ENOENT, s) := by
  have hl : (path_lookup s path).1 = -ENOSYS := by
    rcases h with h | ⟨h1, h2⟩
    · rw [path_lookup_not_absolute s path h]
    · exact path_lookup_none s path h1 h2
  exact ⟨hl, lookup_failure_is_enoent u now s path size (by rw [hl]; decide)⟩

/-- Instance of C23 (amended): the path `foo` on `img_foo`. -/
theorem unresolved_path_is_not_found_witness :
    (path_lookup img_foo path_rel).1 = -ENOSYS
    ∧ vsfs_unlink 0 2 img_foo path_rel = (-ENOENT, img_foo)
    ∧ vsfs_truncate 0 2 img_foo path_rel 10 = (-ENOENT, img_foo) :=
  (unresolved_path_is_not_found 0 2 img_foo path_rel 10 (Or.inl (by decide)))
    |> fun h => ⟨h.1, h.2.2.1, h.2.2.2⟩

/-- C24 (counterexample): on `img_foo` the absolute path `/zz` matches no
entry, so that path resolution fails.  `set_modification_time("/zz")` with
the time value `UTIME_OMIT` returns 0, not ENOENT, and with the time 9 it
does not return ENOENT either: it indexes the inode table, which has 64
entries, with the result of the failed path resolution. -/
theorem utimens_has_no_not_found :
    path_zz.head? = some 47
    ∧ (path_lookup img_foo path_zz).1 = -ENOSYS
    ∧ vsfs_utimens 7 img_foo path_zz 9 UTIME_OMIT = Except.ok (0, img_foo)
    ∧ img_foo.sb.sb_num_inodes = 64
    ∧ vsfs_utimens 7 img_foo path_zz 9 0 = Except.error fault.out_of_range := by
  refine ⟨by decide, by decide, rfl, by decide, ?_⟩
  have h : (path_lookup img_foo path_zz).1 = -ENOSYS := by decide
  unfold vsfs_utimens
  rw [if_neg (by decide)]
  dsimp only
  rw [h, if_neg (by decide)]

/-- C24 (amended): for a path whose resolution fails, `get_attributes`,
`remove` and `set_size` return ENOENT and the context as it was.
`set_modification_time` with the time value `UTIME_OMIT` returns 0 and the
context as it was, whatever the path. -/
theorem unresolved_path_checked_ops (u now : Nat) (s : fs_ctx) (path : List Nat) (size t1 : Nat)
    (h : (path_lookup s path).1 < 0) :
    (path.length < VSFS_PATH_MAX → vsfs_getattr s path = (-ENOENT, zero_stat))
    ∧ vsfs_unlink u now s path = (-ENOENT, s)
    ∧ vsfs_truncate u now s path size = (-ENOENT, s)
    ∧ vsfs_utimens now s path t1 UTIME_OMIT = Except.ok (0, s) :=
  ⟨(lookup_failure_is_enoent u now s path size h).1,
   (lookup_failure_is_enoent u now s path size h).2.1,
   (lookup_failure_is_enoent u now s path size h).2.2, rfl⟩

/-- Instance of C24 (amended): the path `/zz` on `img_foo`. -/
theorem unresolved_path_checked_ops_witness :
    (path_lookup img_foo path_zz).1 < 0
    ∧ vsfs_getattr img_foo path_zz = (-ENOENT, zero_stat)
    ∧ vsfs_unlink 0 2 img_foo path_zz = (-ENOENT, img_foo)
    ∧ vsfs_truncate 0 2 img_foo path_zz 10 = (-ENOENT, img_foo)
    ∧ vsfs_utimens 2 img_foo path_zz 9 UTIME_OMIT = Except.ok (0, img_foo) :=
  (unresolved_path_checked_ops 0 2 img_foo path_zz 10 9 (by decide))
    |> fun h => ⟨by decide, h.1 (by decide), h.2.1, h.2.2.1, h.2.2.2⟩

/-! ## The indirect pointer block taken by a grow -/

/-- C25 (evaluation at the failing input): `img_foo20k_rm` is reached from
`img_foo` by `truncate("/foo", 20480)`, `create("/x")`, a write of eight
bytes 9 to `/x` and `remove("/x")`, all successful; `/foo` has 5 blocks and
block 10, freed by the remove, keeps the bytes of `/x`.  `truncate("/foo",
24576)` succeeds and takes block 10 as indirect pointer block: entry 0 holds
the new data block 11, and entry 1, at index `n - 5 = 1`, holds 0x09090909,
not zero. -/
theorem grow_leaves_indirect_block_stale :
    (vsfs_truncate 0 2 img_foo path_foo 20480).1 = 0
    ∧ (vsfs_create 0 3 img_foo20k path_x 33188).1 = 0
    ∧ (vsfs_write 0 4 img_foo20k_x path_x [9, 9, 9, 9, 9, 9, 9, 9] 0).1 = 8
    ∧ (vsfs_unlink 0 5 img_foo20k_xw path_x).1 = 0
    ∧ (img_foo20k_rm.itable 1).i_blocks = 5
    ∧ img_foo20k_rm.dbmap 10 = false
    ∧ (vsfs_truncate 0 6 img_foo20k_rm path_foo 24576).1 = 0
    ∧ (img_foo24k.itable 1).i_blocks = 6
    ∧ (img_foo24k.itable 1).i_indirect = 10
    ∧ read32 img_foo24k.image (blk_addr 10 + 4 * 0) = 11
    ∧ read32 img_foo24k.image (blk_addr 10 + 4 * 1) = 151587081 := by
  decide

/-! ## The guards of a create -/

/-- C30 (counterexample): `img_foo_tight` has 62 free inodes and a root
directory block with a free slot (slot 1 of block 4), and its free block
count is 0; `create("/x")` fails with ENOSPC. -/
theorem create_with_free_slot_needs_free_block :
    img_foo_tight.sb.sb_free_inodes = 62
    ∧ img_foo_tight.ibmap 2 = false
    ∧ (img_foo_tight.itable 0).i_blocks = 1
    ∧ read32 img_foo_tight.image
        (dentry_addr (blk_of img_foo_tight.image (img_foo_tight.itable 0) 0) 1) = VSFS_INO_MAX
    ∧ img_foo_tight.sb.sb_free_blocks = 0
    ∧ (vsfs_create 0 3 img_foo_tight path_x 33188).1 = -ENOSPC := by
  decide

theorem findSome_range_some {β : Type} (n : Nat) (f : Nat → Option β) (i : Nat) (hi : i < n)
    (h : (f i).isSome = true) : ∃ d, (List.range n).findSome? f = some d := by
  cases hf : (List.range n).findSome? f with
  | some d => exact ⟨d, rfl⟩
  | none =>
    rw [List.findSome?_eq_none_iff] at hf
    have := hf i (List.mem_range.2 hi)
    rw [this] at h
    exact Bool.noConfusion h

/-- C30 (amended): `create` fails with ENOSPC, leaving the context as it was,
when the free inode count is 0 or the free block count of the superblock is
0, whether or not a directory slot is free.  When both counts are not 0, a
free inode number exists below the bound of the bitmap search, the root's
inode is marked in use and some allocated root directory block contains a
free slot, `create` succeeds and takes no data block: the data bitmap and
the free block count are unchanged. -/
theorem create_guards_and_free_slot (u now : Nat) (s : fs_ctx) (path : List Nat) (mode : Nat) :
    ((s.sb.sb_free_inodes = 0 ∨ s.sb.sb_free_blocks = 0) →
      vsfs_create u now s path mode = (-ENOSPC, s))
    ∧ (s.sb.sb_free_inodes ≠ 0 → s.sb.sb_free_blocks ≠ 0 →
        s.ibmap 0 = true → (∃ b, b < s.sb.sb_num_blocks ∧ s.ibmap b = false) →
        (∃ i j, i < (s.itable 0).i_blocks ∧ j < dentry_per_blk
          ∧ read32 s.image (dentry_addr (blk_of s.image (s.itable 0) i) j) = VSFS_INO_MAX) →
        (vsfs_create u now s path mode).1 = 0
        ∧ (vsfs_create u now s path mode).2.dbmap = s.dbmap
        ∧ (vsfs_create u now s path mode).2.sb.sb_free_blocks = s.sb.sb_free_blocks) := by
  constructor
  · intro h
    unfold vsfs_create
    by_cases h1 : s.sb.sb_free_inodes = 0
    · rw [if_pos h1]
    · have h2 : s.sb.sb_free_blocks = 0 := by
        rcases h with h | h
        · exact absurd h h1
        · exact h
      rw [if_neg h1, if_pos h2]
  · intro h1 h2 hroot ⟨b, hb, hclear⟩ ⟨i, j, hi, hj, hslot⟩
    obtain ⟨_, a2, _⟩ := alloc_idx_spec u s.ibmap s.sb.sb_num_blocks b hb hclear
    have hidx : ((alloc_idx u s.ibmap s.sb.sb_num_blocks : Nat) : Int) ≠ 0 := by
      intro h0
      have h0n : alloc_idx u s.ibmap s.sb.sb_num_blocks = 0 := by omega
      rw [h0n, hroot] at a2
      exact Bool.noConfusion a2
    obtain ⟨e, he⟩ := free_slot_in_block_of s.image (blk_of s.image (s.itable 0) i) j hj hslot
    obtain ⟨d, hd⟩ := findSome_range_some (s.itable 0).i_blocks
      (fun i => free_slot_in_block s.image (blk_of s.image (s.itable 0) i)) i hi
      (by dsimp only; rw [he]; rfl)
    unfold vsfs_create
    simp only [h1, h2, if_false, root_cast]
    rw [create_dentry_found u _ _ path d (by
      simp only [upd_other _ _ _ _ (Ne.symm hidx)]
      exact hd)]
    simp only [ne_eq, not_true_eq_false, if_false]
    exact ⟨trivial, trivial, trivial⟩

/-- Instance of C30 (amended): `create("/x")` on `img_foo_tight` fails, and on
`img_foo`, whose directory block has free slots, it succeeds without taking
a block. -/
theorem create_guards_and_free_slot_witness :
    vsfs_create 0 3 img_foo_tight path_x 33188 = (-ENOSPC, img_foo_tight)
    ∧ (vsfs_create 0 3 img_foo path_x 33188).1 = 0
    ∧ (vsfs_create 0 3 img_foo path_x 33188).2.sb.sb_free_blocks = img_foo.sb.sb_free_blocks :=
  ⟨(create_guards_and_free_slot 0 3 img_foo_tight path_x 33188).1 (Or.inr (by decide)),
    ((create_guards_and_free_slot 0 3 img_foo path_x 33188).2 (by decide) (by decide) (by decide)
      ⟨2, by decide, by decide⟩ ⟨0, 1, by decide, by decide, by decide⟩).1,
    ((create_guards_and_free_slot 0 3 img_foo path_x 33188).2 (by decide) (by decide) (by decide)
      ⟨2, by decide, by decide⟩ ⟨0, 1, by decide, by decide, by decide⟩).2.2⟩

/-! ## Listing the root directory: the names passed to the sink -/

theorem feed_nil {β : Type} (filler : β → Nat → β × Int) (b : β) :
    feed filler b [] = (0, b) := rfl

theorem feed_cons {β : Type} (filler : β → Nat → β × Int) (b : β) (a : Nat) (as : List Nat) :
    feed filler b (a :: as)
      = if (filler b a).2 ≠ 0 then (-ENOMEM, (filler b a).1)
        else feed filler (filler b a).1 as := rfl

theorem feed_append {β : Type} (filler : β → Nat → β × Int) (l1 l2 : List Nat) :
    ∀ b, feed filler b (l1 ++ l2)
      = if (feed filler b l1).1 ≠ 0 then feed filler b l1
        else feed filler (feed filler b l1).2 l2 := by
  induction l1 with
  | nil =>
    intro b
    rfl
  | cons a t ih =>
    intro b
    rw [List.cons_append, feed_cons, feed_cons]
    by_cases h : (filler b a).2 ≠ 0
    · simp only [if_pos h]
      have : (-ENOMEM : Int) ≠ 0 := by decide
      rw [if_pos this]
    · simp only [if_neg h]
      exact ih _

/-- The inner loop of `vsfs_readdir` over a list of slots of one block. -/
theorem readdir_block_spec {β : Type} (img : Nat → Nat) (filler : β → Nat → β × Int) (blk : Nat)
    (l : List Nat) :
    ∀ acc : Int × β, l.foldl (readdir_step img filler blk) acc
      = if acc.1 ≠ 0 then acc
        else feed filler acc.2 (l.filterMap (fun j =>
          if read32 img (dentry_addr blk j) = VSFS_INO_MAX then none
          else some (dentry_addr blk j + 4))) := by
  induction l with
  | nil =>
    intro acc
    rw [List.foldl_nil, List.filterMap_nil]
    by_cases h : acc.1 ≠ 0
    · rw [if_pos h]
    · rw [if_neg h]
      have h0 : acc.1 = 0 := by omega
      rw [feed_nil, ← h0]
  | cons j t ih =>
    intro acc
    rw [List.foldl_cons, ih, List.filterMap_cons]
    unfold readdir_step
    by_cases h : acc.1 ≠ 0
    · rw [if_pos h, if_pos h, if_pos h]
    · rw [if_neg h, if_neg h]
      by_cases hf : read32 img (dentry_addr blk j) = VSFS_INO_MAX
      · rw [if_pos hf, if_pos hf, if_neg h]
      · rw [if_neg hf, if_neg hf]
        dsimp only
        by_cases hr : (filler acc.2 (dentry_addr blk j + 4)).2 ≠ 0
        · rw [if_pos hr]
          have : (-ENOMEM : Int) ≠ 0 := by decide
          rw [if_pos this, feed_cons, if_pos hr]
        · rw [if_neg hr]
          have : ¬ ((0 : Int) ≠ 0) := by omega
          rw [if_neg this, feed_cons, if_neg hr]

/-- The outer loop of `vsfs_readdir` over a list of logical blocks. -/
theorem readdir_blocks_spec {β : Type} (img : Nat → Nat) (filler : β → Nat → β × Int)
    (root : vsfs_inode) (l : List Nat) :
    ∀ acc : Int × β,
      l.foldl (fun acc i =>
          (List.range dentry_per_blk).foldl (readdir_step img filler (blk_of img root i)) acc) acc
      = if acc.1 ≠ 0 then acc
        else feed filler acc.2 (l.flatMap (fun i =>
          (List.range dentry_per_blk).filterMap (fun j =>
            if read32 img (dentry_addr (blk_of img root i) j) = VSFS_INO_MAX then none
            else some (dentry_addr (blk_of img root i) j + 4)))) := by
  induction l with
  | nil =>
    intro acc
    rw [List.foldl_nil, List.flatMap_nil]
    by_cases h : acc.1 ≠ 0
    · rw [if_pos h]
    · rw [if_neg h]
      have h0 : acc.1 = 0 := by omega
      rw [feed_nil, ← h0]
  | cons i t ih =>
    intro acc
    rw [List.foldl_cons, ih, List.flatMap_cons, readdir_block_spec]
    by_cases h : acc.1 ≠ 0
    · rw [if_pos h, if_pos h, if_pos h]
    · rw [if_neg h, if_neg h, feed_append]

/-- C22: `list_entries` on the root directory is the passing of the names of
`live_entries` to the sink: the entries whose inode number is not the free
sentinel, one call per entry, in logical block order and then slot order over
the root's allocated blocks; it returns 0 when the sink accepts every name,
and returns `-ENOMEM` at the first name the sink rejects, passing no further
name.  When the blocks of the directory are pairwise distinct no name is
passed twice. -/
theorem readdir_lists_live_entries {β : Type} (s : fs_ctx) (filler : β → Nat → β × Int)
    (buf : β) :
    vsfs_readdir s filler buf = feed filler buf (live_entries s)
    ∧ ((∀ i1 i2, i1 < i2 → i2 < (s.itable 0).i_blocks →
          blk_of s.image (s.itable 0) i1 ≠ blk_of s.image (s.itable 0) i2) →
        (live_entries s).Nodup) := by
  constructor
  · unfold vsfs_readdir live_entries
    dsimp only
    rw [root_cast, readdir_blocks_spec]
    have : ¬ ((0 : Int) ≠ 0) := by omega
    rw [if_neg this]
  · intro hdist
    unfold live_entries
    rw [List.nodup_flatMap]
    have hmem : ∀ (blk a : Nat), a ∈ (List.range dentry_per_blk).filterMap (fun j =>
          if read32 s.image (dentry_addr blk j) = VSFS_INO_MAX then none
          else some (dentry_addr blk j + 4)) →
        ∃ j, j < dentry_per_blk ∧ a = dentry_addr blk j + 4 := by
      intro blk a ha
      rw [List.mem_filterMap] at ha
      obtain ⟨j, hj, hja⟩ := ha
      rw [List.mem_range] at hj
      by_cases hf : read32 s.image (dentry_addr blk j) = VSFS_INO_MAX
      · rw [if_pos hf] at hja
        exact Option.noConfusion hja
      · rw [if_neg hf, Option.some.injEq] at hja
        exact ⟨j, hj, hja.symm⟩
    constructor
    · intro i _
      apply List.Nodup.filterMap _ (List.nodup_range _)
      intro j j2 b hb hb2
      by_cases hf : read32 s.image (dentry_addr (blk_of s.image (s.itable 0) i) j) = VSFS_INO_MAX
      · rw [if_pos hf] at hb
        simp at hb
      · by_cases hf2 : read32 s.image (dentry_addr (blk_of s.image (s.itable 0) i) j2)
            = VSFS_INO_MAX
        · rw [if_pos hf2] at hb2
          simp at hb2
        · rw [if_neg hf] at hb
          rw [if_neg hf2] at hb2
          simp only [Option.mem_def, Option.some.injEq] at hb hb2
          unfold dentry_addr at hb hb2
          simp only [DENTRY_SIZE, VSFS_NAME_MAX] at hb hb2
          omega
    · have hp : List.Pairwise (fun i1 i2 => i1 < i2) (List.range (s.itable 0).i_blocks) :=
        List.pairwise_lt_range _
      apply List.Pairwise.imp_of_mem _ hp
      intro i1 i2 h1 h2 hlt
      rw [List.mem_range] at h2
      have hne := hdist i1 i2 hlt h2
      show List.Disjoint _ _
      intro a ha1 ha2
      obtain ⟨j1, hj1, e1⟩ := hmem _ a ha1
      obtain ⟨j2, hj2, e2⟩ := hmem _ a ha2
      apply hne
      rw [e1] at e2
      unfold dentry_addr blk_addr at e2
      simp only [dentry_per_blk, VSFS_BLOCK_SIZE, DENTRY_SIZE, VSFS_NAME_MAX] at *
      omega

/-- Instance of C22: the root directory of `img_foo_x` holds the entries `foo`
and `x`; a sink that records the offsets of the names and accepts them gets
both, and a sink that rejects the first name gets only that one. -/
theorem readdir_lists_live_entries_witness :
    vsfs_readdir img_foo_x (fun (b : List Nat) a => (b ++ [a], 0)) []
      = feed (fun (b : List Nat) a => (b ++ [a], 0)) [] (live_entries img_foo_x)
    ∧ vsfs_readdir img_foo_x (fun (b : List Nat) a => (b ++ [a], 0)) [] = (0, [16388, 16644])
    ∧ vsfs_readdir img_foo_x (fun (b : List Nat) a => (b ++ [a], 1)) [] = (-ENOMEM, [16388]) :=
  ⟨(readdir_lists_live_entries img_foo_x (fun (b : List Nat) a => (b ++ [a], 0)) []).1,
    by decide, by decide⟩

/-! ## Shrinking a file: the blocks and the bytes -/

theorem write32_zero (img : Nat → Nat) (a x : Nat) :
    write32 img a 0 x = 0 ∨ write32 img a 0 x = img x := by
  unfold write32
  by_cases h0 : x = a
  · left
    simp [h0]
  · by_cases h1 : x = a + 1
    · left
      simp [h0, h1]
    · by_cases h2 : x = a + 2
      · left
        simp [h0, h1, h2]
      · by_cases h3 : x = a + 3
        · left
          simp [h0, h1, h2, h3]
        · right
          simp [h0, h1, h2, h3]

theorem memset_zero (img : Nat → Nat) (a len x : Nat) :
    memset img a 0 len x = 0 ∨ memset img a 0 len x = img x := by
  unfold memset
  by_cases h : a ≤ x ∧ x < a + len
  · left
    rw [if_pos h]
  · right
    rw [if_neg h]

theorem release_step_inv (t : fs_ctx) (k : Int) (n0 c i : Nat) (st : fs_ctx)
    (hmax : c ≤ 1029)
    (hsep : 5 < c → ∀ j, n0 ≤ j → j < c → file_blk t k j ≠ (t.itable k).i_indirect)
    (hfree : t.sb.sb_free_blocks + (c - n0) < 4294967296)
    (hi1 : n0 ≤ i) (hi2 : i < c) (hinv : release_inv t k n0 c i st) :
    release_inv t k n0 c (i + 1) (release_block k st i) := by
  obtain ⟨r_nb, r_it, r_free, r_ind, r_bits, r_zero, r_ptr_d, r_ptr_i, r_pend, r_kept, r_keep0,
    r_img, r_dbmap⟩ := hinv
  have hBi : file_blk st k i = file_blk t k i := r_pend i (Nat.le_refl i) hi2
  have hdb : ∀ (bm : Nat → Bool), (∀ j, n0 ≤ j → j < i → bm (file_blk t k j) = false) →
      ∀ j, n0 ≤ j → j < i + 1 → upd bm (file_blk st k i) false (file_blk t k j) = false := by
    intro bm hbm j hj0 hj
    by_cases hb : file_blk t k j = file_blk st k i
    · rw [hb, upd_same]
    · rw [upd_other _ _ _ _ hb]
      apply hbm j hj0
      by_contra hji
      have : j = i := by omega
      rw [this, hBi] at hb
      exact hb rfl
  have hdbm : ∀ b, upd st.dbmap (file_blk st k i) false b = true → t.dbmap b = true := by
    intro b hb
    by_cases hbb : b = file_blk st k i
    · rw [hbb, upd_same] at hb
      exact Bool.noConfusion hb
    · rw [upd_other _ _ _ _ hbb] at hb
      exact r_dbmap b hb
  by_cases h5 : i < 5
  · rw [release_block_direct k st i h5]
    have himg : ∀ x, x / VSFS_BLOCK_SIZE ≠ file_blk t k i →
        memset st.image (blk_addr (file_blk st k i)) 0 VSFS_BLOCK_SIZE x = st.image x := by
      intro x hx
      rw [hBi]
      exact memset_block_other _ _ _ hx
    have hslot : 5 < c → ∀ e, e < 1024 →
        read32 (memset st.image (blk_addr (file_blk st k i)) 0 VSFS_BLOCK_SIZE)
            (blk_addr (t.itable k).i_indirect + 4 * e)
          = read32 st.image (blk_addr (t.itable k).i_indirect + 4 * e) := by
      intro hc5 e he
      apply read32_slot_congr _ _ _ _ he
      intro x hx _ _
      apply himg
      rw [hx]
      exact Ne.symm (hsep hc5 i hi1 hi2)
    have hfb : ∀ j, j ≠ i → j < c →
        file_blk { st with
            image := memset st.image (blk_addr (file_blk st k i)) 0 VSFS_BLOCK_SIZE,
            dbmap := upd st.dbmap (file_blk st k i) false,
            sb := { st.sb with sb_free_blocks := inc32 st.sb.sb_free_blocks },
            itable := upd st.itable k
              { st.itable k with i_direct := upd (st.itable k).i_direct i 0 } } k j
          = file_blk st k j := by
      intro j hji hjc
      apply file_blk_congr _ _ k j (by omega)
      · intro hj5
        dsimp only
        rw [upd_same]
        dsimp only
        rw [upd_other _ _ _ _ hji]
      · intro hj5
        dsimp only
        rw [upd_same]
        refine ⟨rfl, ?_⟩
        intro x hx _ _
        apply himg
        rw [hx, r_ind]
        exact Ne.symm (hsep (by omega) i hi1 hi2)
    refine ⟨r_nb, ?_, ?_, ?_, hdb _ r_bits, ?_, ?_, ?_, ?_, ?_, ?_, ?_, hdbm⟩
    · intro j hj
      dsimp only
      rw [upd_other _ _ _ _ hj]
      exact r_it j hj
    · dsimp only
      rw [r_free, inc32_of_lt _ (by omega)]
      omega
    · dsimp only
      rw [upd_same]
      exact r_ind
    · intro j hj0 hj y hy
      dsimp only
      rw [hBi]
      by_cases hji : j = i
      · rw [hji]
        exact memset_block_inside _ _ _ hy
      · rcases memset_zero st.image (blk_addr (file_blk t k i)) VSFS_BLOCK_SIZE
          (blk_addr (file_blk t k j) + y) with h | h
        · exact h
        · rw [h]
          exact r_zero j hj0 (by omega) y hy
    · intro j hj0 hj hj5
      dsimp only
      rw [upd_same]
      dsimp only
      by_cases hji : j = i
      · rw [hji, upd_same]
      · rw [upd_other _ _ _ _ hji]
        exact r_ptr_d j hj0 (by omega) hj5
    · intro j hj0 hj hj5
      omega
    · intro j hj1 hj2
      rw [hfb j (by omega) hj2]
      exact r_pend j (by omega) hj2
    · intro j hj
      rw [hfb j (by omega) (by omega)]
      exact r_kept j hj
    · intro x
      dsimp only
      rcases memset_zero st.image (blk_addr (file_blk st k i)) VSFS_BLOCK_SIZE x with h | h
      · exact Or.inl h
      · rw [h]
        exact r_keep0 x
    · intro x hx1 hx2
      dsimp only
      rw [himg x (hx1 i hi1 (by omega))]
      exact r_img x (fun j h1 h2 => hx1 j h1 (by omega)) hx2
  · have hc5 : 5 < c := by omega
    have hs : file_blk st k i ≠ (st.itable k).i_indirect := by
      rw [hBi, r_ind]
      exact hsep hc5 i hi1 hi2
    rw [release_block_indirect k st i (by omega) (by omega) hs]
    have himg : ∀ x, x / VSFS_BLOCK_SIZE ≠ file_blk t k i →
        (x / VSFS_BLOCK_SIZE = (t.itable k).i_indirect →
          x % VSFS_BLOCK_SIZE < 4 * (i - 5) ∨ 4 * (i - 5) + 4 ≤ x % VSFS_BLOCK_SIZE) →
        write32 (memset st.image (blk_addr (file_blk st k i)) 0 VSFS_BLOCK_SIZE)
            (blk_addr (st.itable k).i_indirect + 4 * (i - 5)) 0 x = st.image x := by
      intro x hx hx2
      rw [write32_other, hBi, memset_block_other _ _ _ hx]
      rw [r_ind]
      by_cases hxi : x / VSFS_BLOCK_SIZE = (t.itable k).i_indirect
      · have := hx2 hxi
        unfold blk_addr
        simp only [VSFS_BLOCK_SIZE] at *
        omega
      · unfold blk_addr
        simp only [VSFS_BLOCK_SIZE] at *
        omega
    have hfb : ∀ j, j ≠ i → j < c →
        file_blk { st with
            dbmap := upd st.dbmap (file_blk st k i) false,
            sb := { st.sb with sb_free_blocks := inc32 st.sb.sb_free_blocks },
            image := write32 (memset st.image (blk_addr (file_blk st k i)) 0 VSFS_BLOCK_SIZE)
              (blk_addr (st.itable k).i_indirect + 4 * (i - 5)) 0 } k j
          = file_blk st k j := by
      intro j hji hjc
      apply file_blk_congr _ _ k j (by omega)
      · intro hj5
        rfl
      · intro hj5
        refine ⟨rfl, ?_⟩
        intro x hx hx1 hx2
        dsimp only
        apply himg
        · rw [hx, r_ind]
          exact Ne.symm (hsep hc5 i hi1 hi2)
        · intro _
          omega
    refine ⟨r_nb, r_it, ?_, r_ind, hdb _ r_bits, ?_, ?_, ?_, ?_, ?_, ?_, ?_, hdbm⟩
    · dsimp only
      rw [r_free, inc32_of_lt _ (by omega)]
      omega
    · intro j hj0 hj y hy
      dsimp only
      rcases write32_zero (memset st.image (blk_addr (file_blk st k i)) 0 VSFS_BLOCK_SIZE)
          (blk_addr (st.itable k).i_indirect + 4 * (i - 5))
          (blk_addr (file_blk t k j) + y) with h | h
      · exact h
      · rw [h, hBi]
        by_cases hji : j = i
        · rw [hji]
          exact memset_block_inside _ _ _ hy
        · rcases memset_zero st.image (blk_addr (file_blk t k i)) VSFS_BLOCK_SIZE
            (blk_addr (file_blk t k j) + y) with h2 | h2
          · exact h2
          · rw [h2]
            exact r_zero j hj0 (by omega) y hy
    · intro j hj0 hj hj5
      exact r_ptr_d j hj0 (by omega) hj5
    · intro j hj0 hj hj5
      dsimp only
      by_cases hji : j = i
      · rw [hji, r_ind, read32_write32_same]
      · rw [← r_ptr_i j hj0 (by omega) hj5]
        apply read32_slot_congr _ _ _ _ (by omega)
        intro x hx hx1 hx2
        apply himg
        · rw [hx]
          exact Ne.symm (hsep hc5 i hi1 hi2)
        · intro _
          omega
    · intro j hj1 hj2
      rw [hfb j (by omega) hj2]
      exact r_pend j (by omega) hj2
    · intro j hj
      rw [hfb j (by omega) (by omega)]
      exact r_kept j hj
    · intro x
      dsimp only
      rcases write32_zero (memset st.image (blk_addr (file_blk st k i)) 0 VSFS_BLOCK_SIZE)
          (blk_addr (st.itable k).i_indirect + 4 * (i - 5)) x with h | h
      · exact Or.inl h
      · rw [h]
        rcases memset_zero st.image (blk_addr (file_blk st k i)) VSFS_BLOCK_SIZE x with h2 | h2
        · exact Or.inl h2
        · rw [h2]
          exact r_keep0 x
    · intro x hx1 hx2
      dsimp only
      rw [himg x (hx1 i hi1 (by omega)) (by
        intro hxi
        have := hx2 hc5 hxi
        omega)]
      exact r_img x (fun j h1 h2 => hx1 j h1 (by omega)) hx2

theorem release_base (t : fs_ctx) (k : Int) (n0 c : Nat) : release_inv t k n0 c n0 t := by
  refine ⟨rfl, fun _ _ => rfl, by omega, rfl, ?_, ?_, ?_, ?_, fun _ _ _ => rfl, fun _ _ => rfl,
    fun _ => Or.inr rfl, fun _ _ _ => rfl, fun _ h => h⟩
  · intro j h1 h2
    omega
  · intro j h1 h2
    omega
  · intro j h1 h2
    omega
  · intro j h1 h2
    omega

/-- The releasing iterations `n0, …, c - 1` of `shrinking_file` establish the
invariant at `c`. -/
theorem release_range_spec (t : fs_ctx) (k : Int) (n0 c : Nat) (hn : n0 ≤ c) (hmax : c ≤ 1029)
    (hsep : 5 < c → ∀ j, n0 ≤ j → j < c → file_blk t k j ≠ (t.itable k).i_indirect)
    (hfree : t.sb.sb_free_blocks + (c - n0) < 4294967296) :
    release_inv t k n0 c c ((List.range' n0 (c - n0)).foldl (release_block k) t) := by
  have h := @foldl_range_inv fs_ctx (fun i st => release_inv t k n0 c i st) (release_block k)
    (c - n0) n0 t (release_base t k n0 c)
    (fun i st h1 h2 hp => release_step_inv t k n0 c i st hmax hsep hfree h1 (by omega) hp)
  have e : n0 + (c - n0) = c := by omega
  rw [e] at h
  exact h

theorem foldl_congr_mem {σ : Type} (f g : σ → Nat → σ) (l : List Nat) :
    ∀ s : σ, (∀ (st : σ) (i : Nat), i ∈ l → f st i = g st i) → l.foldl f s = l.foldl g s := by
  induction l with
  | nil =>
    intro s _
    rfl
  | cons a t ih =>
    intro s h
    rw [List.foldl_cons, List.foldl_cons, h s a (List.mem_cons_self a t)]
    exact ih _ (fun st i hi => h st i (List.mem_cons_of_mem a hi))

theorem shrink_loop_zero (k : Int) (s : fs_ctx) (size : Nat)
    (h0 : div_round_up size VSFS_BLOCK_SIZE = 0) :
    shrink_loop k s size = (List.range' 0 (s.itable k).i_blocks).foldl (release_block k) s := by
  unfold shrink_loop
  simp only [h0, if_true]

theorem shrink_loop_pos (k : Int) (s : fs_ctx) (size : Nat)
    (h1 : 1 ≤ div_round_up size VSFS_BLOCK_SIZE)
    (hle : div_round_up size VSFS_BLOCK_SIZE ≤ (s.itable k).i_blocks) :
    shrink_loop k s size
      = (List.range' (div_round_up size VSFS_BLOCK_SIZE)
            ((s.itable k).i_blocks - div_round_up size VSFS_BLOCK_SIZE)).foldl (release_block k)
          (shrink_tail s k (div_round_up size VSFS_BLOCK_SIZE) size) := by
  unfold shrink_loop
  generalize div_round_up size VSFS_BLOCK_SIZE = nb at *
  generalize hc : (s.itable k).i_blocks = c at *
  have h0 : ¬ nb = 0 := by omega
  simp only [h0, if_false]
  have hr : List.range' (nb - 1) (c - (nb - 1)) = (nb - 1) :: List.range' nb (c - nb) := by
    have e1 : c - (nb - 1) = (c - nb) + 1 := by omega
    rw [e1, List.range'_succ]
    have e2 : nb - 1 + 1 = nb := by omega
    rw [e2]
  rw [hr, List.foldl_cons]
  have hfirst : shrink_step k nb size s (nb - 1) = shrink_tail s k nb size := by
    unfold shrink_step shrink_tail file_blk
    have : nb - 1 < nb := by omega
    simp only [this, if_true]
  rw [hfirst]
  apply foldl_congr_mem
  intro st i hi
  rw [List.mem_range'_1] at hi
  unfold shrink_step
  have : ¬ i < nb := by omega
  simp only [this, if_false]

/-- The loops of `shrinking_file`: the releasing iterations start in a context
`t` that differs from `s` only by the cleared tail of the new last block. -/
theorem shrink_loop_spec (k : Int) (s : fs_ctx) (size : Nat)
    (hle : div_round_up size VSFS_BLOCK_SIZE ≤ (s.itable k).i_blocks)
    (hmax : (s.itable k).i_blocks ≤ 1029)
    (hsep : 5 < (s.itable k).i_blocks →
      ∀ j, j < (s.itable k).i_blocks → file_blk s k j ≠ (s.itable k).i_indirect)
    (hfree : s.sb.sb_free_blocks
      + ((s.itable k).i_blocks - div_round_up size VSFS_BLOCK_SIZE) < 4294967296) :
    ∃ t : fs_ctx, t.sb = s.sb ∧ t.dbmap = s.dbmap ∧ t.itable = s.itable
      ∧ (∀ j, j < (s.itable k).i_blocks → file_blk t k j = file_blk s k j)
      ∧ (∀ x, t.image x = 0 ∨ t.image x = s.image x)
      ∧ (∀ x, (0 < div_round_up size VSFS_BLOCK_SIZE →
            x / VSFS_BLOCK_SIZE = file_blk s k (div_round_up size VSFS_BLOCK_SIZE - 1) →
            x % VSFS_BLOCK_SIZE ≤ (size - 1) % VSFS_BLOCK_SIZE) → t.image x = s.image x)
      ∧ (0 < div_round_up size VSFS_BLOCK_SIZE →
          ∀ y, (size - 1) % VSFS_BLOCK_SIZE < y → y < VSFS_BLOCK_SIZE →
            t.image (blk_addr (file_blk s k (div_round_up size VSFS_BLOCK_SIZE - 1)) + y) = 0)
      ∧ release_inv t k (div_round_up size VSFS_BLOCK_SIZE) (s.itable k).i_blocks
          (s.itable k).i_blocks (shrink_loop k s size) := by
  by_cases h0 : div_round_up size VSFS_BLOCK_SIZE = 0
  · refine ⟨s, rfl, rfl, rfl, fun _ _ => rfl, fun _ => Or.inr rfl, fun _ _ => rfl, ?_, ?_⟩
    · intro h
      omega
    · rw [shrink_loop_zero k s size h0, h0]
      exact release_range_spec s k 0 _ (Nat.zero_le _) hmax
        (fun h j _ hj => hsep h j hj) (by rw [h0] at hfree; exact hfree)
  · have h1 : 1 ≤ div_round_up size VSFS_BLOCK_SIZE := by omega
    have hlast : (size - 1) % VSFS_BLOCK_SIZE < VSFS_BLOCK_SIZE := Nat.mod_lt _ (by decide)
    have hblk : ∀ j, j < (s.itable k).i_blocks →
        file_blk (shrink_tail s k (div_round_up size VSFS_BLOCK_SIZE) size) k j
          = file_blk s k j := by
      intro j hj
      apply file_blk_zero_tail _ _ _ _ _ (by omega) hlast
      intro h5
      exact hsep (by omega) _ (by omega)
    refine ⟨shrink_tail s k (div_round_up size VSFS_BLOCK_SIZE) size, rfl, rfl, rfl, hblk, ?_, ?_,
      ?_, ?_⟩
    · intro x
      unfold shrink_tail zero_tail
      exact memset_zero _ _ _ _
    · intro x hx
      unfold shrink_tail
      dsimp only
      apply zero_tail_other _ _ _ _ hlast
      by_cases he : x / VSFS_BLOCK_SIZE
          = file_blk s k (div_round_up size VSFS_BLOCK_SIZE - 1)
      · exact Or.inr (hx (by omega) he)
      · exact Or.inl he
    · intro _ y hy1 hy2
      unfold shrink_tail
      dsimp only
      exact zero_tail_inside _ _ _ _ hy1 hy2
    · rw [shrink_loop_pos k s size h1 hle]
      apply release_range_spec _ k _ _ hle hmax
      · intro h5 j hj1 hj2
        rw [hblk j hj2]
        exact hsep h5 j hj2
      · exact hfree

theorem shrink_indirect_yes (s1 : fs_ctx) (k : Int) (nb c : Nat) (h : nb ≤ 5 ∧ c > 5) :
    shrink_indirect s1 k nb c
      = { s1 with image := memset s1.image (blk_addr (s1.itable k).i_indirect) 0 VSFS_BLOCK_SIZE,
                  dbmap := upd s1.dbmap (s1.itable k).i_indirect false,
                  itable := upd s1.itable k
                    { s1.itable k with i_indirect := VSFS_BLK_UNASSIGNED },
                  sb := { s1.sb with sb_free_blocks := inc32 s1.sb.sb_free_blocks } } := by
  unfold shrink_indirect bitmap_free
  rw [if_pos h]

theorem shrink_indirect_no (s1 : fs_ctx) (k : Int) (nb c : Nat) (h : ¬ (nb ≤ 5 ∧ c > 5)) :
    shrink_indirect s1 k nb c = s1 := by
  unfold shrink_indirect
  rw [if_neg h]

/-- The context after `shrinking_file` on a file whose block count is
`ceil(size / 4096)` and whose indirect pointer block is none of its data
blocks, relative to the context before. -/
theorem shrinking_file_spec (now : Nat) (s : fs_ctx) (size : Nat) (k : Int)
    (hb : blocks_ok (s.itable k)) (hmax : (s.itable k).i_blocks ≤ 1029)
    (hlt : size < (s.itable k).i_size)
    (hsep : 5 < (s.itable k).i_blocks →
      ∀ j, j < (s.itable k).i_blocks → file_blk s k j ≠ (s.itable k).i_indirect)
    (hfree : s.sb.sb_free_blocks
      + ((s.itable k).i_blocks - div_round_up size VSFS_BLOCK_SIZE) + 1 < 4294967296) :
    shrink_post s k (s.itable k).i_blocks (div_round_up size VSFS_BLOCK_SIZE) size
      (shrinking_file now s size k).2 := by
  have hle : div_round_up size VSFS_BLOCK_SIZE ≤ (s.itable k).i_blocks := by
    unfold blocks_ok at hb
    rw [hb]
    unfold div_round_up
    simp only [VSFS_BLOCK_SIZE]
    omega
  obtain ⟨t, t1, t2, t3, t4, t5, t6, t7, inv⟩ :=
    shrink_loop_spec k s size hle hmax hsep (by omega)
  unfold shrinking_file
  dsimp only
  generalize shrink_loop k s size = L at *
  generalize hnb : div_round_up size VSFS_BLOCK_SIZE = nb at *
  generalize hc : (s.itable k).i_blocks = c at *
  obtain ⟨r_nb, r_it, r_free, r_ind, r_bits, r_zero, r_ptr_d, r_ptr_i, r_pend, r_kept, r_keep0,
    r_img, r_dbmap⟩ := inv
  rw [t1] at r_nb r_free
  rw [t3] at r_it r_ind r_ptr_i r_img
  have hsz : ∀ R : fs_ctx, ((set_size_fields now R k nb size).itable k).i_size = size
      ∧ ((set_size_fields now R k nb size).itable k).i_blocks = nb := by
    intro R
    unfold set_size_fields
    dsimp only
    rw [upd_same]
    exact ⟨rfl, Nat.mod_eq_of_lt (by omega)⟩
  have hoth : ∀ R : fs_ctx, ∀ j : Int, j ≠ k → (set_size_fields now R k nb size).itable j
      = R.itable j := by
    intro R j hj
    unfold set_size_fields
    dsimp only
    rw [upd_other _ _ _ _ hj]
  have hdir : ∀ R : fs_ctx, ((set_size_fields now R k nb size).itable k).i_direct
      = (R.itable k).i_direct := by
    intro R
    unfold set_size_fields
    dsimp only
    rw [upd_same]
  have hindf : ∀ R : fs_ctx, ((set_size_fields now R k nb size).itable k).i_indirect
      = (R.itable k).i_indirect := by
    intro R
    unfold set_size_fields
    dsimp only
    rw [upd_same]
  by_cases hA : nb ≤ 5 ∧ c > 5
  · rw [shrink_indirect_yes L k nb c hA]
    have hc5 : 5 < c := hA.2
    refine ⟨r_nb, ?_, hsz _, ?_, ?_, ?_, ?_, fun h => by omega, fun h => by omega, ?_, ?_, ?_, ?_⟩
    · intro j hj
      rw [hoth _ j hj]
      dsimp only
      rw [upd_other _ _ _ _ hj]
      exact r_it j hj
    · show inc32 L.sb.sb_free_blocks = _
      rw [r_free, inc32_of_lt _ (by omega), if_pos ⟨hA.1, hc5⟩]
    · intro i hi1 hi2
      show upd L.dbmap (L.itable k).i_indirect false (file_blk s k i) = false
      by_cases hbi : file_blk s k i = (L.itable k).i_indirect
      · rw [hbi, upd_same]
      · rw [upd_other _ _ _ _ hbi, ← t4 i hi2]
        exact r_bits i hi1 hi2
    · intro i hi1 hi2 y hy
      show memset L.image (blk_addr (L.itable k).i_indirect) 0 VSFS_BLOCK_SIZE
        (blk_addr (file_blk s k i) + y) = 0
      rcases memset_zero L.image (blk_addr (L.itable k).i_indirect) VSFS_BLOCK_SIZE
        (blk_addr (file_blk s k i) + y) with h | h
      · exact h
      · rw [h, ← t4 i hi2]
        exact r_zero i hi1 hi2 y hy
    · intro i hi1 hi2 hi5
      rw [hdir]
      dsimp only
      rw [upd_same]
      exact r_ptr_d i hi1 hi2 hi5
    · intro _ _
      constructor
      · show upd L.dbmap (L.itable k).i_indirect false (s.itable k).i_indirect = false
        rw [r_ind, upd_same]
      · rw [hindf]
        dsimp only
        rw [upd_same]
    · intro j hj
      rw [file_blk_set_size_fields, ← t4 j (by omega), ← r_kept j hj]
      apply file_blk_congr _ _ k j (by omega)
      · intro _
        dsimp only
        rw [upd_same]
      · intro h5
        omega
    · intro hpos y hy1 hy2
      show memset L.image (blk_addr (L.itable k).i_indirect) 0 VSFS_BLOCK_SIZE
        (blk_addr (file_blk s k (nb - 1)) + y) = 0
      rcases memset_zero L.image (blk_addr (L.itable k).i_indirect) VSFS_BLOCK_SIZE
        (blk_addr (file_blk s k (nb - 1)) + y) with h | h
      · exact h
      · rw [h]
        rcases r_keep0 (blk_addr (file_blk s k (nb - 1)) + y) with h2 | h2
        · exact h2
        · rw [h2]
          exact t7 hpos y hy1 hy2
    · intro x hx1 hx2 hx3
      show memset L.image (blk_addr (L.itable k).i_indirect) 0 VSFS_BLOCK_SIZE x = s.image x
      rw [r_ind, memset_block_other _ _ _ (hx2 hc5),
        r_img x (fun j h1 h2 => by rw [t4 j h2]; exact hx1 j h1 h2)
          (fun h5 he => absurd he (hx2 h5))]
      exact t6 x hx3
  · rw [shrink_indirect_no L k nb c hA]
    have hif : ¬ (nb ≤ 5 ∧ 5 < c) := hA
    refine ⟨r_nb, ?_, hsz _, ?_, ?_, ?_, ?_, ?_, ?_, fun h1 h2 => absurd ⟨h1, h2⟩ hif, ?_, ?_, ?_⟩
    · intro j hj
      rw [hoth _ j hj]
      exact r_it j hj
    · show L.sb.sb_free_blocks = _
      rw [r_free, if_neg hif]
      omega
    · intro i hi1 hi2
      show L.dbmap (file_blk s k i) = false
      rw [← t4 i hi2]
      exact r_bits i hi1 hi2
    · intro i hi1 hi2 y hy
      show L.image (blk_addr (file_blk s k i) + y) = 0
      rw [← t4 i hi2]
      exact r_zero i hi1 hi2 y hy
    · intro i hi1 hi2 hi5
      rw [hdir]
      exact r_ptr_d i hi1 hi2 hi5
    · intro h5 i hi1 hi2
      rw [hindf, r_ind]
      exact r_ptr_i i hi1 hi2 (by omega)
    · intro _
      rw [hindf]
      exact r_ind
    · intro j hj
      rw [file_blk_set_size_fields, ← t4 j (by omega)]
      exact r_kept j hj
    · intro hpos y hy1 hy2
      show L.image (blk_addr (file_blk s k (nb - 1)) + y) = 0
      rcases r_keep0 (blk_addr (file_blk s k (nb - 1)) + y) with h2 | h2
      · exact h2
      · rw [h2]
        exact t7 hpos y hy1 hy2
    · intro x hx1 hx2 hx3
      show L.image x = s.image x
      rw [r_img x (fun j h1 h2 => by rw [t4 j h2]; exact hx1 j h1 h2)
          (fun h5 he => absurd he (hx2 h5))]
      exact t6 x hx3

theorem vsfs_truncate_shrinks (u now : Nat) (s : fs_ctx) (path : List Nat) (size : Nat) (k : Int)
    (hk : (path_lookup s path).1 = k) (hex : 0 ≤ k) (hok : blocks_ok (s.itable k))
    (hmax : (s.itable k).i_blocks ≤ 1029) (hlt : size < (s.itable k).i_size) :
    vsfs_truncate u now s path size = shrinking_file now s size k := by
  have h1 : ¬ k < 0 := by omega
  have h2 : (s.itable k).i_size ≠ size := by omega
  have h3 : ¬ size > MAX_FILE_SIZE := by
    unfold blocks_ok div_round_up at hok
    simp only [MAX_FILE_SIZE, VSFS_BLOCK_SIZE] at *
    omega
  have h4 : (s.itable k).i_size > size := hlt
  unfold vsfs_truncate
  simp only [hk, h1, h2, h3, h4, if_true, if_false]

theorem vsfs_truncate_same (u now : Nat) (s : fs_ctx) (path : List Nat) (size : Nat) (k : Int)
    (hk : (path_lookup s path).1 = k) (hex : 0 ≤ k) (heq : (s.itable k).i_size = size) :
    vsfs_truncate u now s path size = (0, s) := by
  have h1 : ¬ k < 0 := by omega
  unfold vsfs_truncate
  simp only [hk, h1, heq, if_true, if_false]

theorem write_data_image (now : Nat) (t : fs_ctx) (k : Int) (buf : List Nat) (offset : Nat) :
    (write_data now t k buf offset).image
      = memcpy_to t.image
          (blk_addr (file_blk t k (offset / VSFS_BLOCK_SIZE)) + offset % VSFS_BLOCK_SIZE)
          buf buf.length := by
  have e_blk : blk_of t.image
      ((upd t.itable k { t.itable k with i_mtime := now }) k) (offset / VSFS_BLOCK_SIZE)
      = file_blk t k (offset / VSFS_BLOCK_SIZE) := by
    rw [upd_same]
    exact blk_of_congr_inode _ _ _ rfl rfl _
  unfold write_data
  dsimp only
  rw [e_blk]

/-- C31 (evaluation at the failing input): in `img_ino40` the superblock
invariant holds for the inodes (24 free inodes, 24 clear bits among the first
64), the root's bit is set and the lowest clear inode bit is 40, but the
search of `vsfs_create`, bounded by the 40 blocks, finds no clear bit and its
failure is not tested: with the value 100 left in `inode_idx` the create
succeeds, the new entry carries inode number 100 (not below the 64 inodes),
bit 40 stays clear; with the value 0 the create succeeds and overwrites the
root inode with that of the new file. -/
theorem create_takes_inode_outside_search :
    img_ino40.sb.sb_free_inodes = zero_bits img_ino40.ibmap img_ino40.sb.sb_num_inodes
    ∧ img_ino40.ibmap 0 = true
    ∧ bitmap_alloc img_ino40.ibmap img_ino40.sb.sb_num_inodes = some 40
    ∧ bitmap_alloc img_ino40.ibmap img_ino40.sb.sb_num_blocks = none
    ∧ (vsfs_create 100 1 img_ino40 path_x 33188).1 = 0
    ∧ path_lookup (vsfs_create 100 1 img_ino40 path_x 33188).2 path_x
        = (100, some (dentry_addr 6 7))
    ∧ (vsfs_create 100 1 img_ino40 path_x 33188).2.ibmap 40 = false
    ∧ (vsfs_create 100 1 img_ino40 path_x 33188).2.ibmap 100 = true
    ∧ (vsfs_create 0 1 img_ino40 path_x 33188).1 = 0
    ∧ ((vsfs_create 0 1 img_ino40 path_x 33188).2.itable 0).i_mode = 33188
    ∧ ((vsfs_create 0 1 img_ino40 path_x 33188).2.itable 0).i_blocks = 1 := by
  decide

/-! ## The names of the free slots of a new directory block -/

/-- C32 (evaluation at the failing input): the six directory blocks of
`img_full6` hold no free slot; `create("/y")` succeeds and takes block 11 as
the seventh directory block without clearing it: slot 1 of that block is free
(inode number `VSFS_INO_MAX`) and its name starts with the stale byte `x`, so
that `path_lookup` of `/x`, a name no file has, returns that free slot. -/
theorem create_leaves_stale_name_in_new_block :
    (List.range (img_full6.itable 0).i_blocks).findSome?
        (fun i => free_slot_in_block img_full6.image
          (blk_of img_full6.image (img_full6.itable 0) i)) = none
    ∧ (path_lookup img_full6 path_x).1 = -ENOSYS
    ∧ (vsfs_create 0 1 img_full6 path_y 33188).1 = 0
    ∧ ((vsfs_create 0 1 img_full6 path_y 33188).2.itable 0).i_blocks = 7
    ∧ blk_of (vsfs_create 0 1 img_full6 path_y 33188).2.image
        ((vsfs_create 0 1 img_full6 path_y 33188).2.itable 0) 6 = 11
    ∧ read32 (vsfs_create 0 1 img_full6 path_y 33188).2.image (dentry_addr 11 1) = VSFS_INO_MAX
    ∧ (vsfs_create 0 1 img_full6 path_y 33188).2.image (dentry_addr 11 1 + 4) = 120
    ∧ path_lookup (vsfs_create 0 1 img_full6 path_y 33188).2 path_x
        = (-1, some (dentry_addr 11 1)) := by
  decide

/-! ## `thread_kill` on the special identifiers and on slot 0 -/

/-- C37 (evaluation at the failing inputs), with 1024 thread slots and any
value of `THREAD_INVALID`: for the identifiers -1 and -2, which the guard
`tid < -2` lets through, `thread_kill` indexes `thread_pool` out of range;
for `tid = 0` with slot 0 marked `DYING` (the caller is thread 1) it returns
0 as if it had killed the thread; for `tid = 0` with slot 0 empty it goes
through the `NULL` slot.  For an identifier above 0 whose slot is empty it
does return `THREAD_INVALID`. -/
theorem thread_kill_misses_special_and_zero (thread_invalid : Int) :
    thread_kill 1024 thread_invalid thr_exited0 (-1) = Except.error fault.out_of_range
    ∧ thread_kill 1024 thread_invalid thr_exited0 (-2) = Except.error fault.out_of_range
    ∧ (thread_kill 1024 thread_invalid thr_exited0 0).map Prod.fst = Except.ok 0
    ∧ thread_kill 1024 thread_invalid thr_cleaned0 0 = Except.error fault.null_deref
    ∧ thread_kill 1024 thread_invalid thr_exited0 2 = Except.ok (thread_invalid, thr_exited0) :=
  ⟨by simp [thread_kill, pool_slot, thr_exited0, Except.map, Except.bind],
    by simp [thread_kill, pool_slot, thr_exited0, Except.map, Except.bind],
    by simp [thread_kill, pool_slot, thr_exited0, Except.map, Except.bind],
    by simp [thread_kill, pool_slot, thr_cleaned0, Except.map, Except.bind],
    by simp [thread_kill, pool_slot, thr_exited0, Except.map, Except.bind]⟩

/-! ## The ready queue is first in, first out -/

theorem chain_nil (h : Nat → Option ready_node) (p : Nat) : chain h p [] [] ↔ p = 0 := by
  unfold chain
  exact Iff.rfl

theorem chain_cons (h : Nat → Option ready_node) (p a : Nat) (as : List Nat) (x : Int)
    (xs : List Int) :
    chain h p (a :: as) (x :: xs)
      ↔ p = a ∧ a ≠ 0 ∧ h a = some { next := as.headD 0, tid := x }
          ∧ chain h (as.headD 0) as xs := by
  conv => lhs; unfold chain

theorem chain_length (h : Nat → Option ready_node) :
    ∀ (as : List Nat) (l : List Int) (p : Nat), chain h p as l → as.length = l.length := by
  intro as
  induction as with
  | nil =>
    intro l p hc
    cases l with
    | nil => rfl
    | cons x xs => unfold chain at hc; exact hc.elim
  | cons a as ih =>
    intro l p hc
    cases l with
    | nil => unfold chain at hc; exact hc.elim
    | cons x xs =>
      rw [chain_cons] at hc
      simp only [List.length_cons]
      rw [ih xs _ hc.2.2.2]

theorem chain_head (h : Nat → Option ready_node) (as : List Nat) (l : List Int) (p : Nat)
    (hc : chain h p as l) : p = as.headD 0 := by
  cases as with
  | nil =>
    cases l with
    | nil => exact (chain_nil h p).1 hc
    | cons x xs => unfold chain at hc; exact hc.elim
  | cons a as =>
    cases l with
    | nil => unfold chain at hc; exact hc.elim
    | cons x xs => exact ((chain_cons h p a as x xs).1 hc).1

theorem chain_mem (h : Nat → Option ready_node) :
    ∀ (as : List Nat) (l : List Int) (p : Nat), chain h p as l →
      ∀ a, a ∈ as → a ≠ 0 ∧ ∃ n, h a = some n := by
  intro as
  induction as with
  | nil =>
    intro l p _ a ha
    cases ha
  | cons b as ih =>
    intro l p hc a ha
    cases l with
    | nil => unfold chain at hc; exact hc.elim
    | cons x xs =>
      rw [chain_cons] at hc
      rcases List.mem_cons.1 ha with e | e
      · rw [e]
        exact ⟨hc.2.1, _, hc.2.2.1⟩
      · exact ih xs _ hc.2.2.2 a e

theorem chain_frame (h h2 : Nat → Option ready_node) :
    ∀ (as : List Nat) (l : List Int) (p : Nat), chain h p as l →
      (∀ a, a ∈ as → h2 a = h a) → chain h2 p as l := by
  intro as
  induction as with
  | nil =>
    intro l p hc _
    cases l with
    | nil => exact (chain_nil h2 p).2 ((chain_nil h p).1 hc)
    | cons x xs => unfold chain at hc; exact hc.elim
  | cons b as ih =>
    intro l p hc hf
    cases l with
    | nil => unfold chain at hc; exact hc.elim
    | cons x xs =>
      rw [chain_cons] at hc ⊢
      refine ⟨hc.1, hc.2.1, ?_, ih xs _ hc.2.2.2 (fun a ha => hf a (List.mem_cons_of_mem _ ha))⟩
      rw [hf b (List.mem_cons_self _ _)]
      exact hc.2.2.1

theorem getLastD_cons_cons (a b : Nat) (l : List Nat) (d : Nat) :
    (a :: b :: l).getLastD d = (b :: l).getLastD d := rfl

theorem getLastD_mem (d : Nat) : ∀ (l : List Nat) (b : Nat), (b :: l).getLastD d ∈ b :: l := by
  intro l
  induction l with
  | nil =>
    intro b
    exact List.mem_cons_self _ _
  | cons c l ih =>
    intro b
    rw [getLastD_cons_cons]
    exact List.mem_cons_of_mem _ (ih c)

theorem getLastD_snoc (d p : Nat) : ∀ (l : List Nat), (l ++ [p]).getLastD d = p := by
  intro l
  induction l with
  | nil => rfl
  | cons a l ih =>
    cases l with
    | nil => rfl
    | cons b l2 =>
      show (a :: b :: (l2 ++ [p])).getLastD d = p
      rw [getLastD_cons_cons]
      exact ih

theorem chain_nil_right (h : Nat → Option ready_node) (p : Nat) (as : List Nat)
    (hc : chain h p as []) : as = [] := by
  have := chain_length h as [] p hc
  exact List.length_eq_zero.1 this

theorem chain_nil_left (h : Nat → Option ready_node) (p : Nat) (l : List Int)
    (hc : chain h p [] l) : l = [] := by
  have := chain_length h [] l p hc
  exact List.length_eq_zero.1 this.symm

/-- Appending a node to a chain: the last node gets the new node as its
successor. -/
theorem chain_snoc (h h2 : Nat → Option ready_node) (p : Nat) (tid : Int) (hp : p ≠ 0)
    (hnew : h2 p = some { next := 0, tid := tid }) :
    ∀ (as : List Nat) (l : List Int) (p0 : Nat), chain h p0 as l → as ≠ [] → as.Nodup →
      p ∉ as →
      (∀ n, h (as.getLastD 0) = some n → h2 (as.getLastD 0) = some { n with next := p }) →
      (∀ a, a ∈ as → a ≠ as.getLastD 0 → h2 a = h a) →
      chain h2 p0 (as ++ [p]) (l ++ [tid]) := by
  intro as
  induction as with
  | nil =>
    intro l p0 _ hne
    exact absurd rfl hne
  | cons a as ih =>
    intro l p0 hc _ hnd hnot hlast hother
    cases l with
    | nil => unfold chain at hc; exact hc.elim
    | cons x xs =>
      rw [chain_cons] at hc
      obtain ⟨e1, e2, e3, e4⟩ := hc
      cases as with
      | nil =>
        have hxs := chain_nil_left h _ xs e4
        subst hxs
        have h2a := hlast _ e3
        show chain h2 p0 [a, p] [x, tid]
        rw [chain_cons, chain_cons, chain_nil]
        exact ⟨e1, e2, h2a, rfl, hp, hnew, rfl⟩
      | cons b as2 =>
        have hmem : (b :: as2).getLastD 0 ∈ b :: as2 := getLastD_mem 0 as2 b
        have hane : a ≠ (a :: b :: as2).getLastD 0 := by
          rw [getLastD_cons_cons]
          intro e
          rw [← e] at hmem
          exact (List.nodup_cons.1 hnd).1 hmem
        show chain h2 p0 (a :: (b :: as2 ++ [p])) (x :: (xs ++ [tid]))
        rw [chain_cons]
        refine ⟨e1, e2, ?_, ?_⟩
        · rw [hother a (List.mem_cons_self _ _) hane]
          exact e3
        · exact ih xs _ e4 (List.cons_ne_nil _ _) (List.nodup_cons.1 hnd).2
            (fun hm => hnot (List.mem_cons_of_mem _ hm)) hlast
            (fun c hc1 hc2 => hother c (List.mem_cons_of_mem _ hc1) hc2)

/-- The function `enqueue` appends the identifier to the queue, in the node
that `malloc369` returns; no other node than that one and the old last node
changes. -/
theorem enqueue_spec (q : queue_ctx) (as : List Nat) (l : List Int) (p : Nat) (tid : Int)
    (hr : queue_rep q as l) (hp : p ≠ 0) (hf : q.heap p = none) :
    ∃ q2, enqueue p tid q = some q2 ∧ queue_rep q2 (as ++ [p]) (l ++ [tid])
      ∧ ∀ a, a ≠ p → a ∉ as → q2.heap a = q.heap a := by
  obtain ⟨hc, hnd, ht⟩ := hr
  have hpn : p ∉ as := by
    intro hm
    obtain ⟨_, n, hn⟩ := chain_mem q.heap as l _ hc p hm
    rw [hf] at hn
    exact Option.noConfusion hn
  unfold enqueue
  rw [if_neg hp]
  cases as with
  | nil =>
    have hl := chain_nil_left q.heap _ l hc
    subst hl
    have hh : q.readyHead = 0 := (chain_nil _ _).1 hc
    have ht0 : q.readyTail = 0 := ht
    rw [if_pos ⟨hh, ht0⟩]
    refine ⟨_, rfl, ⟨?_, List.nodup_singleton p, rfl⟩, ?_⟩
    · show chain _ p [p] [tid]
      rw [chain_cons, chain_nil]
      exact ⟨rfl, hp, upd_same _ _ _, rfl⟩
    · intro a ha _
      exact upd_other _ _ _ _ ha
  | cons a as2 =>
    have hh : q.readyHead = a := chain_head _ _ _ _ hc
    obtain ⟨ha0, _⟩ := chain_mem q.heap _ l _ hc a (List.mem_cons_self _ _)
    have hcond : ¬ (q.readyHead = 0 ∧ q.readyTail = 0) := by
      intro hx
      rw [hh] at hx
      exact ha0 hx.1
    rw [if_neg hcond]
    have hmem : (a :: as2).getLastD 0 ∈ a :: as2 := getLastD_mem 0 as2 a
    obtain ⟨ht0, n, hn⟩ := chain_mem q.heap _ l _ hc _ hmem
    have htp : (a :: as2).getLastD 0 ≠ p := fun e => hpn (e ▸ hmem)
    have hnode : node_at (upd q.heap p (some { next := 0, tid := tid })) q.readyTail = some n := by
      unfold node_at
      rw [ht, if_neg ht0, upd_other _ _ _ _ htp]
      exact hn
    dsimp only
    rw [hnode]
    refine ⟨_, rfl, ⟨?_, ?_, ?_⟩, ?_⟩
    · apply chain_snoc q.heap _ p tid hp ?_ (a :: as2) l _ hc (List.cons_ne_nil _ _) hnd hpn
      · intro n2 hn2
        rw [hn] at hn2
        cases hn2
        dsimp only
        rw [ht, upd_same]
      · intro c hc1 hc2
        dsimp only
        rw [ht, upd_other _ _ _ _ hc2, upd_other _ _ _ _ (fun e => hpn (by rw [← e]; exact hc1))]
      · dsimp only
        rw [ht, upd_other _ _ _ _ (Ne.symm htp), upd_same]
    · exact List.nodup_append.2 ⟨hnd, List.nodup_singleton p, by
        intro c hc1 hc2
        rw [List.mem_singleton] at hc2
        exact hpn (hc2 ▸ hc1)⟩
    · exact (getLastD_snoc 0 p (a :: as2)).symm
    · intro c hc1 hc2
      dsimp only
      rw [ht, upd_other _ _ _ _ (fun e => hc2 (by rw [e]; exact hmem)), upd_other _ _ _ _ hc1]

/-- The function `dequeue` returns `THREAD_NONE` on the empty queue and
otherwise removes and returns the oldest identifier. -/
theorem dequeue_spec (thread_none : Int) (q : queue_ctx) (as : List Nat) (l : List Int)
    (hr : queue_rep q as l) :
    (l = [] → dequeue thread_none q = some (thread_none, q))
    ∧ (∀ x xs, l = x :: xs →
        ∃ q2, dequeue thread_none q = some (x, q2) ∧ queue_rep q2 as.tail xs) := by
  obtain ⟨hc, hnd, ht⟩ := hr
  constructor
  · intro hl
    subst hl
    have has := chain_nil_right _ _ _ hc
    subst has
    have hh : q.readyHead = 0 := (chain_nil _ _).1 hc
    have ht0 : q.readyTail = 0 := ht
    unfold dequeue
    rw [if_pos ⟨hh, ht0⟩]
  · intro x xs hl
    subst hl
    cases as with
    | nil => unfold chain at hc; exact hc.elim
    | cons a as2 =>
      rw [chain_cons] at hc
      obtain ⟨e1, e2, e3, e4⟩ := hc
      have hcond : ¬ (q.readyHead = 0 ∧ q.readyTail = 0) := by
        intro hx
        rw [e1] at hx
        exact e2 hx.1
      have hnode : node_at q.heap q.readyHead = some { next := as2.headD 0, tid := x } := by
        unfold node_at
        rw [e1, if_neg e2]
        exact e3
      unfold dequeue
      rw [if_neg hcond, hnode]
      refine ⟨_, rfl, ⟨?_, (List.nodup_cons.1 hnd).2, ?_⟩⟩
      · show chain (upd q.heap q.readyHead none) (as2.headD 0) as2 xs
        apply chain_frame q.heap _ as2 xs _ e4
        intro c hc1
        rw [e1]
        exact upd_other _ _ _ _ (fun e => (List.nodup_cons.1 hnd).1 (e ▸ hc1))
      · show (if as2.headD 0 = 0 then 0 else q.readyTail) = as2.getLastD 0
        cases as2 with
        | nil => rfl
        | cons b as3 =>
          obtain ⟨hb0, _⟩ := chain_mem q.heap _ xs _ e4 b (List.mem_cons_self _ _)
          have : ¬ (b :: as3).headD 0 = 0 := hb0
          rw [if_neg this, ht, getLastD_cons_cons]

theorem getLastD_append_cons (d a : Nat) (post : List Nat) :
    ∀ (pre : List Nat), (pre ++ a :: post).getLastD d = (a :: post).getLastD d := by
  intro pre
  induction pre with
  | nil => rfl
  | cons b pre ih =>
    show (b :: (pre ++ a :: post)).getLastD d = _
    cases hp : pre ++ a :: post with
    | nil => exact absurd hp (by simp)
    | cons c r =>
      rw [getLastD_cons_cons, ← hp]
      exact ih

theorem remove_loop_succ (tid : Int) (fuel : Nat) (q : queue_ctx) (cur prev : Nat) :
    remove_loop tid (fuel + 1) q cur prev
      = if cur = 0 then some (-1, q)
        else
          match q.heap cur with
          | none => none
          | some c =>
            if c.tid = tid then unlink_node q cur prev c
            else remove_loop tid fuel q c.next cur := rfl

/-- The loop of `remove_from_queue` walks over the nodes whose identifier is
not `tid`. -/
theorem remove_loop_walk (tid : Int) (q : queue_ctx) (rest : List Nat) (lrest : List Int)
    (fuel : Nat) :
    ∀ (pre : List Nat) (lpre : List Int) (cur prev : Nat),
      chain q.heap cur (pre ++ rest) (lpre ++ lrest) → pre.length = lpre.length →
      (∀ y, y ∈ lpre → y ≠ tid) →
      remove_loop tid (pre.length + fuel) q cur prev
        = remove_loop tid fuel q (rest.headD 0) (pre.getLastD prev) := by
  intro pre
  induction pre with
  | nil =>
    intro lpre cur prev hc hlen _
    have hl : lpre = [] := List.length_eq_zero.1 hlen.symm
    subst hl
    have := chain_head _ _ _ _ hc
    simp only [List.nil_append] at this
    rw [this]
    simp
  | cons b pre ih =>
    intro lpre cur prev hc hlen hne
    cases lpre with
    | nil => simp at hlen
    | cons y lpre2 =>
      have hc2 : chain q.heap cur (b :: (pre ++ rest)) (y :: (lpre2 ++ lrest)) := hc
      rw [chain_cons] at hc2
      obtain ⟨e1, e2, e3, e4⟩ := hc2
      have hfuel : (b :: pre).length + fuel = (pre.length + fuel) + 1 := by
        simp only [List.length_cons]
        omega
      rw [hfuel, remove_loop_succ, e1, if_neg e2, e3]
      dsimp only
      rw [if_neg (hne y (List.mem_cons_self _ _))]
      rw [ih lpre2 _ b e4 (by simpa using hlen)
        (fun z hz => hne z (List.mem_cons_of_mem _ hz)), List.getLastD_cons]

/-- Unlinking the node after a chain that is not empty: the last node of
`pre` gets the successor of the unlinked node as its successor. -/
theorem chain_unlink (h h2 : Nat → Option ready_node) (a : Nat) (x : Int) (post : List Nat)
    (lpost : List Int) (hpost : ∀ c, c ∈ post → h2 c = h c) :
    ∀ (pre : List Nat) (lpre : List Int) (p0 : Nat),
      chain h p0 (pre ++ a :: post) (lpre ++ x :: lpost) → pre.length = lpre.length →
      pre ≠ [] → pre.Nodup →
      (∀ n, h (pre.getLastD 0) = some n →
        h2 (pre.getLastD 0) = some { n with next := post.headD 0 }) →
      (∀ c, c ∈ pre → c ≠ pre.getLastD 0 → h2 c = h c) →
      chain h2 p0 (pre ++ post) (lpre ++ lpost) := by
  intro pre
  induction pre with
  | nil =>
    intro lpre p0 _ _ hne
    exact absurd rfl hne
  | cons b pre ih =>
    intro lpre p0 hc hlen _ hnd hlast hother
    cases lpre with
    | nil => simp at hlen
    | cons y lpre2 =>
      have hc2 : chain h p0 (b :: (pre ++ a :: post)) (y :: (lpre2 ++ x :: lpost)) := hc
      rw [chain_cons] at hc2
      obtain ⟨e1, e2, e3, e4⟩ := hc2
      cases pre with
      | nil =>
        have hl : lpre2 = [] := by
          cases lpre2 with
          | nil => rfl
          | cons _ _ => simp at hlen
        subst hl
        have e4b : chain h a (a :: post) (x :: lpost) := e4
        rw [chain_cons] at e4b
        have h2b := hlast _ e3
        show chain h2 p0 (b :: post) (y :: lpost)
        rw [chain_cons]
        exact ⟨e1, e2, h2b, chain_frame h h2 post lpost _ e4b.2.2.2 hpost⟩
      | cons c pre2 =>
        have hmem : (c :: pre2).getLastD 0 ∈ c :: pre2 := getLastD_mem 0 pre2 c
        have hbne : b ≠ (b :: c :: pre2).getLastD 0 := by
          rw [getLastD_cons_cons]
          intro e
          rw [← e] at hmem
          exact (List.nodup_cons.1 hnd).1 hmem
        show chain h2 p0 (b :: (c :: pre2 ++ post)) (y :: (lpre2 ++ lpost))
        rw [chain_cons]
        refine ⟨e1, e2, ?_, ?_⟩
        · rw [hother b (List.mem_cons_self _ _) hbne]
          exact e3
        · exact ih lpre2 _ e4 (by simpa using hlen) (List.cons_ne_nil _ _)
            (List.nodup_cons.1 hnd).2 hlast
            (fun d hd1 hd2 => hother d (List.mem_cons_of_mem _ hd1) hd2)

theorem chain_suffix (h : Nat → Option ready_node) (rest : List Nat) (lrest : List Int) :
    ∀ (pre : List Nat) (lpre : List Int) (p : Nat),
      chain h p (pre ++ rest) (lpre ++ lrest) → pre.length = lpre.length →
      chain h (rest.headD 0) rest lrest := by
  intro pre
  induction pre with
  | nil =>
    intro lpre p hc hlen
    have hl : lpre = [] := List.length_eq_zero.1 hlen.symm
    subst hl
    have hh := chain_head _ _ _ _ hc
    simp only [List.nil_append] at hh hc
    rw [← hh]
    exact hc
  | cons b pre ih =>
    intro lpre p hc hlen
    cases lpre with
    | nil => simp at hlen
    | cons y lpre2 =>
      have hc2 : chain h p (b :: (pre ++ rest)) (y :: (lpre2 ++ lrest)) := hc
      rw [chain_cons] at hc2
      exact ih lpre2 _ hc2.2.2.2 (by simpa using hlen)

/-- The function `remove_from_queue` on a queue that holds `tid`: the node of
the first occurrence is unlinked and freed, and 0 is returned. -/
theorem remove_present (tid : Int) (q : queue_ctx) (pre post : List Nat) (a : Nat)
    (lpre lpost : List Int) (fuel : Nat)
    (hr : queue_rep q (pre ++ a :: post) (lpre ++ tid :: lpost))
    (hlen : pre.length = lpre.length) (hne : ∀ y, y ∈ lpre → y ≠ tid)
    (hfuel : pre.length < fuel) :
    ∃ q2, remove_from_queue fuel tid q = some (0, q2)
      ∧ queue_rep q2 (pre ++ post) (lpre ++ lpost) := by
  obtain ⟨hc, hnd, ht⟩ := hr
  obtain ⟨k, hk⟩ : ∃ k, fuel = pre.length + (k + 1) := ⟨fuel - pre.length - 1, by omega⟩
  have hsuf := chain_suffix q.heap (a :: post) (tid :: lpost) pre lpre _ hc hlen
  have hsuf2 : chain q.heap a (a :: post) (tid :: lpost) := hsuf
  rw [chain_cons] at hsuf2
  obtain ⟨_, ha0, hnode, hpostc⟩ := hsuf2
  obtain ⟨hnd1, hnd2, hdis⟩ := List.nodup_append.1 hnd
  have hapost : a ∉ post := (List.nodup_cons.1 hnd2).1
  have hndpost : post.Nodup := (List.nodup_cons.1 hnd2).2
  have hapre : a ∉ pre := fun hm => hdis hm (List.mem_cons_self _ _)
  have hprepost : ∀ c, c ∈ pre → c ∉ post := fun c h1 h2 => hdis h1 (List.mem_cons_of_mem _ h2)
  have htail : q.readyTail = (a :: post).getLastD 0 := by
    rw [ht, getLastD_append_cons]
  have htail2 : (if a = q.readyTail then pre.getLastD 0 else q.readyTail)
      = (pre ++ post).getLastD 0 := by
    cases post with
    | nil =>
      have : a = q.readyTail := htail.symm
      rw [if_pos this, List.append_nil]
    | cons c r =>
      have hm : (c :: r).getLastD 0 ∈ c :: r := getLastD_mem 0 r c
      have : ¬ a = q.readyTail := by
        rw [htail, getLastD_cons_cons]
        intro e
        rw [← e] at hm
        exact hapost hm
      rw [if_neg this, htail, getLastD_cons_cons, getLastD_append_cons]
  unfold remove_from_queue
  rw [hk, remove_loop_walk tid q (a :: post) (tid :: lpost) (k + 1) pre lpre _ 0 hc hlen hne]
  show ∃ q2, remove_loop tid (k + 1) q a (pre.getLastD 0) = some (0, q2) ∧ _
  rw [remove_loop_succ, if_neg ha0, hnode]
  dsimp only
  rw [if_pos rfl]
  unfold unlink_node
  dsimp only
  cases pre with
  | nil =>
    have hl : lpre = [] := List.length_eq_zero.1 hlen.symm
    subst hl
    have h0 : ([] : List Nat).getLastD 0 = 0 := rfl
    rw [h0, if_pos rfl]
    refine ⟨_, rfl, ⟨?_, hndpost, ?_⟩⟩
    · show chain (upd q.heap a none) (post.headD 0) post lpost
      apply chain_frame q.heap _ post lpost _ hpostc
      intro c hc1
      exact upd_other _ _ _ _ (fun e => hapost (by rw [← e]; exact hc1))
    · exact htail2
  | cons b pre2 =>
    have hm : (b :: pre2).getLastD 0 ∈ b :: pre2 := getLastD_mem 0 pre2 b
    obtain ⟨hl0, n, hn⟩ := chain_mem q.heap _ _ _ hc _ (List.mem_append_left _ hm)
    have hla : (b :: pre2).getLastD 0 ≠ a := fun e => hapre (by rw [← e]; exact hm)
    have hnat : node_at q.heap ((b :: pre2).getLastD 0) = some n := by
      unfold node_at
      rw [if_neg hl0]
      exact hn
    rw [if_neg hl0, hnat]
    refine ⟨_, rfl, ⟨?_, ?_, ?_⟩⟩
    · apply chain_unlink q.heap _ a tid post lpost ?_ (b :: pre2) lpre _ hc hlen
        (List.cons_ne_nil _ _) hnd1
      · intro n2 hn2
        rw [hn] at hn2
        cases hn2
        show upd (upd q.heap _ _) a none _ = _
        rw [upd_other _ _ _ _ hla, upd_same]
      · intro c hc1 hc2
        show upd (upd q.heap _ _) a none c = _
        rw [upd_other _ _ _ _ (fun e => hapre (by rw [← e]; exact hc1)),
          upd_other _ _ _ _ hc2]
      · intro c hc1
        show upd (upd q.heap _ _) a none c = _
        rw [upd_other _ _ _ _ (fun e => hapost (by rw [← e]; exact hc1)),
          upd_other _ _ _ _ (fun e => hprepost _ hm (by rw [← e]; exact hc1))]
    · exact List.nodup_append.2 ⟨hnd1, hndpost, fun c h1 h2 => hprepost c h1 h2⟩
    · exact htail2

/-- The function `remove_from_queue` on a queue that does not hold `tid`
returns -1 and leaves the queue as it is. -/
theorem remove_absent (tid : Int) (q : queue_ctx) (as : List Nat) (l : List Int) (fuel : Nat)
    (hr : queue_rep q as l) (hne : ∀ y, y ∈ l → y ≠ tid) (hfuel : l.length < fuel) :
    remove_from_queue fuel tid q = some (-1, q) := by
  have hlen := chain_length _ _ _ _ hr.q_chain
  obtain ⟨k, hk⟩ : ∃ k, fuel = as.length + (k + 1) := ⟨fuel - as.length - 1, by omega⟩
  have hc : chain q.heap q.readyHead (as ++ []) (l ++ []) := by
    rw [List.append_nil, List.append_nil]
    exact hr.q_chain
  unfold remove_from_queue
  rw [hk, remove_loop_walk tid q [] [] (k + 1) as l _ 0 hc hlen hne, remove_loop_succ]
  have : ([] : List Nat).headD 0 = 0 := rfl
  rw [this, if_pos rfl]

theorem enqueue_all_cons (q : queue_ctx) (c : Nat × Int) (rest : List (Nat × Int)) :
    enqueue_all q (c :: rest) = (enqueue c.1 c.2 q).bind (fun q1 => enqueue_all q1 rest) := rfl

theorem dequeue_n_succ (thread_none : Int) (n : Nat) (q : queue_ctx) :
    dequeue_n thread_none (n + 1) q
      = (dequeue thread_none q).bind (fun r =>
          (dequeue_n thread_none n r.2).map (fun r2 => (r.1 :: r2.1, r2.2))) := rfl

/-- A sequence of `enqueue` calls, each with a fresh node, appends the
identifiers in the order of the calls. -/
theorem enqueue_all_spec :
    ∀ (pts : List (Nat × Int)) (q : queue_ctx) (as : List Nat) (l : List Int),
      queue_rep q as l → (pts.map Prod.fst).Nodup →
      (∀ c, c ∈ pts → c.1 ≠ 0 ∧ q.heap c.1 = none) →
      ∃ q2, enqueue_all q pts = some q2
        ∧ queue_rep q2 (as ++ pts.map Prod.fst) (l ++ pts.map Prod.snd) := by
  intro pts
  induction pts with
  | nil =>
    intro q as l hr _ _
    refine ⟨q, rfl, ?_⟩
    simp only [List.map_nil, List.append_nil]
    exact hr
  | cons c rest ih =>
    intro q as l hr hnd hfresh
    obtain ⟨hc0, hcf⟩ := hfresh c (List.mem_cons_self _ _)
    obtain ⟨q1, h1, hr1, hframe⟩ := enqueue_spec q as l c.1 c.2 hr hc0 hcf
    have hnd2 : c.1 ∉ rest.map Prod.fst ∧ (rest.map Prod.fst).Nodup := by
      simpa using hnd
    have hfresh1 : ∀ d, d ∈ rest → d.1 ≠ 0 ∧ q1.heap d.1 = none := by
      intro d hd
      obtain ⟨hd0, hdf⟩ := hfresh d (List.mem_cons_of_mem _ hd)
      refine ⟨hd0, ?_⟩
      rw [hframe d.1 ?_ ?_]
      · exact hdf
      · intro e
        exact hnd2.1 (by rw [← e]; exact List.mem_map_of_mem _ hd)
      · intro hm
        obtain ⟨_, n, hn⟩ := chain_mem q.heap as l _ hr.q_chain d.1 hm
        rw [hdf] at hn
        exact Option.noConfusion hn
    obtain ⟨q2, h2, hr2⟩ := ih q1 _ _ hr1 hnd2.2 hfresh1
    refine ⟨q2, ?_, ?_⟩
    · rw [enqueue_all_cons, h1]
      exact h2
    · simp only [List.map_cons]
      rw [List.append_assoc, List.append_assoc] at hr2
      exact hr2

theorem dequeue_n_empty (thread_none : Int) (q : queue_ctx) (hr : queue_rep q [] []) :
    ∀ k, dequeue_n thread_none k q = some (List.replicate k thread_none, q) := by
  intro k
  induction k with
  | zero => rfl
  | succ k ih =>
    rw [dequeue_n_succ, (dequeue_spec thread_none q [] [] hr).1 rfl]
    show (dequeue_n thread_none k q).map _ = _
    rw [ih]
    rfl

/-- Successive `dequeue` calls return the identifiers of the queue, oldest
first, and then `THREAD_NONE`. -/
theorem dequeue_n_spec (thread_none : Int) (k : Nat) :
    ∀ (l : List Int) (q : queue_ctx) (as : List Nat), queue_rep q as l →
      ∃ q2, dequeue_n thread_none (l.length + k) q
          = some (l ++ List.replicate k thread_none, q2)
        ∧ queue_rep q2 [] [] := by
  intro l
  induction l with
  | nil =>
    intro q as hr
    have has := chain_nil_right _ _ _ hr.q_chain
    subst has
    refine ⟨q, ?_, hr⟩
    rw [List.length_nil, Nat.zero_add, dequeue_n_empty thread_none q hr k]
    rfl
  | cons x xs ih =>
    intro q as hr
    obtain ⟨q1, h1, hr1⟩ := (dequeue_spec thread_none q as (x :: xs) hr).2 x xs rfl
    obtain ⟨q2, h2, hr2⟩ := ih q1 _ hr1
    refine ⟨q2, ?_, hr2⟩
    have hl : (x :: xs).length + k = (xs.length + k) + 1 := by
      simp only [List.length_cons]
      omega
    rw [hl, dequeue_n_succ, h1]
    show (dequeue_n thread_none (xs.length + k) q1).map _ = _
    rw [h2]
    rfl

/-- C36: the ready queue is first in, first out.  `THREAD_NONE` is a
parameter; every `enqueue` is given a node that `malloc369` returns, which is
not `NULL` and not in use; `is_queue q l` says that the nodes reached from
`readyHead` carry the identifiers `l` in this order and `readyTail` is the
last of them.  (1) For every sequence of `enqueue` calls on an empty queue,
the queue holds the identifiers in the order of the calls, and the following
`dequeue` calls return them in that order and then `THREAD_NONE`, as often as
called.  (2) The same holds of the `dequeue` calls on any queue, which is
empty afterwards.  (3) `enqueue` appends to any queue.  (4) With fuel for more
iterations than the queue has nodes, `remove_from_queue(tid)` returns 0 and
deletes the first occurrence of `tid` only, keeping the order of the other
identifiers, when `tid` is in the queue, and (5) returns -1 and leaves the
queue unchanged when it is not. -/
theorem ready_queue_is_fifo (thread_none : Int) :
    (∀ (q0 : queue_ctx) (pts : List (Nat × Int)) (k : Nat),
        q0.readyHead = 0 → q0.readyTail = 0 →
        (pts.map Prod.fst).Nodup → (∀ c, c ∈ pts → c.1 ≠ 0 ∧ q0.heap c.1 = none) →
        ∃ q q2, enqueue_all q0 pts = some q ∧ is_queue q (pts.map Prod.snd)
          ∧ dequeue_n thread_none (pts.length + k) q
              = some (pts.map Prod.snd ++ List.replicate k thread_none, q2))
    ∧ (∀ (q : queue_ctx) (l : List Int) (k : Nat), is_queue q l →
        ∃ q2, dequeue_n thread_none (l.length + k) q
            = some (l ++ List.replicate k thread_none, q2)
          ∧ is_queue q2 [])
    ∧ (∀ (q : queue_ctx) (l : List Int) (p : Nat) (tid : Int), is_queue q l →
        p ≠ 0 → q.heap p = none →
        ∃ q2, enqueue p tid q = some q2 ∧ is_queue q2 (l ++ [tid]))
    ∧ (∀ (q : queue_ctx) (l : List Int) (tid : Int) (fuel : Nat), is_queue q l →
        l.length < fuel → tid ∈ l →
        ∃ q2, remove_from_queue fuel tid q = some (0, q2) ∧ is_queue q2 (l.erase tid))
    ∧ (∀ (q : queue_ctx) (l : List Int) (tid : Int) (fuel : Nat), is_queue q l →
        l.length < fuel → tid ∉ l →
        remove_from_queue fuel tid q = some (-1, q)) := by
  refine ⟨?_, ?_, ?_, ?_, ?_⟩
  · intro q0 pts k hh ht hnd hfresh
    have hr0 : queue_rep q0 [] [] := ⟨(chain_nil _ _).2 hh, List.nodup_nil, ht⟩
    obtain ⟨q, h1, hr⟩ := enqueue_all_spec pts q0 [] [] hr0 hnd hfresh
    simp only [List.nil_append] at hr
    obtain ⟨q2, h2, _⟩ := dequeue_n_spec thread_none k _ q _ hr
    refine ⟨q, q2, h1, ⟨_, hr⟩, ?_⟩
    rw [List.length_map] at h2
    exact h2
  · intro q l k ⟨as, hr⟩
    obtain ⟨q2, h2, hr2⟩ := dequeue_n_spec thread_none k l q as hr
    exact ⟨q2, h2, ⟨[], hr2⟩⟩
  · intro q l p tid ⟨as, hr⟩ hp hf
    obtain ⟨q2, h2, hr2, _⟩ := enqueue_spec q as l p tid hr hp hf
    exact ⟨q2, h2, ⟨_, hr2⟩⟩
  · intro q l tid fuel ⟨as, hr⟩ hfuel hmem
    obtain ⟨l1, l2, hn, hl, he⟩ := List.exists_erase_eq hmem
    have hlen := chain_length _ _ _ _ hr.q_chain
    have hlt : l1.length < as.length := by
      rw [hlen, hl, List.length_append, List.length_cons]
      omega
    have has : as = as.take l1.length ++ as[l1.length] :: as.drop (l1.length + 1) := by
      rw [← List.drop_eq_getElem_cons hlt, List.take_append_drop]
    have htk : (as.take l1.length).length = l1.length := by
      rw [List.length_take]
      omega
    rw [has, hl] at hr
    obtain ⟨q2, h2, hr2⟩ := remove_present tid q _ _ _ l1 l2 fuel hr htk
      (fun y hy e => hn (by rw [← e]; exact hy)) (by omega)
    refine ⟨q2, h2, ⟨as.take l1.length ++ as.drop (l1.length + 1), ?_⟩⟩
    rw [he]
    exact hr2
  · intro q l tid fuel ⟨as, hr⟩ hfuel hmem
    exact remove_absent tid q as l fuel hr (fun y hy e => hmem (by rw [← e]; exact hy)) hfuel

/-- Instance of C36, with `THREAD_NONE = -4`: the identifiers 5, 7, 5 are
enqueued on the empty queue in nodes at the addresses 16, 32, 48.  Five
`dequeue` calls return 5, 7, 5 and twice `THREAD_NONE`; on the same queue,
`remove_from_queue(5)` returns 0 and two `dequeue` calls then return 7 and
5. -/
theorem ready_queue_is_fifo_witness :
    ((enqueue_all queue_empty [(16, 5), (32, 7), (48, 5)]).bind
        (fun q => dequeue_n (-4) 5 q)).map Prod.fst = some [5, 7, 5, -4, -4]
    ∧ ((enqueue_all queue_empty [(16, 5), (32, 7), (48, 5)]).bind
        (fun q => remove_from_queue 4 5 q)).map Prod.fst = some 0
    ∧ (((enqueue_all queue_empty [(16, 5), (32, 7), (48, 5)]).bind
        (fun q => remove_from_queue 4 5 q)).bind
        (fun r => dequeue_n (-4) 2 r.2)).map Prod.fst = some [7, 5] := by
  obtain ⟨q, q2, h1, hq, h3⟩ := (ready_queue_is_fifo (-4)).1 queue_empty
    [(16, 5), (32, 7), (48, 5)] 2 rfl rfl (by decide) (by simp [queue_empty])
  obtain ⟨q3, h4, hq3⟩ := (ready_queue_is_fifo (-4)).2.2.2.1 q _ 5 4 hq (by decide) (by decide)
  obtain ⟨q4, h5, _⟩ := (ready_queue_is_fifo (-4)).2.1 q3 _ 0 hq3
  rw [h1]
  refine ⟨?_, ?_, ?_⟩
  · show (dequeue_n (-4) 5 q).map Prod.fst = _
    exact (congrArg (Option.map Prod.fst) h3).trans rfl
  · show (remove_from_queue 4 5 q).map Prod.fst = _
    rw [h4]
    rfl
  · show ((remove_from_queue 4 5 q).bind (fun r => dequeue_n (-4) 2 r.2)).map Prod.fst = _
    rw [h4]
    exact (congrArg (Option.map Prod.fst) h5).trans rfl

/-! ## The sweep of the clock hand -/

theorem get_referenced_cleared (w : Nat) : get_referenced (set_referenced w false) = false := by
  unfold get_referenced set_referenced
  have h : 4294967294 &&& mask_ref_bit = 0 := by decide
  simp only [Bool.false_eq_true, if_false]
  rw [Nat.land_assoc, h, Nat.and_zero]
  rfl

theorem next_hand_eq (m h : Nat) (hlt : h < m) (hm : m < 2147483648) :
    next_hand m (h : Int) = (((h + 1) % m : Nat) : Int) := by
  unfold next_hand
  have h1 : (((h : Int) + 1) % 18446744073709551616).toNat = h + 1 := by omega
  have h2 : (h + 1) % m < m := Nat.mod_lt _ (by omega)
  rw [h1, Nat.mod_eq_of_lt (by omega : (h + 1) % m < 4294967296)]
  unfold toInt32
  rw [if_pos (by omega)]

theorem mod_two_cases (x m : Nat) (hx : x < 2 * m) :
    x % m = if x < m then x else x - m := by
  by_cases h : x < m
  · rw [if_pos h, Nat.mod_eq_of_lt h]
  · rw [if_neg h, Nat.mod_eq_sub_mod (by omega), Nat.mod_eq_of_lt (by omega)]

theorem add_mod_inj (m h e1 e2 : Nat) (hlt : h < m) (h1 : e1 < m) (h2 : e2 < m)
    (he : (h + e1) % m = (h + e2) % m) : e1 = e2 := by
  rw [mod_two_cases _ m (by omega), mod_two_cases _ m (by omega)] at he
  split_ifs at he <;> omega

theorem clock_loop_succ (m fuel : Nat) (s : clock_ctx) :
    clock_loop m (fuel + 1) s
      = if ¬ (0 ≤ s.clock_hand ∧ s.clock_hand < m) then none
        else if s.coremap s.clock_hand = 0 then none
        else if get_referenced (s.pte_frame (s.coremap s.clock_hand)) then
          (clock_loop m fuel (clock_step m s)).map (fun r => (r.1, r.2 + 1))
        else some (s, 1) := rfl

theorem clock_step_wf (m : Nat) (s : clock_ctx) (h : Nat) (hw : clock_wf m s h) :
    clock_wf m (clock_step m s) ((h + 1) % m) := by
  obtain ⟨c1, c2, c3, c4, c5⟩ := hw
  refine ⟨?_, Nat.mod_lt _ (by omega), c3, c4, c5⟩
  show next_hand m s.clock_hand = _
  rw [c1, next_hand_eq m h c2 c3]

theorem clock_step_ref_other (m : Nat) (s : clock_ctx) (h i : Nat) (hw : clock_wf m s h)
    (hi : i < m) (hne : i ≠ h) :
    (clock_step m s).pte_frame ((clock_step m s).coremap (i : Int))
      = s.pte_frame (s.coremap (i : Int)) := by
  show upd s.pte_frame (s.coremap s.clock_hand) _ (s.coremap (i : Int)) = _
  rw [hw.c_hand, upd_other _ _ _ _ (fun e => hne (hw.c_inj i h hi hw.c_lt e))]

theorem clock_step_ref (m : Nat) (s : clock_ctx) (h : Nat) (hw : clock_wf m s h) :
    frame_ref (clock_step m s) h = false
    ∧ ∀ i, i < m → i ≠ h → frame_ref (clock_step m s) i = frame_ref s i := by
  constructor
  · show get_referenced (upd s.pte_frame (s.coremap s.clock_hand) _ (s.coremap (h : Int))) = false
    rw [hw.c_hand, upd_same]
    exact get_referenced_cleared _
  · intro i hi hne
    unfold frame_ref
    rw [clock_step_ref_other m s h i hw hi hne]

theorem sweep_succ (m k : Nat) (s : clock_ctx) :
    sweep m (k + 1) s = sweep m k (clock_step m s) := rfl

theorem add_succ_mod (m h e : Nat) : ((h + 1) % m + e) % m = (h + (e + 1)) % m := by
  rw [Nat.mod_add_mod]
  congr 1
  omega

/-- The state after `k <= memsize` iterations of the loop: the hand has
advanced by `k`, the frames passed have a clear referenced bit, the entries of
the other frames are as they were, and a clear bit stays clear. -/
theorem sweep_spec (m : Nat) :
    ∀ (k : Nat) (s : clock_ctx) (h : Nat), clock_wf m s h → k ≤ m →
      clock_wf m (sweep m k s) ((h + k) % m)
      ∧ (sweep m k s).coremap = s.coremap
      ∧ (∀ e, e < k → frame_ref (sweep m k s) ((h + e) % m) = false)
      ∧ (∀ i, i < m → (∀ e, e < k → i ≠ (h + e) % m) →
          (sweep m k s).pte_frame (s.coremap (i : Int)) = s.pte_frame (s.coremap (i : Int)))
      ∧ (∀ i, i < m → frame_ref s i = false → frame_ref (sweep m k s) i = false) := by
  intro k
  induction k with
  | zero =>
    intro s h hw _
    refine ⟨?_, rfl, fun e he => absurd he (Nat.not_lt_zero _), fun _ _ _ => rfl,
      fun _ _ hf => hf⟩
    rw [Nat.add_zero, Nat.mod_eq_of_lt hw.c_lt]
    exact hw
  | succ k ih =>
    intro s h hw hk
    have hw1 := clock_step_wf m s h hw
    obtain ⟨r0, r1⟩ := clock_step_ref m s h hw
    obtain ⟨i1, i2, i3, i4, i5⟩ := ih (clock_step m s) ((h + 1) % m) hw1 (by omega)
    have hstay : ∀ i, i < m → frame_ref s i = false → frame_ref (clock_step m s) i = false := by
      intro i hi hf
      by_cases hih : i = h
      · rw [hih]
        exact r0
      · rw [r1 i hi hih]
        exact hf
    rw [sweep_succ]
    refine ⟨?_, i2, ?_, ?_, fun i hi hf => i5 i hi (hstay i hi hf)⟩
    · rw [add_succ_mod] at i1
      exact i1
    · intro e he
      cases e with
      | zero =>
        rw [Nat.add_zero, Nat.mod_eq_of_lt hw.c_lt]
        exact i5 h hw.c_lt r0
      | succ e2 =>
        rw [← add_succ_mod]
        exact i3 e2 (by omega)
    · intro i hi hne
      have hih : i ≠ h := by
        have := hne 0 (by omega)
        rw [Nat.add_zero, Nat.mod_eq_of_lt hw.c_lt] at this
        exact this
      have h4 := i4 i hi (fun e he => by
        rw [add_succ_mod]
        exact hne (e + 1) (by omega))
      have hcm : (clock_step m s).coremap = s.coremap := rfl
      rw [hcm] at h4
      rw [h4]
      exact clock_step_ref_other m s h i hw hi hih

/-- While the frames under the hand are referenced the loop goes on. -/
theorem clock_loop_sweep (m fuel : Nat) :
    ∀ (k : Nat) (s : clock_ctx) (h : Nat), clock_wf m s h → k ≤ m →
      (∀ e, e < k → frame_ref s ((h + e) % m) = true) →
      clock_loop m (k + fuel) s
        = (clock_loop m fuel (sweep m k s)).map (fun r => (r.1, r.2 + k)) := by
  intro k
  induction k with
  | zero =>
    intro s h _ _ _
    rw [Nat.zero_add]
    show _ = (clock_loop m fuel s).map _
    cases clock_loop m fuel s <;> rfl
  | succ k ih =>
    intro s h hw hk href
    have hw1 := clock_step_wf m s h hw
    obtain ⟨_, r1⟩ := clock_step_ref m s h hw
    have hfuel : k + 1 + fuel = (k + fuel) + 1 := by omega
    have hrange : 0 ≤ s.clock_hand ∧ s.clock_hand < (m : Int) := by
      rw [hw.c_hand]
      have := hw.c_lt
      omega
    have hnn : ¬ ¬ (0 ≤ s.clock_hand ∧ s.clock_hand < (m : Int)) := fun hx => hx hrange
    have hpte : ¬ s.coremap s.clock_hand = 0 := by
      rw [hw.c_hand]
      exact hw.c_pte h hw.c_lt
    have h0 : get_referenced (s.pte_frame (s.coremap s.clock_hand)) = true := by
      have := href 0 (by omega)
      rw [Nat.add_zero, Nat.mod_eq_of_lt hw.c_lt] at this
      rw [hw.c_hand]
      exact this
    rw [hfuel, clock_loop_succ, if_neg hnn, if_neg hpte, if_pos h0,
      ih (clock_step m s) ((h + 1) % m) hw1 (by omega) (fun e he => by
        rw [add_succ_mod, r1 _ (Nat.mod_lt _ (by omega)) (fun hx => by
          have h2 : (h + (e + 1)) % m = (h + 0) % m := by
            rw [hx, Nat.add_zero, Nat.mod_eq_of_lt hw.c_lt]
          have := add_mod_inj m h (e + 1) 0 hw.c_lt (by omega) (by omega) h2
          omega)]
        exact href (e + 1) (by omega)), sweep_succ]
    cases clock_loop m fuel (sweep m k (clock_step m s)) <;> rfl

theorem first_clear (m : Nat) (s : clock_ctx) (h : Nat) :
    ∀ k, (∀ e, e < k → frame_ref s ((h + e) % m) = true)
      ∨ ∃ d, d < k ∧ (∀ e, e < d → frame_ref s ((h + e) % m) = true)
          ∧ frame_ref s ((h + d) % m) = false := by
  intro k
  induction k with
  | zero => exact Or.inl (fun e he => absurd he (Nat.not_lt_zero _))
  | succ k ih =>
    rcases ih with hall | ⟨d, hd, h1, h2⟩
    · by_cases hk : frame_ref s ((h + k) % m) = true
      · left
        intro e he
        by_cases hek : e = k
        · rw [hek]
          exact hk
        · exact hall e (by omega)
      · right
        exact ⟨k, by omega, hall, by simpa using hk⟩
    · exact Or.inr ⟨d, by omega, h1, h2⟩

/-- The run of `clock_evict`: the hand passes `d <= memsize` referenced frames
and stops at the next one, with `d + 1` frames inspected, whatever the fuel
above `memsize`. -/
theorem clock_evict_core (m : Nat) (s : clock_ctx) (h : Nat) (hw : clock_wf m s h) :
    ∃ d, d ≤ m ∧ (∀ e, e < d → frame_ref s ((h + e) % m) = true)
      ∧ (d < m → frame_ref s ((h + d) % m) = false)
      ∧ frame_ref (sweep m d s) ((h + d) % m) = false
      ∧ ∀ fuel, m + 1 ≤ fuel →
        clock_evict m fuel s
          = some ((((h + d) % m : Nat) : Int),
                  { sweep m d s with clock_hand := ((((h + d) % m + 1) % m : Nat) : Int) },
                  d + 1) := by
  have hm : 0 < m := by
    have := hw.c_lt
    omega
  obtain ⟨d, hd, hset, hclr⟩ : ∃ d, d ≤ m ∧ (∀ e, e < d → frame_ref s ((h + e) % m) = true)
      ∧ (d < m → frame_ref s ((h + d) % m) = false) := by
    rcases first_clear m s h m with hall | ⟨d, hd, h1, h2⟩
    · exact ⟨m, Nat.le_refl _, hall, fun hx => absurd hx (Nat.lt_irrefl _)⟩
    · exact ⟨d, by omega, h1, fun _ => h2⟩
  obtain ⟨w1, w2, w3, w4, w5⟩ := sweep_spec m d s h hw hd
  have hr : (h + d) % m < m := Nat.mod_lt _ hm
  have hfalse : frame_ref (sweep m d s) ((h + d) % m) = false := by
    by_cases hdm : d < m
    · exact w5 _ hr (hclr hdm)
    · have hdm2 : d = m := by omega
      have := w3 0 (by omega)
      rw [Nat.add_zero, Nat.mod_eq_of_lt hw.c_lt] at this
      rw [hdm2, Nat.add_mod_right, Nat.mod_eq_of_lt hw.c_lt]
      rw [hdm2] at this
      exact this
  refine ⟨d, hd, hset, hclr, hfalse, ?_⟩
  intro fuel hfuel
  obtain ⟨f, hf⟩ : ∃ f, fuel = d + (f + 1) := ⟨fuel - d - 1, by omega⟩
  have hrange : 0 ≤ (sweep m d s).clock_hand ∧ (sweep m d s).clock_hand < (m : Int) := by
    rw [w1.c_hand]
    omega
  have hnn : ¬ ¬ (0 ≤ (sweep m d s).clock_hand ∧ (sweep m d s).clock_hand < (m : Int)) :=
    fun hx => hx hrange
  have hpte : ¬ (sweep m d s).coremap (sweep m d s).clock_hand = 0 := by
    rw [w1.c_hand]
    exact w1.c_pte _ hr
  have hg : ¬ get_referenced ((sweep m d s).pte_frame
      ((sweep m d s).coremap (sweep m d s).clock_hand)) = true := by
    rw [w1.c_hand]
    unfold frame_ref at hfalse
    rw [hfalse]
    exact Bool.false_ne_true
  unfold clock_evict
  rw [hf, clock_loop_sweep m (f + 1) d s h hw hd hset, clock_loop_succ, if_neg hnn, if_neg hpte,
    if_neg hg]
  show some (((sweep m d s).clock_hand, _, 1 + d) : Int × clock_ctx × Nat) = _
  rw [w1.c_hand, next_hand_eq m _ hr w1.c_int, Nat.add_comm 1 d]

/-- C34: for every `memsize >= 1` (below 2^31, as the hand is an `int`),
every hand position in `[0, memsize)` and every assignment of referenced bits
to the frames (each frame with a page table entry of its own),
`clock_evict` terminates after inspecting at most `memsize + 1` frames: with
fuel for `memsize + 1` evaluations of the loop condition or more it returns,
the same whatever the fuel, and the number of frames inspected is at most
`memsize + 1`. -/
theorem clock_evict_terminates (m fuel : Nat) (s : clock_ctx) (h : Nat) (hw : clock_wf m s h)
    (hfuel : m + 1 ≤ fuel) :
    (∃ r s2 n, clock_evict m fuel s = some (r, s2, n) ∧ n ≤ m + 1)
    ∧ clock_evict m fuel s = clock_evict m (m + 1) s := by
  obtain ⟨d, hd, _, _, _, hrun⟩ := clock_evict_core m s h hw
  refine ⟨⟨_, _, _, hrun fuel hfuel, by omega⟩, ?_⟩
  rw [hrun fuel hfuel, hrun (m + 1) (Nat.le_refl _)]

/-- C35: for every `memsize >= 1` (below 2^31) and hand position `h` in
`[0, memsize)`, with a page table entry of its own for each frame:
`clock_evict` returns the frame `r = (h + d) mod memsize`, where the `d`
frames before it in the cyclic order from `h` are referenced and `r` is not,
or `d = memsize` and `r = h` when every frame is referenced; `r < memsize`;
the frames inspected before `r` have their referenced bit cleared; the entry
of every other frame is as it was; the referenced bit of `r` is clear on
return; the hand is `(r + 1) mod memsize`; `d + 1` frames were inspected. -/
theorem clock_evict_returns_first_clear (m fuel : Nat) (s : clock_ctx) (h : Nat)
    (hw : clock_wf m s h) (hfuel : m + 1 ≤ fuel) :
    ∃ (d r : Nat) (s2 : clock_ctx), clock_evict m fuel s = some ((r : Int), s2, d + 1)
      ∧ d ≤ m ∧ r = (h + d) % m
      ∧ (∀ e, e < d → frame_ref s ((h + e) % m) = true)
      ∧ (d < m → frame_ref s r = false)
      ∧ ((∀ i, i < m → frame_ref s i = true) → d = m ∧ r = h)
      ∧ r < m
      ∧ (∀ e, e < d → frame_ref s2 ((h + e) % m) = false)
      ∧ (∀ i, i < m → (∀ e, e < d → i ≠ (h + e) % m) →
          s2.pte_frame (s2.coremap (i : Int)) = s.pte_frame (s.coremap (i : Int)))
      ∧ frame_ref s2 r = false
      ∧ s2.clock_hand = (((r + 1) % m : Nat) : Int)
      ∧ s2.coremap = s.coremap := by
  have hm : 0 < m := by
    have := hw.c_lt
    omega
  obtain ⟨d, hd, hset, hclr, hfalse, hrun⟩ := clock_evict_core m s h hw
  obtain ⟨_, w2, w3, w4, _⟩ := sweep_spec m d s h hw hd
  have hr : (h + d) % m < m := Nat.mod_lt _ hm
  refine ⟨d, (h + d) % m, _, hrun fuel hfuel, hd, rfl, hset, hclr, ?_, hr, w3, ?_, hfalse, rfl,
    w2⟩
  · intro hall
    have hdm : d = m := by
      by_contra hne
      have := hclr (by omega)
      rw [hall _ hr] at this
      exact Bool.noConfusion this
    refine ⟨hdm, ?_⟩
    rw [hdm, Nat.add_mod_right, Nat.mod_eq_of_lt hw.c_lt]
  · intro i hi hne
    show (sweep m d s).pte_frame ((sweep m d s).coremap (i : Int)) = _
    rw [w2]
    exact w4 i hi hne

theorem clock_four_wf : clock_wf 4 clock_four 2 := by
  refine ⟨rfl, by decide, by decide, by decide, ?_⟩
  intro i j hi hj
  interval_cases i <;> interval_cases j <;> simp [clock_four]

/-- Instance of C34: four frames, the hand at frame 2, frame 1 not
referenced. -/
theorem clock_evict_terminates_witness :
    (clock_evict 4 9 clock_four).map (fun r => decide (r.2.2 ≤ 4 + 1)) = some true
    ∧ clock_evict 4 9 clock_four = clock_evict 4 (4 + 1) clock_four := by
  obtain ⟨⟨r, s2, n, h1, h2⟩, h3⟩ := clock_evict_terminates 4 9 clock_four 2 clock_four_wf
    (by decide)
  refine ⟨?_, h3⟩
  rw [h1]
  simp [h2]

/-- Instance of C35: four frames, the hand at frame 2, the frames 2, 3 and 0
referenced and frame 1 not: `clock_evict` returns frame 1 after 4 inspections
and leaves the hand at frame 2. -/
theorem clock_evict_returns_first_clear_witness :
    (clock_evict 4 5 clock_four).map (fun r => (r.1, r.2.1.clock_hand, r.2.2))
      = some (1, 2, 4) := by
  obtain ⟨d, r, s2, h1, h2, h3, h4, h5, _, _, _, _, _, h6, _⟩ :=
    clock_evict_returns_first_clear 4 5 clock_four 2 clock_four_wf (by decide)
  have hd3 : d = 3 := by
    have f2 : frame_ref clock_four 2 = true := by decide
    have f3 : frame_ref clock_four 3 = true := by decide
    have f0 : frame_ref clock_four 0 = true := by decide
    have f1 : frame_ref clock_four 1 = false := by decide
    interval_cases d
    · have := h5 (by decide)
      rw [h3, f2] at this
      exact Bool.noConfusion this
    · have := h5 (by decide)
      rw [h3, f3] at this
      exact Bool.noConfusion this
    · have := h5 (by decide)
      rw [h3, f0] at this
      exact Bool.noConfusion this
    · rfl
    · have := h4 3 (by decide)
      rw [f1] at this
      exact Bool.noConfusion this
  subst hd3
  rw [h1]
  simp [h3, h6]

/-! ## Create when the inode search finds no number -/

/-- C1 (evaluation at the failing input): `img_ino40` satisfies the
superblock invariant and has no entry `x`, and the inode bitmap has no clear
bit below the 40 blocks that bound the search of `vsfs_create`, so that
`inode_idx` keeps the value it had, here 0.  `create("/x")` returns success;
`get_attributes("/x")` then succeeds, but the entry carries inode number 0
and the attributes are those of that slot: size 4096 and 8 blocks of 512
bytes, not size 0 and block count 0. -/
theorem create_then_getattr_reports_root_slot :
    img_ino40.sb.sb_free_blocks = zero_bits img_ino40.dbmap img_ino40.sb.sb_num_blocks
    ∧ img_ino40.sb.sb_free_inodes = zero_bits img_ino40.ibmap img_ino40.sb.sb_num_inodes
    ∧ path_lookup img_ino40 path_x = (-ENOSYS, none)
    ∧ bitmap_alloc img_ino40.ibmap img_ino40.sb.sb_num_blocks = none
    ∧ (vsfs_create 0 1 img_ino40 path_x 33188).1 = 0
    ∧ path_lookup (vsfs_create 0 1 img_ino40 path_x 33188).2 path_x = (0, some (dentry_addr 7 0))
    ∧ (vsfs_getattr (vsfs_create 0 1 img_ino40 path_x 33188).2 path_x).1 = 0
    ∧ (vsfs_getattr (vsfs_create 0 1 img_ino40 path_x 33188).2 path_x).2.st_size = 4096
    ∧ (vsfs_getattr (vsfs_create 0 1 img_ino40 path_x 33188).2 path_x).2.st_blocks = 8
    ∧ (vsfs_getattr (vsfs_create 0 1 img_ino40 path_x 33188).2 path_x).2.st_mode = 33188
    ∧ (vsfs_getattr (vsfs_create 0 1 img_ino40 path_x 33188).2 path_x).2.st_nlink = 1 := by
  decide

/-- C6 (evaluation at the failing input): the superblock invariant holds in
`img_ino40` (24 free inodes of 64 and 24 clear bits, 33 free blocks of 40 and
33 clear bits).  The inode search of `create("/x")` finds no clear bit below
the 40 blocks; the create succeeds and decrements the free inode count to 23,
while 24 bits of the inode bitmap are still clear, both when `inode_idx` held
0 and when it held 100. -/
theorem create_breaks_free_inode_count :
    img_ino40.sb.sb_free_blocks = zero_bits img_ino40.dbmap img_ino40.sb.sb_num_blocks
    ∧ img_ino40.sb.sb_free_inodes = zero_bits img_ino40.ibmap img_ino40.sb.sb_num_inodes
    ∧ img_ino40.sb.sb_free_blocks ≤ img_ino40.sb.sb_num_blocks
    ∧ img_ino40.sb.sb_free_inodes ≤ img_ino40.sb.sb_num_inodes
    ∧ (vsfs_create 0 1 img_ino40 path_x 33188).1 = 0
    ∧ (vsfs_create 0 1 img_ino40 path_x 33188).2.sb.sb_free_inodes = 23
    ∧ zero_bits (vsfs_create 0 1 img_ino40 path_x 33188).2.ibmap
        (vsfs_create 0 1 img_ino40 path_x 33188).2.sb.sb_num_inodes = 24
    ∧ (vsfs_create 100 1 img_ino40 path_x 33188).1 = 0
    ∧ (vsfs_create 100 1 img_ino40 path_x 33188).2.sb.sb_free_inodes = 23
    ∧ zero_bits (vsfs_create 100 1 img_ino40 path_x 33188).2.ibmap
        (vsfs_create 100 1 img_ino40 path_x 33188).2.sb.sb_num_inodes = 24 := by
  decide

/-- On `img_full5`, where the inode search succeeds (inode 81), `create("/x")`
in the branch `root->i_blocks == VSFS_NUM_DIRECT` takes the two blocks 9 and
10: block 9 is the indirect pointer block, its entry 0 holds 10, slot 0 of
block 10 holds the new entry, the root has 6 blocks and the free block count
and the number of clear bits both drop from 191 to 189. -/
theorem create_at_five_blocks_on_full5 :
    (vsfs_create 0 1 img_full5 path_x 33188).1 = 0
    ∧ ((vsfs_create 0 1 img_full5 path_x 33188).2.itable 0).i_blocks = 6
    ∧ ((vsfs_create 0 1 img_full5 path_x 33188).2.itable 0).i_indirect = 9
    ∧ read32 (vsfs_create 0 1 img_full5 path_x 33188).2.image (blk_addr 9) = 10
    ∧ read32 (vsfs_create 0 1 img_full5 path_x 33188).2.image (dentry_addr 10 0) = 81
    ∧ read32 (vsfs_create 0 1 img_full5 path_x 33188).2.image (dentry_addr 10 1) = VSFS_INO_MAX
    ∧ (vsfs_create 0 1 img_full5 path_x 33188).2.sb.sb_free_blocks = 189
    ∧ zero_bits (vsfs_create 0 1 img_full5 path_x 33188).2.dbmap 200 = 189
    ∧ (vsfs_getattr (vsfs_create 0 1 img_full5 path_x 33188).2 path_x).1 = 0 := by
  decide

/-! ## Path resolution returns the first entry in use with the name -/

theorem findSome_range_spec {β : Type} (f : Nat → Option β) (n : Nat) :
    match (List.range n).findSome? f with
    | some d => ∃ i, i < n ∧ f i = some d ∧ ∀ i2, i2 < i → f i2 = none
    | none => ∀ i, i < n → f i = none := by
  induction n with
  | zero => simp
  | succ n ih =>
    rw [List.range_succ, List.findSome?_append]
    cases h : (List.range n).findSome? f with
    | some d =>
      rw [h] at ih
      obtain ⟨i, hi, h1, h2⟩ := ih
      simp only [Option.or_some]
      exact ⟨i, by omega, h1, h2⟩
    | none =>
      rw [h] at ih
      simp only [Option.none_or, List.findSome?_cons, List.findSome?_nil]
      cases hf : f n with
      | some d =>
        simp only []
        exact ⟨n, by omega, hf, fun i2 hi2 => ih i2 hi2⟩
      | none =>
        simp only []
        intro i hi
        rcases Nat.lt_succ_iff_lt_or_eq.1 hi with hlt | heq
        · exact ih i hlt
        · rw [heq]; exact hf

/-- What `path_lookup` does for a name that is not empty: it stops at the
first slot, in block order and then slot order, whose name compares equal,
whether the slot is free or not. -/
theorem path_lookup_first_name (s : fs_ctx) (name : List Nat) (hname : name ≠ []) :
    ((∀ i j, i < (s.itable VSFS_ROOT_INO).i_blocks → j < dentry_per_blk →
        strcmp_eq s.image (root_slot s i j + 4) name = false)
      ∧ path_lookup s (47 :: name) = (-ENOSYS, none))
    ∨ (∃ i j, i < (s.itable VSFS_ROOT_INO).i_blocks ∧ j < dentry_per_blk
        ∧ strcmp_eq s.image (root_slot s i j + 4) name = true
        ∧ (∀ i2 j2, i2 < (s.itable VSFS_ROOT_INO).i_blocks → j2 < dentry_per_blk →
            slot_before i2 j2 i j → strcmp_eq s.image (root_slot s i2 j2 + 4) name = false)
        ∧ path_lookup s (47 :: name)
            = (toInt32 (read32 s.image (root_slot s i j)), some (root_slot s i j))) := by
  have hspec := findSome_range_spec
    (fun i => lookup_in_block s.image (blk_of s.image (s.itable VSFS_ROOT_INO) i) name)
    (s.itable VSFS_ROOT_INO).i_blocks
  have hpl : path_lookup s (47 :: name)
      = match (List.range (s.itable VSFS_ROOT_INO).i_blocks).findSome?
          (fun i => lookup_in_block s.image (blk_of s.image (s.itable VSFS_ROOT_INO) i) name) with
        | some d => (toInt32 (read32 s.image d), some d)
        | none => (-ENOSYS, none) := by
    unfold path_lookup
    simp only [ne_eq, not_true_eq_false, if_false, if_neg hname] <;> rfl
  cases h : (List.range (s.itable VSFS_ROOT_INO).i_blocks).findSome?
      (fun i => lookup_in_block s.image (blk_of s.image (s.itable VSFS_ROOT_INO) i) name) with
  | none =>
    rw [h] at hspec hpl
    left
    refine ⟨?_, hpl⟩
    intro i j hi hj
    have := hspec i hi
    unfold lookup_in_block at this
    simp only [Option.map_eq_none'] at this
    exact find_range_none _ _ this j hj
  | some d =>
    rw [h] at hspec hpl
    right
    obtain ⟨i, hi, hfi, hbefore⟩ := hspec
    unfold lookup_in_block at hfi
    simp only [Option.map_eq_some'] at hfi
    obtain ⟨j, hj, hdj⟩ := hfi
    have hs := find_range_some _ _ _ hj
    refine ⟨i, j, hi, hs.1, hs.2.1, ?_, ?_⟩
    · intro i2 j2 hi2 hj2 hb
      rcases hb with hlt | ⟨heq, hlt⟩
      · have := hbefore i2 hlt
        unfold lookup_in_block at this
        simp only [Option.map_eq_none'] at this
        exact find_range_none _ _ this j2 hj2
      · subst heq
        exact hs.2.2 j2 hlt
    · rw [hpl]
      simp only []
      unfold root_slot
      rw [hdj]

theorem toInt32_ino_max : toInt32 VSFS_INO_MAX = -1 := by decide

/-- C13: for an absolute path `/name` other than the root, in a directory as
create and remove build it (`dir_ordered`): `path_lookup` returns a negative
value exactly when no slot in use of the root's allocated blocks has the
name; when slot `(i, j)` is the first slot in use with the name, in logical
block order and then slot order, it returns the inode number of that slot and
stores the slot; and whenever the result is not negative the slot it stores
is not free. -/
theorem path_lookup_finds_first_live_entry (s : fs_ctx) (name : List Nat) (hname : name ≠ [])
    (hdir : dir_ordered s name) :
    ((path_lookup s (47 :: name)).1 < 0 ↔ ¬ ∃ i j, live_match s name i j)
    ∧ (∀ i j, live_match s name i j →
        (∀ i2 j2, slot_before i2 j2 i j → ¬ live_match s name i2 j2) →
        path_lookup s (47 :: name)
          = ((read32 s.image (root_slot s i j) : Int), some (root_slot s i j)))
    ∧ (0 ≤ (path_lookup s (47 :: name)).1 →
        ∃ d, (path_lookup s (47 :: name)).2 = some d ∧ read32 s.image d ≠ VSFS_INO_MAX) := by
  rcases path_lookup_first_name s name hname with ⟨hnone, hpl⟩ | ⟨i0, j0, hi0, hj0, hm0, hfirst, hpl⟩
  · refine ⟨?_, ?_, ?_⟩
    · rw [hpl]
      constructor
      · rintro - ⟨i, j, hi, hj, -, hm⟩
        rw [hnone i j hi hj] at hm
        exact Bool.noConfusion hm
      · intro _
        decide
    · rintro i j ⟨hi, hj, -, hm⟩ -
      rw [hnone i j hi hj] at hm
      exact Bool.noConfusion hm
    · rw [hpl]
      intro h
      exact absurd h (by decide)
  · by_cases hfree : read32 s.image (root_slot s i0 j0) = VSFS_INO_MAX
    · -- the first slot with the name is free: the result is -1, and no slot in use has the name
      have hnolive : ¬ ∃ i j, live_match s name i j := by
        rintro ⟨i, j, hlive⟩
        have hlive2 := hlive
        obtain ⟨hi, hj, hused, hm⟩ := hlive
        by_cases hb : slot_before i j i0 j0
        · rw [hfirst i j hi hj hb] at hm
          exact Bool.noConfusion hm
        · by_cases he : i = i0 ∧ j = j0
          · obtain ⟨e1, e2⟩ := he
            subst e1; subst e2
            exact hused hfree
          · have hb2 : slot_before i0 j0 i j := by
              unfold slot_before at *
              omega
            exact hdir.stale_last i0 j0 i j hi0 hj0 hfree hm0 hb2 hlive2
      have hneg : (path_lookup s (47 :: name)).1 = -1 := by
        rw [hpl, hfree]
        exact toInt32_ino_max
      refine ⟨?_, ?_, ?_⟩
      · rw [hneg]
        exact ⟨fun _ => hnolive, fun _ => by decide⟩
      · intro i j hlive _
        exact absurd ⟨i, j, hlive⟩ hnolive
      · rw [hneg]
        intro h
        exact absurd h (by decide)
    · -- the first slot with the name is in use
      have hsmall := hdir.ino_small i0 j0 hi0 hj0 hfree
      have hval : toInt32 (read32 s.image (root_slot s i0 j0))
          = ((read32 s.image (root_slot s i0 j0) : Nat) : Int) := by
        unfold toInt32
        rw [if_pos hsmall]
      have hlive0 : live_match s name i0 j0 := ⟨hi0, hj0, hfree, hm0⟩
      refine ⟨?_, ?_, ?_⟩
      · rw [hpl, hval]
        constructor
        · intro h
          exact absurd h (by simp only []; omega)
        · intro h
          exact absurd ⟨i0, j0, hlive0⟩ h
      · intro i j hlive hmin
        obtain ⟨hi, hj, hused, hm⟩ := hlive
        by_cases hb : slot_before i j i0 j0
        · rw [hfirst i j hi hj hb] at hm
          exact Bool.noConfusion hm
        · by_cases he : i = i0 ∧ j = j0
          · obtain ⟨e1, e2⟩ := he
            subst e1; subst e2
            rw [hpl, hval]
          · have hb2 : slot_before i0 j0 i j := by
              unfold slot_before at *
              omega
            exact absurd hlive0 (hmin i0 j0 hb2)
      · intro _
        rw [hpl]
        exact ⟨root_slot s i0 j0, rfl, hfree⟩

theorem dir_ordered_of_no_free_match (s : fs_ctx) (name : List Nat)
    (h1 : ∀ i, i < (s.itable VSFS_ROOT_INO).i_blocks → ∀ j, j < dentry_per_blk →
      read32 s.image (root_slot s i j) = VSFS_INO_MAX →
      strcmp_eq s.image (root_slot s i j + 4) name = false)
    (h2 : ∀ i, i < (s.itable VSFS_ROOT_INO).i_blocks → ∀ j, j < dentry_per_blk →
      read32 s.image (root_slot s i j) ≠ VSFS_INO_MAX →
      read32 s.image (root_slot s i j) < 2147483648) : dir_ordered s name := by
  refine ⟨?_, fun i j hi hj => h2 i hi j hj⟩
  intro i j i2 j2 hi hj hfree hm _ _
  rw [h1 i hi j hj hfree] at hm
  exact Bool.noConfusion hm

theorem dir_ordered_of_no_live_match (s : fs_ctx) (name : List Nat)
    (h1 : ∀ i, i < (s.itable VSFS_ROOT_INO).i_blocks → ∀ j, j < dentry_per_blk →
      read32 s.image (root_slot s i j) ≠ VSFS_INO_MAX →
      strcmp_eq s.image (root_slot s i j + 4) name = false)
    (h2 : ∀ i, i < (s.itable VSFS_ROOT_INO).i_blocks → ∀ j, j < dentry_per_blk →
      read32 s.image (root_slot s i j) ≠ VSFS_INO_MAX →
      read32 s.image (root_slot s i j) < 2147483648) : dir_ordered s name := by
  refine ⟨?_, fun i j hi hj => h2 i hi j hj⟩
  rintro i j i2 j2 - - - - - ⟨hi2, hj2, hused, hm⟩
  rw [h1 i2 hi2 j2 hj2 hused] at hm
  exact Bool.noConfusion hm

/-- Instance of C13 on `img_full6_y`: the name `y` has its first slot in use
at slot 0 of logical block 6 and `path_lookup("/y")` returns its inode number
81 and that slot; the name `x` is carried by the free slot 1 of that block
only, and `path_lookup("/x")` returns a negative value. -/
theorem path_lookup_finds_first_live_entry_witness :
    dir_ordered img_full6_y [121]
    ∧ live_match img_full6_y [121] 6 0
    ∧ path_lookup img_full6_y [47, 121] = (81, some (root_slot img_full6_y 6 0))
    ∧ dir_ordered img_full6_y [120]
    ∧ read32 img_full6_y.image (root_slot img_full6_y 6 1) = VSFS_INO_MAX
    ∧ strcmp_eq img_full6_y.image (root_slot img_full6_y 6 1 + 4) [120] = true
    ∧ (path_lookup img_full6_y [47, 120]).1 < 0 := by
  have hy : dir_ordered img_full6_y [121] :=
    dir_ordered_of_no_free_match img_full6_y [121] (by decide) (by decide)
  have hx : dir_ordered img_full6_y [120] :=
    dir_ordered_of_no_live_match img_full6_y [120] (by decide) (by decide)
  have ty := path_lookup_finds_first_live_entry img_full6_y [121] (by decide) hy
  have tx := path_lookup_finds_first_live_entry img_full6_y [120] (by decide) hx
  refine ⟨hy, by decide, ?_, hx, by decide, by decide, ?_⟩
  · have := ty.2.1 6 0 (by decide) (by
      intro i2 j2 hb hl
      obtain ⟨hi2, hj2, hused, hm⟩ := hl
      have hall : ∀ i, i < 6 → ∀ j, j < dentry_per_blk →
          strcmp_eq img_full6_y.image (root_slot img_full6_y i j + 4) [121] = false := by decide
      have hi6 : i2 < 6 := by
        unfold slot_before at hb
        omega
      rw [hall i2 hi6 j2 hj2] at hm
      exact Bool.noConfusion hm)
    rw [this]
    have e : read32 img_full6_y.image (root_slot img_full6_y 6 0) = 81 := by decide
    rw [e]
    rfl
  · exact tx.1.2 (by
      rintro ⟨i, j, hi, hj, hused, hm⟩
      have hall : ∀ i, i < (img_full6_y.itable VSFS_ROOT_INO).i_blocks → ∀ j, j < dentry_per_blk →
          read32 img_full6_y.image (root_slot img_full6_y i j) ≠ VSFS_INO_MAX →
          strcmp_eq img_full6_y.image (root_slot img_full6_y i j + 4) [120] = false := by decide
      rw [hall i hi j hj hused] at hm
      exact Bool.noConfusion hm)

/-! ## The block-ownership invariant -/

theorem refs_data (s : fs_ctx) (k : Int) (j : Nat) (hj : j < (s.itable k).i_blocks) :
    refs s k (file_blk s k j) := Or.inl ⟨j, hj, rfl⟩

theorem refs_ind (s : fs_ctx) (k : Int) (h : 5 < (s.itable k).i_blocks) :
    refs s k (s.itable k).i_indirect := Or.inr ⟨h, rfl⟩

/-- The blocks an inode references are the same in two contexts in which it
has the same block count, the same indirect pointer block and the same
mapping of its logical blocks. -/
theorem refs_same (s st : fs_ctx) (k : Int) (b : Nat)
    (hn : (st.itable k).i_blocks = (s.itable k).i_blocks)
    (hi : (st.itable k).i_indirect = (s.itable k).i_indirect)
    (hb : ∀ j, j < (s.itable k).i_blocks → file_blk st k j = file_blk s k j)
    (h : refs st k b) : refs s k b := by
  rcases h with ⟨j, hj, e⟩ | ⟨h5, e⟩
  · rw [hn] at hj
    exact Or.inl ⟨j, hj, by rw [e, hb j hj]⟩
  · rw [hn] at h5
    exact Or.inr ⟨h5, by rw [e, hi]⟩

/-- The frame rule of the ownership invariant: an operation that changes the
references of the one inode `k` keeps the invariant when every other inode of
the table keeps its references and their bits, and the references of `k`
afterwards are pairwise distinct, lie in the data region with their bits set,
and each is one that `k` held before or a block whose bit was clear. -/
theorem owns_frame (d0 : Nat) (s st : fs_ctx) (k : Int)
    (hni : st.sb.sb_num_inodes = s.sb.sb_num_inodes)
    (hnb : st.sb.sb_num_blocks = s.sb.sb_num_blocks)
    (hown : owns d0 s)
    (hsame : ∀ k2, in_table s k2 → k2 ≠ k →
      (st.itable k2).i_blocks = (s.itable k2).i_blocks
      ∧ (st.itable k2).i_indirect = (s.itable k2).i_indirect
      ∧ ∀ j, j < (s.itable k2).i_blocks → file_blk st k2 j = file_blk s k2 j)
    (hbits : ∀ k2 b, in_table s k2 → k2 ≠ k → refs s k2 b → st.dbmap b = true)
    (hself : in_table s k → ∀ b, refs st k b →
      (d0 ≤ b ∧ b < s.sb.sb_num_blocks ∧ st.dbmap b = true)
      ∧ (refs s k b ∨ s.dbmap b = false))
    (hinj : in_table s k → ∀ j1 j2, j1 < (st.itable k).i_blocks → j2 < (st.itable k).i_blocks →
      file_blk st k j1 = file_blk st k j2 → j1 = j2)
    (hsep : in_table s k → 5 < (st.itable k).i_blocks → ∀ j, j < (st.itable k).i_blocks →
      file_blk st k j ≠ (st.itable k).i_indirect) :
    owns d0 st := by
  have htab : ∀ k2, in_table st k2 → in_table s k2 := by
    intro k2 h
    unfold in_table at *
    rw [hni] at h
    exact h
  have hold : ∀ k2 b, in_table s k2 → k2 ≠ k → refs st k2 b → refs s k2 b := by
    intro k2 b ht hne h
    obtain ⟨h1, h2, h3⟩ := hsame k2 ht hne
    exact refs_same s st k2 b h1 h2 h3 h
  have hmix : ∀ k2 b, in_table s k → in_table s k2 → k2 ≠ k → refs st k b → refs st k2 b →
      False := by
    intro k2 b htk ht2 hne hk h2
    have h2s := hold k2 b ht2 hne h2
    rcases (hself htk b hk).2 with h | h
    · exact hne (hown.o_disj k2 k b ht2 htk h2s h)
    · have := (hown.o_set k2 b ht2 h2s).2.2
      rw [h] at this
      exact Bool.noConfusion this
  refine ⟨?_, ?_, ?_, ?_⟩
  · intro k2 b ht h
    have ht2 := htab k2 ht
    rw [hnb]
    by_cases hk : k2 = k
    · subst hk
      exact (hself ht2 b h).1
    · have hs := hold k2 b ht2 hk h
      exact ⟨(hown.o_set k2 b ht2 hs).1, (hown.o_set k2 b ht2 hs).2.1, hbits k2 b ht2 hk hs⟩
  · intro k2 j1 j2 ht h1 h2 he
    have ht2 := htab k2 ht
    by_cases hk : k2 = k
    · subst hk
      exact hinj ht2 j1 j2 h1 h2 he
    · obtain ⟨e1, _, e3⟩ := hsame k2 ht2 hk
      rw [e1] at h1 h2
      rw [e3 j1 h1, e3 j2 h2] at he
      exact hown.o_inj k2 j1 j2 ht2 h1 h2 he
  · intro k2 j ht h5 hj
    have ht2 := htab k2 ht
    by_cases hk : k2 = k
    · subst hk
      exact hsep ht2 h5 j hj
    · obtain ⟨e1, e2, e3⟩ := hsame k2 ht2 hk
      rw [e1] at h5 hj
      rw [e3 j hj, e2]
      exact hown.o_sep k2 j ht2 h5 hj
  · intro k1 k2 b ht1 ht2 h1 h2
    have hs1 := htab k1 ht1
    have hs2 := htab k2 ht2
    by_cases hk1 : k1 = k
    · by_cases hk2 : k2 = k
      · rw [hk1, hk2]
      · subst hk1
        exact absurd (hmix k2 b hs1 hs2 hk2 h1 h2) id
    · by_cases hk2 : k2 = k
      · subst hk2
        exact absurd (hmix k1 b hs2 hs1 hk1 h2 h1) id
      · exact hown.o_disj k1 k2 b hs1 hs2 (hold k1 b hs1 hk1 h1) (hold k2 b hs2 hk2 h2)

/-- An inode keeps the mapping of its logical blocks when its pointers are
kept and no byte of its indirect pointer block changes. -/
theorem file_blk_keep (s st : fs_ctx) (k : Int)
    (hd : (st.itable k).i_direct = (s.itable k).i_direct)
    (hi : (st.itable k).i_indirect = (s.itable k).i_indirect)
    (himg : 5 < (s.itable k).i_blocks →
      ∀ x, x / VSFS_BLOCK_SIZE = (s.itable k).i_indirect → st.image x = s.image x)
    (hmax : (s.itable k).i_blocks ≤ 1029) :
    ∀ j, j < (s.itable k).i_blocks → file_blk st k j = file_blk s k j := by
  intro j hj
  apply file_blk_congr s st k j (by omega)
  · intro _
    rw [hd]
  · intro h5
    exact ⟨hi, fun x hx _ _ => himg (by omega) x hx⟩

/-- The indirect pointer block of an inode of the table is no data block of
an inode of the table. -/
theorem owns_ind_ne_data (d0 : Nat) (s : fs_ctx) (hown : owns d0 s) (k k2 : Int) (j : Nat)
    (htk : in_table s k) (ht2 : in_table s k2) (hj : j < (s.itable k).i_blocks)
    (h5 : 5 < (s.itable k2).i_blocks) : (s.itable k2).i_indirect ≠ file_blk s k j := by
  intro e
  by_cases hk : k2 = k
  · subst hk
    exact hown.o_sep k2 j ht2 h5 hj e.symm
  · exact hk (hown.o_disj k2 k _ ht2 htk (refs_ind s k2 h5) (by rw [e]; exact refs_data s k j hj))

theorem release_range_keeps (t : fs_ctx) (k : Int) (n0 c : Nat) (hn : n0 ≤ c) (hmax : c ≤ 1029)
    (hsep : 5 < c → ∀ j, n0 ≤ j → j < c → file_blk t k j ≠ (t.itable k).i_indirect)
    (hfree : t.sb.sb_free_blocks + (c - n0) < 4294967296) :
    ∀ b, t.dbmap b = true → (∀ j, n0 ≤ j → j < c → b ≠ file_blk t k j) →
      ((List.range' n0 (c - n0)).foldl (release_block k) t).dbmap b = true := by
  have h := @foldl_range_inv fs_ctx
    (fun i st => release_inv t k n0 c i st
      ∧ ∀ b, t.dbmap b = true → (∀ j, n0 ≤ j → j < c → b ≠ file_blk t k j) → st.dbmap b = true)
    (release_block k) (c - n0) n0 t ⟨release_base t k n0 c, fun b hb _ => hb⟩
    (by
      intro i st h1 h2 hp
      obtain ⟨hinv, hkeep⟩ := hp
      have hi2 : i < c := by omega
      refine ⟨release_step_inv t k n0 c i st hmax hsep hfree h1 hi2 hinv, ?_⟩
      intro b hb hne
      have hBi : file_blk st k i = file_blk t k i := hinv.r_pend i (Nat.le_refl i) hi2
      have hbi : b ≠ file_blk st k i := by
        rw [hBi]
        exact hne i h1 hi2
      by_cases h5 : i < 5
      · rw [release_block_direct k st i h5]
        dsimp only
        rw [upd_other _ _ _ _ hbi]
        exact hkeep b hb hne
      · have hs : file_blk st k i ≠ (st.itable k).i_indirect := by
          rw [hBi, hinv.r_ind]
          exact hsep (by omega) i h1 hi2
        rw [release_block_indirect k st i (by omega) (by omega) hs]
        dsimp only
        rw [upd_other _ _ _ _ hbi]
        exact hkeep b hb hne)
  have e : n0 + (c - n0) = c := by omega
  rw [e] at h
  exact h.2

theorem shrink_loop_keeps (k : Int) (s : fs_ctx) (size : Nat)
    (hle : div_round_up size VSFS_BLOCK_SIZE ≤ (s.itable k).i_blocks)
    (hmax : (s.itable k).i_blocks ≤ 1029)
    (hsep : 5 < (s.itable k).i_blocks →
      ∀ j, j < (s.itable k).i_blocks → file_blk s k j ≠ (s.itable k).i_indirect)
    (hfree : s.sb.sb_free_blocks
      + ((s.itable k).i_blocks - div_round_up size VSFS_BLOCK_SIZE) < 4294967296) :
    ∀ b, s.dbmap b = true →
      (∀ j, div_round_up size VSFS_BLOCK_SIZE ≤ j → j < (s.itable k).i_blocks →
        b ≠ file_blk s k j) →
      (shrink_loop k s size).dbmap b = true := by
  intro b hb hne
  by_cases h0 : div_round_up size VSFS_BLOCK_SIZE = 0
  · rw [shrink_loop_zero k s size h0]
    exact release_range_keeps s k 0 _ (Nat.zero_le _) hmax (fun h j _ hj => hsep h j hj)
      (by rw [h0] at hfree; exact hfree) b hb (fun j _ hj => hne j (by omega) hj)
  · have h1 : 1 ≤ div_round_up size VSFS_BLOCK_SIZE := by omega
    have hlast : (size - 1) % VSFS_BLOCK_SIZE < VSFS_BLOCK_SIZE := Nat.mod_lt _ (by decide)
    have hblk : ∀ j, j < (s.itable k).i_blocks →
        file_blk (shrink_tail s k (div_round_up size VSFS_BLOCK_SIZE) size) k j
          = file_blk s k j := by
      intro j hj
      apply file_blk_zero_tail _ _ _ _ _ (by omega) hlast
      intro h5
      exact hsep (by omega) _ (by omega)
    rw [shrink_loop_pos k s size h1 hle]
    apply release_range_keeps _ k _ _ hle hmax
    · intro h5 j hj1 hj2
      rw [hblk j hj2]
      exact hsep h5 j hj2
    · exact hfree
    · exact hb
    · intro j hj1 hj2
      rw [hblk j hj2]
      exact hne j hj1 hj2

/-- The bits that `shrinking_file` leaves set: every bit that was set, apart
from those of the released blocks and of a released indirect pointer
block. -/
theorem shrinking_file_keeps (now : Nat) (s : fs_ctx) (size : Nat) (k : Int)
    (hb : blocks_ok (s.itable k)) (hmax : (s.itable k).i_blocks ≤ 1029)
    (hlt : size < (s.itable k).i_size)
    (hsep : 5 < (s.itable k).i_blocks →
      ∀ j, j < (s.itable k).i_blocks → file_blk s k j ≠ (s.itable k).i_indirect)
    (hfree : s.sb.sb_free_blocks
      + ((s.itable k).i_blocks - div_round_up size VSFS_BLOCK_SIZE) + 1 < 4294967296) :
    ∀ b, s.dbmap b = true →
      (∀ j, div_round_up size VSFS_BLOCK_SIZE ≤ j → j < (s.itable k).i_blocks →
        b ≠ file_blk s k j) →
      (div_round_up size VSFS_BLOCK_SIZE ≤ 5 → 5 < (s.itable k).i_blocks →
        b ≠ (s.itable k).i_indirect) →
      (shrinking_file now s size k).2.dbmap b = true := by
  intro b hset hne hni
  have hle : div_round_up size VSFS_BLOCK_SIZE ≤ (s.itable k).i_blocks := by
    unfold blocks_ok at hb
    rw [hb]
    unfold div_round_up
    simp only [VSFS_BLOCK_SIZE]
    omega
  obtain ⟨t, -, -, t3, -, -, -, -, inv⟩ := shrink_loop_spec k s size hle hmax hsep (by omega)
  have hL := shrink_loop_keeps k s size hle hmax hsep (by omega) b hset hne
  have hind : ((shrink_loop k s size).itable k).i_indirect = (s.itable k).i_indirect := by
    rw [inv.r_ind, t3]
  unfold shrinking_file
  dsimp only
  generalize shrink_loop k s size = L at *
  unfold set_size_fields
  dsimp only
  by_cases hA : div_round_up size VSFS_BLOCK_SIZE ≤ 5 ∧ (s.itable k).i_blocks > 5
  · rw [shrink_indirect_yes L k _ _ hA]
    dsimp only
    rw [hind, upd_other _ _ _ _ (hni hA.1 hA.2)]
    exact hL
  · rw [shrink_indirect_no L k _ _ hA]
    exact hL

/-! ### The number of inodes is a constant of the volume -/

theorem release_block_ni (ino : Int) (s : fs_ctx) (i : Nat) :
    (release_block ino s i).sb.sb_num_inodes = s.sb.sb_num_inodes := by
  unfold release_block
  dsimp only
  split_ifs <;> rfl

theorem shrinking_file_ni (now : Nat) (s : fs_ctx) (size : Nat) (k : Int) :
    (shrinking_file now s size k).2.sb.sb_num_inodes = s.sb.sb_num_inodes := by
  have hL : (shrink_loop k s size).sb.sb_num_inodes = s.sb.sb_num_inodes := by
    unfold shrink_loop
    dsimp only
    split_ifs
    · exact foldl_keeps (fun st : fs_ctx => st.sb.sb_num_inodes = s.sb.sb_num_inodes) _ _ _ rfl
        (fun st i h => by dsimp only at h ⊢; rw [release_block_ni]; exact h)
    · apply foldl_keeps (fun st : fs_ctx => st.sb.sb_num_inodes = s.sb.sb_num_inodes) _ _ _ rfl
      intro st i h
      dsimp only at h ⊢
      unfold shrink_step
      dsimp only
      split_ifs
      · exact h
      · rw [release_block_ni]
        exact h
  unfold shrinking_file set_size_fields shrink_indirect
  dsimp only
  split_ifs <;> exact hL

theorem extend_step_ni (u : Nat) (ino : Int) (cur f_size : Nat) (st : fs_ctx × Bool) (i : Nat) :
    (extend_step u ino cur f_size st i).1.sb.sb_num_inodes = st.1.sb.sb_num_inodes := by
  unfold extend_step alloc_zeroed_block
  dsimp only
  split_ifs <;> rfl

theorem extending_file_ni (u now : Nat) (s : fs_ctx) (size : Nat) (k : Int) :
    (extending_file u now s size k).2.sb.sb_num_inodes = s.sb.sb_num_inodes := by
  have hF : (extend_first u s k).1.sb.sb_num_inodes = s.sb.sb_num_inodes := by
    unfold extend_first alloc_zeroed_block
    dsimp only
    split_ifs <;> rfl
  unfold extending_file set_size_fields
  dsimp only
  split_ifs
  · rfl
  · rfl
  · dsimp only
    unfold extend_loop
    exact foldl_keeps (fun st : fs_ctx × Bool => st.1.sb.sb_num_inodes = s.sb.sb_num_inodes)
      _ _ _ hF (fun st i h => by dsimp only at h ⊢; rw [extend_step_ni]; exact h)

theorem vsfs_truncate_ni (u now : Nat) (s : fs_ctx) (path : List Nat) (size : Nat) :
    (vsfs_truncate u now s path size).2.sb.sb_num_inodes = s.sb.sb_num_inodes := by
  unfold vsfs_truncate
  dsimp only
  split_ifs
  · rfl
  · rfl
  · rfl
  · exact shrinking_file_ni now s size _
  · exact extending_file_ni u now s size _

/-! ### Growing and shrinking a file -/

theorem clear_ge_data (d0 : Nat) (s : fs_ctx) (hmeta : ∀ b, b < d0 → s.dbmap b = true) (b : Nat)
    (h : s.dbmap b = false) : d0 ≤ b := by
  by_contra hlt
  have := hmeta b (by omega)
  rw [h] at this
  exact Bool.noConfusion this

theorem grow_owns (d0 : Nat) (s st : fs_ctx) (k : Int) (n size : Nat)
    (hown : owns d0 s) (hinv : engine_inv d0 s) (htk : in_table s k)
    (hni : st.sb.sb_num_inodes = s.sb.sb_num_inodes)
    (hp : grow_post s k (s.itable k).i_blocks n size st) : owns d0 st := by
  have hset : ∀ j, j < (s.itable k).i_blocks → s.dbmap (file_blk s k j) = true :=
    fun j hj => (hown.o_set k _ htk (refs_data s k j hj)).2.2
  have hiset : 5 < (s.itable k).i_blocks → s.dbmap (s.itable k).i_indirect = true :=
    fun h5 => (hown.o_set k _ htk (refs_ind s k h5)).2.2
  apply owns_frame d0 s st k hni hp.g_nb hown
  · intro k2 ht2 hne
    rw [hp.g_it k2 hne]
    refine ⟨rfl, rfl, ?_⟩
    apply file_blk_keep s st k2 (by rw [hp.g_it k2 hne]) (by rw [hp.g_it k2 hne]) _
      (hinv.e_blocks k2 ht2).2
    intro h5 x hx
    apply hp.g_img x
    · rw [hx]
      exact (hown.o_set k2 _ ht2 (refs_ind s k2 h5)).2.2
    · intro hc he
      rw [hx] at he
      exact absurd he (owns_ind_ne_data d0 s hown k k2 _ htk ht2 (by omega) h5)
    · intro hc5
      rw [hx]
      intro e
      exact hne (hown.o_disj k2 k _ ht2 htk (refs_ind s k2 h5) (by rw [e]; exact refs_ind s k hc5))
  · intro k2 b ht2 _ hr
    exact hp.g_mono b (hown.o_set k2 b ht2 hr).2.2
  · intro _ b hr
    rcases hr with ⟨j, hj, e⟩ | ⟨h5, e⟩
    · rw [hp.g_size.2] at hj
      by_cases hjc : j < (s.itable k).i_blocks
      · have e2 : b = file_blk s k j := by rw [e, hp.g_old j hjc]
        have hr := refs_data s k j hjc
        rw [← e2] at hr
        exact ⟨⟨(hown.o_set k b htk hr).1, (hown.o_set k b htk hr).2.1,
          hp.g_mono b (hown.o_set k b htk hr).2.2⟩, Or.inl hr⟩
      · obtain ⟨n1, n2, n3, _⟩ := hp.g_new j (by omega) hj
        rw [← e] at n1 n2 n3
        exact ⟨⟨clear_ge_data d0 s hinv.e_meta b n1, n3, n2⟩, Or.inr n1⟩
    · rw [hp.g_size.2] at h5
      by_cases hc5 : 5 < (s.itable k).i_blocks
      · have e2 : b = (s.itable k).i_indirect := by rw [e, hp.g_ind0 (Or.inl hc5)]
        have hr := refs_ind s k hc5
        rw [← e2] at hr
        exact ⟨⟨(hown.o_set k b htk hr).1, (hown.o_set k b htk hr).2.1,
          hp.g_mono b (hown.o_set k b htk hr).2.2⟩, Or.inl hr⟩
      · obtain ⟨n1, n2, n3, _⟩ := hp.g_ind1 (by omega) h5
        rw [← e] at n1 n2 n3
        exact ⟨⟨clear_ge_data d0 s hinv.e_meta b n1, n3, n2⟩, Or.inr n1⟩
  · intro _ j1 j2 h1 h2 he
    rw [hp.g_size.2] at h1 h2
    by_cases c1 : j1 < (s.itable k).i_blocks
    · by_cases c2 : j2 < (s.itable k).i_blocks
      · rw [hp.g_old j1 c1, hp.g_old j2 c2] at he
        exact hown.o_inj k j1 j2 htk c1 c2 he
      · have a := hset j1 c1
        rw [← hp.g_old j1 c1, he, (hp.g_new j2 (by omega) h2).1] at a
        exact Bool.noConfusion a
    · by_cases c2 : j2 < (s.itable k).i_blocks
      · have a := hset j2 c2
        rw [← hp.g_old j2 c2, ← he, (hp.g_new j1 (by omega) h1).1] at a
        exact Bool.noConfusion a
      · rcases Nat.lt_trichotomy j1 j2 with hlt | heq | hgt
        · exact absurd he (hp.g_inj j1 j2 (by omega) hlt h2)
        · exact heq
        · exact absurd he.symm (hp.g_inj j2 j1 (by omega) hgt h1)
  · intro _ h5 j hj
    rw [hp.g_size.2] at h5 hj
    by_cases hc5 : 5 < (s.itable k).i_blocks
    · rw [hp.g_ind0 (Or.inl hc5)]
      by_cases hjc : j < (s.itable k).i_blocks
      · rw [hp.g_old j hjc]
        exact hown.o_sep k j htk hc5 hjc
      · intro e
        have a := hiset hc5
        rw [← e, (hp.g_new j (by omega) hj).1] at a
        exact Bool.noConfusion a
    · exact (hp.g_ind1 (by omega) h5).2.2.2 j hj

theorem shrink_owns (d0 : Nat) (s st : fs_ctx) (k : Int) (nb size : Nat)
    (hown : owns d0 s) (hinv : engine_inv d0 s) (htk : in_table s k)
    (hle : nb ≤ (s.itable k).i_blocks)
    (hni : st.sb.sb_num_inodes = s.sb.sb_num_inodes)
    (hp : shrink_post s k (s.itable k).i_blocks nb size st)
    (hkeep : ∀ b, s.dbmap b = true →
      (∀ j, nb ≤ j → j < (s.itable k).i_blocks → b ≠ file_blk s k j) →
      (nb ≤ 5 → 5 < (s.itable k).i_blocks → b ≠ (s.itable k).i_indirect) → st.dbmap b = true) :
    owns d0 st := by
  apply owns_frame d0 s st k hni hp.q_nb hown
  · intro k2 ht2 hne
    rw [hp.q_it k2 hne]
    refine ⟨rfl, rfl, ?_⟩
    apply file_blk_keep s st k2 (by rw [hp.q_it k2 hne]) (by rw [hp.q_it k2 hne]) _
      (hinv.e_blocks k2 ht2).2
    intro h5 x hx
    apply hp.q_img x
    · intro i _ hi
      rw [hx]
      exact owns_ind_ne_data d0 s hown k k2 i htk ht2 hi h5
    · intro hc5
      rw [hx]
      intro e
      exact hne (hown.o_disj k2 k _ ht2 htk (refs_ind s k2 h5) (by rw [e]; exact refs_ind s k hc5))
    · intro hpos he
      rw [hx] at he
      exact absurd he (owns_ind_ne_data d0 s hown k k2 _ htk ht2 (by omega) h5)
  · intro k2 b ht2 hne hr
    apply hkeep b (hown.o_set k2 b ht2 hr).2.2
    · intro j _ hj e
      exact hne (hown.o_disj k2 k b ht2 htk hr (by rw [e]; exact refs_data s k j hj))
    · intro _ hc5 e
      exact hne (hown.o_disj k2 k b ht2 htk hr (by rw [e]; exact refs_ind s k hc5))
  · intro _ b hr
    have hrs : refs s k b := by
      rcases hr with ⟨j, hj, e⟩ | ⟨h5, e⟩
      · rw [hp.q_size.2] at hj
        rw [hp.q_kept j hj] at e
        rw [e]
        exact refs_data s k j (by omega)
      · rw [hp.q_size.2] at h5
        rw [hp.q_ind_kept h5] at e
        rw [e]
        exact refs_ind s k (by omega)
    refine ⟨⟨(hown.o_set k b htk hrs).1, (hown.o_set k b htk hrs).2.1, ?_⟩, Or.inl hrs⟩
    rcases hr with ⟨j, hj, e⟩ | ⟨h5, e⟩
    · rw [hp.q_size.2] at hj
      rw [hp.q_kept j hj] at e
      apply hkeep b (hown.o_set k b htk hrs).2.2
      · intro i hi1 hi2 e2
        rw [e] at e2
        have := hown.o_inj k j i htk (by omega) hi2 e2
        omega
      · intro _ hc5
        rw [e]
        exact hown.o_sep k j htk hc5 (by omega)
    · rw [hp.q_size.2] at h5
      rw [hp.q_ind_kept h5] at e
      apply hkeep b (hown.o_set k b htk hrs).2.2
      · intro i _ hi2 e2
        rw [e] at e2
        exact hown.o_sep k i htk (by omega) hi2 e2.symm
      · intro hnb5 _
        omega
  · intro _ j1 j2 h1 h2 he
    rw [hp.q_size.2] at h1 h2
    rw [hp.q_kept j1 h1, hp.q_kept j2 h2] at he
    exact hown.o_inj k j1 j2 htk (by omega) (by omega) he
  · intro _ h5 j hj
    rw [hp.q_size.2] at h5 hj
    rw [hp.q_kept j hj, hp.q_ind_kept h5]
    exact hown.o_sep k j htk (by omega) (by omega)

theorem file_wf_of_owns (d0 : Nat) (s : fs_ctx) (k : Int) (hown : owns d0 s)
    (hinv : engine_inv d0 s) (htk : in_table s k) : file_wf s k :=
  ⟨by have := hinv.e_nb; omega, hinv.e_free, (hinv.e_blocks k htk).1,
   fun j hj => (hown.o_set k _ htk (refs_data s k j hj)).2.2,
   fun h5 => (hown.o_set k _ htk (refs_ind s k h5)).2.2,
   fun h5 j hj => hown.o_sep k j htk h5 hj⟩

/-- The state after `vsfs_truncate`: the ownership invariant holds, the block
counts of the table stay within 1029, and when the call returns 0 on a path
that resolves the inode has the requested size. -/
theorem vsfs_truncate_owns (d0 u now : Nat) (s : fs_ctx) (path : List Nat) (size : Nat)
    (hown : owns d0 s) (hinv : engine_inv d0 s)
    (hres : (path_lookup s path).1 < (s.sb.sb_num_inodes : Int)) :
    owns d0 (vsfs_truncate u now s path size).2
    ∧ (∀ k2, in_table s k2 → ((vsfs_truncate u now s path size).2.itable k2).i_blocks ≤ 1029)
    ∧ (0 ≤ (path_lookup s path).1 → 0 ≤ (vsfs_truncate u now s path size).1 →
        ((vsfs_truncate u now s path size).2.itable (path_lookup s path).1).i_size = size) := by
  have hmax0 : ∀ k2, in_table s k2 → (s.itable k2).i_blocks ≤ 1029 :=
    fun k2 h => (hinv.e_blocks k2 h).2
  by_cases hneg : (path_lookup s path).1 < 0
  · have e : vsfs_truncate u now s path size = (-ENOENT, s) := by
      unfold vsfs_truncate
      dsimp only
      rw [if_pos hneg]
    rw [e]
    exact ⟨hown, hmax0, fun h => by omega⟩
  have hk0 : 0 ≤ (path_lookup s path).1 := by omega
  generalize hk : (path_lookup s path).1 = k at *
  have htk : in_table s k := ⟨hk0, hres⟩
  obtain ⟨hbok, hkmax⟩ := hinv.e_blocks k htk
  by_cases heq : (s.itable k).i_size = size
  · rw [vsfs_truncate_same u now s path size k hk hk0 heq]
    exact ⟨hown, hmax0, fun _ _ => heq⟩
  by_cases hbig : size > MAX_FILE_SIZE
  · have e : vsfs_truncate u now s path size = (-EFBIG, s) := by
      unfold vsfs_truncate
      dsimp only
      rw [hk, if_neg hneg, if_neg heq, if_pos hbig]
    rw [e]
    exact ⟨hown, hmax0, fun _ h => absurd h (by dsimp only; decide)⟩
  have hnmax : div_round_up size VSFS_BLOCK_SIZE ≤ 1029 := div_round_up_le size (by omega)
  have hfz := zero_bits_le s.dbmap s.sb.sb_num_blocks
  have hf := hinv.e_free
  have hnb := hinv.e_nb
  by_cases hlt : size < (s.itable k).i_size
  · -- shrink
    rw [vsfs_truncate_shrinks u now s path size k hk hk0 hbok hkmax hlt]
    have hsep : 5 < (s.itable k).i_blocks →
        ∀ j, j < (s.itable k).i_blocks → file_blk s k j ≠ (s.itable k).i_indirect :=
      fun h5 j hj => hown.o_sep k j htk h5 hj
    have hle : div_round_up size VSFS_BLOCK_SIZE ≤ (s.itable k).i_blocks := by
      have := hbok
      unfold blocks_ok at this
      rw [this]
      unfold div_round_up
      simp only [VSFS_BLOCK_SIZE]
      omega
    have hp := shrinking_file_spec now s size k hbok hkmax hlt hsep (by omega)
    refine ⟨shrink_owns d0 s _ k _ size hown hinv htk hle (shrinking_file_ni now s size k) hp
      (shrinking_file_keeps now s size k hbok hkmax hlt hsep (by omega)), ?_, ?_⟩
    · intro k2 ht2
      by_cases hkk : k2 = k
      · rw [hkk, hp.q_size.2]
        exact hnmax
      · rw [hp.q_it k2 hkk]
        exact hmax0 k2 ht2
    · intro _ _
      exact hp.q_size.1
  · -- grow
    have hgrow : (s.itable k).i_size < size := by omega
    rw [vsfs_truncate_extends u now s path size k hk hk0 hgrow hnmax]
    have hle : (s.itable k).i_blocks ≤ div_round_up size VSFS_BLOCK_SIZE := by
      have := hbok
      unfold blocks_ok at this
      rw [this]
      unfold div_round_up
      simp only [VSFS_BLOCK_SIZE]
      omega
    by_cases hfree : (div_round_up size VSFS_BLOCK_SIZE - (s.itable k).i_blocks)
          + (if (s.itable k).i_blocks ≤ 5 ∧ 5 < div_round_up size VSFS_BLOCK_SIZE then 1 else 0)
        ≤ s.sb.sb_free_blocks
    · have hp := extending_file_spec u now s size k (file_wf_of_owns d0 s k hown hinv htk) hgrow
        hnmax hfree
      refine ⟨grow_owns d0 s _ k _ size hown hinv htk (extending_file_ni u now s size k) hp,
        ?_, ?_⟩
      · intro k2 ht2
        by_cases hkk : k2 = k
        · rw [hkk, hp.g_size.2]
          exact hnmax
        · rw [hp.g_it k2 hkk]
          exact hmax0 k2 ht2
      · intro _ _
        exact hp.g_size.1
    · rw [extending_file_enospc u now s size k hle hnmax (by omega)]
      exact ⟨hown, hmax0, fun _ h => absurd h (by dsimp only; decide)⟩

theorem root_in_table (d0 : Nat) (s : fs_ctx) (hinv : engine_inv d0 s) : in_table s 0 := by
  have := hinv.e_ni
  unfold in_table
  omega

theorem fill_dentry_other (img : Nat → Nat) (d inode_idx : Nat) (path : List Nat) (x : Nat)
    (h : x < d ∨ d + DENTRY_SIZE ≤ x) : fill_dentry img d inode_idx path x = img x := by
  unfold fill_dentry strncpy
  simp only [DENTRY_SIZE, VSFS_NAME_MAX] at *
  have h1 : ¬ (d + 4 ≤ x ∧ x < d + 4 + 252) := by omega
  rw [if_neg h1, write32_other _ _ _ _ (by omega)]

theorem mark_rest_free_frame (img : Nat → Nat) (blk x : Nat) (hx : x / VSFS_BLOCK_SIZE ≠ blk) :
    mark_rest_free img blk x = img x := by
  unfold mark_rest_free
  have := @foldl_range_inv (Nat → Nat) (fun _ im => im x = img x)
    (fun im i => write32 im (dentry_addr blk i) VSFS_INO_MAX) (dentry_per_blk - 1) 1 img rfl
    (by
      intro i im _ hi hp
      simp only []
      rw [write32_other _ _ _ _ (by
        by_contra hcon
        apply hx
        unfold dentry_addr blk_addr at hcon
        simp only [DENTRY_SIZE, VSFS_NAME_MAX, VSFS_BLOCK_SIZE, dentry_per_blk] at *
        omega)]
      exact hp)
  exact this

/-- The statements that fill a new directory block change no byte outside
that block. -/
theorem new_block_frame (img : Nat → Nat) (p inode_idx : Nat) (path : List Nat) (x : Nat)
    (hx : x / VSFS_BLOCK_SIZE ≠ p) :
    mark_rest_free (fill_dentry img (dentry_addr p 0) inode_idx path) p x = img x := by
  rw [mark_rest_free_frame _ _ _ hx]
  apply fill_dentry_other
  by_contra hcon
  apply hx
  unfold dentry_addr blk_addr at hcon
  simp only [DENTRY_SIZE, VSFS_NAME_MAX, VSFS_BLOCK_SIZE] at *
  omega

theorem bitmap_alloc_some (bm : Nat → Bool) (n p : Nat) (h : bitmap_alloc bm n = some p) :
    p < n ∧ bm p = false := by
  unfold bitmap_alloc at h
  have hs := find_range_some _ _ _ h
  exact ⟨hs.1, by simpa using hs.2.1⟩

/-- The loop that marks the slots 1 to 15 of a new directory block free. -/
theorem mark_rest_free_slots (img : Nat → Nat) (blk j : Nat) (h1 : 1 ≤ j)
    (hj : j < dentry_per_blk) :
    read32 (mark_rest_free img blk) (dentry_addr blk j) = VSFS_INO_MAX := by
  unfold mark_rest_free
  have := @foldl_range_inv (Nat → Nat)
    (fun i im => ∀ j, 1 ≤ j → j < i → read32 im (dentry_addr blk j) = VSFS_INO_MAX)
    (fun im i => write32 im (dentry_addr blk i) VSFS_INO_MAX) (dentry_per_blk - 1) 1 img
    (fun j a b => by omega)
    (by
      intro i im _ _ hp j2 hj1 hj2
      dsimp only
      by_cases e : j2 = i
      · rw [e, read32_write32_same]
        decide
      · rw [read32_congr im _ _ (fun x hx1 hx2 => write32_other _ _ _ _ (by
          unfold dentry_addr at *
          simp only [DENTRY_SIZE, VSFS_NAME_MAX] at *
          omega))]
        exact hp j2 hj1 (by omega))
  exact this j h1 (by simp only [dentry_per_blk, VSFS_BLOCK_SIZE, DENTRY_SIZE, VSFS_NAME_MAX] at *; omega)

theorem upd_true_keeps (bm : Nat → Bool) (p b : Nat) (h : bm b = true) :
    upd bm p true b = true := by
  by_cases e : b = p
  · rw [e, upd_same]
  · rw [upd_other _ _ _ _ e]
    exact h

theorem slot_in_block (blk j x : Nat) (hj : j < dentry_per_blk)
    (h1 : dentry_addr blk j ≤ x) (h2 : x < dentry_addr blk j + DENTRY_SIZE) :
    x / VSFS_BLOCK_SIZE = blk := by
  unfold dentry_addr blk_addr at *
  simp only [DENTRY_SIZE, VSFS_NAME_MAX, VSFS_BLOCK_SIZE, dentry_per_blk] at *
  omega

/-- The allocation of the first of two blocks: the index found and the bitmap
with its pending mark. -/
theorem alloc_first (u : Nat) (bm : Nat → Bool) (n free : Nat) (hsb : free = zero_bits bm n)
    (hpos : 0 < free) :
    alloc_idx u bm n < n ∧ bm (alloc_idx u bm n) = false
    ∧ alloc_pending bm n = upd bm (alloc_idx u bm n) true := by
  obtain ⟨a1, a2, _, _⟩ := alloc_fresh u bm n free hsb hpos
  refine ⟨a1, a2, ?_⟩
  unfold alloc_pending alloc_idx
  cases hb : bitmap_alloc bm n with
  | none =>
    obtain ⟨b, hb1, hb2⟩ := zero_bits_pos bm n (by omega)
    unfold bitmap_alloc at hb
    have := find_range_none _ _ hb b hb1
    simp [hb2] at this
  | some q => rfl

/-- The slots of the new directory block after the statements that fill it. -/
theorem new_block_slots (img : Nat → Nat) (p inode_idx : Nat) (path : List Nat) :
    read32 (mark_rest_free (fill_dentry img (dentry_addr p 0) inode_idx path) p)
        (dentry_addr p 0) = inode_idx % 4294967296
    ∧ ∀ j, 1 ≤ j → j < dentry_per_blk →
        read32 (mark_rest_free (fill_dentry img (dentry_addr p 0) inode_idx path) p)
          (dentry_addr p j) = VSFS_INO_MAX :=
  ⟨(new_block_entry_spec img p inode_idx path).1,
   fun j h1 hj => mark_rest_free_slots _ p j h1 hj⟩

theorem clear_not_set (bm : Nat → Bool) (p x : Nat) (hclr : bm p = false)
    (hset : bm (x / VSFS_BLOCK_SIZE) = true) : x / VSFS_BLOCK_SIZE ≠ p :=
  bool_ne_of bm _ _ hset hclr

/-- The three branches of `create_dentry_for_newfile` that allocate: when no
allocated directory block has a free slot, the call leaves the context as it
was or gives the root one more data block. -/
theorem create_dentry_grows (d0 u : Nat) (s : fs_ctx) (inode_idx : Nat) (path : List Nat)
    (hown : owns d0 s) (ht0 : in_table s 0)
    (hnb32 : s.sb.sb_num_blocks < 4294967296)
    (hfree : s.sb.sb_free_blocks = zero_bits s.dbmap s.sb.sb_num_blocks)
    (hpos : 0 < s.sb.sb_free_blocks)
    (hf : (List.range (s.itable 0).i_blocks).findSome?
      (fun i => free_slot_in_block s.image (blk_of s.image (s.itable 0) i)) = none) :
    (create_dentry_for_newfile u s inode_idx path).2 = s
    ∨ ∃ p, root_grown s (create_dentry_for_newfile u s inode_idx path).2 p
        (inode_idx % 4294967296) := by
  obtain ⟨a1, a2, a3⟩ := alloc_first u s.dbmap s.sb.sb_num_blocks s.sb.sb_free_blocks hfree hpos
  unfold create_dentry_for_newfile
  simp only [root_cast, hf]
  split_ifs with h1 h2 h3
  · -- fewer than five blocks: one more direct block
    have h1n : (s.itable 0).i_blocks < 5 := h1
    right
    refine ⟨alloc_idx u s.dbmap s.sb.sb_num_blocks, ?_⟩
    dsimp only
    refine ⟨rfl, rfl, a1, a2, ?_, ?_, ?_, ?_, ?_, ?_, ?_, ?_, ?_, ?_, ?_⟩
    · intro k2 hk2
      exact upd_other _ _ _ _ hk2
    · dsimp only
      rw [upd_same]
      dsimp only
      unfold inc32
      omega
    · intro j hj
      unfold file_blk
      dsimp only
      rw [upd_same, blk_of_direct _ _ _ (by omega), blk_of_direct _ _ _ (by omega)]
      dsimp only
      rw [upd_other _ _ _ _ (by omega)]
    · unfold file_blk
      dsimp only
      rw [upd_same, blk_of_direct _ _ _ h1n]
      dsimp only
      rw [upd_same]
    · intro x hx _
      dsimp only
      have hxp := clear_not_set s.dbmap _ x a2 hx
      rw [new_block_frame _ _ _ _ _ hxp, memset_block_other _ _ _ hxp]
    · intro b hb
      exact upd_true_keeps _ _ _ hb
    · dsimp only
      unfold bitmap_set
      rw [upd_same]
    · exact (new_block_slots _ _ _ _).1
    · exact (new_block_slots _ _ _ _).2
    · intro _ h5
      omega
    · intro h5
      omega
  · -- exactly five blocks: the indirect pointer block and a data block
    have h2n : (s.itable 0).i_blocks = 5 := h2
    cases ha : bitmap_alloc (alloc_pending s.dbmap s.sb.sb_num_blocks) s.sb.sb_num_blocks with
    | none => exact Or.inl rfl
    | some p2 =>
      obtain ⟨b1, b2⟩ := bitmap_alloc_some _ _ _ ha
      rw [a3] at b2
      have hne : alloc_idx u s.dbmap s.sb.sb_num_blocks ≠ p2 := by
        intro e
        rw [← e, upd_same] at b2
        exact Bool.noConfusion b2
      have hclr2 : s.dbmap p2 = false := by
        rw [upd_other _ _ _ _ (Ne.symm hne)] at b2
        exact b2
      right
      refine ⟨p2, ?_⟩
      dsimp only
      refine ⟨rfl, rfl, b1, hclr2, ?_, ?_, ?_, ?_, ?_, ?_, ?_, ?_, ?_, ?_, ?_⟩
      · intro k2 hk2
        exact upd_other _ _ _ _ hk2
      · dsimp only
        rw [upd_same]
        dsimp only
        rw [h2n]
        rfl
      · intro j hj
        unfold file_blk
        dsimp only
        rw [upd_same, blk_of_direct _ _ _ (by omega), blk_of_direct _ _ _ (by omega)]
      · unfold file_blk
        dsimp only
        rw [upd_same, h2n, blk_of_indirect _ _ _ (Nat.le_refl 5)]
        dsimp only
        rw [read32_congr _ _ _ (fun x hx1 hx2 => new_block_frame _ _ _ _ x (by
          have : x / VSFS_BLOCK_SIZE = alloc_idx u s.dbmap s.sb.sb_num_blocks := by
            unfold blk_addr at hx1 hx2
            simp only [VSFS_BLOCK_SIZE] at *
            omega
          rw [this]
          exact hne))]
        show read32 (write32 _ (blk_addr (alloc_idx u s.dbmap s.sb.sb_num_blocks)) p2)
          (blk_addr (alloc_idx u s.dbmap s.sb.sb_num_blocks) + 4 * 0) = p2
        rw [Nat.mul_zero, Nat.add_zero, read32_write32_same]
        exact Nat.mod_eq_of_lt (by omega)
      · intro x hx _
        dsimp only
        have hx1 := clear_not_set s.dbmap _ x a2 hx
        have hx2 := clear_not_set s.dbmap _ x hclr2 hx
        rw [new_block_frame _ _ _ _ _ hx2,
          write32_other _ _ _ _ (by
            by_contra hcon
            apply hx1
            unfold blk_addr at hcon
            simp only [VSFS_BLOCK_SIZE] at *
            omega),
          memset_block_other _ _ _ hx2, memset_block_other _ _ _ hx1]
      · intro b hb
        exact upd_true_keeps _ _ _ (upd_true_keeps _ _ _ hb)
      · dsimp only
        unfold bitmap_set
        rw [upd_same]
      · exact (new_block_slots _ _ _ _).1
      · exact (new_block_slots _ _ _ _).2
      · intro h5 _
        exact absurd h2n h5
      · intro _
        dsimp only
        rw [upd_same]
        dsimp only
        refine ⟨a1, a2, hne, ?_⟩
        unfold bitmap_set
        exact upd_true_keeps _ _ _ (upd_same _ _ _)
  · -- more than five blocks: one more entry of the indirect pointer block
    have h3n : (s.itable 0).i_blocks < 1029 := h3
    have h5n : 5 < (s.itable 0).i_blocks := by
      have : ¬ (s.itable 0).i_blocks < 5 := h1
      have : ¬ (s.itable 0).i_blocks = 5 := h2
      omega
    have hiset : s.dbmap (s.itable 0).i_indirect = true :=
      (hown.o_set 0 _ ht0 (refs_ind s 0 h5n)).2.2
    have hpi : (s.itable 0).i_indirect ≠ alloc_idx u s.dbmap s.sb.sb_num_blocks :=
      bool_ne_of s.dbmap _ _ hiset a2
    right
    refine ⟨alloc_idx u s.dbmap s.sb.sb_num_blocks, ?_⟩
    dsimp only
    refine ⟨rfl, rfl, a1, a2, ?_, ?_, ?_, ?_, ?_, ?_, ?_, ?_, ?_, ?_, ?_⟩
    · intro k2 hk2
      exact upd_other _ _ _ _ hk2
    · dsimp only
      rw [upd_same]
      dsimp only
      unfold inc32
      omega
    · intro j hj
      apply file_blk_congr s _ 0 j (by omega)
      · intro _
        dsimp only
        rw [upd_same]
      · intro hj5
        dsimp only
        rw [upd_same]
        refine ⟨rfl, ?_⟩
        intro x hx hx1 hx2
        rw [new_block_frame _ _ _ _ _ (by rw [hx]; exact hpi)]
        apply write32_other
        have := Nat.div_add_mod x VSFS_BLOCK_SIZE
        unfold blk_addr
        simp only [VSFS_BLOCK_SIZE, VSFS_NUM_DIRECT] at *
        omega
    · unfold file_blk
      dsimp only
      rw [upd_same, blk_of_indirect _ _ _ (by omega)]
      dsimp only
      rw [read32_congr _ _ _ (fun x hx1 hx2 => new_block_frame _ _ _ _ x (by
        have : x / VSFS_BLOCK_SIZE = (s.itable 0).i_indirect := by
          unfold blk_addr at hx1 hx2
          simp only [VSFS_BLOCK_SIZE] at *
          omega
        rw [this]
        exact hpi))]
      show read32 (write32 _ _ (alloc_idx u s.dbmap s.sb.sb_num_blocks)) _ = _
      simp only [VSFS_NUM_DIRECT]
      rw [read32_write32_same]
      exact Nat.mod_eq_of_lt (by omega)
    · intro x hx hxi
      dsimp only
      rw [new_block_frame _ _ _ _ _ (clear_not_set s.dbmap _ x a2 hx)]
      exact write32_slot_other_block _ _ _ _ _ (by simp only [VSFS_NUM_DIRECT]; omega) (hxi h5n)
    · intro b hb
      exact upd_true_keeps _ _ _ hb
    · dsimp only
      unfold bitmap_set
      rw [upd_same]
    · exact (new_block_slots _ _ _ _).1
    · exact (new_block_slots _ _ _ _).2
    · intro _ _
      dsimp only
      rw [upd_same]
    · intro h5
      omega
  · exact Or.inl rfl

/-- The branch of `create_dentry_for_newfile` that reuses a free slot: the
slot is the first free slot in logical block order and then slot order. -/
theorem create_dentry_reuses (u : Nat) (s : fs_ctx) (inode_idx : Nat) (path : List Nat) (d : Nat)
    (hf : (List.range (s.itable 0).i_blocks).findSome?
      (fun i => free_slot_in_block s.image (blk_of s.image (s.itable 0) i)) = some d) :
    (create_dentry_for_newfile u s inode_idx path).2
        = { s with image := fill_dentry s.image d inode_idx path }
    ∧ ∃ i j, i < (s.itable 0).i_blocks ∧ j < dentry_per_blk
        ∧ d = dentry_addr (file_blk s 0 i) j
        ∧ ∀ i2 j2, i2 < (s.itable 0).i_blocks → j2 < dentry_per_blk → slot_before i2 j2 i j →
            read32 s.image (dentry_addr (file_blk s 0 i2) j2) ≠ VSFS_INO_MAX := by
  refine ⟨by rw [create_dentry_found u s inode_idx path d hf], ?_⟩
  have hspec := findSome_range_spec
    (fun i => free_slot_in_block s.image (blk_of s.image (s.itable 0) i)) (s.itable 0).i_blocks
  rw [hf] at hspec
  obtain ⟨i, hi, hfi, hbefore⟩ := hspec
  unfold free_slot_in_block at hfi
  simp only [Option.map_eq_some'] at hfi
  obtain ⟨j, hj, hdj⟩ := hfi
  have hs := find_range_some _ _ _ hj
  refine ⟨i, j, hi, hs.1, hdj.symm, ?_⟩
  intro i2 j2 hi2 hj2 hb
  rcases hb with hlt | ⟨heq, hlt⟩
  · have := hbefore i2 hlt
    unfold free_slot_in_block at this
    simp only [Option.map_eq_none'] at this
    have h2 := find_range_none _ _ this j2 hj2
    simpa using h2
  · subst heq
    have h2 := hs.2.2 j2 hlt
    simpa using h2

theorem vsfs_create_eq (u now : Nat) (s : fs_ctx) (path : List Nat) (mode : Nat) :
    vsfs_create u now s path mode
      = if s.sb.sb_free_inodes = 0 then (-ENOSPC, s)
        else if s.sb.sb_free_blocks = 0 then (-ENOSPC, s)
        else if (create_dentry_for_newfile u
            (create_init now s (alloc_idx u s.ibmap s.sb.sb_num_blocks) mode)
            (alloc_idx u s.ibmap s.sb.sb_num_blocks) path).1 ≠ 0
          then create_dentry_for_newfile u
            (create_init now s (alloc_idx u s.ibmap s.sb.sb_num_blocks) mode)
            (alloc_idx u s.ibmap s.sb.sb_num_blocks) path
          else (0, { (create_dentry_for_newfile u
              (create_init now s (alloc_idx u s.ibmap s.sb.sb_num_blocks) mode)
              (alloc_idx u s.ibmap s.sb.sb_num_blocks) path).2 with
            itable := upd (create_dentry_for_newfile u
                (create_init now s (alloc_idx u s.ibmap s.sb.sb_num_blocks) mode)
                (alloc_idx u s.ibmap s.sb.sb_num_blocks) path).2.itable VSFS_ROOT_INO
              { (create_dentry_for_newfile u
                  (create_init now s (alloc_idx u s.ibmap s.sb.sb_num_blocks) mode)
                  (alloc_idx u s.ibmap s.sb.sb_num_blocks) path).2.itable VSFS_ROOT_INO with
                i_mtime := now } }) := rfl

theorem create_init_new (now : Nat) (s : fs_ctx) (idx mode : Nat) :
    ((create_init now s idx mode).itable (idx : Int)).i_blocks = 0 := by
  unfold create_init
  dsimp only
  rw [upd_same]

theorem create_init_other (now : Nat) (s : fs_ctx) (idx mode : Nat) (k2 : Int)
    (h : k2 ≠ (idx : Int)) : (create_init now s idx mode).itable k2 = s.itable k2 := by
  unfold create_init
  exact upd_other _ _ _ _ h

theorem create_init_owns (d0 now : Nat) (s : fs_ctx) (idx mode : Nat) (hown : owns d0 s) :
    owns d0 (create_init now s idx mode) := by
  have e_new := create_init_new now s idx mode
  apply owns_frame d0 s (create_init now s idx mode) (idx : Int) rfl rfl hown
  · intro k2 _ hne
    rw [create_init_other now s idx mode k2 hne]
    refine ⟨rfl, rfl, ?_⟩
    intro j _
    unfold file_blk
    rw [create_init_other now s idx mode k2 hne]
    rfl
  · intro k2 b ht2 _ hr
    exact (hown.o_set k2 b ht2 hr).2.2
  · intro _ b hr
    rcases hr with ⟨j, hj, _⟩ | ⟨h5, _⟩
    · rw [e_new] at hj
      omega
    · rw [e_new] at h5
      omega
  · intro _ j1 _ h1 _ _
    rw [e_new] at h1
    omega
  · intro _ h5 _ _
    rw [e_new] at h5
    omega

theorem create_init_max (d0 now : Nat) (s : fs_ctx) (idx mode : Nat) (hinv : engine_inv d0 s) :
    ∀ k2, in_table (create_init now s idx mode) k2 →
      ((create_init now s idx mode).itable k2).i_blocks ≤ 1029 := by
  intro k2 ht2
  by_cases hk : k2 = (idx : Int)
  · rw [hk, create_init_new]
    omega
  · rw [create_init_other now s idx mode k2 hk]
    exact (hinv.e_blocks k2 ht2).2

theorem in_table_nat (s : fs_ctx) (k : Int) (h : in_table s k) :
    k = ((k.toNat : Nat) : Int) ∧ k.toNat < s.sb.sb_num_inodes := by
  unfold in_table at h
  omega

/-- The ownership invariant from its statement over the slots `0, 1, …` of the
inode table. -/
theorem owns_of_bounded (d0 : Nat) (s : fs_ctx)
    (h1 : ∀ k : Nat, k < s.sb.sb_num_inodes → ∀ j, j < (s.itable (k : Int)).i_blocks →
      d0 ≤ file_blk s (k : Int) j ∧ file_blk s (k : Int) j < s.sb.sb_num_blocks
      ∧ s.dbmap (file_blk s (k : Int) j) = true)
    (h2 : ∀ k : Nat, k < s.sb.sb_num_inodes → 5 < (s.itable (k : Int)).i_blocks →
      d0 ≤ (s.itable (k : Int)).i_indirect ∧ (s.itable (k : Int)).i_indirect < s.sb.sb_num_blocks
      ∧ s.dbmap (s.itable (k : Int)).i_indirect = true)
    (h3 : ∀ k1 : Nat, k1 < s.sb.sb_num_inodes → ∀ j1, j1 < (s.itable (k1 : Int)).i_blocks →
      sole_ref s k1 j1)
    (h4 : ∀ k1 : Nat, k1 < s.sb.sb_num_inodes → 5 < (s.itable (k1 : Int)).i_blocks →
      ∀ k2 : Nat, k2 < s.sb.sb_num_inodes → ∀ j2, j2 < (s.itable (k2 : Int)).i_blocks →
      file_blk s (k2 : Int) j2 ≠ (s.itable (k1 : Int)).i_indirect)
    (h5 : ∀ k1 : Nat, k1 < s.sb.sb_num_inodes → 5 < (s.itable (k1 : Int)).i_blocks →
      ∀ k2 : Nat, k2 < s.sb.sb_num_inodes → 5 < (s.itable (k2 : Int)).i_blocks →
      (s.itable (k1 : Int)).i_indirect = (s.itable (k2 : Int)).i_indirect → k1 = k2) :
    owns d0 s := by
  refine ⟨?_, ?_, ?_, ?_⟩
  · intro k b ht hr
    obtain ⟨e, hk⟩ := in_table_nat s k ht
    rw [e] at hr
    rcases hr with ⟨j, hj, eb⟩ | ⟨hh, eb⟩
    · rw [eb]
      exact h1 _ hk j hj
    · rw [eb]
      exact h2 _ hk hh
  · intro k j1 j2 ht hj1 hj2 he
    obtain ⟨e, hk⟩ := in_table_nat s k ht
    rw [e] at hj1 hj2 he
    exact (h3 _ hk j1 hj1 _ hk j2 hj2 he).2
  · intro k j ht hh hj
    obtain ⟨e, hk⟩ := in_table_nat s k ht
    rw [e] at hh hj ⊢
    exact h4 _ hk hh _ hk j hj
  · intro k1 k2 b ht1 ht2 hr1 hr2
    obtain ⟨e1, hk1⟩ := in_table_nat s k1 ht1
    obtain ⟨e2, hk2⟩ := in_table_nat s k2 ht2
    rw [e1] at hr1
    rw [e2] at hr2
    rw [e1, e2]
    rcases hr1 with ⟨j1, hj1, eb1⟩ | ⟨hh1, eb1⟩
    · rcases hr2 with ⟨j2, hj2, eb2⟩ | ⟨hh2, eb2⟩
      · rw [(h3 _ hk1 j1 hj1 _ hk2 j2 hj2 (by rw [← eb1, ← eb2])).1]
      · exact absurd (by rw [← eb1, ← eb2]) (h4 _ hk2 hh2 _ hk1 j1 hj1)
    · rcases hr2 with ⟨j2, hj2, eb2⟩ | ⟨hh2, eb2⟩
      · exact absurd (by rw [← eb1, ← eb2]) (h4 _ hk1 hh1 _ hk2 j2 hj2)
      · rw [h5 _ hk1 hh1 _ hk2 hh2 (by rw [← eb1, ← eb2])]

theorem engine_inv_of_bounded (d0 : Nat) (s : fs_ctx)
    (h1 : 0 < s.sb.sb_num_inodes) (h2 : s.sb.sb_num_blocks + 1030 < 4294967296)
    (h3 : s.sb.sb_free_blocks = zero_bits s.dbmap s.sb.sb_num_blocks)
    (h4 : ∀ b, b < d0 → s.dbmap b = true)
    (h5 : ∀ k : Nat, k < s.sb.sb_num_inodes →
      blocks_ok (s.itable (k : Int)) ∧ (s.itable (k : Int)).i_blocks ≤ 1029) :
    engine_inv d0 s := by
  refine ⟨h1, h2, h3, h4, ?_⟩
  intro k ht
  obtain ⟨e, hk⟩ := in_table_nat s k ht
  rw [e]
  exact h5 _ hk

theorem root_slot_eq (s : fs_ctx) (i j : Nat) :
    root_slot s i j = dentry_addr (file_blk s 0 i) j := rfl

/-- In a directory that satisfies `dir_inv`, no free slot with the name
`c :: cs` comes before a slot in use with that name (`c` is a character, not
NUL). -/
theorem dir_ordered_of_dir_inv (s : fs_ctx) (c : Nat) (cs : List Nat) (hc : c ≠ 0)
    (h : dir_inv s) : dir_ordered s (c :: cs) := by
  refine ⟨?_, h.small⟩
  intro i j i2 j2 hi hj hfree hm hb hlive
  obtain ⟨hi2, hj2, hused, _⟩ := hlive
  apply hused
  rw [root_slot_eq] at hfree hm ⊢
  apply h.stale i j i2 j2 hi hj hi2 hj2 hb hfree
  unfold strcmp_eq at hm
  simp only [Bool.and_eq_true, beq_iff_eq] at hm
  rw [hm.1]
  exact hc

/-- The frame rule of `dir_inv`: the root keeps its block count and the
mapping of its logical blocks, and every slot keeps its inode number and the
first byte of its name. -/
theorem dir_inv_frame (s st : fs_ctx)
    (hn : (st.itable 0).i_blocks = (s.itable 0).i_blocks)
    (hmap : ∀ i, i < (s.itable 0).i_blocks → file_blk st 0 i = file_blk s 0 i)
    (himg : ∀ i j y, i < (s.itable 0).i_blocks → j < dentry_per_blk → y < 5 →
      st.image (dentry_addr (file_blk s 0 i) j + y) = s.image (dentry_addr (file_blk s 0 i) j + y))
    (h : dir_inv s) : dir_inv st := by
  have hino : ∀ i j, i < (s.itable 0).i_blocks → j < dentry_per_blk →
      read32 st.image (dentry_addr (file_blk s 0 i) j)
        = read32 s.image (dentry_addr (file_blk s 0 i) j) := by
    intro i j hi hj
    apply read32_congr
    intro x hx1 hx2
    have := himg i j (x - dentry_addr (file_blk s 0 i) j) hi hj (by omega)
    rw [show dentry_addr (file_blk s 0 i) j + (x - dentry_addr (file_blk s 0 i) j) = x by omega]
      at this
    exact this
  constructor
  · intro i j i2 j2 hi hj hi2 hj2 hb hfree hnamed
    rw [hn] at hi hi2
    rw [hmap i hi, hino i j hi hj] at hfree
    rw [hmap i hi, himg i j 4 hi hj (by omega)] at hnamed
    rw [hmap i2 hi2, hino i2 j2 hi2 hj2]
    exact h.stale i j i2 j2 hi hj hi2 hj2 hb hfree hnamed
  · intro i j hi hj hused
    rw [hn] at hi
    rw [hmap i hi, hino i j hi hj] at hused ⊢
    exact h.small i j hi hj hused

/-- An operation that changes no byte of a block of the root directory and
leaves the root's pointers and block count as they are keeps `dir_inv`. -/
theorem dir_inv_outside (s st : fs_ctx)
    (hmax : (s.itable 0).i_blocks ≤ 1029)
    (hn : (st.itable 0).i_blocks = (s.itable 0).i_blocks)
    (hd : (st.itable 0).i_direct = (s.itable 0).i_direct)
    (hi : (st.itable 0).i_indirect = (s.itable 0).i_indirect)
    (himg : ∀ x, refs s 0 (x / VSFS_BLOCK_SIZE) → st.image x = s.image x)
    (h : dir_inv s) : dir_inv st := by
  apply dir_inv_frame s st hn _ _ h
  · apply file_blk_keep s st 0 hd hi _ hmax
    intro h5 x hx
    apply himg
    rw [hx]
    exact refs_ind s 0 h5
  · intro i j y hi2 hj hy
    apply himg
    have : (dentry_addr (file_blk s 0 i) j + y) / VSFS_BLOCK_SIZE = file_blk s 0 i := by
      unfold dentry_addr blk_addr
      simp only [DENTRY_SIZE, VSFS_NAME_MAX, VSFS_BLOCK_SIZE, dentry_per_blk] at *
      omega
    rw [this]
    exact refs_data s 0 i hi2

/-- Two slots of the root directory share no byte. -/
theorem slots_disjoint (d0 : Nat) (s : fs_ctx) (hown : owns d0 s) (ht0 : in_table s 0)
    (i j i2 j2 : Nat) (hi : i < (s.itable 0).i_blocks) (hj : j < dentry_per_blk)
    (hi2 : i2 < (s.itable 0).i_blocks) (hj2 : j2 < dentry_per_blk)
    (hne : ¬ (i = i2 ∧ j = j2)) :
    dentry_addr (file_blk s 0 i) j + DENTRY_SIZE ≤ dentry_addr (file_blk s 0 i2) j2
    ∨ dentry_addr (file_blk s 0 i2) j2 + DENTRY_SIZE ≤ dentry_addr (file_blk s 0 i) j := by
  by_cases hii : i = i2
  · subst hii
    have hjj : j ≠ j2 := fun e => hne ⟨rfl, e⟩
    unfold dentry_addr
    simp only [DENTRY_SIZE, VSFS_NAME_MAX, dentry_per_blk, VSFS_BLOCK_SIZE] at *
    omega
  · have hb : file_blk s 0 i ≠ file_blk s 0 i2 := fun e => hii (hown.o_inj 0 i i2 ht0 hi hi2 e)
    unfold dentry_addr blk_addr
    simp only [DENTRY_SIZE, VSFS_NAME_MAX, dentry_per_blk, VSFS_BLOCK_SIZE] at *
    omega

/-- What `vsfs_truncate` on a path that resolves to inode `k` leaves as it
was: the other inodes, and every byte of a block in use that `k` does not
reference. -/
theorem vsfs_truncate_frame (d0 u now : Nat) (s : fs_ctx) (path : List Nat) (size : Nat)
    (hown : owns d0 s) (hinv : engine_inv d0 s)
    (hres : (path_lookup s path).1 < (s.sb.sb_num_inodes : Int)) :
    (∀ k2 : Int, k2 ≠ (path_lookup s path).1 →
      (vsfs_truncate u now s path size).2.itable k2 = s.itable k2)
    ∧ (∀ x, s.dbmap (x / VSFS_BLOCK_SIZE) = true →
        ¬ refs s (path_lookup s path).1 (x / VSFS_BLOCK_SIZE) →
        (vsfs_truncate u now s path size).2.image x = s.image x) := by
  by_cases hneg : (path_lookup s path).1 < 0
  · have e : vsfs_truncate u now s path size = (-ENOENT, s) := by
      unfold vsfs_truncate
      dsimp only
      rw [if_pos hneg]
    rw [e]
    exact ⟨fun _ _ => rfl, fun _ _ _ => rfl⟩
  have hk0 : 0 ≤ (path_lookup s path).1 := by omega
  generalize hk : (path_lookup s path).1 = k at *
  have htk : in_table s k := ⟨hk0, hres⟩
  obtain ⟨hbok, hkmax⟩ := hinv.e_blocks k htk
  by_cases heq : (s.itable k).i_size = size
  · rw [vsfs_truncate_same u now s path size k hk hk0 heq]
    exact ⟨fun _ _ => rfl, fun _ _ _ => rfl⟩
  by_cases hbig : size > MAX_FILE_SIZE
  · have e : vsfs_truncate u now s path size = (-EFBIG, s) := by
      unfold vsfs_truncate
      dsimp only
      rw [hk, if_neg hneg, if_neg heq, if_pos hbig]
    rw [e]
    exact ⟨fun _ _ => rfl, fun _ _ _ => rfl⟩
  have hnmax : div_round_up size VSFS_BLOCK_SIZE ≤ 1029 := div_round_up_le size (by omega)
  have hfz := zero_bits_le s.dbmap s.sb.sb_num_blocks
  have hf := hinv.e_free
  have hnb := hinv.e_nb
  by_cases hlt : size < (s.itable k).i_size
  · rw [vsfs_truncate_shrinks u now s path size k hk hk0 hbok hkmax hlt]
    have hsep : 5 < (s.itable k).i_blocks →
        ∀ j, j < (s.itable k).i_blocks → file_blk s k j ≠ (s.itable k).i_indirect :=
      fun h5 j hj => hown.o_sep k j htk h5 hj
    have hle : div_round_up size VSFS_BLOCK_SIZE ≤ (s.itable k).i_blocks := by
      have := hbok
      unfold blocks_ok at this
      rw [this]
      unfold div_round_up
      simp only [VSFS_BLOCK_SIZE]
      omega
    have hp := shrinking_file_spec now s size k hbok hkmax hlt hsep (by omega)
    refine ⟨hp.q_it, ?_⟩
    intro x _ hnr
    apply hp.q_img x
    · intro i _ hi e
      exact hnr (by rw [e]; exact refs_data s k i hi)
    · intro h5 e
      exact hnr (by rw [e]; exact refs_ind s k h5)
    · intro hpos e
      exact absurd (by rw [e]; exact refs_data s k _ (by omega)) hnr
  · have hgrow : (s.itable k).i_size < size := by omega
    rw [vsfs_truncate_extends u now s path size k hk hk0 hgrow hnmax]
    have hle : (s.itable k).i_blocks ≤ div_round_up size VSFS_BLOCK_SIZE := by
      have := hbok
      unfold blocks_ok at this
      rw [this]
      unfold div_round_up
      simp only [VSFS_BLOCK_SIZE]
      omega
    by_cases hfree : (div_round_up size VSFS_BLOCK_SIZE - (s.itable k).i_blocks)
          + (if (s.itable k).i_blocks ≤ 5 ∧ 5 < div_round_up size VSFS_BLOCK_SIZE then 1 else 0)
        ≤ s.sb.sb_free_blocks
    · have hp := extending_file_spec u now s size k (file_wf_of_owns d0 s k hown hinv htk) hgrow
        hnmax hfree
      refine ⟨hp.g_it, ?_⟩
      intro x hset hnr
      apply hp.g_img x hset
      · intro hpos e
        exact absurd (by rw [e]; exact refs_data s k _ (by omega)) hnr
      · intro h5 e
        exact hnr (by rw [e]; exact refs_ind s k h5)
    · rw [extending_file_enospc u now s size k hle hnmax (by omega)]
      exact ⟨fun _ _ => rfl, fun _ _ _ => rfl⟩

theorem vsfs_truncate_dir (d0 u now : Nat) (s : fs_ctx) (path : List Nat) (size : Nat)
    (hown : owns d0 s) (hinv : engine_inv d0 s)
    (hres : (path_lookup s path).1 < (s.sb.sb_num_inodes : Int))
    (hk : (path_lookup s path).1 ≠ 0) (h : dir_inv s) :
    dir_inv (vsfs_truncate u now s path size).2 := by
  by_cases hneg : (path_lookup s path).1 < 0
  · have e : vsfs_truncate u now s path size = (-ENOENT, s) := by
      unfold vsfs_truncate
      dsimp only
      rw [if_pos hneg]
    rw [e]
    exact h
  obtain ⟨f1, f2⟩ := vsfs_truncate_frame d0 u now s path size hown hinv hres
  have ht0 := root_in_table d0 s hinv
  have e0 := f1 0 (Ne.symm hk)
  apply dir_inv_outside s _ (hinv.e_blocks 0 ht0).2 (by rw [e0]) (by rw [e0]) (by rw [e0]) _ h
  intro x hr
  apply f2 x (hown.o_set 0 _ ht0 hr).2.2
  intro hr2
  exact hk (hown.o_disj _ 0 _ ⟨by omega, hres⟩ ht0 hr2 hr)

theorem vsfs_write_dir (d0 u now : Nat) (s : fs_ctx) (path buf : List Nat) (offset : Nat)
    (hown : owns d0 s) (hinv : engine_inv d0 s)
    (hres : (path_lookup s path).1 < (s.sb.sb_num_inodes : Int))
    (hk : 0 < (path_lookup s path).1)
    (hone : offset % VSFS_BLOCK_SIZE + buf.length ≤ VSFS_BLOCK_SIZE) (h : dir_inv s) :
    dir_inv (vsfs_write u now s path buf offset).2 := by
  have htk : in_table s (path_lookup s path).1 := ⟨by omega, hres⟩
  have ht0 := root_in_table d0 s hinv
  obtain ⟨t1, t2, t3⟩ := vsfs_truncate_owns d0 u now s path (buf.length + offset) hown hinv hres
  have tni := vsfs_truncate_ni u now s path (buf.length + offset)
  have tok := vsfs_truncate_blocks_ok u now s path (buf.length + offset) (path_lookup s path).1
    (hinv.e_blocks _ htk).1
  have td := vsfs_truncate_dir d0 u now s path (buf.length + offset) hown hinv hres (by omega) h
  -- the store into a block of the file, in a context `t` that satisfies the invariants
  have hstore : ∀ t : fs_ctx, owns d0 t → in_table t 0 → in_table t (path_lookup s path).1 →
      (t.itable 0).i_blocks ≤ 1029 → dir_inv t →
      (buf.length = 0 ∨ offset / VSFS_BLOCK_SIZE < (t.itable (path_lookup s path).1).i_blocks) →
      dir_inv (write_data now t (path_lookup s path).1 buf offset) := by
    intro t hot h0 htk2 hm ht hin
    have hroot : (write_data now t (path_lookup s path).1 buf offset).itable 0 = t.itable 0 := by
      unfold write_data
      dsimp only
      rw [upd_other _ _ _ _ (by omega)]
    apply dir_inv_outside t _ hm (by rw [hroot]) (by rw [hroot]) (by rw [hroot]) _ ht
    intro x hr
    rw [write_data_image]
    apply memcpy_to_other
    by_contra hcon
    rcases hin with h0 | hin
    · omega
    · have hx : x / VSFS_BLOCK_SIZE = file_blk t (path_lookup s path).1 (offset / VSFS_BLOCK_SIZE) := by
        have h1 := Nat.div_add_mod x VSFS_BLOCK_SIZE
        unfold blk_addr at hcon
        simp only [VSFS_BLOCK_SIZE] at *
        omega
      rw [hx] at hr
      have := hot.o_disj _ 0 _ htk2 h0 (refs_data t _ _ hin) hr
      omega
  have hin0 : in_table (vsfs_truncate u now s path (buf.length + offset)).2 0 := by
    unfold in_table at *
    rw [tni]
    exact ht0
  have hink : in_table (vsfs_truncate u now s path (buf.length + offset)).2
      (path_lookup s path).1 := by
    unfold in_table at *
    rw [tni]
    exact htk
  rw [vsfs_write_eq]
  by_cases hg : buf.length + offset > (s.itable (path_lookup s path).1).i_size
  · rw [if_pos hg]
    by_cases hr : (vsfs_truncate u now s path (buf.length + offset)).1 < 0
    · rw [if_pos hr]
      exact td
    · rw [if_neg hr]
      dsimp only
      apply hstore _ t1 hin0 hink (t2 0 ht0) td
      have hsz := t3 (by omega) (by omega)
      unfold blocks_ok at tok
      rw [tok, hsz]
      unfold div_round_up
      simp only [VSFS_BLOCK_SIZE]
      omega
  · rw [if_neg hg]
    dsimp only
    rw [if_neg (by decide)]
    apply hstore s hown ht0 htk (hinv.e_blocks 0 ht0).2 h
    have hb := (hinv.e_blocks _ htk).1
    unfold blocks_ok at hb
    rw [hb]
    unfold div_round_up
    simp only [VSFS_BLOCK_SIZE]
    omega

theorem vsfs_unlink_dir (d0 u now : Nat) (s : fs_ctx) (path : List Nat)
    (hown : owns d0 s) (hinv : engine_inv d0 s)
    (hroot : path ≠ [47]) (h : dir_inv s) :
    dir_inv (vsfs_unlink u now s path).2 := by
  by_cases hneg : (path_lookup s path).1 < 0
  · have e : vsfs_unlink u now s path = (-ENOENT, s) := by
      unfold vsfs_unlink
      dsimp only
      rw [if_pos hneg]
    rw [e]
    exact h
  have hk0 : 0 ≤ (path_lookup s path).1 := by omega
  cases hd : (path_lookup s path).2 with
  | none =>
    have := path_lookup_none s path hroot hd
    rw [this] at hk0
    exact absurd hk0 (by decide)
  | some d =>
    generalize hk : (path_lookup s path).1 = k at *
    have hl : path_lookup s path = (k, some d) := by
      rw [← hk, ← hd]
    have ht0 := root_in_table d0 s hinv
    obtain ⟨i0, j0, hi0, hj0, hdj, _, _⟩ := path_lookup_some s path k d hl
    obtain ⟨_, uimg, uit, _, _, _⟩ := vsfs_unlink_state u now s path k d hl hk0
    have hi00 : i0 < (s.itable 0).i_blocks := hi0
    have hdj0 : d = dentry_addr (file_blk s 0 i0) j0 := hdj
    by_cases hkz : k = 0
    · -- the entry names inode 0: the root's slot is cleared and holds no block
      have hzero : ((vsfs_unlink u now s path).2.itable 0).i_blocks = 0 := by
        rw [uit, upd_same]
        dsimp only
        rw [hkz, upd_same]
        rfl
      constructor
      · intro i _ _ _ hi
        rw [hzero] at hi
        omega
      · intro i _ hi
        rw [hzero] at hi
        omega
    · have hr0 : ((vsfs_unlink u now s path).2.itable 0).i_blocks = (s.itable 0).i_blocks
          ∧ ((vsfs_unlink u now s path).2.itable 0).i_direct = (s.itable 0).i_direct
          ∧ ((vsfs_unlink u now s path).2.itable 0).i_indirect = (s.itable 0).i_indirect := by
        rw [uit, upd_same]
        dsimp only
        rw [upd_other _ _ _ _ (Ne.symm hkz)]
        exact ⟨rfl, rfl, rfl⟩
      have hmap : ∀ i, i < (s.itable 0).i_blocks →
          file_blk (vsfs_unlink u now s path).2 0 i = file_blk s 0 i := by
        intro i hi
        unfold file_blk
        rw [uimg, blk_of_congr_inode _ _ _ hr0.2.1 hr0.2.2 i]
        apply unlink_image_blk_of s 0 d j0 (file_blk s 0 i0) i hdj hj0
          (by have := (hinv.e_blocks 0 ht0).2; omega)
        intro h5
        exact owns_ind_ne_data d0 s hown 0 0 i0 ht0 ht0 hi00 (by omega)
      -- a slot other than the one cleared keeps its first five bytes
      have hkeep : ∀ i j y, i < (s.itable 0).i_blocks → j < dentry_per_blk → y < 5 →
          ¬ (i = i0 ∧ j = j0) →
          (vsfs_unlink u now s path).2.image (dentry_addr (file_blk s 0 i) j + y)
            = s.image (dentry_addr (file_blk s 0 i) j + y) := by
        intro i j y hi hj hy hne
        have hdis := slots_disjoint d0 s hown ht0 i j i0 j0 hi hj hi00 hj0 hne
        rw [← hdj0] at hdis
        rw [uimg, memset_other _ _ _ _ _ (by
          simp only [DENTRY_SIZE, VSFS_NAME_MAX] at *
          omega), write32_other _ _ _ _ (by
          simp only [DENTRY_SIZE, VSFS_NAME_MAX] at *
          omega)]
      have hino : ∀ i j, i < (s.itable 0).i_blocks → j < dentry_per_blk → ¬ (i = i0 ∧ j = j0) →
          read32 (vsfs_unlink u now s path).2.image (dentry_addr (file_blk s 0 i) j)
            = read32 s.image (dentry_addr (file_blk s 0 i) j) := by
        intro i j hi hj hne
        apply read32_congr
        intro x hx1 hx2
        have := hkeep i j (x - dentry_addr (file_blk s 0 i) j) hi hj (by omega) hne
        rw [show dentry_addr (file_blk s 0 i) j + (x - dentry_addr (file_blk s 0 i) j) = x
          by omega] at this
        exact this
      -- the slot cleared is free and has an empty name
      have hfree0 : read32 (vsfs_unlink u now s path).2.image (dentry_addr (file_blk s 0 i0) j0)
          = VSFS_INO_MAX := by
        rw [← hdj0, uimg, read32_congr (write32 s.image d VSFS_INO_MAX) _ d (fun x _ hx2 =>
          memset_other _ _ _ _ _ (by omega)), read32_write32_same]
        decide
      have hname0 : (vsfs_unlink u now s path).2.image (dentry_addr (file_blk s 0 i0) j0 + 4)
          = 0 := by
        rw [← hdj0, uimg]
        exact memset_inside _ _ _ _ _ (by omega) (by simp only [VSFS_NAME_MAX]; omega)
      constructor
      · intro i j i2 j2 hi hj hi2 hj2 hb hfree hnamed
        rw [hr0.1] at hi hi2
        rw [hmap i hi] at hfree hnamed
        rw [hmap i2 hi2]
        by_cases hp : i = i0 ∧ j = j0
        · rw [hp.1, hp.2, hname0] at hnamed
          exact absurd rfl hnamed
        · rw [hino i j hi hj hp] at hfree
          rw [hkeep i j 4 hi hj (by omega) hp] at hnamed
          have hq := h.stale i j i2 j2 hi hj hi2 hj2 hb hfree hnamed
          by_cases hq0 : i2 = i0 ∧ j2 = j0
          · rw [hq0.1, hq0.2]
            exact hfree0
          · rw [hino i2 j2 hi2 hj2 hq0]
            exact hq
      · intro i j hi hj hused
        rw [hr0.1] at hi
        rw [hmap i hi] at hused ⊢
        by_cases hp : i = i0 ∧ j = j0
        · rw [hp.1, hp.2] at hused
          exact absurd hfree0 hused
        · rw [hino i j hi hj hp] at hused ⊢
          exact h.small i j hi hj hused

/-- A directory without a free slot that gets one more block, whose slot 0 is
in use and whose other slots are free, satisfies `dir_inv`. -/
theorem dir_inv_new_block (d0 : Nat) (s st : fs_ctx) (p v : Nat)
    (hown : owns d0 s) (ht0 : in_table s 0) (g : root_grown s st p v)
    (hfull : ∀ i j, i < (s.itable 0).i_blocks → j < dentry_per_blk →
      read32 s.image (dentry_addr (file_blk s 0 i) j) ≠ VSFS_INO_MAX)
    (hv : v ≠ VSFS_INO_MAX) (hv2 : v < 2147483648) (h : dir_inv s) : dir_inv st := by
  have hold : ∀ i j, i < (s.itable 0).i_blocks → j < dentry_per_blk →
      read32 st.image (dentry_addr (file_blk st 0 i) j)
        = read32 s.image (dentry_addr (file_blk s 0 i) j) := by
    intro i j hi hj
    rw [g.r_old i hi]
    apply read32_congr
    intro x hx1 hx2
    have hx : x / VSFS_BLOCK_SIZE = file_blk s 0 i :=
      slot_in_block _ j x hj hx1 (by simp only [DENTRY_SIZE, VSFS_NAME_MAX]; omega)
    apply g.r_img x
    · rw [hx]
      exact (hown.o_set 0 _ ht0 (refs_data s 0 i hi)).2.2
    · intro h5
      rw [hx]
      exact hown.o_sep 0 i ht0 h5 hi
  constructor
  · intro i j i2 j2 hi hj hi2 hj2 hb hfree _
    rw [g.r_n] at hi hi2
    by_cases hio : i < (s.itable 0).i_blocks
    · rw [hold i j hio hj] at hfree
      exact absurd hfree (hfull i j hio hj)
    · have hin : i = (s.itable 0).i_blocks := by omega
      have hj1 : 1 ≤ j := by
        by_contra hcon
        have hj0 : j = 0 := by omega
        rw [hin, hj0, g.r_new, g.r_e0] at hfree
        exact hv hfree
      have hi2n : i2 = (s.itable 0).i_blocks := by
        unfold slot_before at hb
        omega
      rw [hi2n, g.r_new]
      apply g.r_rest j2 _ hj2
      unfold slot_before at hb
      omega
  · intro i j hi hj hused
    rw [g.r_n] at hi
    by_cases hio : i < (s.itable 0).i_blocks
    · rw [hold i j hio hj] at hused ⊢
      exact h.small i j hio hj hused
    · have hin : i = (s.itable 0).i_blocks := by omega
      rw [hin, g.r_new] at hused ⊢
      by_cases hj0 : j = 0
      · rw [hj0, g.r_e0]
        exact hv2
      · exact absurd (g.r_rest j (by omega) hj) hused

theorem create_dentry_dir (d0 u : Nat) (s : fs_ctx) (inode_idx : Nat) (path : List Nat)
    (hown : owns d0 s) (ht0 : in_table s 0)
    (hmax : (s.itable 0).i_blocks ≤ 1029)
    (hnb32 : s.sb.sb_num_blocks < 4294967296)
    (hfree : s.sb.sb_free_blocks = zero_bits s.dbmap s.sb.sb_num_blocks)
    (hpos : 0 < s.sb.sb_free_blocks)
    (hv : inode_idx % 4294967296 ≠ VSFS_INO_MAX) (hv2 : inode_idx % 4294967296 < 2147483648)
    (h : dir_inv s) :
    dir_inv (create_dentry_for_newfile u s inode_idx path).2 := by
  cases hf : (List.range (s.itable 0).i_blocks).findSome?
      (fun i => free_slot_in_block s.image (blk_of s.image (s.itable 0) i)) with
  | some d =>
    obtain ⟨e, i0, j0, hi0, hj0, hdj, hfirst⟩ := create_dentry_reuses u s inode_idx path d hf
    rw [e]
    have hmap : ∀ i, i < (s.itable 0).i_blocks →
        file_blk { s with image := fill_dentry s.image d inode_idx path } 0 i = file_blk s 0 i := by
      refine file_blk_keep s { s with image := fill_dentry s.image d inode_idx path } 0
        rfl rfl ?_ hmax
      intro h5 x hx
      dsimp only
      apply fill_dentry_other
      by_contra hcon
      have hx2 : x / VSFS_BLOCK_SIZE = file_blk s 0 i0 := by
        rw [hdj] at hcon
        exact slot_in_block _ j0 x hj0 (by omega) (by omega)
      rw [hx] at hx2
      exact hown.o_sep 0 i0 ht0 h5 hi0 hx2.symm
    have hkeep : ∀ i j y, i < (s.itable 0).i_blocks → j < dentry_per_blk → y < 5 →
        ¬ (i = i0 ∧ j = j0) →
        fill_dentry s.image d inode_idx path (dentry_addr (file_blk s 0 i) j + y)
          = s.image (dentry_addr (file_blk s 0 i) j + y) := by
      intro i j y hi hj hy hne
      have hdis := slots_disjoint d0 s hown ht0 i j i0 j0 hi hj hi0 hj0 hne
      rw [← hdj] at hdis
      apply fill_dentry_other
      simp only [DENTRY_SIZE, VSFS_NAME_MAX] at *
      omega
    have hino : ∀ i j, i < (s.itable 0).i_blocks → j < dentry_per_blk → ¬ (i = i0 ∧ j = j0) →
        read32 (fill_dentry s.image d inode_idx path) (dentry_addr (file_blk s 0 i) j)
          = read32 s.image (dentry_addr (file_blk s 0 i) j) := by
      intro i j hi hj hne
      apply read32_congr
      intro x hx1 hx2
      have := hkeep i j (x - dentry_addr (file_blk s 0 i) j) hi hj (by omega) hne
      rw [show dentry_addr (file_blk s 0 i) j + (x - dentry_addr (file_blk s 0 i) j) = x
        by omega] at this
      exact this
    have hnew : read32 (fill_dentry s.image d inode_idx path) (dentry_addr (file_blk s 0 i0) j0)
        = inode_idx % 4294967296 := by
      rw [← hdj]
      exact (fill_dentry_spec _ _ _ _).1
    constructor
    · intro i j i2 j2 hi hj hi2 hj2 hb hfree hnamed
      have hi' : i < (s.itable 0).i_blocks := hi
      have hi2' : i2 < (s.itable 0).i_blocks := hi2
      rw [hmap i hi'] at hfree hnamed
      rw [hmap i2 hi2']
      dsimp only at hfree hnamed ⊢
      by_cases hp : i = i0 ∧ j = j0
      · rw [hp.1, hp.2, hnew] at hfree
        exact absurd hfree hv
      · rw [hino i j hi' hj hp] at hfree
        rw [hkeep i j 4 hi' hj (by omega) hp] at hnamed
        have hnb : ¬ slot_before i j i0 j0 := fun hb2 => hfirst i j hi' hj hb2 hfree
        have hq0 : ¬ (i2 = i0 ∧ j2 = j0) := by
          unfold slot_before at *
          omega
        rw [hino i2 j2 hi2' hj2 hq0]
        exact h.stale i j i2 j2 hi' hj hi2' hj2 hb hfree hnamed
    · intro i j hi hj hused
      have hi' : i < (s.itable 0).i_blocks := hi
      rw [hmap i hi'] at hused ⊢
      dsimp only at hused ⊢
      by_cases hp : i = i0 ∧ j = j0
      · rw [hp.1, hp.2, hnew]
        exact hv2
      · rw [hino i j hi' hj hp] at hused ⊢
        exact h.small i j hi' hj hused
  | none =>
    rcases create_dentry_grows d0 u s inode_idx path hown ht0 hnb32 hfree hpos hf with e | ⟨p, g⟩
    · rw [e]
      exact h
    · apply dir_inv_new_block d0 s _ p _ hown ht0 g _ hv hv2 h
      intro i j hi hj
      have hspec := findSome_range_spec
        (fun i => free_slot_in_block s.image (blk_of s.image (s.itable 0) i))
        (s.itable 0).i_blocks
      rw [hf] at hspec
      have := hspec i hi
      unfold free_slot_in_block at this
      simp only [Option.map_eq_none'] at this
      have h2 := find_range_none _ _ this j hj
      simpa using h2

theorem create_init_dir (now : Nat) (s : fs_ctx) (idx mode : Nat) (h : dir_inv s) :
    dir_inv (create_init now s idx mode) := by
  by_cases hk : (0 : Int) = (idx : Int)
  · have hz : ((create_init now s idx mode).itable 0).i_blocks = 0 := by
      rw [hk]
      exact create_init_new now s idx mode
    constructor
    · intro i _ _ _ hi
      rw [hz] at hi
      omega
    · intro i _ hi
      rw [hz] at hi
      omega
  · have e := create_init_other now s idx mode 0 hk
    apply dir_inv_frame s _ (by rw [e]) _ _ h
    · intro i _
      unfold file_blk
      rw [e]
      rfl
    · intro i j y _ _ _
      rfl

/-- The root directory after `vsfs_create`, for an inode search that finds a
number and a volume whose block numbers fit an `int`. -/
theorem vsfs_create_dir (d0 u now : Nat) (s : fs_ctx) (path : List Nat) (mode : Nat)
    (hown : owns d0 s) (hinv : engine_inv d0 s)
    (hsearch : ∃ b, b < s.sb.sb_num_blocks ∧ s.ibmap b = false)
    (hnb31 : s.sb.sb_num_blocks ≤ 2147483648) (h : dir_inv s) :
    dir_inv (vsfs_create u now s path mode).2 := by
  obtain ⟨b, hb1, hb2⟩ := hsearch
  obtain ⟨a1, _, _⟩ := alloc_idx_spec u s.ibmap s.sb.sb_num_blocks b hb1 hb2
  rw [vsfs_create_eq]
  by_cases hfi : s.sb.sb_free_inodes = 0
  · rw [if_pos hfi]
    exact h
  by_cases hfb : s.sb.sb_free_blocks = 0
  · rw [if_neg hfi, if_pos hfb]
    exact h
  rw [if_neg hfi, if_neg hfb]
  generalize alloc_idx u s.ibmap s.sb.sb_num_blocks = idx at *
  have hmod : idx % 4294967296 = idx := Nat.mod_eq_of_lt (by omega)
  have h2 : dir_inv (create_dentry_for_newfile u (create_init now s idx mode) idx path).2 :=
    create_dentry_dir d0 u (create_init now s idx mode) idx path
      (create_init_owns d0 now s idx mode hown) (root_in_table d0 s hinv)
      (create_init_max d0 now s idx mode hinv 0 (root_in_table d0 s hinv))
      (by have := hinv.e_nb; show s.sb.sb_num_blocks < 4294967296; omega) hinv.e_free
      (by show 0 < s.sb.sb_free_blocks; omega)
      (by rw [hmod]; simp only [VSFS_INO_MAX]; omega) (by rw [hmod]; omega)
      (create_init_dir now s idx mode h)
  split_ifs with hr
  · exact h2
  · dsimp only
    have e0 : ∀ st : fs_ctx, (upd st.itable VSFS_ROOT_INO
        { st.itable VSFS_ROOT_INO with i_mtime := now }) 0
          = { st.itable 0 with i_mtime := now } := by
      intro st
      rw [root_cast, upd_same]
    apply dir_inv_frame _ _ _ _ _ h2
    · dsimp only
      rw [e0]
    · intro i _
      unfold file_blk
      dsimp only
      rw [e0]
      exact blk_of_congr_inode _ _ _ rfl rfl i
    · intro i j y _ _ _
      rfl

/-- The state of the root directory that path resolution relies on is kept by
the four mutating operations: `dir_inv` holds after `create` when the inode
search finds a number, and after `set_size` and `write` on a file and after
`remove`. -/
theorem ops_keep_dir_inv (d0 u now : Nat) (s : fs_ctx) (path : List Nat)
    (mode size : Nat) (buf : List Nat) (offset : Nat)
    (hinv : engine_inv d0 s) (hown : owns d0 s) (h : dir_inv s) :
    ((∃ b, b < s.sb.sb_num_blocks ∧ s.ibmap b = false) → s.sb.sb_num_blocks ≤ 2147483648 →
      dir_inv (vsfs_create u now s path mode).2)
    ∧ ((path_lookup s path).1 < (s.sb.sb_num_inodes : Int) → (path_lookup s path).1 ≠ 0 →
        dir_inv (vsfs_truncate u now s path size).2)
    ∧ ((path_lookup s path).1 < (s.sb.sb_num_inodes : Int) → 0 < (path_lookup s path).1 →
        offset % VSFS_BLOCK_SIZE + buf.length ≤ VSFS_BLOCK_SIZE →
        dir_inv (vsfs_write u now s path buf offset).2)
    ∧ (path ≠ [47] → dir_inv (vsfs_unlink u now s path).2) :=
  ⟨fun hs hn => vsfs_create_dir d0 u now s path mode hown hinv hs hn h,
   fun hres hk => vsfs_truncate_dir d0 u now s path size hown hinv hres hk h,
   fun hres hk hone => vsfs_write_dir d0 u now s path buf offset hown hinv hres hk hone h,
   fun hroot => vsfs_unlink_dir d0 u now s path hown hinv hroot h⟩

/-- The empty root directory satisfies `dir_inv`. -/
theorem dir_inv_empty (s : fs_ctx) (h : (s.itable 0).i_blocks = 0) : dir_inv s := by
  constructor
  · intro i _ _ _ hi
    rw [h] at hi
    omega
  · intro i _ hi
    rw [h] at hi
    omega

/-- A root directory without a free slot satisfies `dir_inv` when its inode
numbers are below `2^31`. -/
theorem dir_inv_of_full (s : fs_ctx)
    (h : ∀ i, i < (s.itable 0).i_blocks → ∀ j, j < dentry_per_blk →
      read32 s.image (dentry_addr (file_blk s 0 i) j) < 2147483648) : dir_inv s := by
  constructor
  · intro i j _ _ hi hj _ _ _ hfree _
    have := h i hi j hj
    rw [hfree] at this
    exact absurd this (by decide)
  · intro i j hi hj _
    exact h i hi j hj

theorem img_full6_engine : engine_inv 4 img_full6 :=
  engine_inv_of_bounded 4 img_full6 (by decide) (by decide) (by decide) (by decide) (by decide)

theorem img_full6_owns : owns 4 img_full6 :=
  owns_of_bounded 4 img_full6 (by decide) (by decide) (by decide) (by decide) (by decide)

theorem img_full6_dir : dir_inv img_full6 := dir_inv_of_full img_full6 (by decide)

/-- The state `img_full6_y`, in which a free slot carries the stale name `x`,
is reached by `vsfs_create` from `img_full6` and satisfies `dir_inv`. -/
theorem img_full6_y_dir : dir_inv img_full6_y :=
  (ops_keep_dir_inv 4 0 1 img_full6 path_y 33188 0 [] 0
    img_full6_engine img_full6_owns img_full6_dir).1 ⟨81, by decide, by decide⟩ (by decide)

/-- Every name whose first byte is not NUL meets the directory of
`img_full6_y` in the state that path resolution relies on. -/
theorem img_full6_y_ordered (c : Nat) (cs : List Nat) (hc : c ≠ 0) :
    dir_ordered img_full6_y (c :: cs) :=
  dir_ordered_of_dir_inv img_full6_y c cs hc img_full6_y_dir

end Vsfs
